import Mathlib

/-!
# pt-flame: the trace replay engine (replay.hpp / replay.cpp / reader.hpp)

A shallow embedding of the per-thread call-history state machine and of the
replay coordinator.

Representation.  The source keeps a pointer tree of `Func` nodes with `caller`
back links, and a `History` holds two pointers into it, `root` and `current`.
Here a `Func` is a value tree (a node owns its `callee` list) and a `History`
is a zipper over that tree: `current` is the subtree of the frame being
executed and `chain` lists the callers of `current`, nearest first, each one
with its remaining children and the position of the child that leads down to
`current`.  `root` is the last frame of `chain` (or `current` when `chain` is
empty), and a `Func*` on the caller chain is its depth counted from `current`.

Machine integers (`Time`, `size_t`, `uint64_t`) are naturals; every operation
of the source that can wrap is written with an explicit `% 2^64`.

The FTF sink is off unless the driver is given `-P` (`perfetto == nullptr`);
its `emit_function` calls do not touch the tree and are not part of the state
of a `History`.  What `Func::ret` hands to the sink is `Func.ret_emit`.
-/

namespace PtFlame

/-! ## reader.hpp: Time, Symbol, Action -/

/-- The modulus of the 64-bit unsigned types (`Time`, `size_t`, `uint64_t`). -/
def U64 : Nat := 18446744073709551616

/-- The constant `UINT64_MAX`. -/
def UINT64_MAX : Nat := 18446744073709551615

/-- Unsigned 64-bit addition. -/
def uadd (a b : Nat) : Nat := (a + b) % U64

/-- Unsigned 64-bit subtraction of two 64-bit values. -/
def usub (a b : Nat) : Nat := (a + U64 - b) % U64

/-- The struct `Symbol` (reader.hpp:21). -/
structure Symbol where
  name : String
  address : Nat
  offset : Nat
deriving DecidableEq, Repr

/-- The method `Symbol::base`: `address ? address - offset : 0`. -/
def Symbol.base (s : Symbol) : Nat :=
  if s.address ≠ 0 then usub s.address s.offset else 0

/-- The operator `Symbol::operator==`: equality of the addresses. -/
def Symbol.eq (s that : Symbol) : Bool := decide (s.address = that.address)

/-- The operator `Symbol::operator!=`. -/
def Symbol.ne (s that : Symbol) : Bool := !(s.eq that)

/-- The method `Symbol::is_unknown`. -/
def Symbol.is_unknown (s : Symbol) : Bool := decide (s.name = "[unknown]")

/-- The enum `Action::Inst` (reader.hpp:34). -/
inductive Inst where
  | CALL | RET | JMP | JCC | TR_START | TR_END | TR_END_SYSCALL
  | SYSCALL | SYSRET | INT | IRET
  | END
deriving DecidableEq, Repr

/-- The struct `Action` (reader.hpp:33); `from` and `to` are `from_` and `to_`. -/
structure Action where
  inst : Inst
  from_ : Symbol
  to_ : Symbol
  ts : Nat
  tid : Nat
  cpu : Nat
deriving DecidableEq, Repr

/-! ## replay.hpp: Statistics and Func -/

/-- The struct `Func::Statistics` (replay.hpp:31). -/
structure Statistics where
  sum_inferred : Nat
  sum : Nat
  invoked : Nat
  inferred : Nat
deriving DecidableEq, Repr

/-- The default member initialisers of `Statistics`. -/
def Statistics.zero : Statistics := ⟨0, 0, 0, 0⟩

/-- The method `Statistics::add_sample` (replay.hpp:42). -/
def Statistics.add_sample (s : Statistics) (t : Nat) (inferred_sample : Bool) : Statistics :=
  let s1 := { s with invoked := uadd s.invoked 1, sum_inferred := uadd s.sum_inferred t }
  if !inferred_sample then { s1 with sum := uadd s1.sum t }
  else { s1 with inferred := uadd s1.inferred 1 }

/-- The method `Statistics::merge_stat` (replay.hpp:50). -/
def Statistics.merge_stat (s : Statistics) (o : Statistics) : Statistics :=
  { sum_inferred := uadd s.sum_inferred o.sum_inferred
    sum := uadd s.sum o.sum
    invoked := uadd s.invoked o.invoked
    inferred := uadd s.inferred o.inferred }

/-- The method `Statistics::n` (replay.hpp:36), a `size_t` difference. -/
def Statistics.n (s : Statistics) : Nat := usub s.invoked s.inferred

/-- The struct `Func` (replay.hpp:17).  The `caller` pointer is not a field: it
is given by the place of the node in its tree (see `Frame`). -/
structure Func where
  sym : Symbol
  callee : List Func
  call_address : Nat
  tid : Nat
  first_start : Nat
  start : Nat
  end_ : Nat
  start_is_inferred : Bool
  end_is_inferred : Bool
  stats : Statistics

/-- The constructor `Func(Symbol s, Func *c, Time t, size_t tid)` (replay.hpp:67).
The constructor leaves `call_address` uninitialised; it is taken as 0, the
value `Func::ret` writes for "no call in progress". -/
def Func.new (s : Symbol) (t : Nat) (tid : Nat) : Func :=
  { sym := s, callee := [], call_address := 0, tid := tid, first_start := t, start := t,
    end_ := 0, start_is_inferred := false, end_is_inferred := false, stats := Statistics.zero }

/-- The predicate `Func::name_match` (replay.hpp:89). -/
def Func.name_match (f : Func) (s : Symbol) : Bool := decide (f.sym.name = s.name)

/-- The predicate `Func::base_match` (replay.hpp:96). -/
def Func.base_match (f : Func) (s : Symbol) : Bool := decide (f.sym.base = s.base)

/-- The predicate `Func::ret_addr_match` (replay.hpp:97):
`call_address && call_address <= s.address && call_address + 10 > s.address`,
the sum being a `size_t`. -/
def Func.ret_addr_match (f : Func) (s : Symbol) : Bool :=
  decide (f.call_address ≠ 0) && decide (f.call_address ≤ s.address) &&
    decide (uadd f.call_address 10 > s.address)

/-- The first element of `l` satisfying `p`, with its index (counted from `i`). -/
def firstMatch (p : Func → Bool) : List Func → Nat → Option (Nat × Func)
  | [], _ => none
  | f :: fs, i => if p f then some (i, f) else firstMatch p fs (i + 1)

/-- The method `Func::find_callee` (replay.cpp:115): the first child with the
same base, else the first child with the same name; the child comes with its
index in `callee`. -/
def Func.find_callee (f : Func) (s : Symbol) : Option (Nat × Func) :=
  match firstMatch (fun c => decide (c.sym.base = s.base)) f.callee 0 with
  | some r => some r
  | none => firstMatch (fun c => c.name_match s) f.callee 0

/-- The method `Func::last_time` (replay.cpp:121). -/
def Func.last_time (f : Func) : Nat :=
  f.callee.foldl (fun t c => max t c.end_) f.start

/-- The method `Func::ret` (replay.cpp:64), the part that writes the node
itself: the sample, `end` and `start`.  The write to `caller->call_address` and
the returned `caller` are in `History.pop`. -/
def Func.ret (f : Func) (ts : Nat) : Func :=
  { f with
    stats :=
      if f.start > ts then f.stats.add_sample 0 true
      else f.stats.add_sample (ts - f.start) (f.start_is_inferred || f.end_is_inferred)
    end_ := ts
    start := UINT64_MAX }

/-- A node on the caller chain: `node` is the caller with the child that is
being executed taken out of `node.callee`, and `pos` is the index that child
has in the caller's `callee` vector. -/
structure Frame where
  node : Func
  pos : Nat

/-- The caller with its child `c` put back at its place. -/
def Frame.plug (fr : Frame) (c : Func) : Func :=
  { fr.node with callee := fr.node.callee.take fr.pos ++ c :: fr.node.callee.drop fr.pos }

/-- The method `Func::call` (replay.cpp:47) on a node all of whose children are
in place: the result is the caller as a `Frame` and the child that is entered. -/
def Func.call (f : Func) (from_ s : Symbol) (ts : Nat) : Frame × Func :=
  let f1 := { f with call_address := from_.address }
  match f1.find_callee s with
  | some (i, c) =>
    ({ node := { f1 with callee := f1.callee.take i ++ f1.callee.drop (i + 1) }, pos := i },
     { c with start := ts, end_ := 0, start_is_inferred := false })
  | none =>
    ({ node := f1, pos := f1.callee.length }, Func.new s ts f1.tid)

/-- The loop of `Func::find_caller` (replay.cpp:130) over the caller chain `fs`
that starts at `this`; `counter` is the 64-bit loop counter and `depth` the
number of `caller` links followed so far.  The result is the depth of the node
returned, `none` for `nullptr`. -/
def find_caller_loop (limit : Nat) (s : Symbol) (pred : Func → Symbol → Bool) :
    List Func → Nat → Nat → Option Nat
  | [], _, _ => none
  | f :: fs, counter, depth =>
    if counter < limit ∧ pred f s = false then
      find_caller_loop limit s pred fs (uadd counter 1) (depth + 1)
    else if uadd counter 1 > limit then none else some depth

/-- The method `Func::find_caller` (replay.cpp:127), called on the first node
of the chain `fs`. -/
def find_caller (limit : Nat) (s : Symbol) (pred : Func → Symbol → Bool) (fs : List Func) :
    Option Nat :=
  find_caller_loop limit s pred fs 0 0

/-- The constant `Func::no_limit` (replay.hpp:87). -/
def no_limit : Nat := UINT64_MAX

/-! ## replay.cpp: History -/

/-- The symbol `global_root_function` (replay.cpp:16). -/
def global_root_function : Symbol := ⟨"/global_root/", 0x10, 0⟩

/-- The symbol `suspended_function` (replay.cpp:17). -/
def suspended_function : Symbol := ⟨"/suspended/", 0x20, 0⟩

/-- The string `perf_event_switch_symbol` (replay.cpp:18). -/
def perf_event_switch_symbol : String := "perf_event_switch_output"

/-- The class `History` (replay.hpp:104).  `current` is the frame being
executed, with its subtree; `chain` holds its callers, nearest first, and its
last frame is `root` (when `chain` is empty, `root` is `current`). -/
structure History where
  current : Func
  chain : List Frame
  cpu : Nat
  tid : Nat
  in_syscall : Bool
  pause_address : Nat
  pause_time : Nat
  after_syscall : Bool
  task_switch_flush_task : Bool
  spinlock_mitigate : Bool
  perf_event_switch_output : Bool
  enter_lazy_tlb : Nat
  try_match_stack : List String
  time : Nat

/-- The nodes on the caller chain, from `current` up to `root`. -/
def History.nodes (H : History) : List Func := H.current :: H.chain.map Frame.node

/-- The statement `current = current->ret(ts)`: `Func::ret` on `current`, which
also clears `call_address` of the caller, and the move to the caller.  With no
caller the source would leave `current` null; the loops that run this
statement stop at a frame of the chain and never get there. -/
def History.pop (H : History) (ts : Nat) : History :=
  match H.chain with
  | [] => H
  | fr :: rest =>
    { H with
      current := Frame.plug { fr with node := { fr.node with call_address := 0 } }
        (H.current.ret ts)
      chain := rest }

/-- The loop `while (f != current) current = current->ret(ts)` of
`History::call` and `History::ret`, `f` being the frame `k` levels above
`current`. -/
def History.unwind (H : History) (ts : Nat) : Nat → History
  | 0 => H
  | k + 1 => (H.pop ts).unwind ts k

/-- The tree below `root`: every caller of the chain gets its child back. -/
def zip_up (c : Func) : List Frame → Func
  | [] => c
  | fr :: rest => zip_up (fr.plug c) rest

/-- The node `root` points to, with the whole tree below it. -/
def History.root (H : History) : Func := zip_up H.current H.chain

/-- The method `History::make_new_root` (replay.cpp:134): a new node above
`root`, started one nanosecond before the first start of `root`, whose only
child is `root`. -/
def History.make_new_root (H : History) (s : Symbol) : History :=
  let new_root := Func.new ⟨s.name, usub s.address s.offset, 0⟩ (usub H.root.first_start 1) H.tid
  { H with chain := H.chain ++ [{ node := { new_root with start_is_inferred := true }, pos := 0 }] }

/-- The statement `current = root`. -/
def History.goto_root (H : History) : History :=
  { H with current := H.root, chain := [] }

/-- The method `History::call` (replay.cpp:147). -/
def History.call (H : History) (from_ to_ : Symbol) (ts : Nat) : Bool × History :=
  let f :=
    match find_caller no_limit from_ Func.base_match H.nodes with
    | some k => some k
    | none => find_caller no_limit from_ Func.name_match H.nodes
  match f with
  | none => (false, H)
  | some k =>
    let H1 := H.unwind ts k
    let r := H1.current.call from_ to_ ts
    (true, { H1 with current := r.2, chain := r.1 :: H1.chain })

/-- The method `History::ret` (replay.cpp:161).  A frame found from
`current->caller` at depth `k` is `k + 1` levels above `current`. -/
def History.ret (H : History) (_from to_ : Symbol) (ts : Nat) : Bool × History :=
  match H.chain with
  | [] =>
    (true, ({ H with current := H.current.ret ts }.make_new_root to_).goto_root)
  | _ :: _ =>
    let callers := H.chain.map Frame.node
    let f :=
      match find_caller no_limit to_ Func.ret_addr_match callers with
      | some k => some (k + 1)
      | none =>
        if H.current.ret_addr_match to_ then some 0
        else
          match find_caller no_limit to_ Func.name_match callers with
          | some k => some (k + 1)
          | none => if H.current.name_match to_ then some 0 else none
    match f with
    | none => (false, H)
    | some k => (true, H.unwind ts k)

/-- The constructor `History(const Symbol &s, Time ts, size_t c, size_t t)`
(replay.cpp:186); `pause_time` is left uninitialised by the source and is 0
here (it is read only after TR_END has written it). -/
def History.new (s : Symbol) (ts c t : Nat) : History :=
  { current := Func.new ⟨s.name, usub s.address s.offset, 0⟩ ts t
    chain := []
    cpu := c
    tid := t
    in_syscall := false
    pause_address := 0
    pause_time := 0
    after_syscall := false
    task_switch_flush_task := false
    spinlock_mitigate := false
    perf_event_switch_output := false
    enter_lazy_tlb := 0
    try_match_stack := []
    time := ts }

/-- The constructor `History(const Action &a)` (replay.hpp:131). -/
def History.ofAction (a : Action) : History := History.new a.to_ a.ts a.cpu a.tid

/-- The `switch (action.inst)` of `History::replay` (replay.cpp:270-324). -/
def History.dispatch (H : History) (action : Action) : Bool × History :=
  match action.inst with
  | Inst.TR_END_SYSCALL =>
    History.call { H with in_syscall := true } action.from_ action.to_ action.ts
  | Inst.SYSCALL =>
    History.call { H with after_syscall := true } action.from_ action.to_ action.ts
  | Inst.JCC => H.call action.from_ action.to_ action.ts
  | Inst.JMP => H.call action.from_ action.to_ action.ts
  | Inst.INT => H.call action.from_ action.to_ action.ts
  | Inst.CALL => H.call action.from_ action.to_ action.ts
  | Inst.SYSRET =>
    History.ret { H with in_syscall := false } action.from_ action.to_ action.ts
  | Inst.RET => H.ret action.from_ action.to_ action.ts
  | Inst.IRET => H.ret action.from_ action.to_ action.ts
  | Inst.TR_END =>
    History.call { H with pause_address := action.from_.address, pause_time := action.ts }
      action.from_ suspended_function action.ts
  | Inst.TR_START =>
    if H.in_syscall then
      History.ret { H with in_syscall := false } action.from_ action.to_ action.ts
    else if H.pause_address ≠ 0 ∧ H.pause_address = action.to_.address then
      History.ret { H with pause_address := 0 } suspended_function action.to_ action.ts
    else if H.current.sym.name = "kprobe_flush_task" ∨
        H.current.sym.name = "prepare_task_switch" then
      (true, { H with task_switch_flush_task := true })
    else if H.current.sym.name = "enter_lazy_tlb" then
      (true, { H with enter_lazy_tlb := 1 })
    else if action.from_.is_unknown = true ∧ action.to_.name = perf_event_switch_symbol then
      (true, { H with perf_event_switch_output := true })
    else if action.from_.base = 0 ∧ action.to_.is_unknown = true then
      H.call H.current.sym action.to_ action.ts
    else (false, H)
  | Inst.END => (false, H)

/-- The method `History::replay` (replay.cpp:192): the result and the history
it leaves. -/
def History.replay (H : History) (action : Action) : Bool × History :=
  if (H.in_syscall = true ∨ H.pause_address ≠ 0) ∧ action.inst ≠ Inst.TR_START then (false, H)
  else if H.task_switch_flush_task then
    if action.inst ≠ Inst.RET then (true, H)
    else if action.to_.name = "finish_task_switch" then
      History.ret { H with task_switch_flush_task := false } H.current.sym action.to_ action.ts
    else if action.to_.name = "prepare_task_switch" then
      (true, { H with task_switch_flush_task := false })
    else (true, H)
  else if H.enter_lazy_tlb ≠ 0 then
    if H.enter_lazy_tlb = 1 then
      if action.inst ≠ Inst.TR_START then (true, H)
      else if action.from_.is_unknown = false then (false, { H with enter_lazy_tlb := 0 })
      else if action.to_.name ≠ "schedule" then (true, H)
      else (true, { H with enter_lazy_tlb := 2 })
    else
      match action.inst with
      | Inst.CALL => (true, { H with enter_lazy_tlb := 1 })
      | Inst.RET =>
        if action.from_.name ≠ "schedule" then (false, { H with enter_lazy_tlb := 0 })
        else History.ret { H with enter_lazy_tlb := 0 } action.from_ action.to_ action.ts
      | _ => (false, { H with enter_lazy_tlb := 0 })
  else if H.perf_event_switch_output then
    if action.inst ≠ Inst.RET ∨ action.from_.name ≠ perf_event_switch_symbol then
      (false, { H with perf_event_switch_output := false })
    else
      History.ret { H with perf_event_switch_output := false } action.from_ action.to_ action.ts
  else if H.after_syscall then
    if action.inst ≠ Inst.CALL then (false, H)
    else if H.current.sym.ne action.from_ then
      match H.call H.current.sym action.from_ action.ts with
      | (false, H1) => (false, H1)
      | (true, H1) => History.dispatch { H1 with after_syscall := false } action
    else History.dispatch { H with after_syscall := false } action
  else H.dispatch action

/-- The loop `while (current != root)` of `History::terminate` (replay.cpp:331)
over the callers `chain` of `cur`: the result is `root` with its tree. -/
def terminate_loop (ts : Nat) : Func → List Frame → Func
  | cur, [] => cur
  | cur, fr :: rest =>
    terminate_loop ts
      (Frame.plug { fr with node := { fr.node with call_address := 0 } }
        (Func.ret { cur with end_is_inferred := true } ts))
      rest

/-- The method `History::terminate` (replay.cpp:327): the node it returns, with
the tree below it. -/
def History.terminate (H : History) : Func :=
  let ts := if H.pause_address ≠ 0 then H.pause_time else H.current.last_time
  let H1 := { H with current := terminate_loop ts H.current H.chain, chain := [] }
  let H2 := (H1.ret H1.root.sym global_root_function ts).2
  H2.root.ret ts

/-- The method `History::current_depth` (replay.cpp:341). -/
def History.current_depth (H : History) : Nat := H.nodes.length

/-! ## replay.cpp: merging trees -/

mutual
/-- The method `Func::destructive_merge` (replay.cpp:21) for a non-null `that`:
the node `this` after the merge. -/
def Func.destructive_merge (self : Func) : Func → Func
  | ⟨_, callee, _, _, _, _, _, _, _, stats⟩ =>
    Func.merge_callee { self with stats := self.stats.merge_stat stats } callee
/-- The loop `while (!that->callee.empty())` of `Func::destructive_merge`; it
takes the children of `that` from the back of the vector. -/
def Func.merge_callee (self : Func) : List Func → Func
  | [] => self
  | f :: fs =>
    let self1 := Func.merge_callee self fs
    match self1.find_callee f.sym with
    | some (i, call_f) =>
      { self1 with callee := self1.callee.set i (Func.destructive_merge call_f f) }
    | none => { self1 with callee := self1.callee ++ [f] }
end

/-- The method `Func::destructive_merge_funcs` (replay.cpp:38); `none` is
`nullptr`. -/
def Func.destructive_merge_funcs : List Func → Option Func
  | [] => none
  | root :: fs => some (fs.foldl Func.destructive_merge root)

/-! ## replay.cpp: the flame graph -/

/-- The method `Statistics::stat_string` (replay.hpp:57).  The digits that
`std::setprecision(0) << std::fixed << average()` prints are the result of a
floating-point division and of its rounding; they are those of `avg`. -/
def Statistics.stat_string (avg : Statistics → String) (s : Statistics) : String :=
  toString s.invoked ++ (if s.inferred ≠ 0 then "(" ++ toString s.inferred ++ ")" else "") ++
    (if s.n > 1 then ",avg:" ++ avg s else "")

/-- The method `Func::self_time` (replay.cpp:103); `other` is a 64-bit sum. -/
def Func.self_time (f : Func) : Nat :=
  let other := f.callee.foldl (fun o i => uadd o i.stats.sum_inferred) 0
  if f.stats.sum_inferred < other then 0 else f.stats.sum_inferred - other

/-- A line written by `Func::_flame_graph`: the text before the space, and the
number after it. -/
structure FlameLine where
  stack : String
  self_time : Nat
deriving DecidableEq, Repr

/-- The characters of a line, without the end of line. -/
def FlameLine.text (l : FlameLine) : String := l.stack ++ " " ++ toString l.self_time

mutual
/-- The method `Func::_flame_graph` (replay.cpp:95): the lines it writes. -/
def Func._flame_graph (avg : Statistics → String) (prefix_ : String) : Func → List FlameLine
  | ⟨sym, callee, call_address, tid, first_start, start, end_, sii, eii, stats⟩ =>
    if stats.sum_inferred = 0 then []
    else
      let display_name := sym.name ++ ":" ++ stats.stat_string avg
      ⟨prefix_ ++ display_name,
          Func.self_time
            ⟨sym, callee, call_address, tid, first_start, start, end_, sii, eii, stats⟩⟩ ::
        Func._flame_graph_callee avg (prefix_ ++ display_name ++ ";") callee
/-- The loop `for (auto f: callee) f->_flame_graph(os, prefix, hide_zero)`. -/
def Func._flame_graph_callee (avg : Statistics → String) (prefix_ : String) :
    List Func → List FlameLine
  | [] => []
  | f :: fs => Func._flame_graph avg prefix_ f ++ Func._flame_graph_callee avg prefix_ fs
end

/-- The method `Func::flame_graph` (replay.cpp:90): the lines it writes. -/
def Func.flame_graph (avg : Statistics → String) (root : Func) : List FlameLine :=
  Func._flame_graph_callee avg "" root.callee

/-! ## replay.cpp: Replay -/

/-- The class `Replay` (replay.hpp:136).  The two `std::map`s are association
lists kept sorted by key, with at most one entry per key. -/
structure Replay where
  threads : List (Nat × History)
  last_seen : List (Nat × Nat)
  archive : List Func

/-- A `Replay` as default-constructed. -/
def Replay.empty : Replay := ⟨[], [], []⟩

/-- The lookup `std::map::find`. -/
def map_find {α : Type} (k : Nat) : List (Nat × α) → Option α
  | [] => none
  | (k1, v) :: m => if k1 = k then some v else map_find k m

/-- The insertion `std::map::emplace`: no effect when the key is present. -/
def map_emplace {α : Type} (k : Nat) (v : α) : List (Nat × α) → List (Nat × α)
  | [] => [(k, v)]
  | (k1, v1) :: m =>
    if k < k1 then (k, v) :: (k1, v1) :: m
    else if k1 = k then (k1, v1) :: m
    else (k1, v1) :: map_emplace k v m

/-- The assignment `m[k] = v` of a `std::map`. -/
def map_assign {α : Type} (k : Nat) (v : α) : List (Nat × α) → List (Nat × α)
  | [] => [(k, v)]
  | (k1, v1) :: m =>
    if k < k1 then (k, v) :: (k1, v1) :: m
    else if k1 = k then (k, v) :: m
    else (k1, v1) :: map_assign k v m

/-- The removal `std::map::erase` of a key. -/
def map_erase {α : Type} (k : Nat) (m : List (Nat × α)) : List (Nat × α) :=
  m.filter (fun e => decide (e.1 ≠ k))

/-- The method `Replay::stop_and_archive` (replay.cpp:369); `threads.at(tid)`
throws when there is no history for `tid`, which is `none`. -/
def Replay.stop_and_archive (r : Replay) (tid : Nat) : Option Replay :=
  match map_find tid r.threads with
  | none => none
  | some hist =>
    some { r with archive := r.archive ++ [hist.terminate], threads := map_erase tid r.threads }

/-- The method `Replay::replay` (replay.cpp:375): the result and the state it
leaves. -/
def Replay.replay (r : Replay) (action : Action) : Bool × Replay :=
  match map_find action.tid r.threads with
  | none =>
    if action.to_.is_unknown then (true, r)
    else
      (true, { r with
        threads := map_emplace action.tid (History.ofAction action) r.threads
        last_seen := map_assign action.tid action.ts r.last_seen })
  | some hist =>
    match hist.replay action with
    | (false, hist1) =>
      let r1 : Replay :=
        { r with
          archive := r.archive ++ [hist1.terminate]
          threads := map_erase action.tid r.threads }
      (true, { r1 with
        threads := map_emplace action.tid (History.ofAction action) r1.threads
        last_seen := map_assign action.tid action.ts r1.last_seen })
    | (true, hist1) =>
      (true, { r with
        threads := map_assign action.tid hist1 r.threads
        last_seen := map_assign action.tid action.ts r.last_seen })

/-- The loop of `Replay::cleanup` (replay.hpp:145), at most `n` rounds. -/
def Replay.cleanup_loop : Nat → Replay → Replay
  | 0, r => r
  | n + 1, r =>
    match r.threads with
    | [] => r
    | (tid, hist) :: _ =>
      Replay.cleanup_loop n
        { r with archive := r.archive ++ [hist.terminate], threads := map_erase tid r.threads }

/-- The method `Replay::cleanup`: every round erases the first history, so
`threads.length` rounds empty the map. -/
def Replay.cleanup (r : Replay) : Replay := Replay.cleanup_loop r.threads.length r

/-- The method `Replay::destructive_merge_all` (replay.hpp:148): the tree it
returns and the state it leaves (`fs.clear()`). -/
def Replay.destructive_merge_all (r : Replay) : Option Func × Replay :=
  (Func.destructive_merge_funcs r.archive, { r with archive := [] })

/-- The actions `as` fed to `Replay::replay` one after the other. -/
def Replay.run (r : Replay) (as : List Action) : Replay :=
  as.foldl (fun r a => (r.replay a).2) r


/-! ## reader.hpp: MergeWrapper -/

/-- The default constructor `Action()` (reader.hpp:45): it sets `inst` to END
and leaves the other fields uninitialised; they are those of `junk`. -/
def Action.new (junk : Action) : Action := { junk with inst := Inst.END }

/-- A reader behind a `GetAction *`: the actions it has still to yield, and
the contents of the `Action()` it yields once they are exhausted. -/
structure Source where
  pending : List Action
  junk : Action

/-- The method `GetAction::next_action` of a reader. -/
def Source.next_action (s : Source) : Action × Source :=
  match s.pending with
  | [] => (Action.new s.junk, s)
  | a :: rest => (a, { s with pending := rest })

/-- The struct `MergeWrapper::ActionWrapper` (reader.hpp:178); the pointer `tr`
is the number of the reader. -/
structure ActionWrapper where
  act : Action
  tr : Nat

/-- The class `MergeWrapper` (reader.hpp:173).  `action_heap` lists the
contents of the `std::priority_queue`; `readers` is the state of the readers
the pointers lead to, and `junk` the contents of the `Action()` the wrapper
itself returns. -/
structure MergeWrapper where
  single_source : Bool
  tr : Nat
  last : Nat
  block : List Action
  action_heap : List ActionWrapper
  readers : Nat → Source
  junk : Action

/-- No wrapper of the heap is above `w` in the order of
`ActionWrapper::operator<`: none has a smaller `ts`. -/
def ActionWrapper.is_top (h : List ActionWrapper) (w : ActionWrapper) : Bool :=
  h.all (fun v => decide (w.act.ts ≤ v.act.ts))

/-- The positions of the wrappers `top()` may return. -/
def heap_tops (h : List ActionWrapper) : List Nat :=
  (List.range h.length).filter
    (fun k => match h[k]? with
      | some w => w.is_top h
      | none => false)

/-- The choice among the positions `top()` may return: the one numbered `c`,
or the last one when there are fewer. -/
def choose_top : List Nat → Nat → Option Nat
  | [], _ => none
  | [k], _ => some k
  | k :: k2 :: ks, c =>
    match c with
    | 0 => some k
    | c + 1 => choose_top (k2 :: ks) c

/-- The calls `top()` and `pop()` of the `std::priority_queue`: a wrapper of
least `ts` and the heap without it, `none` for an empty heap.  Which wrapper
comes first among several of the same `ts` is left open by the queue; here the
number `c` decides. -/
def heap_pop (c : Nat) (h : List ActionWrapper) : Option (ActionWrapper × List ActionWrapper) :=
  match choose_top (heap_tops h) c with
  | none => none
  | some k =>
    match h[k]? with
    | none => none
    | some w => some (w, h.take k ++ h.drop (k + 1))

/-- The constructor `MergeWrapper(trs)` (reader.hpp:189) over the readers
`srcs`, numbered from 0. -/
def MergeWrapper.new (srcs : List Source) (junk : Action) : MergeWrapper :=
  let readers : Nat → Source := fun i => srcs.getD i ⟨[], junk⟩
  if srcs.length = 1 then
    { single_source := true, tr := 0, last := 0, block := [], action_heap := [],
      readers := readers, junk := junk }
  else
    { single_source := false, tr := 0, last := 0, block := []
      action_heap := (List.range srcs.length).map (fun i => ⟨(readers i).next_action.1, i⟩)
      readers := fun i => (readers i).next_action.2
      junk := junk }

/-- The loop `while (!action_heap.empty())` of `MergeWrapper::next_action`
(reader.hpp:199), at most `n` rounds; `pick` breaks the ties of the heap. -/
def MergeWrapper.next_action_loop (pick : Nat → Nat) : Nat → MergeWrapper → Action × MergeWrapper
  | 0, mw => (Action.new mw.junk, mw)
  | n + 1, mw =>
    match heap_pop (pick n) mw.action_heap with
    | none => (Action.new mw.junk, mw)
    | some (act, rest) =>
      if act.act.inst = Inst.END then
        MergeWrapper.next_action_loop pick n { mw with action_heap := rest }
      else
        let r := (mw.readers act.tr).next_action
        (act.act,
          { mw with
            action_heap := rest ++ [⟨r.1, act.tr⟩]
            readers := Function.update mw.readers act.tr r.2 })

/-- The method `MergeWrapper::next_action` (reader.hpp:197): every round of
its loop pops a wrapper, so `action_heap.size()` rounds are all it can make. -/
def MergeWrapper.next_action (pick : Nat → Nat) (mw : MergeWrapper) : Action × MergeWrapper :=
  if mw.single_source then
    let r := (mw.readers mw.tr).next_action
    (r.1, { mw with readers := Function.update mw.readers mw.tr r.2 })
  else MergeWrapper.next_action_loop pick mw.action_heap.length mw

/-- The inner loop of `MergeWrapper::next_action_by_block` (reader.hpp:222):
`next` is the action read last, `pending` what the reader has still to yield;
the result is the actions pushed to `block`, the action the loop stops at and
what the reader is left with. -/
def read_block (tid : Nat) (junk : Action) :
    Action → List Action → List Action × Action × List Action
  | next, [] =>
    if next.inst ≠ Inst.END ∧ next.tid = tid then ([next], Action.new junk, [])
    else ([], next, [])
  | next, a :: rest =>
    if next.inst ≠ Inst.END ∧ next.tid = tid then
      let r := read_block tid junk a rest
      (next :: r.1, r.2.1, r.2.2)
    else ([], next, a :: rest)

/-- The loop `while (!action_heap.empty())` of
`MergeWrapper::next_action_by_block` (reader.hpp:217), at most `n` rounds. -/
def MergeWrapper.next_action_by_block_loop (pick : Nat → Nat) :
    Nat → MergeWrapper → Action × MergeWrapper
  | 0, mw => (Action.new mw.junk, mw)
  | n + 1, mw =>
    match heap_pop (pick n) mw.action_heap with
    | none => (Action.new mw.junk, mw)
    | some (act, rest) =>
      if act.act.inst = Inst.END then
        MergeWrapper.next_action_by_block_loop pick n { mw with action_heap := rest }
      else
        let s := mw.readers act.tr
        let r := read_block act.act.tid s.junk s.next_action.1 s.next_action.2.pending
        (act.act,
          { mw with
            block := mw.block ++ r.1
            action_heap := if r.2.1.inst ≠ Inst.END then rest ++ [⟨r.2.1, act.tr⟩] else rest
            readers := Function.update mw.readers act.tr { s with pending := r.2.2 } })

/-- The method `MergeWrapper::next_action_by_block` (reader.hpp:209). -/
def MergeWrapper.next_action_by_block (pick : Nat → Nat) (mw : MergeWrapper) :
    Action × MergeWrapper :=
  if mw.single_source then
    let r := (mw.readers mw.tr).next_action
    (r.1, { mw with readers := Function.update mw.readers mw.tr r.2 })
  else
    match mw.block with
    | ret :: block => (ret, { mw with block := block })
    | [] => MergeWrapper.next_action_by_block_loop pick mw.action_heap.length mw

/-- The actions returned by `n` successive calls of `next_action`, up to the
first END; the call with `k` calls to follow breaks its ties by `pick k`. -/
def MergeWrapper.actions (pick : Nat → Nat → Nat) : Nat → MergeWrapper → List Action
  | 0, _ => []
  | n + 1, mw =>
    if (mw.next_action (pick n)).1.inst = Inst.END then []
    else (mw.next_action (pick n)).1 :: MergeWrapper.actions pick n (mw.next_action (pick n)).2

/-- The actions the loop of the driver (driver.cpp:169) feeds to
`Replay::replay` in its first `n` rounds: those returned by successive calls of
`next_action_by_block`, up to the first END. -/
def MergeWrapper.actions_by_block (pick : Nat → Nat → Nat) : Nat → MergeWrapper → List Action
  | 0, _ => []
  | n + 1, mw =>
    if (mw.next_action_by_block (pick n)).1.inst = Inst.END then []
    else
      (mw.next_action_by_block (pick n)).1 ::
        MergeWrapper.actions_by_block pick n (mw.next_action_by_block (pick n)).2

/-! ## perfetto.hpp, perfetto.cpp: the FTF sink -/

/-- The enum `Perfetto::RecordType`. -/
inductive RecordType where
  | STRING | THREAD | EVENT
deriving DecidableEq, Repr

/-- The value of a `RecordType`: `STRING = 2, THREAD, EVENT`. -/
def RecordType.code : RecordType → Nat
  | RecordType.STRING => 2
  | RecordType.THREAD => 3
  | RecordType.EVENT => 4

/-- The enum `Perfetto::EventType`. -/
inductive EventType where
  | INSTANT | COUNTER | BEGIN | END | COMPLETE
deriving DecidableEq, Repr

/-- The value of an `EventType`: `INSTANT = 0, COUNTER, BEGIN, END, COMPLETE`. -/
def EventType.code : EventType → Nat
  | EventType.INSTANT => 0
  | EventType.COUNTER => 1
  | EventType.BEGIN => 2
  | EventType.END => 3
  | EventType.COMPLETE => 4

/-- The lookup `find` of a `std::unordered_map`, kept as an association list
with at most one entry per key. -/
def umap_find {κ α : Type} [DecidableEq κ] (k : κ) : List (κ × α) → Option α
  | [] => none
  | (k1, v) :: m => if k1 = k then some v else umap_find k m

/-- The removal `erase` of a key of a `std::unordered_map`. -/
def umap_erase {κ α : Type} [DecidableEq κ] (k : κ) (m : List (κ × α)) : List (κ × α) :=
  m.filter (fun e => decide (e.1 ≠ k))

/-- The assignment `m[k] = v` of a `std::unordered_map`. -/
def umap_assign {κ α : Type} [DecidableEq κ] (k : κ) (v : α) (m : List (κ × α)) :
    List (κ × α) :=
  (k, v) :: umap_erase k m

/-- The first `n` bytes of the little-endian representation of `v`: what
`os.write(reinterpret_cast<char *>(&v), n)` writes on the little-endian
machines the source is written for. -/
def le_bytes : Nat → Nat → List Nat
  | 0, _ => []
  | n + 1, v => v % 256 :: le_bytes n (v / 256)

/-- The bytes of a `std::string`: the UTF-8 encoding of the string. -/
def str_bytes (str : String) : List Nat := str.toUTF8.data.toList.map (fun b => b.toNat)

/-- The class `Perfetto` (perfetto.hpp:8); `os` is what has been written to the
stream, byte by byte. -/
structure Perfetto where
  strings : List (String × Nat)
  rstrings : List (Nat × String)
  string_index : Nat
  threads : List (Nat × Nat)
  rthreads : List (Nat × Nat)
  thread_index : Nat
  os : List Nat

/-- A `Perfetto` as constructed: empty registries, both indices 1, nothing
written. -/
def Perfetto.new : Perfetto := ⟨[], [], 1, [], [], 1, []⟩

/-- The method `Perfetto::emit_header` (perfetto.cpp:6); `size` arrives as a
`uint16_t`. -/
def Perfetto.emit_header (p : Perfetto) (t : RecordType) (size payload : Nat) : Perfetto :=
  let type_size := ((t.code &&& 0xf) ||| (((size % 65536) &&& 0x0fff) <<< 4)) % 65536
  let payload := payload &&& 0xffffffffffff
  { p with os := p.os ++ le_bytes 2 type_size ++ le_bytes 6 payload }

/-- The method `Perfetto::register_string` (perfetto.cpp:27): the index it
returns and the state it leaves.  A `std::string` is shorter than `2^63`
bytes, so `str.length() + 7` does not wrap. -/
def Perfetto.register_string (p : Perfetto) (str : String) : Nat × Perfetto :=
  match umap_find str p.strings with
  | some idx => (idx % 65536, p)
  | none =>
    let strings1 :=
      match umap_find p.string_index p.rstrings with
      | some old => umap_erase old p.strings
      | none => p.strings
    let p1 := { p with
      rstrings := umap_assign p.string_index str p.rstrings
      strings := umap_assign str p.string_index strings1 }
    let payload :=
      (p.string_index &&& 0xffff) ||| ((str.utf8ByteSize &&& 0xffff) <<< 16)
    let real_len := (str.utf8ByteSize + 7) / 8
    let p2 := p1.emit_header RecordType.STRING (real_len + 1) payload
    let p3 := { p2 with os := p2.os ++ str_bytes str }
    let p4 := { p3 with os := p3.os ++ List.replicate (real_len * 8 - str.utf8ByteSize) 0 }
    let ret := p.string_index
    let next := (p.string_index + 1) % 65536
    (ret, { p4 with string_index := if next = 32768 then 1 else next })

/-- The method `Perfetto::register_thread` (perfetto.cpp:55): the index it
returns and the state it leaves. -/
def Perfetto.register_thread (p : Perfetto) (tid pid : Nat) : Nat × Perfetto :=
  match umap_find tid p.threads with
  | some idx => (idx % 65536, p)
  | none =>
    let threads1 :=
      match umap_find p.thread_index p.rthreads with
      | some old => umap_erase old p.threads
      | none => p.threads
    let p1 := { p with
      rthreads := umap_assign p.thread_index tid p.rthreads
      threads := umap_assign tid p.thread_index threads1 }
    let payload := p.thread_index &&& 0xff
    let p2 := p1.emit_header RecordType.THREAD 3 payload
    let p3 := { p2 with os := p2.os ++ le_bytes 8 pid }
    let p4 := { p3 with os := p3.os ++ le_bytes 8 tid }
    let ret := p.thread_index
    let next := (p.thread_index + 1) % 65536
    (ret, { p4 with thread_index := if next = 255 then 1 else next })

/-- The method `Perfetto::emit_event_header` (perfetto.cpp:14). -/
def Perfetto.emit_event_header (p : Perfetto) (size : Nat) (t : EventType) (arg tid pid : Nat)
    (cat str : String) : Perfetto :=
  let r1 := p.register_thread tid pid
  let r2 := r1.2.register_string cat
  let r3 := r2.2.register_string str
  let payload :=
    ((t.code &&& 0xf) ||| ((arg &&& 0xf) <<< 4) ||| ((r1.1 &&& 0xff) <<< 8) ||| (r2.1 <<< 16) |||
      (r3.1 <<< 32)) % U64
  r3.2.emit_header RecordType.EVENT size payload

/-- The method `Perfetto::emit_magic` (perfetto.cpp:77). -/
def Perfetto.emit_magic (p : Perfetto) : Perfetto :=
  { p with os := p.os ++ le_bytes 8 0x0016547846040010 }

/-- The method `Perfetto::emit_function` (perfetto.cpp:82). -/
def Perfetto.emit_function (p : Perfetto) (tid pid : Nat) (name : String) (time : Nat)
    (t : EventType) (end_ : Nat) : Perfetto :=
  let size := if t = EventType.COMPLETE then 3 else 2
  let p1 := p.emit_event_header size t 0 tid pid "Function Call" name
  let p2 := { p1 with os := p1.os ++ le_bytes 8 time }
  if t = EventType.COMPLETE then { p2 with os := p2.os ++ le_bytes 8 end_ } else p2

/-- The arguments of a call of `emit_function`. -/
structure EmitCall where
  tid : Nat
  pid : Nat
  name : String
  time : Nat
  t : EventType
  end_ : Nat

/-- The calls `cs` of `emit_function`, one after the other. -/
def Perfetto.emit_all (p : Perfetto) (cs : List EmitCall) : Perfetto :=
  cs.foldl (fun p c => p.emit_function c.tid c.pid c.name c.time c.t c.end_) p

/-! ## Specification vocabulary -/

/-- The depth of the nearest node of `fs` satisfying `p`. -/
def nearestIdx (p : Func → Bool) : List Func → Option Nat
  | [] => none
  | f :: fs => if p f then some 0 else (nearestIdx p fs).map (· + 1)

/-- The node at depth `k` of `fs` satisfies `p` and no node nearer does. -/
def NearestAt (p : Func → Bool) (fs : List Func) (k : Nat) : Prop :=
  (∃ f, fs[k]? = some f ∧ p f = true) ∧ ∀ j, j < k → ∀ g, fs[j]? = some g → p g = false

/-- The nodes `a` and `b` are the same frame: they agree on everything but the
children and `call_address`. -/
def SameFrame (a b : Func) : Prop :=
  a.sym = b.sym ∧ a.tid = b.tid ∧ a.first_start = b.first_start ∧ a.start = b.start ∧
    a.end_ = b.end_ ∧ a.start_is_inferred = b.start_is_inferred ∧
    a.end_is_inferred = b.end_is_inferred ∧ a.stats = b.stats

/-- The frame `History::call` looks for, by its depth `k` on the caller chain:
the nearest frame with the base of `from_` if there is one, else the nearest
frame with the name of `from_`. -/
def CallChoice (H : History) (from_ : Symbol) (k : Nat) : Prop :=
  NearestAt (fun f => f.base_match from_) H.nodes k ∨
    ((∀ f ∈ H.nodes, f.base_match from_ = false) ∧
      NearestAt (fun f => f.name_match from_) H.nodes k)

/-- The frame `History::ret` looks for when `current` has a caller, by its
depth `k` counted from `current`: the nearest caller matching the return
address, else `current` if it matches the return address, else the nearest
caller with the name of `to_`, else `current` if it has that name. -/
def RetChoice (H : History) (to_ : Symbol) (k : Nat) : Prop :=
  (∃ j, k = j + 1 ∧ NearestAt (fun f => f.ret_addr_match to_) (H.chain.map Frame.node) j) ∨
    ((∀ f ∈ H.chain.map Frame.node, f.ret_addr_match to_ = false) ∧
      ((H.current.ret_addr_match to_ = true ∧ k = 0) ∨
        (H.current.ret_addr_match to_ = false ∧
          ((∃ j, k = j + 1 ∧
              NearestAt (fun f => f.name_match to_) (H.chain.map Frame.node) j) ∨
            ((∀ f ∈ H.chain.map Frame.node, f.name_match to_ = false) ∧
              H.current.name_match to_ = true ∧ k = 0)))))

/-- No recovery flag of the history is set. -/
def History.no_flags (H : History) : Prop :=
  H.in_syscall = false ∧ H.after_syscall = false ∧ H.task_switch_flush_task = false ∧
    H.perf_event_switch_output = false ∧ H.pause_address = 0 ∧ H.enter_lazy_tlb = 0

/-- The history after `Func::call` on `current`. -/
def History.push (H : History) (from_ to_ : Symbol) (ts : Nat) : History :=
  { H with
    current := (H.current.call from_ to_ ts).2
    chain := (H.current.call from_ to_ ts).1 :: H.chain }

/-- The history after the root branch of `History::ret`. -/
def History.promote (H : History) (to_ : Symbol) (ts : Nat) : History :=
  ({ H with current := H.current.ret ts }.make_new_root to_).goto_root

/-- The node reached from `f` by following the child indices `is`. -/
def Func.descend : Func → List Nat → Option Func
  | f, [] => some f
  | f, i :: is =>
    match f.callee[i]? with
    | some c => c.descend is
    | none => none

/-- The child indices leading from `root` down to the frame at depth `j` of the
caller chain. -/
def History.path (H : History) (j : Nat) : List Nat :=
  ((H.chain.drop j).map Frame.pos).reverse

/-- The time `History::terminate` closes the open frames with. -/
def History.close_time (H : History) : Nat :=
  if H.pause_address ≠ 0 then H.pause_time else H.current.last_time

mutual
/-- The nodes of the tree of `f`, each with the nodes above it: for every node
`v` the list of the nodes on the way from `f` down to `v`, `f` and `v`
included; parents come before their children, children in their order. -/
def Func.stacks : Func → List (List Func)
  | ⟨sym, callee, call_address, tid, first_start, start, end_, sii, eii, stats⟩ =>
    [⟨sym, callee, call_address, tid, first_start, start, end_, sii, eii, stats⟩] ::
      (Func.stacks_callee callee).map
        (⟨sym, callee, call_address, tid, first_start, start, end_, sii, eii, stats⟩ :: ·)
/-- The nodes of the trees `fs`, each with the nodes above it. -/
def Func.stacks_callee : List Func → List (List Func)
  | [] => []
  | c :: cs => Func.stacks c ++ Func.stacks_callee cs
end

/-- The nodes strictly below `root`, each with the nodes on the way from a
child of `root` down to it. -/
def Func.stacks_below (root : Func) : List (List Func) := Func.stacks_callee root.callee

/-- The entry of a node in a line: `name + ':' + stat_string`. -/
def Func.entry (avg : Statistics → String) (g : Func) : String :=
  g.sym.name ++ ":" ++ g.stats.stat_string avg

/-- The strings joined by `;`. -/
def joined : List String → String
  | [] => ""
  | [s] => s
  | s :: t :: rest => s ++ ";" ++ joined (t :: rest)

/-- No node of the list has `stats.sum_inferred == 0`: the node at its end is
not elided. -/
def shown (chain : List Func) : Bool :=
  chain.all (fun g => decide (g.stats.sum_inferred ≠ 0))

/-- The line of the node at the end of `chain`: the entries of the chain joined
by `;` after `prefix_`, and the self time of the node. -/
def stack_line (avg : Statistics → String) (prefix_ : String) (chain : List Func) : FlameLine :=
  ⟨prefix_ ++ joined (chain.map (Func.entry avg)),
    match chain.getLast? with
    | some v => v.self_time
    | none => 0⟩

/-- The sum of `stats.sum_inferred` over the nodes `fs`. -/
def sum_inferred_of (fs : List Func) : Nat := (fs.map (fun c => c.stats.sum_inferred)).sum

/-- The size field of a record: the bits 4..15 of its 2-byte header, which is
little-endian. -/
def size_field (record : List Nat) : Nat :=
  (record.getD 0 0 + 256 * record.getD 1 0) / 16 % 4096

/-! ## Reachable histories and their invariants -/

mutual
/-- Every node of the tree `f` satisfies `p`. -/
def Func.all (p : Func → Bool) : Func → Bool
  | ⟨sym, callee, call_address, tid, first_start, start, end_, sii, eii, stats⟩ =>
    p ⟨sym, callee, call_address, tid, first_start, start, end_, sii, eii, stats⟩ &&
      Func.all_list p callee
/-- Every node of the trees `fs` satisfies `p`. -/
def Func.all_list (p : Func → Bool) : List Func → Bool
  | [] => true
  | c :: cs => Func.all p c && Func.all_list p cs
end

/-- No node of the tree has `end_is_inferred` set. -/
def Func.clean (f : Func) : Bool := f.all (fun g => !g.end_is_inferred)

/-- Every node of the tree is inactive (`start == UINT64_MAX`). -/
def Func.idle (f : Func) : Bool := f.all (fun g => decide (g.start = UINT64_MAX))

/-- The histories `History::replay` can produce from a constructed one. -/
inductive History.Reachable : History → Prop
  | init (s : Symbol) (ts c t : Nat) : History.Reachable (History.new s ts c t)
  | step {H : History} (a : Action) :
    History.Reachable H → History.Reachable (H.replay a).2

/-- The histories `History::replay` can produce from a constructed one when the
timestamps of the actions do not decrease; the number is the timestamp of the
last action.  `bridge` is the history in the middle of a `History::replay`
that follows a SYSCALL: after the call it inserts from `current->sym` to
`action.from`, before the call of the action itself. -/
inductive History.ReachableAt : History → Nat → Prop
  | init (s : Symbol) (ts c t : Nat) : History.ReachableAt (History.new s ts c t) ts
  | step {H : History} {T : Nat} (a : Action) :
    History.ReachableAt H T → T ≤ a.ts → History.ReachableAt (H.replay a).2 a.ts
  | bridge {H : History} {T : Nat} (a : Action) :
    History.ReachableAt H T → T ≤ a.ts →
    History.ReachableAt { (H.call H.current.sym a.from_ a.ts).2 with after_syscall := false } a.ts

/-- The shape of the tree of a reachable history: `end_is_inferred` is set
nowhere, every node off the caller chain is inactive, and the child a caller
is executing has a place in its `callee` vector. -/
structure History.WF (H : History) : Prop where
  clean_current : H.current.clean = true
  clean_chain : ∀ fr ∈ H.chain,
    fr.node.end_is_inferred = false ∧ ∀ c ∈ fr.node.callee, c.clean = true
  idle_current : ∀ c ∈ H.current.callee, c.idle = true
  idle_chain : ∀ fr ∈ H.chain, ∀ c ∈ fr.node.callee, c.idle = true
  pos_le : ∀ fr ∈ H.chain, fr.pos ≤ fr.node.callee.length

/-- Every frame of the caller chain that has a caller was entered by
`Func::call` at a time not later than `T`. -/
def History.Called (H : History) (T : Nat) : Prop :=
  ∀ f ∈ H.nodes.dropLast, f.start_is_inferred = false ∧ f.start ≤ T

/-- A property of histories that depends on the tree only and is kept by the
three steps `History::call` and `History::ret` are made of, at time `ts`. -/
structure Closed (Q : History → Prop) (ts : Nat) : Prop where
  congr : ∀ H H1 : History, H1.current = H.current → H1.chain = H.chain → Q H → Q H1
  pop : ∀ H : History, Q H → Q (H.pop ts)
  push : ∀ (H : History) (from_ to_ : Symbol), Q H → Q (H.push from_ to_ ts)
  promote : ∀ (H : History) (to_ : Symbol), H.chain = [] → Q H → Q (H.promote to_ ts)

/-- No node of the tree has two children with the same `sym.base()`. -/
def Func.distinct (f : Func) : Bool :=
  f.all (fun g => decide (g.callee.map (fun c => c.sym.base)).Nodup)

/-- The callers `chain` of a node with symbol `s`: in each caller the children
in place have distinct bases, different from the base of the child being
executed, and are trees without two siblings of the same base. -/
def chain_distinct : Symbol → List Frame → Prop
  | _, [] => True
  | s, fr :: rest =>
    (fr.node.callee.map (fun c => c.sym.base)).Nodup ∧
      s.base ∉ fr.node.callee.map (fun c => c.sym.base) ∧
      (∀ c ∈ fr.node.callee, c.distinct = true) ∧ chain_distinct fr.node.sym rest

/-- No node of the tree of the history has two children with the same base. -/
def History.Distinct (H : History) : Prop :=
  H.current.distinct = true ∧ chain_distinct H.current.sym H.chain

/-- The histories and the archived trees of a `Replay` have no two siblings
with the same base. -/
def Replay.Distinct (r : Replay) : Prop :=
  (∀ e ∈ r.threads, e.2.Distinct) ∧ ∀ g ∈ r.archive, g.distinct = true

/-- Every node of the tree has `sym.offset == 0`. -/
def Func.aligned (f : Func) : Bool := f.all (fun g => decide (g.sym.offset = 0))

/-- Every node of the tree of the history has `sym.offset == 0`. -/
def History.Aligned (H : History) : Prop :=
  H.current.aligned = true ∧ ∀ fr ∈ H.chain, fr.node.aligned = true

/-- The symbols `History::replay` can hand to `Func::call` as the function
entered, while it replays `a` on `H`: `a.from` in the call inserted after a
SYSCALL (replay.cpp:263), and `a.to` in the calls of the `switch`
(replay.cpp:270-324), where TR_START calls only an unknown `a.to` and TR_END
calls `/suspended/`. -/
def History.entered (H : History) (a : Action) : List Symbol :=
  (if H.after_syscall = true ∧ a.inst = Inst.CALL ∧ H.current.sym.ne a.from_ = true then
      [a.from_] else []) ++
    (match a.inst with
      | Inst.RET => []
      | Inst.IRET => []
      | Inst.SYSRET => []
      | Inst.TR_END => []
      | Inst.END => []
      | Inst.TR_START => if a.to_.is_unknown = true then [a.to_] else []
      | _ => [a.to_])

/-- The histories `History::replay` produces from a constructed one, whatever
symbol it is constructed from, by actions that enter functions at offset 0
only. -/
inductive History.ReachableAligned : History → Prop
  | init (s : Symbol) (ts c t : Nat) : History.ReachableAligned (History.new s ts c t)
  | step {H : History} (a : Action) :
    History.ReachableAligned H → (∀ s ∈ H.entered a, s.offset = 0) →
    History.ReachableAligned (H.replay a).2

/-- The `n` first pops of a loop over the heap `h`, which goes on while the
wrapper popped is an END, never find two wrappers of least `ts`: the choice
among them is not consulted. -/
def untied_heap : Nat → List ActionWrapper → Bool
  | 0, _ => true
  | n + 1, h =>
    decide ((heap_tops h).length ≤ 1) &&
      match heap_pop 0 h with
      | none => true
      | some (act, rest) => if act.act.inst = Inst.END then untied_heap n rest else true

/-- None of `n` successive calls of `next`, up to the first END, finds two
wrappers of least `ts` in the heap. -/
def MergeWrapper.untied (next : (Nat → Nat) → MergeWrapper → Action × MergeWrapper) :
    Nat → MergeWrapper → Bool
  | 0, _ => true
  | n + 1, mw =>
    untied_heap mw.action_heap.length mw.action_heap &&
      if (next (fun _ => 0) mw).1.inst = Inst.END then true
      else MergeWrapper.untied next n (next (fun _ => 0) mw).2

/-- The state of a `MergeWrapper` over sorted readers after it has returned
an action of time `lo`: every reader is sorted; with a single reader, what it
has still to yield is not before `lo`; otherwise what is in the heap is not
before `lo` and not after what its reader has still to yield. -/
structure MergeWrapper.Merging (mw : MergeWrapper) (lo : Nat) : Prop where
  sorted : ∀ i, (mw.readers i).pending.Pairwise (fun a b => a.ts ≤ b.ts)
  single : mw.single_source = true → ∀ a ∈ (mw.readers mw.tr).pending, lo ≤ a.ts
  heap : mw.single_source = false → ∀ w ∈ mw.action_heap, w.act.inst ≠ Inst.END →
    lo ≤ w.act.ts ∧ ∀ a ∈ (mw.readers w.tr).pending, w.act.ts ≤ a.ts

/-- The state of a `MergeWrapper` in which the actions of thread `t` are all
with the reader `i`, after it has returned an action of `t` of time `lo`: the
reader `i` is sorted and the other readers have nothing of `t`; what is left
of `t` in the reader, in the heap and in `block` is not before `lo`; a wrapper
of `t` is from the reader `i` and not after what the reader has still to
yield; the heap has at most one wrapper of the reader `i`; the actions of `t`
in `block` are in order, and before those in the heap and in the reader. -/
structure MergeWrapper.Owned (mw : MergeWrapper) (t i lo : Nat) : Prop where
  sorted : (mw.readers i).pending.Pairwise (fun a b => a.ts ≤ b.ts)
  others : ∀ j, j ≠ i → ∀ a ∈ (mw.readers j).pending, a.tid ≠ t
  pending : ∀ b ∈ (mw.readers i).pending, b.tid = t → lo ≤ b.ts
  heap : ∀ w ∈ mw.action_heap, w.act.inst ≠ Inst.END → w.act.tid = t →
    w.tr = i ∧ lo ≤ w.act.ts ∧ ∀ b ∈ (mw.readers i).pending, w.act.ts ≤ b.ts
  one : (mw.action_heap.filter (fun w => decide (w.tr = i))).length ≤ 1
  block_sorted : mw.block.Pairwise (fun a b => a.tid = t → b.tid = t → a.ts ≤ b.ts)
  block : ∀ a ∈ mw.block, a.tid = t →
    lo ≤ a.ts ∧
      (∀ w ∈ mw.action_heap, w.act.inst ≠ Inst.END → w.act.tid = t → a.ts ≤ w.act.ts) ∧
      ∀ b ∈ (mw.readers i).pending, b.tid = t → a.ts ≤ b.ts
  single : mw.single_source = true → mw.action_heap = [] ∧ mw.block = []

/-- The history `H1` has the call tree and the identity of `H`: the same
`current` with its subtree, the same callers, the same `cpu`, `tid` and `time`;
only the recovery flags (`in_syscall`, `pause_address` with `pause_time`,
`after_syscall`, `task_switch_flush_task`, `perf_event_switch_output`,
`enter_lazy_tlb`) may differ. -/
structure History.SameTree (H H1 : History) : Prop where
  current : H1.current = H.current
  chain : H1.chain = H.chain
  cpu : H1.cpu = H.cpu
  tid : H1.tid = H.tid
  time : H1.time = H.time
  spinlock_mitigate : H1.spinlock_mitigate = H.spinlock_mitigate
  try_match_stack : H1.try_match_stack = H.try_match_stack

/-- A property of histories kept by the steps `History::call` and
`History::ret` are made of, at time `ts`, where the root branch of
`History::ret` keeps it for the histories that satisfy `P` only; `P` depends on
the tree only. -/
structure ClosedIf (P : History → Prop) (Q : History → Prop) (ts : Nat) : Prop where
  guard : ∀ H H1 : History, H1.current = H.current → H1.chain = H.chain → P H → P H1
  congr : ∀ H H1 : History, H1.current = H.current → H1.chain = H.chain → Q H → Q H1
  pop : ∀ H : History, Q H → Q (H.pop ts)
  push : ∀ (H : History) (from_ to_ : Symbol), Q H → Q (H.push from_ to_ ts)
  promote : ∀ (H : History) (to_ : Symbol), H.chain = [] → P H → Q H → Q (H.promote to_ ts)

/-- Every node on the caller chain is active (`start != UINT64_MAX`), and
`first_start` of `root` is a 64-bit value. -/
def History.Active (H : History) : Prop :=
  (∀ f ∈ H.nodes, f.start ≠ UINT64_MAX) ∧ H.root.first_start < U64

/-- The node `f` and the nodes below it along the path `q` are active, and
every other node of the tree of `f` is inactive. -/
def Func.Spine : Func → List Nat → Prop
  | f, [] => f.start ≠ UINT64_MAX ∧ ∀ c ∈ f.callee, c.idle = true
  | f, i :: is =>
    f.start ≠ UINT64_MAX ∧
      ∃ c, f.callee[i]? = some c ∧ Func.Spine c is ∧
        ∀ j d, j ≠ i → f.callee[j]? = some d → d.idle = true

/-- The histories `History::replay` produces from one constructed at a time
strictly between 0 and `UINT64_MAX`, by actions whose timestamps lie strictly
between 0 and `UINT64_MAX`, none of them replayed when `first_start` of `root`
is 0. -/
inductive History.ReachableActive : History → Prop
  | init (s : Symbol) (ts c t : Nat) :
    0 < ts → ts < UINT64_MAX → History.ReachableActive (History.new s ts c t)
  | step {H : History} (a : Action) :
    History.ReachableActive H → 0 < a.ts → a.ts < UINT64_MAX → H.root.first_start ≠ 0 →
    History.ReachableActive (H.replay a).2

/-- The nodes of `chain` lead down from `f`: the first is a child of `f` and
each of the others is a child of the one before it. -/
def Func.LeadsDown : Func → List Func → Prop
  | _, [] => True
  | f, c :: rest => c ∈ f.callee ∧ Func.LeadsDown c rest

/-- The node at the end of `chain` has no children. -/
def ends_in_leaf (chain : List Func) : Bool :=
  match chain.getLast? with
  | some v => v.callee.isEmpty
  | none => false

/-- In every node of the tree `stats.sum_inferred` is at least the sum of
`stats.sum_inferred` over its children. -/
def Func.balanced (f : Func) : Bool :=
  f.all (fun g => decide (sum_inferred_of g.callee ≤ g.stats.sum_inferred))

/-! ## Totals of the statistics over a tree -/

/-- A field of `Statistics`. -/
inductive StatField where
  | sum_inferred | sum | invoked | inferred
deriving DecidableEq, Repr, Fintype

/-- The value of the field `k` of `s`. -/
def Statistics.get (s : Statistics) : StatField → Nat
  | StatField.sum_inferred => s.sum_inferred
  | StatField.sum => s.sum
  | StatField.invoked => s.invoked
  | StatField.inferred => s.inferred

mutual
/-- The total of the field `k` of `stats` over all the nodes of the tree. -/
def Func.total (k : StatField) : Func → Nat
  | ⟨_, callee, _, _, _, _, _, _, _, stats⟩ => stats.get k + Func.total_list k callee
/-- The total of the field `k` of `stats` over all the nodes of the trees. -/
def Func.total_list (k : StatField) : List Func → Nat
  | [] => 0
  | c :: cs => Func.total k c + Func.total_list k cs
end

/-! ## replay.cpp: Func::ret and the FTF sink -/

/-- The statements of `Func::ret` under `if (perfetto)` (replay.cpp:75-80) for
the sink `p`: they come after `end = ts` and `start = UINT64_MAX`, so they
read the fields of the node as `Func.ret` leaves them. -/
def Func.ret_emit (f : Func) (ts : Nat) (p : Perfetto) : Perfetto :=
  let f1 := f.ret ts
  if f1.start_is_inferred then
    p.emit_function f1.tid f1.tid f1.sym.name f1.start EventType.COMPLETE ts
  else p.emit_function f1.tid f1.tid f1.sym.name ts EventType.END 0

/-! ## driver.cpp: the command line -/

/-- An option as `getopt` returns it in the loop of `main` (driver.cpp:36),
with its argument; a number is the value `std::stol` reads from the argument.
The options `-l -s -S -W -I -C -O -E -P` set variables that the code up to
`real_parallel` does not read: they are `other`.  Any other character goes to
the `default:` of the switch: it is `usage`. -/
inductive DriverOpt where
  | j (n : Nat)
  | c (n : Int)
  | t (tr_str : String)
  | other
  | usage
deriving DecidableEq, Repr

/-- The variables of `main` (driver.cpp:17-20) that decide the number of
readers; `cpu_map` is a `std::map<int, std::vector<std::string>>`, kept as an
association list sorted by key. -/
structure Driver where
  parallel : Nat
  cpu : Int
  cpu_map : List (Int × List String)
deriving DecidableEq, Repr

/-- The variables as `main` initialises them: `parallel = 0`, `cpu = -1`,
`cpu_map = {{-1, {}}}`. -/
def Driver.new : Driver := ⟨0, -1, [(-1, [])]⟩

/-- The statement `cpu_map[cpu].push_back(x)`; `operator[]` makes an empty
vector for a key that is not there. -/
def cpu_map_push (cpu : Int) (x : String) : List (Int × List String) → List (Int × List String)
  | [] => [(cpu, [x])]
  | (k, v) :: m =>
    if cpu < k then (cpu, [x]) :: (k, v) :: m
    else if k = cpu then (k, v ++ [x]) :: m
    else (k, v) :: cpu_map_push cpu x m

/-- The expression `cpu_map[cpu].size()`. -/
def cpu_map_size (cpu : Int) : List (Int × List String) → Nat
  | [] => 0
  | (k, v) :: m => if k = cpu then v.length else cpu_map_size cpu m

/-- The loop `while (tr_pos < tr_str.size())` of the option `-t`
(driver.cpp:53) over the characters still to read, `seg` being the characters
read since the last comma: the substrings it pushes.  A substring closed by a
comma is pushed even when it is empty; what follows the last comma is pushed
when it is not empty. -/
def split_traces : List Char → List Char → List String
  | [], seg => if seg.isEmpty then [] else [String.mk seg]
  | ch :: rest, seg =>
    if ch = ',' then String.mk seg :: split_traces rest []
    else split_traces rest (seg ++ [ch])

/-- A round of the `switch (opt)` of `main` (driver.cpp:37); `none` is
`exit(EXIT_FAILURE)`. -/
def Driver.option (d : Driver) : DriverOpt → Option Driver
  | DriverOpt.j n => some { d with parallel := n }
  | DriverOpt.c n => some { d with cpu := n }
  | DriverOpt.t tr_str =>
    if d.cpu = -1 then none
    else
      some { d with
        cpu_map := (split_traces tr_str.data []).foldl (fun m x => cpu_map_push d.cpu x m)
          d.cpu_map }
  | DriverOpt.other => some d
  | DriverOpt.usage => none

/-- The loop `while ((opt = getopt(...)) != -1)` of `main` over the options of
the command line. -/
def Driver.getopt_loop : List DriverOpt → Driver → Option Driver
  | [], d => some d
  | o :: os, d =>
    match d.option o with
    | none => none
    | some d1 => Driver.getopt_loop os d1

/-- The value of `streams` (driver.cpp:103-113); `args` are the arguments that
follow the options, `argv[optind..]`. -/
def Driver.streams (d : Driver) (args : List String) : Nat :=
  if d.cpu_map.length > 1 then d.cpu_map.length - 1
  else cpu_map_size (-1) (args.foldl (fun m x => cpu_map_push (-1) x m) d.cpu_map)

/-- The expression `std::max(1UL, parallel / streams)` (driver.cpp:115): a
division of two `size_t`, undefined when `streams` is 0, which is `none`. -/
def Driver.real_parallel (parallel streams : Nat) : Option Nat :=
  if streams = 0 then none else some (max 1 (parallel / streams))

/-- The run of `main` up to the initialisation of `real_parallel`
(driver.cpp:14-115): `none` when the option loop exits, else the value of
`streams` and what the division gives. -/
def Driver.main (opts : List DriverOpt) (args : List String) : Option (Nat × Option Nat) :=
  match Driver.getopt_loop opts Driver.new with
  | none => none
  | some d => some (d.streams args, Driver.real_parallel d.parallel (d.streams args))

/-! ## The string registry of the FTF sink -/

/-- The values of `cat_index` and `str_index` in `emit_event_header`
(perfetto.cpp:19-20), and the sink at the moment `emit_header` is called for
the event. -/
def Perfetto.event_indices (p : Perfetto) (tid pid : Nat) (cat str : String) :
    Nat × Nat × Perfetto :=
  let r1 := p.register_thread tid pid
  let r2 := r1.2.register_string cat
  let r3 := r2.2.register_string str
  (r2.1, r3.1, r3.2)

/-- The string the registry of a reader of the stream holds for the index
`idx`: the one of the most recent string record written for `idx`.  The sink
writes a string record for `string_index` exactly where it assigns
`rstrings[string_index]`, so this is the entry of `rstrings`. -/
def Perfetto.registry (p : Perfetto) (idx : Nat) : Option String := umap_find idx p.rstrings

/-- The strings registered so far, in the order of their registration, after
`s` is looked up too. -/
def registered (L : List String) (s : String) : List String := if s ∈ L then L else L ++ [s]

/-- The strings of `L` were registered one after the other in a sink that was
made new, and the index has not been reused: the string at position `i` has
the index `i + 1` in both maps, no other string and no other index has an
entry, and `string_index` is the next index, which is 1 again after 32767
strings. -/
structure Perfetto.Holds (p : Perfetto) (L : List String) : Prop where
  nodup : L.Nodup
  len : L.length ≤ 32767
  found : ∀ i s, L[i]? = some s → umap_find s p.strings = some (i + 1)
  missing : ∀ s, s ∉ L → umap_find s p.strings = none
  rfound : ∀ i s, L[i]? = some s → umap_find (i + 1) p.rstrings = some s
  rmissing : ∀ idx, L.length < idx → umap_find idx p.rstrings = none
  index : p.string_index = if L.length = 32767 then 1 else L.length + 1

/-! ## Interleavings of the readers -/

/-- The list `out` is an interleaving of the lists `r i`, `i < N`: it is made by
taking, again and again, the first element of one of the lists, until all of
them are empty. -/
inductive Interleaved (N : Nat) : (Nat → List Action) → List Action → Prop
  | nil {r : Nat → List Action} : (∀ i, i < N → r i = []) → Interleaved N r []
  | cons {r : Nat → List Action} {out : List Action} (i : Nat) (a : Action) (t : List Action) :
    i < N → r i = a :: t → Interleaved N (Function.update r i t) out →
    Interleaved N r (a :: out)

/-- What a `MergeWrapper` has still to return of the reader `i`: the action of
the reader that waits in the heap, unless it is an END, and then what the
reader has still to yield. -/
def MergeWrapper.rest (mw : MergeWrapper) (i : Nat) : List Action :=
  ((mw.action_heap.filter (fun w => decide (w.tr = i) && decide (w.act.inst ≠ Inst.END))).map
    ActionWrapper.act) ++ (mw.readers i).pending

/-- The state of a `MergeWrapper` over `N` readers between two calls that find
`block` empty: the heap has at most one wrapper of each reader, and only of the
readers below `N`; a reader that has no action waiting in the heap has nothing
left to yield; no reader yields an END before it is exhausted. -/
structure MergeWrapper.Fed (mw : MergeWrapper) (N : Nat) : Prop where
  multi : mw.single_source = false
  block : mw.block = []
  range : ∀ w ∈ mw.action_heap, w.tr < N
  one : ∀ i, (mw.action_heap.filter (fun w => decide (w.tr = i))).length ≤ 1
  drained : ∀ i, (∀ w ∈ mw.action_heap, w.tr = i → w.act.inst = Inst.END) →
    (mw.readers i).pending = []
  pending : ∀ i, ∀ a ∈ (mw.readers i).pending, a.inst ≠ Inst.END

/-! ## Example data -/

/-- An action of thread 42 on cpu 0. -/
def act (i : Inst) (f t : Symbol) (ts : Nat) : Action := ⟨i, f, t, ts, 42, 0⟩

/-- The entry of `main`. -/
def sym_main : Symbol := ⟨"main", 0x1000, 0⟩

/-- The return site `main+5`. -/
def sym_main5 : Symbol := ⟨"main", 0x1005, 5⟩

/-- The entry of `foo`. -/
def sym_foo : Symbol := ⟨"foo", 0x2000, 0⟩

/-- A site inside `foo`. -/
def sym_foo42 : Symbol := ⟨"foo", 0x202a, 0x2a⟩

/-- The entry of `a`. -/
def sym_a : Symbol := ⟨"a", 0x3000, 0⟩

/-- A call site inside `a`. -/
def sym_a4 : Symbol := ⟨"a", 0x3004, 4⟩

/-- The entry of `b`. -/
def sym_b : Symbol := ⟨"b", 0x4000, 0⟩

/-- A return site inside `b`. -/
def sym_b9 : Symbol := ⟨"b", 0x4009, 9⟩

/-- The entry of `x`. -/
def sym_x : Symbol := ⟨"x", 0x5000, 0⟩

/-- The entry of `y`. -/
def sym_y : Symbol := ⟨"y", 0x6000, 0⟩

/-- The return site `z+5`. -/
def sym_z5 : Symbol := ⟨"z", 0x7005, 5⟩

/-- A history of thread 42 rooted at `main` at time 10, in which `main` has
called `foo` at time 20: `current` is `foo`, its caller is the root `main`. -/
def hist_main_foo : History :=
  ((History.new sym_main 10 0 42).replay (act Inst.CALL sym_main sym_foo 20)).2

/-- The unknown symbol `?` of the scenarios: no name, address 0. -/
def sym_unknown : Symbol := ⟨"[unknown]", 0, 0⟩

/-- A function whose entry is five bytes below the top of the address space. -/
def sym_top : Symbol := ⟨"top", 0xfffffffffffffffb, 0⟩

/-- The same address, without a name. -/
def sym_top_unknown : Symbol := ⟨"[unknown]", 0xfffffffffffffffb, 0⟩

/-- The `Statistics` values built from the default one by `add_sample` and
`merge_stat`; the number counts the samples that went into the value. -/
inductive Statistics.Built : Statistics → Nat → Prop
  | zero : Statistics.Built Statistics.zero 0
  | add {s : Statistics} {n : Nat} (t : Nat) (inferred_sample : Bool) :
    Statistics.Built s n → Statistics.Built (s.add_sample t inferred_sample) (n + 1)
  | merge {s o : Statistics} {n m : Nat} :
    Statistics.Built s n → Statistics.Built o m → Statistics.Built (s.merge_stat o) (n + m)

/-- The function `f` of scenario 5 as the first thread has it. -/
def sym_f1 : Symbol := ⟨"f", 0x2000, 0⟩

/-- The function `f` of scenario 5 as the second thread has it, at another
address. -/
def sym_f2 : Symbol := ⟨"f", 0x9000, 0⟩

/-- The entry of `r`. -/
def sym_r : Symbol := ⟨"r", 0x8000, 0⟩

/-- The return site `r+5`. -/
def sym_r5 : Symbol := ⟨"r", 0x8005, 5⟩

/-- The actions of scenario 5: the threads 1 and 2 each do `CALL r -> f` and
`RET f -> r+5`, with different addresses for `f`. -/
def scenario5 : List Action :=
  [⟨Inst.CALL, sym_r, sym_f1, 100, 1, 0⟩, ⟨Inst.RET, sym_f1, sym_r5, 200, 1, 0⟩,
    ⟨Inst.CALL, sym_r, sym_f2, 100, 2, 1⟩, ⟨Inst.RET, sym_f2, sym_r5, 200, 2, 1⟩]

/-- The call site `__libc_recv+0x79` of a `syscall` instruction. -/
def sym_recv79 : Symbol := ⟨"__libc_recv", 0x1079, 0x79⟩

/-- The entry of `__entry_text_start`, where a `syscall` lands. -/
def sym_entry : Symbol := ⟨"__entry_text_start", 0x5000, 0⟩

/-- The call site `entry_SYSCALL_64_after_hwframe+0x3f`. -/
def sym_hwframe3f : Symbol := ⟨"entry_SYSCALL_64_after_hwframe", 0x603f, 0x3f⟩

/-- The entry of `do_syscall_64`. -/
def sym_do_syscall : Symbol := ⟨"do_syscall_64", 0x7000, 0⟩

/-- The trace around a syscall of the comment at replay.cpp:257, replayed on a
history of thread 42 constructed at `__libc_recv+0x79`. -/
def hist_syscall : History :=
  (((History.new sym_recv79 10 0 42).replay (act Inst.SYSCALL sym_recv79 sym_entry 20)).2.replay
    (act Inst.CALL sym_hwframe3f sym_do_syscall 30)).2

/-- An action of thread `tid` at time `ts`. -/
def act_at (ts tid : Nat) : Action := ⟨Inst.CALL, sym_a, sym_b, ts, tid, 0⟩

/-- The contents of an uninitialised `Action`. -/
def act_junk : Action := ⟨Inst.END, sym_unknown, sym_unknown, 0, 0, 0⟩

/-- A reader with the timestamps 1, 3, 5, all of thread `tid`. -/
def src_135 (tid : Nat) : Source := ⟨[act_at 1 tid, act_at 3 tid, act_at 5 tid], act_junk⟩

/-- A reader with the timestamps 2, 4, 6, all of thread `tid`. -/
def src_246 (tid : Nat) : Source := ⟨[act_at 2 tid, act_at 4 tid, act_at 6 tid], act_junk⟩

/-- A history of thread 42 constructed at `main` at time 1, in which two
returns were replayed at the root, at the times 2 and 3: each of them made a
new root above the old one. -/
def hist_promoted_twice : History :=
  (((History.new sym_main 1 0 42).replay (act Inst.RET sym_main sym_z5 2)).2.replay
    (act Inst.RET sym_z5 sym_y 3)).2

/-- The tree `destructive_merge_all` returns for scenario 5: `/global_root/`
with the child `r`, which has the child `f`. -/
def tree5 : Func :=
  match ((Replay.run Replay.empty scenario5).cleanup).destructive_merge_all.1 with
  | some G => G
  | none => Func.new global_root_function 0 0

/-- A function name of 32753 bytes. -/
def long_name : String := String.mk (List.replicate 32753 (Char.ofNat 97))

/-- A history of thread 42 constructed at `main` at time 10, in which a return
to `z+5` was replayed at the root at time 20: `current` is the new root `z`,
made by `make_new_root` with `start = 9` and `start_is_inferred` set. -/
def hist_new_root : History :=
  ((History.new sym_main 10 0 42).replay (act Inst.RET sym_main sym_z5 20)).2

/-- The sink after `emit_magic` and after the return of `main` at time 20 has
written its END event. -/
def sink_main_returned : Perfetto :=
  (History.new sym_main 10 0 42).current.ret_emit 20 Perfetto.new.emit_magic

/-- The names `a`, `aa`, `aaa`, ...: 32766 function names, all different. -/
def wrap_names : List String :=
  (List.range 32766).map (fun i => String.mk (List.replicate (i + 1) (Char.ofNat 97)))

/-- The sink after `emit_magic` and a BEGIN event of thread 42 for each of the
names of `wrap_names`. -/
def sink_wrapped : Perfetto :=
  Perfetto.new.emit_magic.emit_all (wrap_names.map (fun s => ⟨42, 42, s, 0, EventType.BEGIN, 0⟩))


/-! ## Caller lookup -/

theorem nearestIdx_eq_none {p : Func → Bool} {fs : List Func} :
    nearestIdx p fs = none ↔ ∀ f ∈ fs, p f = false := by
  induction fs with
  | nil => simp [nearestIdx]
  | cons f fs ih =>
    by_cases hp : p f = true
    · simp [nearestIdx, hp]
    · simp only [Bool.not_eq_true] at hp
      simp [nearestIdx, hp, ih]

theorem nearestIdx_eq_some {p : Func → Bool} {fs : List Func} {k : Nat} :
    nearestIdx p fs = some k ↔ NearestAt p fs k := by
  induction fs generalizing k with
  | nil => simp [nearestIdx, NearestAt]
  | cons f fs ih =>
    by_cases hp : p f = true
    · simp only [nearestIdx, hp, if_true, Option.some.injEq]
      constructor
      · intro h
        subst h
        exact ⟨⟨f, by simp, hp⟩, fun j hj => absurd hj (Nat.not_lt_zero j)⟩
      · rintro ⟨_, h2⟩
        rcases Nat.eq_zero_or_pos k with h0 | h0
        · exact h0.symm
        · have := h2 0 h0 f (by simp)
          simp [hp] at this
    · simp only [Bool.not_eq_true] at hp
      simp only [nearestIdx, hp, Bool.false_eq_true, if_false, Option.map_eq_some']
      constructor
      · rintro ⟨a, ha, rfl⟩
        obtain ⟨⟨g, hg, hpg⟩, h2⟩ := ih.mp ha
        refine ⟨⟨g, by simpa using hg, hpg⟩, fun j hj g1 hg1 => ?_⟩
        cases j with
        | zero => simp at hg1; subst hg1; exact hp
        | succ j => exact h2 j (by omega) g1 (by simpa using hg1)
      · rintro ⟨⟨g, hg, hpg⟩, h2⟩
        cases k with
        | zero => simp at hg; subst hg; simp [hp] at hpg
        | succ k =>
          refine ⟨k, ih.mpr ⟨⟨g, by simpa using hg, hpg⟩, fun j hj g1 hg1 => ?_⟩, rfl⟩
          exact h2 (j + 1) (by omega) g1 (by simpa using hg1)

theorem NearestAt.lt_length {p : Func → Bool} {fs : List Func} {k : Nat}
    (h : NearestAt p fs k) : k < fs.length := by
  obtain ⟨⟨f, hf, _⟩, _⟩ := h
  exact (List.getElem?_eq_some_iff.mp hf).1

theorem find_caller_loop_eq (limit : Nat) (s : Symbol) (pred : Func → Symbol → Bool)
    (fs : List Func) (c d : Nat) (h : c + fs.length ≤ limit) (hl : limit < U64) :
    find_caller_loop limit s pred fs c d = (nearestIdx (fun f => pred f s) fs).map (· + d) := by
  induction fs generalizing c d with
  | nil => simp [find_caller_loop, nearestIdx]
  | cons f fs ih =>
    simp only [List.length_cons] at h
    have hc : uadd c 1 = c + 1 := by
      unfold uadd
      exact Nat.mod_eq_of_lt (by omega)
    by_cases hp : pred f s = true
    · simp [find_caller_loop, nearestIdx, hp, hc]
      omega
    · simp only [Bool.not_eq_true] at hp
      have hlt : c < limit := by omega
      simp only [find_caller_loop, hlt, hp, and_self, if_true, nearestIdx, Bool.false_eq_true,
        if_false, hc]
      rw [ih (c + 1) (d + 1) (by omega)]
      cases nearestIdx (fun f => pred f s) fs with
      | none => rfl
      | some k => simp; omega

theorem find_caller_eq (s : Symbol) (pred : Func → Symbol → Bool) (fs : List Func)
    (h : fs.length ≤ UINT64_MAX) :
    find_caller no_limit s pred fs = nearestIdx (fun f => pred f s) fs := by
  unfold find_caller
  rw [find_caller_loop_eq no_limit s pred fs 0 0 (by simpa [no_limit] using h)
    (by decide)]
  cases nearestIdx (fun f => pred f s) fs <;> simp

/-! ## Unwinding -/

theorem SameFrame.refl (a : Func) : SameFrame a a :=
  ⟨rfl, rfl, rfl, rfl, rfl, rfl, rfl, rfl⟩

theorem History.unwind_succ (H : History) (ts k : Nat) :
    H.unwind ts (k + 1) = (H.unwind ts k).pop ts := by
  induction k generalizing H with
  | zero => rfl
  | succ k ih =>
    show (H.pop ts).unwind ts (k + 1) = ((H.pop ts).unwind ts k).pop ts
    exact ih (H.pop ts)

theorem History.unwind_chain (H : History) (ts k : Nat) (hk : k ≤ H.chain.length) :
    (H.unwind ts k).chain = H.chain.drop k := by
  induction k generalizing H with
  | zero => rfl
  | succ k ih =>
    cases hc : H.chain with
    | nil => simp [hc] at hk
    | cons fr rest =>
      have hp : (H.pop ts).chain = rest := by simp [History.pop, hc]
      show ((H.pop ts).unwind ts k).chain = _
      rw [ih (H.pop ts) (by rw [hp]; simpa [hc] using hk), hp]
      rfl

/-- The frame reached by unwinding `k` levels is the node at depth `k` of the
chain. -/
theorem History.unwind_current (H : History) (ts k : Nat) (hk : k ≤ H.chain.length) :
    ∃ f, H.nodes[k]? = some f ∧ SameFrame (H.unwind ts k).current f := by
  induction k generalizing H with
  | zero => exact ⟨H.current, by simp [History.nodes], SameFrame.refl _⟩
  | succ k ih =>
    cases hc : H.chain with
    | nil => simp [hc] at hk
    | cons fr rest =>
      have hp : (H.pop ts).chain = rest := by simp [History.pop, hc]
      obtain ⟨f, hf, h⟩ := ih (H.pop ts) (by rw [hp]; simpa [hc] using hk)
      show ∃ f, H.nodes[k + 1]? = some f ∧ SameFrame ((H.pop ts).unwind ts k).current f
      cases k with
      | zero =>
        refine ⟨fr.node, by simp [History.nodes, hc], ?_⟩
        simp [History.unwind, History.pop, hc, Frame.plug, SameFrame]
      | succ k =>
        refine ⟨f, ?_, h⟩
        simpa [History.nodes, hc, hp] using hf

theorem Func.call_start (f : Func) (from_ s : Symbol) (ts : Nat) :
    (f.call from_ s ts).2.start = ts := by
  simp only [Func.call]
  split <;> rfl

theorem History.nodes_length (H : History) : H.nodes.length = H.chain.length + 1 := by
  simp [History.nodes]

/-- C1. `History::call(from, to, ts)` returns false iff no frame on the caller
chain from `current` up has the base or the name of `from`.  Otherwise the
frame `F` it chooses is the nearest base-matching frame when some frame of the
chain base-matches, else the nearest name-matching frame; the frames below `F`
are returned, and on return `current` is the child given by
`F.call(from, to, ts)`, its caller is `F` and its `start` is `ts`. -/
theorem History.call_spec (H : History) (from_ to_ : Symbol) (ts : Nat)
    (hlen : H.nodes.length ≤ UINT64_MAX) :
    ((H.call from_ to_ ts).1 = false ↔
        ∀ f ∈ H.nodes, f.base_match from_ = false ∧ f.name_match from_ = false) ∧
      ((H.call from_ to_ ts).1 = true → ∃ k, CallChoice H from_ k) ∧
      ∀ k, CallChoice H from_ k →
        (H.call from_ to_ ts).1 = true ∧
          (∃ f, H.nodes[k]? = some f ∧ SameFrame (H.unwind ts k).current f) ∧
          (H.call from_ to_ ts).2.current = ((H.unwind ts k).current.call from_ to_ ts).2 ∧
          (H.call from_ to_ ts).2.chain =
            ((H.unwind ts k).current.call from_ to_ ts).1 :: H.chain.drop k ∧
          (H.call from_ to_ ts).2.current.start = ts := by
  have key : ∀ k, CallChoice H from_ k →
      H.call from_ to_ ts =
        (true, { H.unwind ts k with
          current := ((H.unwind ts k).current.call from_ to_ ts).2
          chain := ((H.unwind ts k).current.call from_ to_ ts).1 :: (H.unwind ts k).chain }) := by
    intro k hk
    unfold History.call
    rw [find_caller_eq _ _ _ hlen, find_caller_eq _ _ _ hlen]
    rcases hk with hb | ⟨hnb, hn⟩
    · rw [nearestIdx_eq_some.mpr hb]
    · rw [nearestIdx_eq_none.mpr hnb, nearestIdx_eq_some.mpr hn]
  have hfalse : (H.call from_ to_ ts).1 = false ↔
      ∀ f ∈ H.nodes, f.base_match from_ = false ∧ f.name_match from_ = false := by
    constructor
    · intro h
      have hb : nearestIdx (fun f => f.base_match from_) H.nodes = none := by
        cases hb : nearestIdx (fun f => f.base_match from_) H.nodes with
        | none => rfl
        | some k =>
          rw [key k (Or.inl (nearestIdx_eq_some.mp hb))] at h
          simp at h
      have hn : nearestIdx (fun f => f.name_match from_) H.nodes = none := by
        cases hn : nearestIdx (fun f => f.name_match from_) H.nodes with
        | none => rfl
        | some k =>
          rw [key k (Or.inr ⟨nearestIdx_eq_none.mp hb, nearestIdx_eq_some.mp hn⟩)] at h
          simp at h
      exact fun f hf => ⟨nearestIdx_eq_none.mp hb f hf, nearestIdx_eq_none.mp hn f hf⟩
    · intro h
      unfold History.call
      rw [find_caller_eq _ _ _ hlen, find_caller_eq _ _ _ hlen,
        nearestIdx_eq_none.mpr (fun f hf => (h f hf).1),
        nearestIdx_eq_none.mpr (fun f hf => (h f hf).2)]
  refine ⟨hfalse, ?_, ?_⟩
  · intro h
    cases hb : nearestIdx (fun f => f.base_match from_) H.nodes with
    | some k => exact ⟨k, Or.inl (nearestIdx_eq_some.mp hb)⟩
    | none =>
      cases hn : nearestIdx (fun f => f.name_match from_) H.nodes with
      | some k => exact ⟨k, Or.inr ⟨nearestIdx_eq_none.mp hb, nearestIdx_eq_some.mp hn⟩⟩
      | none =>
        have := hfalse.mpr
          (fun f hf => ⟨nearestIdx_eq_none.mp hb f hf, nearestIdx_eq_none.mp hn f hf⟩)
        rw [this] at h
        exact absurd h (by decide)
  · intro k hk
    have hkl : k ≤ H.chain.length := by
      have : k < H.nodes.length := by
        rcases hk with hb | ⟨_, hn⟩
        · exact hb.lt_length
        · exact hn.lt_length
      rw [History.nodes_length] at this
      omega
    rw [key k hk]
    refine ⟨rfl, H.unwind_current ts k hkl, rfl, ?_, Func.call_start _ _ _ _⟩
    show _ :: (H.unwind ts k).chain = _
    rw [H.unwind_chain ts k hkl]

theorem History.call_spec_witness :
    hist_main_foo.nodes.length ≤ UINT64_MAX ∧
      ((hist_main_foo.call sym_main sym_a 30).1 = true →
        ∃ k, CallChoice hist_main_foo sym_main k) :=
  ⟨by decide, (History.call_spec hist_main_foo sym_main sym_a 30 (by decide)).2.1⟩

/-! ## Func::ret -/

theorem Statistics.add_sample_invoked (s : Statistics) (t : Nat) (b : Bool) :
    (s.add_sample t b).invoked = uadd s.invoked 1 := by
  cases b <;> rfl

theorem Func.ret_invoked (f : Func) (ts : Nat) :
    (f.ret ts).stats.invoked = uadd f.stats.invoked 1 := by
  simp only [Func.ret]
  split <;> exact Statistics.add_sample_invoked _ _ _

/-! ## History::ret -/

theorem History.pop_current (H : History) (ts : Nat) {fr : Frame} {rest : List Frame}
    (hc : H.chain = fr :: rest) :
    (H.pop ts).current =
      Frame.plug { fr with node := { fr.node with call_address := 0 } } (H.current.ret ts) := by
  simp [History.pop, hc]

/-- The statement `current = current->ret(ts)` number `j` of an unwinding loop
returns the frame at depth `j` of the chain and puts its node back under its
caller. -/
theorem History.unwind_step (H : History) (ts j : Nat) (hj : j < H.chain.length) :
    ∃ f fr, H.nodes[j]? = some f ∧ H.chain[j]? = some fr ∧
      SameFrame (H.unwind ts j).current f ∧
      H.unwind ts (j + 1) = (H.unwind ts j).pop ts ∧
      (H.unwind ts (j + 1)).current =
        Frame.plug { fr with node := { fr.node with call_address := 0 } }
          ((H.unwind ts j).current.ret ts) := by
  obtain ⟨f, hf, hsame⟩ := H.unwind_current ts j (by omega)
  have hchain : (H.unwind ts j).chain = H.chain[j] :: H.chain.drop (j + 1) := by
    rw [H.unwind_chain ts j (by omega)]
    exact List.drop_eq_getElem_cons hj
  refine ⟨f, H.chain[j], hf, List.getElem?_eq_getElem hj, hsame, H.unwind_succ ts j, ?_⟩
  rw [H.unwind_succ ts j]
  exact History.pop_current _ ts hchain


theorem History.ret_eq_of_choice (H : History) (from_ to_ : Symbol) (ts k : Nat)
    (hc : H.chain ≠ []) (hlen : H.nodes.length ≤ UINT64_MAX) (hk : RetChoice H to_ k) :
    H.ret from_ to_ ts = (true, H.unwind ts k) := by
  have hl : (H.chain.map Frame.node).length ≤ UINT64_MAX := by
    rw [History.nodes_length] at hlen
    simp only [List.length_map]
    omega
  unfold History.ret
  cases hch : H.chain with
  | nil => exact absurd hch hc
  | cons fr rest =>
    simp only
    rw [← hch, find_caller_eq _ _ _ hl, find_caller_eq _ _ _ hl]
    rcases hk with ⟨j, rfl, hj⟩ | ⟨hn, hk⟩
    · rw [nearestIdx_eq_some.mpr hj]
    · rw [nearestIdx_eq_none.mpr hn]
      rcases hk with ⟨hcur, rfl⟩ | ⟨hcur, hk⟩
      · simp [hcur]
      · rcases hk with ⟨j, rfl, hj⟩ | ⟨hnn, hcn, rfl⟩
        · simp [hcur, nearestIdx_eq_some.mpr hj]
        · simp [hcur, nearestIdx_eq_none.mpr hnn, hcn]

theorem RetChoice.le_length {H : History} {to_ : Symbol} {k : Nat} (hk : RetChoice H to_ k) :
    k ≤ H.chain.length := by
  rcases hk with ⟨j, rfl, hj⟩ | ⟨_, ⟨_, rfl⟩ | ⟨_, ⟨j, rfl, hj⟩ | ⟨_, _, rfl⟩⟩⟩
  · simpa using hj.lt_length
  · exact Nat.zero_le _
  · simpa using hj.lt_length
  · exact Nat.zero_le _

/-- C2, as the code has it.  When `History::ret` (`current` has a caller) finds
a matching frame `F`, `k` levels above `current`, it returns true after running
`current = current->ret(ts)` exactly `k` times: each of the `k` frames below
`F` is returned (its node gets `end = ts` and `start = UINT64_MAX`) and `F`
itself is not.  Afterwards `current` is `F`, with the callers `F` had, and `F`
keeps its start, its flags and its statistics. -/
theorem History.ret_stops_at_match (H : History) (from_ to_ : Symbol) (ts k : Nat)
    (hc : H.chain ≠ []) (hlen : H.nodes.length ≤ UINT64_MAX) (hk : RetChoice H to_ k) :
    H.ret from_ to_ ts = (true, H.unwind ts k) ∧
      (∃ f, H.nodes[k]? = some f ∧ SameFrame (H.ret from_ to_ ts).2.current f) ∧
      (H.ret from_ to_ ts).2.chain = H.chain.drop k ∧
      ∀ j, j < k →
        ∃ f fr, H.nodes[j]? = some f ∧ H.chain[j]? = some fr ∧
          SameFrame (H.unwind ts j).current f ∧
          H.unwind ts (j + 1) = (H.unwind ts j).pop ts ∧
          (H.unwind ts (j + 1)).current =
            Frame.plug { fr with node := { fr.node with call_address := 0 } }
              ((H.unwind ts j).current.ret ts) ∧
          ((H.unwind ts j).current.ret ts).end_ = ts ∧
          ((H.unwind ts j).current.ret ts).start = UINT64_MAX := by
  rw [H.ret_eq_of_choice from_ to_ ts k hc hlen hk]
  refine ⟨rfl, H.unwind_current ts k hk.le_length, H.unwind_chain ts k hk.le_length, ?_⟩
  intro j hj
  obtain ⟨f, fr, h1, h2, h3, h4, h5⟩ := H.unwind_step ts j (Nat.lt_of_lt_of_le hj hk.le_length)
  exact ⟨f, fr, h1, h2, h3, h4, h5, rfl, rfl⟩

theorem hist_main_foo_choice : RetChoice hist_main_foo sym_main5 1 := by
  refine Or.inl ⟨0, rfl, ⟨?_, ?_⟩, fun j hj => absurd hj (Nat.not_lt_zero j)⟩
  · exact (hist_main_foo.chain.map Frame.node)[0]
  · exact ⟨rfl, by decide⟩

theorem History.ret_stops_at_match_witness :
    hist_main_foo.chain ≠ [] ∧ hist_main_foo.nodes.length ≤ UINT64_MAX ∧
      RetChoice hist_main_foo sym_main5 1 ∧
      (hist_main_foo.ret sym_foo sym_main5 30).2.chain = hist_main_foo.chain.drop 1 :=
  ⟨List.ne_nil_of_length_pos (by decide), by decide, hist_main_foo_choice,
    (History.ret_stops_at_match hist_main_foo sym_foo sym_main5 30 1
      (List.ne_nil_of_length_pos (by decide)) (by decide) hist_main_foo_choice).2.2.1⟩

/-- C2, as stated, fails.  In the history `main -> foo` the return
`foo -> main+5` matches the frame `main` (the caller of `current`, by its
return address); after the successful `ret` the matched frame `main` is
`current` itself, not its caller (it has none), it is still active
(`start = 10`) and it has recorded no sample. -/
theorem History.ret_matched_frame_not_returned :
    hist_main_foo.chain ≠ [] ∧ RetChoice hist_main_foo sym_main5 1 ∧
      (hist_main_foo.ret sym_foo sym_main5 30).1 = true ∧
      (hist_main_foo.ret sym_foo sym_main5 30).2.current.sym = sym_main ∧
      (hist_main_foo.ret sym_foo sym_main5 30).2.chain.length = 0 ∧
      (hist_main_foo.ret sym_foo sym_main5 30).2.current.start = 10 ∧
      (hist_main_foo.ret sym_foo sym_main5 30).2.current.start ≠ UINT64_MAX ∧
      (hist_main_foo.ret sym_foo sym_main5 30).2.current.stats.invoked = 0 :=
  ⟨List.ne_nil_of_length_pos (by decide), hist_main_foo_choice, by decide, by decide,
    by decide, by decide, by decide, by decide⟩

/-- C3. Root promotion: when `current` has no caller, `History::ret(from, to,
ts)` returns true; the old root records one sample ending at `ts` (it is
`current->ret(ts)`) and is the only child of a new root with symbol
`(to.name, to.address - to.offset, 0)`, `first_start` one less than that of the
old root and `start_is_inferred` set; the new root has no caller and is
`current`.  In scenario 4 (`CALL x -> y @100`, `RET y -> z+5 @200` on a fresh
`Replay`) the history of the thread has the root `z` as `current`, with
`first_start = 99`. -/
theorem History.ret_root_promotion (H : History) (from_ to_ : Symbol) (ts : Nat)
    (hc : H.chain = []) :
    ((H.ret from_ to_ ts).1 = true ∧
        (H.ret from_ to_ ts).2.chain = [] ∧
        (H.ret from_ to_ ts).2.root = (H.ret from_ to_ ts).2.current ∧
        (H.ret from_ to_ ts).2.current.callee = [H.current.ret ts] ∧
        (H.current.ret ts).end_ = ts ∧
        (H.current.ret ts).start = UINT64_MAX ∧
        (H.current.ret ts).stats.invoked = uadd H.current.stats.invoked 1 ∧
        (H.ret from_ to_ ts).2.current.sym = ⟨to_.name, usub to_.address to_.offset, 0⟩ ∧
        (H.ret from_ to_ ts).2.current.first_start = usub H.current.first_start 1 ∧
        (H.ret from_ to_ ts).2.current.start = usub H.current.first_start 1 ∧
        (H.ret from_ to_ ts).2.current.start_is_inferred = true) ∧
      ∃ h, map_find 42
          (Replay.run Replay.empty
            [act Inst.CALL sym_x sym_y 100, act Inst.RET sym_y sym_z5 200]).threads = some h ∧
        h.chain = [] ∧ h.current.sym = ⟨"z", 0x7000, 0⟩ ∧ h.current.first_start = 99 ∧
        (h.current.callee.map (fun c => c.sym)) = [sym_y] := by
  refine ⟨?_, ?_⟩
  · have hr : H.ret from_ to_ ts =
        (true, ({ H with current := H.current.ret ts }.make_new_root to_).goto_root) := by
      unfold History.ret
      rw [hc]
    rw [hr]
    refine ⟨rfl, rfl, rfl, ?_, rfl, rfl, Func.ret_invoked _ _, ?_, ?_, ?_, ?_⟩ <;>
      simp [History.goto_root, History.make_new_root, History.root, hc, zip_up, Frame.plug,
        Func.new, Func.ret]
  · exact ⟨_, rfl, rfl, by decide, by decide, by decide⟩

theorem History.ret_root_promotion_witness :
    (History.new sym_y 100 0 42).chain = [] ∧
      ((History.new sym_y 100 0 42).ret sym_y sym_z5 200).2.current.first_start = 99 :=
  ⟨rfl, by
    have h := (History.ret_root_promotion (History.new sym_y 100 0 42) sym_y sym_z5 200 rfl).1
    rw [h.2.2.2.2.2.2.2.2.1]
    decide⟩

/-! ## History::replay -/

theorem History.replay_no_flags (H : History) (a : Action) (h : H.no_flags) :
    H.replay a = H.dispatch a := by
  obtain ⟨h1, h2, h3, h4, h5, h6⟩ := h
  simp [History.replay, h1, h2, h3, h4, h5, h6]

/-- C10. In a history with no recovery flag set, `History::replay` of a JMP,
JCC or INT action returns the same result and leaves the same history as
`History::replay` of the same action with its kind changed to CALL. -/
theorem History.replay_jump_as_call (H : History) (a : Action) (h : H.no_flags)
    (hk : a.inst = Inst.JMP ∨ a.inst = Inst.JCC ∨ a.inst = Inst.INT) :
    H.replay a = H.replay { a with inst := Inst.CALL } := by
  rw [H.replay_no_flags a h, H.replay_no_flags _ h]
  rcases hk with hk | hk | hk <;> simp [History.dispatch, hk]

theorem History.replay_jump_as_call_witness :
    hist_main_foo.no_flags ∧
      ((act Inst.JMP sym_foo sym_a 30).inst = Inst.JMP ∨
        (act Inst.JMP sym_foo sym_a 30).inst = Inst.JCC ∨
        (act Inst.JMP sym_foo sym_a 30).inst = Inst.INT) ∧
      hist_main_foo.replay (act Inst.JMP sym_foo sym_a 30) =
        hist_main_foo.replay { act Inst.JMP sym_foo sym_a 30 with inst := Inst.CALL } :=
  ⟨⟨rfl, rfl, rfl, rfl, rfl, rfl⟩, Or.inl rfl,
    History.replay_jump_as_call hist_main_foo (act Inst.JMP sym_foo sym_a 30)
      ⟨rfl, rfl, rfl, rfl, rfl, rfl⟩ (Or.inl rfl)⟩

/-! ## Replay: end-to-end scenarios -/

theorem usub_one_le {t1 t2 : Nat} (h1 : 0 < t1) (h12 : t1 ≤ t2) (h2 : t2 < U64) :
    usub t1 1 = t1 - 1 := by
  unfold usub U64 at *
  rw [show t1 + 18446744073709551616 - 1 = (t1 - 1) + 18446744073709551616 by omega,
    Nat.add_mod_right]
  exact Nat.mod_eq_of_lt (by omega)

/-- C5. Simple call/return pair: on a fresh `Replay`, `CALL A -> B @t1` then
`RET B -> A+k @t2` on one thread (`B` not unknown, `0 < t1 <= t2`), followed by
`cleanup()` and `destructive_merge_all()`, gives a `/global_root/` whose only
child is the function of the return target (`A`), with `stats.invoked = 1`,
whose only child is `B`, with `stats.invoked = 1`, `stats.inferred = 0` and
`stats.sum = t2 - t1`. -/
theorem Replay.simple_call_return (tid cpu1 cpu2 : Nat) (A B B1 Ak : Symbol) (t1 t2 : Nat)
    (hB : B.is_unknown = false) (h1 : 0 < t1) (h12 : t1 ≤ t2) (h2 : t2 < U64) :
    ∃ G NA NB,
      ((Replay.run Replay.empty
          [⟨Inst.CALL, A, B, t1, tid, cpu1⟩, ⟨Inst.RET, B1, Ak, t2, tid, cpu2⟩]).cleanup
        ).destructive_merge_all.1 = some G ∧
      G.sym = global_root_function ∧ G.callee = [NA] ∧
      NA.sym = ⟨Ak.name, usub Ak.address Ak.offset, 0⟩ ∧ NA.stats.invoked = 1 ∧
      NA.callee = [NB] ∧
      NB.sym = ⟨B.name, usub B.address B.offset, 0⟩ ∧ NB.callee = [] ∧
      NB.stats.invoked = 1 ∧ NB.stats.inferred = 0 ∧ NB.stats.sum = t2 - t1 := by
  have hs := usub_one_le h1 h12 h2
  have hd : (t2 - t1) % U64 = t2 - t1 := Nat.mod_eq_of_lt (by omega)
  have hle : ¬ (t1 > t2) := by omega
  have hle1 : ¬ (t1 - 1 > t2) := by omega
  have hmax : max (t1 - 1) t2 = t2 := by omega
  refine ⟨Func.ret { Func.new global_root_function (usub (usub t1 1) 1) tid with
      start_is_inferred := true
      callee := [Func.ret { Func.new ⟨Ak.name, usub Ak.address Ak.offset, 0⟩ (usub t1 1) tid with
        start_is_inferred := true
        callee := [(Func.new ⟨B.name, usub B.address B.offset, 0⟩ t1 tid).ret t2] } t2] } t2,
    Func.ret { Func.new ⟨Ak.name, usub Ak.address Ak.offset, 0⟩ (usub t1 1) tid with
      start_is_inferred := true
      callee := [(Func.new ⟨B.name, usub B.address B.offset, 0⟩ t1 tid).ret t2] } t2,
    (Func.new ⟨B.name, usub B.address B.offset, 0⟩ t1 tid).ret t2, ?_, ?_⟩
  · simp [Replay.run, Replay.replay, Replay.empty, map_find, hB, map_emplace, map_assign,
      History.ofAction, History.new, History.replay, History.dispatch, History.ret,
      History.goto_root, History.make_new_root, History.root, zip_up, Frame.plug, Func.new,
      Replay.cleanup, Replay.cleanup_loop, map_erase, History.terminate, terminate_loop,
      Func.last_time, Func.ret, Replay.destructive_merge_all, Func.destructive_merge_funcs,
      hs, hle, hle1, hmax]
    decide
  · have h1m : 1 % U64 = 1 := by decide
    simp [global_root_function, Func.ret, Func.new, Statistics.add_sample, Statistics.zero,
      uadd, hd, hle, hle1, hs, h1m]

theorem Replay.simple_call_return_witness :
    sym_foo.is_unknown = false ∧ 0 < 1000 ∧ 1000 ≤ 2000 ∧ 2000 < U64 ∧
      ∃ G NA NB,
        ((Replay.run Replay.empty
            [⟨Inst.CALL, sym_main, sym_foo, 1000, 42, 0⟩,
              ⟨Inst.RET, sym_foo42, sym_main5, 2000, 42, 0⟩]).cleanup
          ).destructive_merge_all.1 = some G ∧
        G.sym = global_root_function ∧ G.callee = [NA] ∧
        NA.sym = ⟨sym_main5.name, usub sym_main5.address sym_main5.offset, 0⟩ ∧
        NA.stats.invoked = 1 ∧ NA.callee = [NB] ∧
        NB.sym = ⟨sym_foo.name, usub sym_foo.address sym_foo.offset, 0⟩ ∧ NB.callee = [] ∧
        NB.stats.invoked = 1 ∧ NB.stats.inferred = 0 ∧ NB.stats.sum = 2000 - 1000 :=
  ⟨by decide, by decide, by decide, by decide,
    Replay.simple_call_return 42 0 0 sym_main sym_foo sym_foo42 sym_main5 1000 2000
      (by decide) (by decide) (by decide) (by decide)⟩

/-- C6, as stated, fails.  On a fresh `Replay` the first action
`CALL main -> a @100` only seeds the history of the thread with the root `a`
(`main` is never on its stack); `CALL a -> b @110` enters `b`; then
`History::replay` rejects `RET b -> main+5 @200`: no frame has a matching
return address or the name `main`.  The history is terminated and archived
with `b` and `a` closed at 110, not at 200, `a` with no inferred sample, and
`main` is the root of a new history started at 200. -/
theorem Replay.missed_return_rejected :
    (∃ h, map_find 42
          (Replay.run Replay.empty
            [act Inst.CALL sym_main sym_a 100, act Inst.CALL sym_a4 sym_b 110]).threads =
          some h ∧
        h.current.sym = sym_b ∧ h.chain.map (fun fr => fr.node.sym) = [sym_a] ∧
        (h.replay (act Inst.RET sym_b9 sym_main5 200)).1 = false) ∧
      ∃ G h,
        (Replay.run Replay.empty
            [act Inst.CALL sym_main sym_a 100, act Inst.CALL sym_a4 sym_b 110,
              act Inst.RET sym_b9 sym_main5 200]).archive = [G] ∧
        G.sym = global_root_function ∧
        G.callee.map (fun f => (f.sym, f.end_, f.stats.inferred)) = [(sym_a, 110, 0)] ∧
        (G.callee.map (fun f => f.callee.map (fun g => (g.sym, g.end_)))) =
          [[(sym_b, 110)]] ∧
        map_find 42
          (Replay.run Replay.empty
            [act Inst.CALL sym_main sym_a 100, act Inst.CALL sym_a4 sym_b 110,
              act Inst.RET sym_b9 sym_main5 200]).threads = some h ∧
        h.current.sym = sym_main ∧ h.current.start = 200 ∧ h.current.callee.length = 0 ∧
        h.chain.length = 0 :=
  ⟨⟨_, rfl, by decide, by decide, by decide⟩,
    ⟨_, _, rfl, by decide, by decide, by decide, rfl, by decide, by decide, by decide,
      by decide⟩⟩

/-- C6, as the code has it.  On a `Replay` whose history of the thread has
`main` as `current` (seeded at 50), `CALL main -> a @100`, `CALL a -> b @110`
and `RET b -> main+5 @200` are all accepted (nothing is archived); the single
RET returns both `b` and `a`, each with one sample ending at 200 that is not
counted as inferred (`invoked = 1`, `inferred = 0`, `sum` 90 and 100), and
`main` is again `current` of the same history, still started at 50. -/
theorem Replay.missed_return_unwinds :
    ∃ h,
      map_find 42
          (Replay.run Replay.empty
            [act Inst.CALL sym_x sym_main 50, act Inst.CALL sym_main sym_a 100,
              act Inst.CALL sym_a4 sym_b 110, act Inst.RET sym_b9 sym_main5 200]).threads =
        some h ∧
      (Replay.run Replay.empty
          [act Inst.CALL sym_x sym_main 50, act Inst.CALL sym_main sym_a 100,
            act Inst.CALL sym_a4 sym_b 110, act Inst.RET sym_b9 sym_main5 200]).archive.length
        = 0 ∧
      h.chain.length = 0 ∧ h.current.sym = sym_main ∧ h.current.start = 50 ∧
      h.current.callee.map (fun f => (f.sym, f.start, f.end_, f.stats)) =
        [(sym_a, UINT64_MAX, 200, ⟨100, 100, 1, 0⟩)] ∧
      h.current.callee.map
          (fun f => f.callee.map (fun g => (g.sym, g.start, g.end_, g.stats))) =
        [[(sym_b, UINT64_MAX, 200, ⟨90, 90, 1, 0⟩)]] :=
  ⟨_, rfl, by decide, by decide, by decide, by decide, by decide, by decide⟩

/-! ## Invariants of History::replay -/

theorem Closed.unwind {Q : History → Prop} {ts : Nat} (hQ : Closed Q ts) (H : History)
    (k : Nat) (h : Q H) : Q (H.unwind ts k) := by
  induction k generalizing H with
  | zero => exact h
  | succ k ih => exact ih (H.pop ts) (hQ.pop H h)

theorem Closed.call {Q : History → Prop} {ts : Nat} (hQ : Closed Q ts) (H : History)
    (from_ to_ : Symbol) (h : Q H) : Q (H.call from_ to_ ts).2 := by
  unfold History.call
  simp only
  split
  · exact h
  · exact hQ.push _ from_ to_ (hQ.unwind H _ h)

theorem Closed.ret {Q : History → Prop} {ts : Nat} (hQ : Closed Q ts) (H : History)
    (from_ to_ : Symbol) (h : Q H) : Q (H.ret from_ to_ ts).2 := by
  unfold History.ret
  split
  · next hc => exact hQ.promote H to_ hc h
  · simp only
    split
    · exact h
    · exact hQ.unwind H _ h

theorem Closed.dispatch {Q : History → Prop} (a : Action) (hQ : Closed Q a.ts) (H : History)
    (h : Q H) : Q (H.dispatch a).2 := by
  unfold History.dispatch
  split
  · exact hQ.call _ _ _ (hQ.congr H _ rfl rfl h)
  · exact hQ.call _ _ _ (hQ.congr H _ rfl rfl h)
  · exact hQ.call _ _ _ h
  · exact hQ.call _ _ _ h
  · exact hQ.call _ _ _ h
  · exact hQ.call _ _ _ h
  · exact hQ.ret _ _ _ (hQ.congr H _ rfl rfl h)
  · exact hQ.ret _ _ _ h
  · exact hQ.ret _ _ _ h
  · exact hQ.call _ _ _ (hQ.congr H _ rfl rfl h)
  · split
    · exact hQ.ret _ _ _ (hQ.congr H _ rfl rfl h)
    · split
      · exact hQ.ret _ _ _ (hQ.congr H _ rfl rfl h)
      · split
        · exact hQ.congr H _ rfl rfl h
        · split
          · exact hQ.congr H _ rfl rfl h
          · split
            · exact hQ.congr H _ rfl rfl h
            · split
              · exact hQ.call _ _ _ h
              · exact h
  · exact h

theorem Closed.replay {Q : History → Prop} (a : Action) (hQ : Closed Q a.ts) (H : History)
    (h : Q H) : Q (H.replay a).2 := by
  unfold History.replay
  split
  · exact h
  · split
    · split
      · exact h
      · split
        · exact hQ.ret _ _ _ (hQ.congr H _ rfl rfl h)
        · split
          · exact hQ.congr H _ rfl rfl h
          · exact h
    · split
      · split
        · split
          · exact h
          · split
            · exact hQ.congr H _ rfl rfl h
            · split
              · exact h
              · exact hQ.congr H _ rfl rfl h
        · split
          · exact hQ.congr H _ rfl rfl h
          · split
            · exact hQ.congr H _ rfl rfl h
            · exact hQ.ret _ _ _ (hQ.congr H _ rfl rfl h)
          · exact hQ.congr H _ rfl rfl h
      · split
        · split
          · exact hQ.congr H _ rfl rfl h
          · exact hQ.ret _ _ _ (hQ.congr H _ rfl rfl h)
        · split
          · split
            · exact h
            · split
              · have hc := hQ.call H H.current.sym a.from_ h
                split
                · next H1 heq => rw [heq] at hc; exact hc
                · next H1 heq =>
                  rw [heq] at hc
                  exact hQ.dispatch a _ (hQ.congr H1 _ rfl rfl hc)
              · exact hQ.dispatch a _ (hQ.congr H _ rfl rfl h)
          · exact hQ.dispatch a H h

theorem Func.all_iff (p : Func → Bool) (f : Func) :
    f.all p = true ↔ p f = true ∧ ∀ c ∈ f.callee, c.all p = true := by
  have hl : ∀ l : List Func, Func.all_list p l = true ↔ ∀ c ∈ l, c.all p = true := by
    intro l
    induction l with
    | nil => simp [Func.all_list]
    | cons c cs ih => simp [Func.all_list, ih]
  cases f
  simp [Func.all, hl]

theorem Func.clean_iff (f : Func) :
    f.clean = true ↔ f.end_is_inferred = false ∧ ∀ c ∈ f.callee, c.clean = true := by
  unfold Func.clean
  rw [Func.all_iff]
  simp

theorem Func.idle_iff (f : Func) :
    f.idle = true ↔ f.start = UINT64_MAX ∧ ∀ c ∈ f.callee, c.idle = true := by
  unfold Func.idle
  rw [Func.all_iff]
  simp

theorem firstMatch_spec {p : Func → Bool} {l : List Func} {n i : Nat} {c : Func}
    (h : firstMatch p l n = some (i, c)) : ∃ j, i = n + j ∧ l[j]? = some c ∧ p c = true := by
  induction l generalizing n with
  | nil => simp [firstMatch] at h
  | cons f fs ih =>
    by_cases hp : p f = true
    · simp only [firstMatch, hp, if_true, Option.some.injEq, Prod.mk.injEq] at h
      obtain ⟨rfl, rfl⟩ := h
      exact ⟨0, rfl, by simp, hp⟩
    · simp only [firstMatch, hp, Bool.false_eq_true, if_false] at h
      obtain ⟨j, rfl, hj, hc⟩ := ih h
      exact ⟨j + 1, by omega, by simpa using hj, hc⟩

theorem Func.find_callee_spec {f : Func} {s : Symbol} {i : Nat} {c : Func}
    (h : f.find_callee s = some (i, c)) : f.callee[i]? = some c := by
  unfold Func.find_callee at h
  split at h
  · next r hr =>
    cases h
    obtain ⟨j, rfl, hj, _⟩ := firstMatch_spec hr
    simpa using hj
  · obtain ⟨j, rfl, hj, _⟩ := firstMatch_spec h
    simpa using hj

theorem mem_of_getElem?_eq {α : Type} {l : List α} {i : Nat} {c : α} (h : l[i]? = some c) :
    c ∈ l ∧ i < l.length := by
  obtain ⟨hi, rfl⟩ := List.getElem?_eq_some_iff.mp h
  exact ⟨List.getElem_mem hi, hi⟩

theorem mem_take_drop {l : List Func} {i j : Nat} {c : Func}
    (h : c ∈ l.take i ++ l.drop j) : c ∈ l := by
  rcases List.mem_append.mp h with h | h
  · exact List.mem_of_mem_take h
  · exact List.mem_of_mem_drop h

theorem Func.ret_clean (f : Func) (ts : Nat) : (f.ret ts).clean = f.clean := by
  rw [Bool.eq_iff_iff, Func.clean_iff, Func.clean_iff]
  rfl

theorem History.WF.init (s : Symbol) (ts c t : Nat) : (History.new s ts c t).WF := by
  refine ⟨?_, ?_, ?_, ?_, ?_⟩
  · rw [Func.clean_iff]
    simp [History.new, Func.new]
  all_goals simp [History.new, Func.new]

theorem History.wf_closed (ts : Nat) : Closed History.WF ts := by
  refine ⟨?_, ?_, ?_, ?_⟩
  · intro H H1 h1 h2 h
    exact ⟨h1 ▸ h.clean_current, h2 ▸ h.clean_chain, h1 ▸ h.idle_current, h2 ▸ h.idle_chain,
      h2 ▸ h.pos_le⟩
  · intro H h
    unfold History.pop
    cases hc : H.chain with
    | nil => simpa using h
    | cons fr rest =>
      have hfr := h.clean_chain fr (by simp [hc])
      have hfi := h.idle_chain fr (by simp [hc])
      refine ⟨?_, ?_, ?_, ?_, ?_⟩
      · simp only [Frame.plug]
        rw [Func.clean_iff]
        refine ⟨hfr.1, fun c hcm => ?_⟩
        simp only [List.mem_append, List.mem_cons] at hcm
        rcases hcm with hcm | rfl | hcm
        · exact hfr.2 c (List.mem_of_mem_take hcm)
        · rw [Func.ret_clean]; exact h.clean_current
        · exact hfr.2 c (List.mem_of_mem_drop hcm)
      · intro fr1 hm
        exact h.clean_chain fr1 (by simp [hc, hm])
      · intro c hcm
        simp only [Frame.plug, List.mem_append, List.mem_cons] at hcm
        rcases hcm with hcm | rfl | hcm
        · exact hfi c (List.mem_of_mem_take hcm)
        · rw [Func.idle_iff]
          exact ⟨rfl, h.idle_current⟩
        · exact hfi c (List.mem_of_mem_drop hcm)
      · intro fr1 hm
        exact h.idle_chain fr1 (by simp [hc, hm])
      · intro fr1 hm
        exact h.pos_le fr1 (by simp [hc, hm])
  · intro H from_ to_ h
    have hcl := (Func.clean_iff _).mp h.clean_current
    unfold History.push
    simp only [Func.call]
    split
    · next i c hf =>
      obtain ⟨hmem, hi⟩ := mem_of_getElem?_eq (Func.find_callee_spec hf)
      simp only at hmem hi
      have hcc := (Func.clean_iff _).mp (hcl.2 c hmem)
      have hci := (Func.idle_iff _).mp (h.idle_current c hmem)
      refine ⟨?_, ?_, ?_, ?_, ?_⟩
      · rw [Func.clean_iff]
        exact hcc
      · intro fr hm
        simp only [List.mem_cons] at hm
        rcases hm with rfl | hm
        · exact ⟨hcl.1, fun c1 hc1 => hcl.2 c1 (mem_take_drop hc1)⟩
        · exact h.clean_chain fr hm
      · exact hci.2
      · intro fr hm
        simp only [List.mem_cons] at hm
        rcases hm with rfl | hm
        · exact fun c1 hc1 => h.idle_current c1 (mem_take_drop hc1)
        · exact h.idle_chain fr hm
      · intro fr hm
        simp only [List.mem_cons] at hm
        rcases hm with rfl | hm
        · simp only [List.length_append, List.length_take, List.length_drop]
          omega
        · exact h.pos_le fr hm
    · refine ⟨?_, ?_, ?_, ?_, ?_⟩
      · rw [Func.clean_iff]
        simp [Func.new]
      · intro fr hm
        simp only [List.mem_cons] at hm
        rcases hm with rfl | hm
        · exact hcl
        · exact h.clean_chain fr hm
      · simp [Func.new]
      · intro fr hm
        simp only [List.mem_cons] at hm
        rcases hm with rfl | hm
        · exact h.idle_current
        · exact h.idle_chain fr hm
      · intro fr hm
        simp only [List.mem_cons] at hm
        rcases hm with rfl | hm
        · exact Nat.le_refl _
        · exact h.pos_le fr hm
  · intro H to_ hc h
    have hcur : (H.promote to_ ts).current.callee = [H.current.ret ts] := by
      simp [History.promote, History.goto_root, History.make_new_root, History.root, hc, zip_up,
        Frame.plug, Func.new]
    have heii : (H.promote to_ ts).current.end_is_inferred = false := by
      simp [History.promote, History.goto_root, History.make_new_root, History.root, hc, zip_up,
        Frame.plug, Func.new]
    have hch : (H.promote to_ ts).chain = [] := rfl
    refine ⟨?_, ?_, ?_, ?_, ?_⟩
    · rw [Func.clean_iff, hcur]
      refine ⟨heii, fun c hcm => ?_⟩
      simp only [List.mem_singleton] at hcm
      subst hcm
      rw [Func.ret_clean]
      exact h.clean_current
    · simp [hch]
    · rw [hcur]
      intro c hcm
      simp only [List.mem_singleton] at hcm
      subst hcm
      rw [Func.idle_iff]
      exact ⟨rfl, h.idle_current⟩
    · simp [hch]
    · simp [hch]

theorem History.Reachable.wf {H : History} (h : H.Reachable) : H.WF := by
  induction h with
  | init s ts c t => exact History.WF.init s ts c t
  | step a _ ih => exact (History.wf_closed a.ts).replay a _ ih

theorem History.Called.mono {H : History} {T T1 : Nat} (h : H.Called T) (hT : T ≤ T1) :
    H.Called T1 :=
  fun f hf => ⟨(h f hf).1, Nat.le_trans (h f hf).2 hT⟩

theorem History.called_closed (ts : Nat) : Closed (fun H => H.Called ts) ts := by
  refine ⟨?_, ?_, ?_, ?_⟩
  · intro H H1 h1 h2 h
    simpa [History.Called, History.nodes, h1, h2] using h
  · intro H h
    unfold History.pop
    cases hc : H.chain with
    | nil => simpa using h
    | cons fr rest =>
      cases rest with
      | nil => intro f hf; simp [History.nodes] at hf
      | cons r rest =>
        have h1 : H.nodes.dropLast =
            H.current :: fr.node :: (r.node :: rest.map Frame.node).dropLast := by
          simp [History.nodes, hc]
        intro f hf
        simp only [History.nodes, List.map_cons, List.dropLast_cons₂, List.mem_cons] at hf
        rcases hf with rfl | hf
        · exact h fr.node (by rw [h1]; simp)
        · exact h f (by rw [h1]; simp [hf])
  · intro H from_ to_ h
    have hsplit : ∀ (c : Func) (fr : Frame), fr.node.start_is_inferred = H.current.start_is_inferred
        → fr.node.start = H.current.start → c.start_is_inferred = false → c.start = ts →
        History.Called { H with current := c, chain := fr :: H.chain } ts := by
      intro c fr h1 h2 h3 h4 f hf
      simp only [History.nodes, List.map_cons, List.dropLast_cons₂, List.mem_cons] at hf
      rcases hf with rfl | hf
      · exact ⟨h3, Nat.le_of_eq h4⟩
      · cases hc : H.chain with
        | nil => simp [hc] at hf
        | cons r rest =>
          have h5 : H.nodes.dropLast = H.current :: (r.node :: rest.map Frame.node).dropLast := by
            simp [History.nodes, hc]
          simp only [hc, List.map_cons, List.dropLast_cons₂, List.mem_cons] at hf
          rcases hf with rfl | hf
          · have := h H.current (by rw [h5]; simp)
            exact ⟨h1 ▸ this.1, h2 ▸ this.2⟩
          · exact h f (by rw [h5]; simp [hf])
    unfold History.push
    simp only [Func.call]
    split
    · exact hsplit _ _ rfl rfl rfl rfl
    · exact hsplit _ _ rfl rfl rfl rfl
  · intro H to_ hc h f hf
    simp [History.promote, History.goto_root, History.nodes] at hf

theorem History.ReachableAt.wf_at {H : History} {T : Nat} (h : H.ReachableAt T) : H.WF := by
  induction h with
  | init s ts c t => exact History.WF.init s ts c t
  | step a _ _ ih => exact (History.wf_closed a.ts).replay a _ ih
  | @bridge H _ a _ _ ih =>
    exact (History.wf_closed a.ts).congr (H.call H.current.sym a.from_ a.ts).2 _ rfl rfl
      ((History.wf_closed a.ts).call _ _ _ ih)

theorem History.ReachableAt.called {H : History} {T : Nat} (h : H.ReachableAt T) :
    H.Called T := by
  induction h with
  | init s ts c t => intro f hf; simp [History.new, History.nodes] at hf
  | step a _ hT ih => exact (History.called_closed a.ts).replay a _ (ih.mono hT)
  | @bridge H _ a _ hT ih =>
    exact (History.called_closed a.ts).congr (H.call H.current.sym a.from_ a.ts).2 _ rfl rfl
      ((History.called_closed a.ts).call _ _ _ (ih.mono hT))

theorem mem_dropLast_of_getElem? {l : List Func} {j : Nat} {f : Func} (h : l[j]? = some f)
    (hj : j + 1 < l.length) : f ∈ l.dropLast := by
  rw [List.dropLast_eq_take]
  obtain ⟨hi, rfl⟩ := List.getElem?_eq_some_iff.mp h
  exact List.mem_take_iff_getElem.mpr ⟨j, by simp; omega, rfl⟩

theorem Func.ret_stats_measured (c : Func) (ts : Nat) (h1 : c.start ≤ ts)
    (h2 : c.start_is_inferred = false) (h3 : c.end_is_inferred = false) :
    (c.ret ts).stats =
      ⟨uadd c.stats.sum_inferred (ts - c.start), uadd c.stats.sum (ts - c.start),
        uadd c.stats.invoked 1, c.stats.inferred⟩ := by
  have : ¬ c.start > ts := by omega
  simp [Func.ret, this, h2, h3, Statistics.add_sample]

theorem History.WF.node_eii {H : History} (h : H.WF) {j : Nat} {f : Func}
    (hf : H.nodes[j]? = some f) : f.end_is_inferred = false := by
  cases j with
  | zero =>
    simp only [History.nodes, List.getElem?_cons_zero, Option.some.injEq] at hf
    subst hf
    exact ((Func.clean_iff _).mp h.clean_current).1
  | succ j =>
    simp only [History.nodes, List.getElem?_cons_succ, List.getElem?_map,
      Option.map_eq_some'] at hf
    obtain ⟨fr, hfr, rfl⟩ := hf
    exact (h.clean_chain fr (mem_of_getElem?_eq hfr).1).1

/-- C4. In a history reached by replaying actions with non-decreasing
timestamps, let `History::call(from, to, ts)` (with `ts` not before the last
action) choose the frame `k` levels above `current`.  Then the call is the
`k` statements `current = current->ret(ts)` followed by `Func::call` on the
frame reached, and the `j`-th of these statements (`j < k`) returns the frame
at depth `j` of the chain: that frame started at or before `ts`, its node is
put back under its caller with exactly one more sample, of duration
`ts - start`, added to `sum` as well as to `sum_inferred` and not counted as
inferred (`stats.inferred` is unchanged). -/
theorem History.call_unwind_samples (H : History) (T : Nat) (hr : H.ReachableAt T)
    (from_ to_ : Symbol) (ts k : Nat) (hts : T ≤ ts) (hlen : H.nodes.length ≤ UINT64_MAX)
    (hk : CallChoice H from_ k) :
    H.call from_ to_ ts = (true, (H.unwind ts k).push from_ to_ ts) ∧
      ∀ j, j < k →
        ∃ f fr, H.nodes[j]? = some f ∧ H.chain[j]? = some fr ∧
          SameFrame (H.unwind ts j).current f ∧ f.start ≤ ts ∧
          H.unwind ts (j + 1) = (H.unwind ts j).pop ts ∧
          (H.unwind ts (j + 1)).current =
            Frame.plug { fr with node := { fr.node with call_address := 0 } }
              ((H.unwind ts j).current.ret ts) ∧
          ((H.unwind ts j).current.ret ts).end_ = ts ∧
          ((H.unwind ts j).current.ret ts).stats =
            ⟨uadd f.stats.sum_inferred (ts - f.start), uadd f.stats.sum (ts - f.start),
              uadd f.stats.invoked 1, f.stats.inferred⟩ := by
  have hkl : k ≤ H.chain.length := by
    have : k < H.nodes.length := by
      rcases hk with hb | ⟨_, hn⟩
      · exact hb.lt_length
      · exact hn.lt_length
    rw [History.nodes_length] at this
    omega
  refine ⟨?_, ?_⟩
  · unfold History.call
    rw [find_caller_eq _ _ _ hlen, find_caller_eq _ _ _ hlen]
    rcases hk with hb | ⟨hnb, hn⟩
    · rw [nearestIdx_eq_some.mpr hb]
      rfl
    · rw [nearestIdx_eq_none.mpr hnb, nearestIdx_eq_some.mpr hn]
      rfl
  · intro j hj
    obtain ⟨f, fr, hf, hfr, hsame, hstep, hcur⟩ := H.unwind_step ts j (by omega)
    have hmem : f ∈ H.nodes.dropLast :=
      mem_dropLast_of_getElem? hf (by rw [History.nodes_length]; omega)
    have hcalled := hr.called f hmem
    have heii := hr.wf_at.node_eii hf
    have hsame1 := hsame
    obtain ⟨_, _, _, hst, _, hsii, hei, hstats⟩ := hsame1
    refine ⟨f, fr, hf, hfr, hsame, by omega, hstep, hcur, rfl, ?_⟩
    rw [Func.ret_stats_measured _ ts (by rw [hst]; omega) (by rw [hsii]; exact hcalled.1)
      (by rw [hei]; exact heii), hst, hstats]

theorem History.call_unwind_samples_witness :
    hist_main_foo.ReachableAt 20 ∧ 20 ≤ 30 ∧ hist_main_foo.nodes.length ≤ UINT64_MAX ∧
      CallChoice hist_main_foo sym_main 1 ∧
      hist_main_foo.call sym_main sym_a 30 =
        (true, (hist_main_foo.unwind 30 1).push sym_main sym_a 30) :=
  ⟨History.ReachableAt.step (act Inst.CALL sym_main sym_foo 20)
      (History.ReachableAt.init sym_main 10 0 42) (by decide),
    by decide, by decide, Or.inl (nearestIdx_eq_some.mp (by decide)),
    (History.call_unwind_samples hist_main_foo 20
      (History.ReachableAt.step (act Inst.CALL sym_main sym_foo 20)
        (History.ReachableAt.init sym_main 10 0 42) (by decide))
      sym_main sym_a 30 1 (by decide) (by decide)
      (Or.inl (nearestIdx_eq_some.mp (by decide)))).1⟩

/-! ## History::terminate -/

theorem Func.descend_append (f : Func) (p q : List Nat) :
    f.descend (p ++ q) = (f.descend p).bind (fun g => g.descend q) := by
  induction p generalizing f with
  | nil => simp [Func.descend]
  | cons i p ih =>
    simp only [List.cons_append, Func.descend]
    cases f.callee[i]? with
    | none => simp
    | some c => simpa using ih c

theorem Frame.plug_getElem? (fr : Frame) (c : Func) (h : fr.pos ≤ fr.node.callee.length) :
    (fr.plug c).callee[fr.pos]? = some c := by
  simp only [Frame.plug]
  rw [List.getElem?_append_right (by simp [List.length_take])]
  simp [List.length_take, Nat.min_eq_left h]

/-- The node `terminate_loop` started from sits, with the children it had, at
the end of the path given by the positions of the chain. -/
theorem terminate_loop_descend (ts : Nat) (chain : List Frame) (cur : Func)
    (hpos : ∀ fr ∈ chain, fr.pos ≤ fr.node.callee.length) :
    ∃ x, (terminate_loop ts cur chain).descend (chain.map Frame.pos).reverse = some x ∧
      x.callee = cur.callee := by
  induction chain generalizing cur with
  | nil => exact ⟨cur, rfl, rfl⟩
  | cons fr rest ih =>
    obtain ⟨x, hx, hxc⟩ := ih
      (Frame.plug { fr with node := { fr.node with call_address := 0 } }
        (Func.ret { cur with end_is_inferred := true } ts))
      (fun fr1 h1 => hpos fr1 (List.mem_cons_of_mem _ h1))
    refine ⟨Func.ret { cur with end_is_inferred := true } ts, ?_, rfl⟩
    simp only [terminate_loop, List.map_cons, List.reverse_cons, Func.descend_append, hx,
      Option.some_bind, Func.descend, hxc]
    have := Frame.plug_getElem? { fr with node := { fr.node with call_address := 0 } }
      (Func.ret { cur with end_is_inferred := true } ts) (hpos fr (List.mem_cons_self _ _))
    simp only at this
    rw [this]

/-- Every frame strictly below the root is closed by `terminate_loop` with an
inferred sample ending at `ts`. -/
theorem terminate_loop_closed (ts : Nat) (chain : List Frame) (cur : Func)
    (hpos : ∀ fr ∈ chain, fr.pos ≤ fr.node.callee.length) (j : Nat) (f : Func)
    (hj : j < chain.length) (hf : (cur :: chain.map Frame.node)[j]? = some f) :
    ∃ g, (terminate_loop ts cur chain).descend ((chain.drop j).map Frame.pos).reverse = some g ∧
      g.sym = f.sym ∧ g.first_start = f.first_start ∧ g.start = UINT64_MAX ∧ g.end_ = ts ∧
      g.end_is_inferred = true ∧
      g.stats = f.stats.add_sample (if f.start > ts then 0 else ts - f.start) true := by
  induction chain generalizing cur j f with
  | nil => simp at hj
  | cons fr rest ih =>
    have hpos1 : ∀ fr1 ∈ rest, fr1.pos ≤ fr1.node.callee.length :=
      fun fr1 h1 => hpos fr1 (List.mem_cons_of_mem _ h1)
    cases j with
    | zero =>
      simp only [List.getElem?_cons_zero, Option.some.injEq] at hf
      subst hf
      obtain ⟨x, hx, hxc⟩ := terminate_loop_descend ts rest
        (Frame.plug { fr with node := { fr.node with call_address := 0 } }
          (Func.ret { cur with end_is_inferred := true } ts)) hpos1
      refine ⟨Func.ret { cur with end_is_inferred := true } ts, ?_, rfl, rfl, rfl, rfl, rfl, ?_⟩
      · simp only [terminate_loop, List.drop_zero, List.map_cons, List.reverse_cons,
          Func.descend_append, hx, Option.some_bind, Func.descend, hxc]
        have := Frame.plug_getElem? { fr with node := { fr.node with call_address := 0 } }
          (Func.ret { cur with end_is_inferred := true } ts) (hpos fr (List.mem_cons_self _ _))
        simp only at this
        rw [this]
      · simp only [Func.ret, Bool.or_true]
        split <;> rfl
    | succ j =>
      simp only [List.length_cons, Nat.add_lt_add_iff_right] at hj
      simp only [List.map_cons, List.getElem?_cons_succ] at hf
      obtain ⟨g, hg, h1, h2, h3, h4, h5, h6⟩ := ih
        (Frame.plug { fr with node := { fr.node with call_address := 0 } }
          (Func.ret { cur with end_is_inferred := true } ts)) hpos1 j
        (match j with
          | 0 => Frame.plug { fr with node := { fr.node with call_address := 0 } }
              (Func.ret { cur with end_is_inferred := true } ts)
          | _ + 1 => f) hj
        (by
          cases j with
          | zero => simp
          | succ j => simpa using hf)
      refine ⟨g, by simpa [terminate_loop] using hg, ?_⟩
      cases j with
      | zero =>
        simp only [List.getElem?_cons_zero, Option.some.injEq] at hf
        subst hf
        exact ⟨h1, h2, h3, h4, h5, h6⟩
      | succ j => exact ⟨h1, h2, h3, h4, h5, h6⟩

theorem terminate_loop_idle (ts : Nat) (chain : List Frame) (cur : Func)
    (hcur : ∀ c ∈ cur.callee, c.idle = true)
    (hchain : ∀ fr ∈ chain, ∀ c ∈ fr.node.callee, c.idle = true) :
    ∀ c ∈ (terminate_loop ts cur chain).callee, c.idle = true := by
  induction chain generalizing cur with
  | nil => exact hcur
  | cons fr rest ih =>
    refine ih _ ?_ (fun fr1 h1 => hchain fr1 (List.mem_cons_of_mem _ h1))
    intro c hc
    simp only [Frame.plug, List.mem_append, List.mem_cons] at hc
    rcases hc with hc | rfl | hc
    · exact hchain fr (List.mem_cons_self _ _) c (List.mem_of_mem_take hc)
    · rw [Func.idle_iff]
      exact ⟨rfl, hcur⟩
    · exact hchain fr (List.mem_cons_self _ _) c (List.mem_of_mem_drop hc)

theorem terminate_loop_root (ts : Nat) (chain : List Frame) (cur cur1 : Func)
    (h1 : cur.sym = cur1.sym) (h2 : cur.first_start = cur1.first_start) (h3 : cur.tid = cur1.tid) :
    (terminate_loop ts cur chain).sym = (zip_up cur1 chain).sym ∧
      (terminate_loop ts cur chain).first_start = (zip_up cur1 chain).first_start ∧
      (terminate_loop ts cur chain).tid = (zip_up cur1 chain).tid := by
  induction chain generalizing cur cur1 with
  | nil => exact ⟨h1, h2, h3⟩
  | cons fr rest ih => exact ih _ _ rfl rfl rfl

theorem History.terminate_eq (H : History) :
    H.terminate =
      Func.ret { Func.new global_root_function
          (usub (terminate_loop H.close_time H.current H.chain).first_start 1) H.tid with
        start_is_inferred := true
        callee := [(terminate_loop H.close_time H.current H.chain).ret H.close_time] }
        H.close_time := by
  simp [History.terminate, History.close_time, History.ret, History.goto_root,
    History.make_new_root, History.root, zip_up, Frame.plug, Func.new, Func.ret]
  decide

/-- C9. For every reachable history, `terminate()` returns a node `G` with
symbol `/global_root/`, address `0x10`, offset 0 (it is the top of the tree)
whose only child `R` is the root the history had; `G` and every node below it
are inactive (`start = UINT64_MAX`), and every frame that was open strictly
below the old root is found in `R` at its place, closed at
`ts = pause_address ? pause_time : current->last_time()` with its closing
sample counted as inferred. -/
theorem History.terminate_spec (H : History) (hr : H.Reachable) :
    ∃ R, H.terminate.sym = ⟨"/global_root/", 0x10, 0⟩ ∧ H.terminate.callee = [R] ∧
      R.sym = H.root.sym ∧ R.first_start = H.root.first_start ∧ R.tid = H.root.tid ∧
      H.terminate.idle = true ∧
      ∀ j f, j < H.chain.length → H.nodes[j]? = some f →
        ∃ g, R.descend (H.path j) = some g ∧ g.sym = f.sym ∧
          g.first_start = f.first_start ∧ g.end_ = H.close_time ∧
          g.end_is_inferred = true ∧
          g.stats.invoked = uadd f.stats.invoked 1 ∧
          g.stats.inferred = uadd f.stats.inferred 1 ∧
          g.stats.sum = f.stats.sum ∧
          g.stats.sum_inferred =
            uadd f.stats.sum_inferred
              (if f.start > H.close_time then 0 else H.close_time - f.start) := by
  have hwf := hr.wf
  have hidle := terminate_loop_idle H.close_time H.chain H.current hwf.idle_current
    hwf.idle_chain
  have hroot := terminate_loop_root H.close_time H.chain H.current H.current rfl rfl rfl
  refine ⟨(terminate_loop H.close_time H.current H.chain).ret H.close_time, ?_, ?_, hroot.1,
    hroot.2.1, hroot.2.2, ?_, ?_⟩
  · rw [H.terminate_eq]
    rfl
  · rw [H.terminate_eq]
    rfl
  · rw [H.terminate_eq, Func.idle_iff]
    refine ⟨rfl, fun c hc => ?_⟩
    simp only [Func.ret, List.mem_singleton] at hc
    subst hc
    rw [Func.idle_iff]
    exact ⟨rfl, hidle⟩
  · intro j f hj hf
    obtain ⟨g, hg, h1, h2, _, h4, h5, h6⟩ :=
      terminate_loop_closed H.close_time H.chain H.current hwf.pos_le j f hj hf
    refine ⟨g, ?_, h1, h2, h4, h5, ?_⟩
    · cases hp : H.path j with
      | nil =>
        have : (List.drop j H.chain).length = 0 := by
          have := congrArg List.length hp
          simpa [History.path] using this
        simp at this
        omega
      | cons i is =>
        unfold History.path at hp
        rw [hp] at hg
        simpa [Func.descend, Func.ret] using hg
    · rw [h6]
      simp [Statistics.add_sample]

theorem History.terminate_spec_witness :
    hist_main_foo.Reachable ∧
      ∃ R, hist_main_foo.terminate.sym = ⟨"/global_root/", 0x10, 0⟩ ∧
        hist_main_foo.terminate.callee = [R] ∧ R.sym = hist_main_foo.root.sym ∧
        hist_main_foo.terminate.idle = true :=
  ⟨History.Reachable.step (act Inst.CALL sym_main sym_foo 20)
      (History.Reachable.init sym_main 10 0 42),
    (History.terminate_spec hist_main_foo
      (History.Reachable.step (act Inst.CALL sym_main sym_foo 20)
        (History.Reachable.init sym_main 10 0 42))).imp
      (fun _ h => ⟨h.1, h.2.1, h.2.2.1, h.2.2.2.2.2.1⟩)⟩

/-! ## Trace end and trace start -/

theorem History.pop_eq (H : History) (ts : Nat) :
    H.pop ts = { H with current := (H.pop ts).current, chain := (H.pop ts).chain } := by
  unfold History.pop
  split <;> rfl

theorem History.unwind_eq (H : History) (ts k : Nat) :
    H.unwind ts k =
      { H with current := (H.unwind ts k).current, chain := (H.unwind ts k).chain } := by
  induction k generalizing H with
  | zero => rfl
  | succ k ih =>
    have hp : ∀ H1 : History, H1 = H.pop ts →
        H1.unwind ts k =
          { H with current := (H1.unwind ts k).current, chain := (H1.unwind ts k).chain } := by
      intro H1 h1
      rw [ih H1]
      rw [H.pop_eq ts] at h1
      subst h1
      rfl
    exact hp _ rfl

theorem History.unwind_length_le (H : History) (ts k : Nat) :
    (H.unwind ts k).chain.length ≤ H.chain.length := by
  induction k generalizing H with
  | zero => exact Nat.le_refl _
  | succ k ih =>
    refine Nat.le_trans (ih (H.pop ts)) ?_
    unfold History.pop
    split
    · exact Nat.le_refl _
    · next hc => simp [hc]

theorem History.call_true {H : History} {from_ to_ : Symbol} {ts : Nat}
    (h : (H.call from_ to_ ts).1 = true) :
    ∃ k, H.call from_ to_ ts = (true, (H.unwind ts k).push from_ to_ ts) := by
  revert h
  unfold History.call
  simp only
  split
  · intro h
    simp at h
  · next k _ =>
    intro _
    exact ⟨k, rfl⟩

theorem Func.call_frame_call_address (f : Func) (from_ s : Symbol) (ts : Nat) :
    (f.call from_ s ts).1.node.call_address = from_.address := by
  simp only [Func.call]
  split <;> rfl

theorem Func.call_start_is_inferred (f : Func) (from_ s : Symbol) (ts : Nat) :
    (f.call from_ s ts).2.start_is_inferred = false := by
  simp only [Func.call]
  split <;> rfl

theorem uadd_ten {a : Nat} (h : a + 10 < U64) : uadd a 10 = a + 10 := Nat.mod_eq_of_lt h

/-- A return at `ts` from the child of `fr` to an address in the ten bytes from
the call address of `fr` pops exactly that child. -/
theorem History.ret_to_caller (H : History) (from_ to_ : Symbol) (ts : Nat) (fr : Frame)
    (rest : List Frame) (hc : H.chain = fr :: rest) (hlen : H.nodes.length ≤ UINT64_MAX)
    (hne : fr.node.call_address ≠ 0) (hwin : fr.node.call_address + 10 < U64)
    (hlo : fr.node.call_address ≤ to_.address) (hhi : to_.address < fr.node.call_address + 10) :
    H.ret from_ to_ ts =
      (true, { H with
        current := Frame.plug { fr with node := { fr.node with call_address := 0 } }
          (H.current.ret ts)
        chain := rest }) := by
  have hm : fr.node.ret_addr_match to_ = true := by
    simp [Func.ret_addr_match, hne, hlo, uadd_ten hwin, hhi]
  have hk : RetChoice H to_ 1 := by
    refine Or.inl ⟨0, rfl, ⟨fr.node, by simp [hc], hm⟩, fun j hj => absurd hj (Nat.not_lt_zero j)⟩
  rw [H.ret_eq_of_choice from_ to_ ts 1 (by simp [hc]) hlen hk]
  simp [History.unwind, History.pop, hc]

/-- C7, as the code has it.  In a history with no recovery flag set, let
`TR_END(from, ts1)` be accepted, with `from.address != 0` and the ten-byte
return window above `from.address` inside the 64-bit address space
(`from.address + 10 < 2^64`).  Then a following TR_START with
`to.address = from.address` at `ts2 >= ts1` is accepted: it returns the
`/suspended/` child entered at `ts1`, with one sample of duration `ts2 - ts1`,
resets `pause_address` to 0 and leaves `current` at the caller of that child,
whose start, flags and statistics are untouched.  In scenario 3 `foo`
therefore records a single sample of 500, not inferred, at the RET @600. -/
theorem History.trace_end_start_round_trip (H : History) (a1 a2 : Action) (hf : H.no_flags)
    (hlen : H.nodes.length < UINT64_MAX) (h1 : a1.inst = Inst.TR_END)
    (hne : a1.from_.address ≠ 0) (hwin : a1.from_.address + 10 < U64)
    (hacc : (H.replay a1).1 = true) (h2 : a2.inst = Inst.TR_START)
    (haddr : a2.to_.address = a1.from_.address) (hts : a1.ts ≤ a2.ts) :
    (∃ fr rest,
        (H.replay a1).2.chain = fr :: rest ∧
        (H.replay a1).2.current.start = a1.ts ∧
        (H.replay a1).2.pause_address = a1.from_.address ∧
        ((H.replay a1).2.replay a2).1 = true ∧
        ((H.replay a1).2.replay a2).2.pause_address = 0 ∧
        ((H.replay a1).2.replay a2).2.chain = rest ∧
        ((H.replay a1).2.replay a2).2.current =
          Frame.plug { fr with node := { fr.node with call_address := 0 } }
            ((H.replay a1).2.current.ret a2.ts) ∧
        SameFrame ((H.replay a1).2.replay a2).2.current fr.node ∧
        ((H.replay a1).2.current.ret a2.ts).end_ = a2.ts ∧
        ((H.replay a1).2.current.ret a2.ts).stats =
          (H.replay a1).2.current.stats.add_sample (a2.ts - a1.ts)
            (H.replay a1).2.current.end_is_inferred) ∧
      ∃ h,
        map_find 42
            (Replay.run Replay.empty
              [act Inst.CALL sym_main sym_foo 100, act Inst.TR_END sym_foo42 sym_unknown 200,
                act Inst.TR_START sym_unknown sym_foo42 500,
                act Inst.RET sym_foo sym_main5 600]).threads = some h ∧
          h.current.callee.map (fun f => (f.sym, f.end_, f.stats)) =
            [(sym_foo, 600, ⟨500, 500, 1, 0⟩)] ∧
          h.current.callee.map
              (fun f => f.callee.map (fun g => (g.sym, g.first_start, g.end_, g.stats))) =
            [[(suspended_function, 200, 500, ⟨300, 300, 1, 0⟩)]] := by
  refine ⟨?_, ⟨_, rfl, by decide, by decide⟩⟩
  obtain ⟨f1, f2, f3, f4, f5, f6⟩ := hf
  have hr1 : H.replay a1 =
      History.call { H with pause_address := a1.from_.address, pause_time := a1.ts }
        a1.from_ suspended_function a1.ts := by
    simp [History.replay, History.dispatch, f1, f2, f3, f4, f5, f6, h1]
  rw [hr1] at hacc ⊢
  obtain ⟨k, hk⟩ := History.call_true hacc
  rw [hk]
  generalize hU : History.unwind
    { H with pause_address := a1.from_.address, pause_time := a1.ts } a1.ts k = U
  have hUeq := History.unwind_eq
    { H with pause_address := a1.from_.address, pause_time := a1.ts } a1.ts k
  have hUlen := History.unwind_length_le
    { H with pause_address := a1.from_.address, pause_time := a1.ts } a1.ts k
  rw [hU] at hUeq hUlen
  simp only at hUlen
  have hflags : U.in_syscall = false ∧ U.pause_address = a1.from_.address ∧
      U.after_syscall = false ∧ U.task_switch_flush_task = false ∧
      U.perf_event_switch_output = false ∧ U.enter_lazy_tlb = 0 := by
    rw [hUeq]
    exact ⟨f1, rfl, f2, f3, f4, f6⟩
  obtain ⟨g1, g2, g3, g4, g5, g6⟩ := hflags
  have hr2 : (U.push a1.from_ suspended_function a1.ts).replay a2 =
      History.ret { U.push a1.from_ suspended_function a1.ts with pause_address := 0 }
        suspended_function a2.to_ a2.ts := by
    simp [History.replay, History.dispatch, History.push, g1, g2, g3, g4, g5, g6, h2, hne,
      haddr]
  have hret := History.ret_to_caller
    { U.push a1.from_ suspended_function a1.ts with pause_address := 0 }
    suspended_function a2.to_ a2.ts (U.current.call a1.from_ suspended_function a1.ts).1 U.chain
    rfl
    (by
      simp only [History.nodes, History.push, List.length_cons, List.length_map]
      rw [History.nodes_length] at hlen
      omega)
    (by rw [Func.call_frame_call_address]; exact hne)
    (by rw [Func.call_frame_call_address]; exact hwin)
    (by rw [Func.call_frame_call_address, haddr])
    (by rw [Func.call_frame_call_address, haddr]; omega)
  refine ⟨(U.current.call a1.from_ suspended_function a1.ts).1, U.chain, rfl,
    Func.call_start _ _ _ _, g2, ?_, ?_, ?_, ?_, ?_, rfl, ?_⟩
  · rw [hr2, hret]
  · rw [hr2, hret]
  · rw [hr2, hret]
  · rw [hr2, hret]
  · rw [hr2, hret]
    exact ⟨rfl, rfl, rfl, rfl, rfl, rfl, rfl, rfl⟩
  · have hs : (U.push a1.from_ suspended_function a1.ts).current.start = a1.ts :=
      Func.call_start _ _ _ _
    have hi : (U.push a1.from_ suspended_function a1.ts).current.start_is_inferred = false :=
      Func.call_start_is_inferred _ _ _ _
    have hng : ¬ a1.ts > a2.ts := by omega
    simp [Func.ret, hs, hi, hng]

theorem History.trace_end_start_round_trip_witness :
    hist_main_foo.no_flags ∧ hist_main_foo.nodes.length < UINT64_MAX ∧
      (act Inst.TR_END sym_foo42 sym_unknown 200).inst = Inst.TR_END ∧
      (act Inst.TR_END sym_foo42 sym_unknown 200).from_.address ≠ 0 ∧
      (act Inst.TR_END sym_foo42 sym_unknown 200).from_.address + 10 < U64 ∧
      (hist_main_foo.replay (act Inst.TR_END sym_foo42 sym_unknown 200)).1 = true ∧
      (act Inst.TR_START sym_unknown sym_foo42 500).inst = Inst.TR_START ∧
      (act Inst.TR_START sym_unknown sym_foo42 500).to_.address =
        (act Inst.TR_END sym_foo42 sym_unknown 200).from_.address ∧
      (act Inst.TR_END sym_foo42 sym_unknown 200).ts ≤
        (act Inst.TR_START sym_unknown sym_foo42 500).ts ∧
      ∃ fr rest,
        (hist_main_foo.replay (act Inst.TR_END sym_foo42 sym_unknown 200)).2.chain =
          fr :: rest ∧
        ((hist_main_foo.replay (act Inst.TR_END sym_foo42 sym_unknown 200)).2.replay
          (act Inst.TR_START sym_unknown sym_foo42 500)).1 = true :=
  ⟨⟨rfl, rfl, rfl, rfl, rfl, rfl⟩, by decide, rfl, by decide, by decide, by decide, rfl, rfl,
    by decide,
    (History.trace_end_start_round_trip hist_main_foo
      (act Inst.TR_END sym_foo42 sym_unknown 200) (act Inst.TR_START sym_unknown sym_foo42 500)
      ⟨rfl, rfl, rfl, rfl, rfl, rfl⟩ (by decide) rfl (by decide) (by decide) (by decide) rfl rfl
      (by decide)).1.imp (fun _ h => h.imp (fun _ h1 => ⟨h1.1, h1.2.2.2.1⟩))⟩

/-- C7, as stated, fails.  The root `top` of a fresh history has address
`0xfffffffffffffffb`; `TR_END` from that address at 20 is accepted, and the
following `TR_START` to the same address at 30 is rejected: the sum
`call_address + 10` of `ret_addr_match` wraps to 5, and neither `top` nor
`/suspended/` has the name of the target. -/
theorem History.trace_start_rejected_at_wrap :
    (History.new sym_top 10 0 42).no_flags ∧ sym_top.address ≠ 0 ∧
      ((History.new sym_top 10 0 42).replay (act Inst.TR_END sym_top sym_unknown 20)).1 = true ∧
      sym_top_unknown.address = sym_top.address ∧ 20 ≤ 30 ∧
      (((History.new sym_top 10 0 42).replay (act Inst.TR_END sym_top sym_unknown 20)).2.replay
        (act Inst.TR_START sym_unknown sym_top_unknown 30)).1 = false :=
  ⟨⟨rfl, rfl, rfl, rfl, rfl, rfl⟩, by decide, by decide, rfl, by decide, by decide⟩

/-! ## A call followed at once by the return -/

theorem History.call_from_current (H : History) (to_ : Symbol) (ts : Nat)
    (hlen : H.nodes.length ≤ UINT64_MAX) :
    H.call H.current.sym to_ ts = (true, H.push H.current.sym to_ ts) := by
  unfold History.call
  rw [find_caller_eq _ _ _ hlen]
  simp [nearestIdx, History.nodes, Func.base_match, History.unwind, History.push]

/-- C8, as the code has it.  In a history with no recovery flag set, with
`current = c`, `c.sym.address != 0` and the ten-byte return window above
`c.sym.address` inside the 64-bit address space: `CALL (from = c.sym, to = X)`
at `ts` followed by `RET` to an address in `[c.sym.address, c.sym.address + 10)`
at the same `ts` are both accepted and leave `current` equal to `c` (same
callers, same start, flags and statistics, `call_address` 0), with the node of
`X` among its children holding exactly one more sample, of duration 0.  That
sample is counted as inferred only if the node of `X` had `end_is_inferred`
set; in a reachable history it has not: `stats.invoked` grows by 1 and
`stats.inferred` is unchanged. -/
theorem History.noop_call_ret (H : History) (a1 a2 : Action) (hf : H.no_flags)
    (hlen : H.nodes.length < UINT64_MAX) (hne : H.current.sym.address ≠ 0)
    (hwin : H.current.sym.address + 10 < U64) (h1 : a1.inst = Inst.CALL)
    (hfrom : a1.from_ = H.current.sym) (h2 : a2.inst = Inst.RET) (hts : a2.ts = a1.ts)
    (hlo : H.current.sym.address ≤ a2.to_.address)
    (hhi : a2.to_.address < H.current.sym.address + 10) :
    (H.replay a1).1 = true ∧
      (H.replay a1).2.current = (H.current.call a1.from_ a1.to_ a1.ts).2 ∧
      (H.replay a1).2.chain = (H.current.call a1.from_ a1.to_ a1.ts).1 :: H.chain ∧
      ((H.replay a1).2.replay a2).1 = true ∧
      ((H.replay a1).2.replay a2).2.chain = H.chain ∧
      SameFrame ((H.replay a1).2.replay a2).2.current H.current ∧
      ((H.replay a1).2.replay a2).2.current.call_address = 0 ∧
      ((H.replay a1).2.replay a2).2.current =
        Frame.plug
          { (H.current.call a1.from_ a1.to_ a1.ts).1 with
            node := { (H.current.call a1.from_ a1.to_ a1.ts).1.node with call_address := 0 } }
          ((H.replay a1).2.current.ret a1.ts) ∧
      ((H.replay a1).2.current.ret a1.ts).stats =
        (H.replay a1).2.current.stats.add_sample 0 (H.replay a1).2.current.end_is_inferred ∧
      (H.Reachable →
        ((H.replay a1).2.current.ret a1.ts).stats.invoked =
            uadd (H.replay a1).2.current.stats.invoked 1 ∧
          ((H.replay a1).2.current.ret a1.ts).stats.inferred =
            (H.replay a1).2.current.stats.inferred ∧
          ((H.replay a1).2.current.ret a1.ts).stats.sum =
            uadd (H.replay a1).2.current.stats.sum 0 ∧
          ((H.replay a1).2.current.ret a1.ts).stats.sum_inferred =
            uadd (H.replay a1).2.current.stats.sum_inferred 0) := by
  have hf0 := hf
  obtain ⟨f1, f2, f3, f4, f5, f6⟩ := hf
  have hr1 : H.replay a1 = (true, H.push a1.from_ a1.to_ a1.ts) := by
    rw [H.replay_no_flags a1 hf0]
    simp only [History.dispatch, h1]
    rw [hfrom]
    exact H.call_from_current _ _ (Nat.le_of_lt hlen)
  have hf1 : (H.push a1.from_ a1.to_ a1.ts).no_flags := ⟨f1, f2, f3, f4, f5, f6⟩
  have hr2 : (H.push a1.from_ a1.to_ a1.ts).replay a2 =
      (H.push a1.from_ a1.to_ a1.ts).ret a2.from_ a2.to_ a2.ts := by
    rw [History.replay_no_flags _ a2 hf1]
    simp only [History.dispatch, h2]
  have hca : (H.current.call a1.from_ a1.to_ a1.ts).1.node.call_address =
      H.current.sym.address := by
    rw [Func.call_frame_call_address, hfrom]
  have hret := History.ret_to_caller (H.push a1.from_ a1.to_ a1.ts) a2.from_ a2.to_ a2.ts
    (H.current.call a1.from_ a1.to_ a1.ts).1 H.chain rfl
    (by
      simp only [History.nodes, History.push, List.length_cons, List.length_map]
      rw [History.nodes_length] at hlen
      omega)
    (by rw [hca]; exact hne) (by rw [hca]; exact hwin) (by rw [hca]; exact hlo)
    (by rw [hca]; exact hhi)
  have hsame : SameFrame
      (Frame.plug
        { (H.current.call a1.from_ a1.to_ a1.ts).1 with
          node := { (H.current.call a1.from_ a1.to_ a1.ts).1.node with call_address := 0 } }
        ((H.push a1.from_ a1.to_ a1.ts).current.ret a2.ts)) H.current := by
    simp only [Frame.plug, Func.call, SameFrame]
    split <;> exact ⟨rfl, rfl, rfl, rfl, rfl, rfl, rfl, rfl⟩
  have hs : (H.push a1.from_ a1.to_ a1.ts).current.start = a1.ts := Func.call_start _ _ _ _
  have hi : (H.push a1.from_ a1.to_ a1.ts).current.start_is_inferred = false :=
    Func.call_start_is_inferred _ _ _ _
  have hstats : ((H.push a1.from_ a1.to_ a1.ts).current.ret a1.ts).stats =
      (H.push a1.from_ a1.to_ a1.ts).current.stats.add_sample 0
        (H.push a1.from_ a1.to_ a1.ts).current.end_is_inferred := by
    simp [Func.ret, hs, hi]
  rw [hr1]
  refine ⟨rfl, rfl, rfl, ?_, ?_, ?_, ?_, ?_, hstats, ?_⟩
  · rw [hr2, hret]
  · rw [hr2, hret]
  · rw [hr2, hret]
    exact hsame
  · rw [hr2, hret]
    rfl
  · rw [hr2, hret, hts]
  · intro hr
    have hwf := (History.wf_closed a1.ts).push H a1.from_ a1.to_ hr.wf
    have heii := ((Func.clean_iff _).mp hwf.clean_current).1
    simp only
    rw [hstats, heii]
    exact ⟨rfl, rfl, rfl, rfl⟩

theorem History.noop_call_ret_witness :
    (History.new sym_main 10 0 42).no_flags ∧
      (History.new sym_main 10 0 42).nodes.length < UINT64_MAX ∧
      (History.new sym_main 10 0 42).current.sym.address ≠ 0 ∧
      (History.new sym_main 10 0 42).current.sym.address + 10 < U64 ∧
      (act Inst.CALL sym_main sym_foo 30).inst = Inst.CALL ∧
      (act Inst.CALL sym_main sym_foo 30).from_ = (History.new sym_main 10 0 42).current.sym ∧
      (act Inst.RET sym_foo sym_main5 30).inst = Inst.RET ∧
      (act Inst.RET sym_foo sym_main5 30).ts = (act Inst.CALL sym_main sym_foo 30).ts ∧
      (History.new sym_main 10 0 42).current.sym.address ≤
        (act Inst.RET sym_foo sym_main5 30).to_.address ∧
      (act Inst.RET sym_foo sym_main5 30).to_.address <
        (History.new sym_main 10 0 42).current.sym.address + 10 ∧
      ((History.new sym_main 10 0 42).replay (act Inst.CALL sym_main sym_foo 30)).1 = true ∧
      ((((History.new sym_main 10 0 42).replay (act Inst.CALL sym_main sym_foo 30)).2.replay
        (act Inst.RET sym_foo sym_main5 30)).1 = true) :=
  ⟨⟨rfl, rfl, rfl, rfl, rfl, rfl⟩, by decide, by decide, by decide, rfl, by decide, rfl, rfl,
    by decide, by decide,
    (History.noop_call_ret (History.new sym_main 10 0 42) (act Inst.CALL sym_main sym_foo 30)
      (act Inst.RET sym_foo sym_main5 30) ⟨rfl, rfl, rfl, rfl, rfl, rfl⟩ (by decide) (by decide)
      (by decide) rfl (by decide) rfl rfl (by decide) (by decide)).1,
    (History.noop_call_ret (History.new sym_main 10 0 42) (act Inst.CALL sym_main sym_foo 30)
      (act Inst.RET sym_foo sym_main5 30) ⟨rfl, rfl, rfl, rfl, rfl, rfl⟩ (by decide) (by decide)
      (by decide) rfl (by decide) rfl rfl (by decide) (by decide)).2.2.2.1⟩

/-- C8, as stated, fails.  The fresh history rooted at `main` (address
`0x1000`, started at 10) has no flag set; `CALL main -> foo` at 30 followed by
`RET foo -> main+5` (address `0x1005`) at 30 leaves `main` as `current`, and
the node of `foo` holds one sample of duration 0 that is not counted as
inferred: `stats.invoked` went from 0 to 1 and `stats.inferred` stayed 0. -/
theorem History.noop_sample_not_inferred :
    (History.new sym_main 10 0 42).no_flags ∧
      (History.new sym_main 10 0 42).current.sym = sym_main ∧ sym_main.address ≠ 0 ∧
      10 ≤ 30 ∧ sym_main.address ≤ sym_main5.address ∧
      sym_main5.address < sym_main.address + 10 ∧
      (((History.new sym_main 10 0 42).replay (act Inst.CALL sym_main sym_foo 30)).2.replay
        (act Inst.RET sym_foo sym_main5 30)).1 = true ∧
      (((History.new sym_main 10 0 42).replay (act Inst.CALL sym_main sym_foo 30)).2.replay
        (act Inst.RET sym_foo sym_main5 30)).2.current.sym = sym_main ∧
      (((History.new sym_main 10 0 42).replay (act Inst.CALL sym_main sym_foo 30)).2.replay
        (act Inst.RET sym_foo sym_main5 30)).2.current.callee.map
          (fun f => (f.sym, f.stats)) = [(sym_foo, ⟨0, 0, 1, 0⟩)] :=
  ⟨⟨rfl, rfl, rfl, rfl, rfl, rfl⟩, by decide, by decide, by decide, by decide, by decide,
    by decide, by decide, by decide⟩

/-! ## The maps of Replay -/

theorem map_find_emplace_ne {α : Type} (t k : Nat) (v : α) (m : List (Nat × α)) (h : t ≠ k) :
    map_find t (map_emplace k v m) = map_find t m := by
  induction m with
  | nil => simp [map_emplace, map_find, Ne.symm h]
  | cons e m ih =>
    obtain ⟨k1, v1⟩ := e
    simp only [map_emplace]
    split
    · simp [map_find, Ne.symm h]
    · split
      · rfl
      · simp [map_find, ih]

theorem map_find_assign_ne {α : Type} (t k : Nat) (v : α) (m : List (Nat × α)) (h : t ≠ k) :
    map_find t (map_assign k v m) = map_find t m := by
  induction m with
  | nil => simp [map_assign, map_find, Ne.symm h]
  | cons e m ih =>
    obtain ⟨k1, v1⟩ := e
    simp only [map_assign]
    split
    · simp [map_find, Ne.symm h]
    · split
      · next hk => simp [map_find, hk, Ne.symm h]
      · simp [map_find, ih]

theorem map_find_assign_self {α : Type} (k : Nat) (v : α) (m : List (Nat × α)) :
    map_find k (map_assign k v m) = some v := by
  induction m with
  | nil => simp [map_assign, map_find]
  | cons e m ih =>
    obtain ⟨k1, v1⟩ := e
    simp only [map_assign]
    split
    · simp [map_find]
    · split
      · simp [map_find]
      · next hk => simp [map_find, hk, ih]

theorem map_find_erase_ne {α : Type} (t k : Nat) (m : List (Nat × α)) (h : t ≠ k) :
    map_find t (map_erase k m) = map_find t m := by
  induction m with
  | nil => rfl
  | cons e m ih =>
    obtain ⟨k1, v1⟩ := e
    simp only [map_erase, List.filter_cons, ne_eq, decide_not] at ih ⊢
    by_cases hk : k1 = k
    · have : k1 ≠ t := by omega
      simp [hk, map_find, ih, Ne.symm h]
    · by_cases ht : k1 = t
      · subst ht
        simp [h, map_find]
      · simp [hk, map_find, ht, ih]

theorem map_find_erase_self {α : Type} (k : Nat) (m : List (Nat × α)) :
    map_find k (map_erase k m) = none := by
  induction m with
  | nil => rfl
  | cons e m ih =>
    obtain ⟨k1, v1⟩ := e
    simp only [map_erase, List.filter_cons, ne_eq, decide_not] at ih ⊢
    by_cases hk : k1 = k
    · simp [hk, ih]
    · simp [hk, map_find, ih]

theorem map_find_emplace_self {α : Type} (k : Nat) (v : α) (m : List (Nat × α))
    (h : map_find k m = none) : map_find k (map_emplace k v m) = some v := by
  induction m with
  | nil => simp [map_emplace, map_find]
  | cons e m ih =>
    obtain ⟨k1, v1⟩ := e
    simp only [map_find] at h
    split at h
    · simp at h
    · next hk =>
      simp only [map_emplace]
      split
      · simp [map_find]
      · simp [hk, map_find, ih h]

/-! ## Replay::replay -/

theorem History.terminate_sym (H : History) : H.terminate.sym = global_root_function := by
  rw [H.terminate_eq]
  rfl

theorem Replay.replay_of_rejected (r : Replay) (action : Action) (hist : History)
    (hfind : map_find action.tid r.threads = some hist)
    (hrej : (hist.replay action).1 = false) :
    r.replay action =
      (true,
        { threads := map_emplace action.tid (History.ofAction action)
            (map_erase action.tid r.threads)
          last_seen := map_assign action.tid action.ts r.last_seen
          archive := r.archive ++ [(hist.replay action).2.terminate] }) := by
  cases hh : hist.replay action with
  | mk b h1 =>
    rw [hh] at hrej
    simp only at hrej
    subst hrej
    simp only [Replay.replay, hfind, hh]

/-- C12. When a live history exists for `action.tid` and `History::replay`
rejects the action, `Replay::replay` returns true, appends exactly one node to
`archive`, the `/global_root/` returned by terminating that history, and puts
in its place a fresh history whose `root = current` has the symbol
`(action.to.name, action.to.address - action.to.offset, 0)` and
`start = first_start = action.ts`; the histories and the `last_seen` entries
of the other tids are unchanged. -/
theorem Replay.replay_rejected (r : Replay) (action : Action) (hist : History)
    (hfind : map_find action.tid r.threads = some hist)
    (hrej : (hist.replay action).1 = false) :
    (r.replay action).1 = true ∧
      (r.replay action).2.archive = r.archive ++ [(hist.replay action).2.terminate] ∧
      (hist.replay action).2.terminate.sym = ⟨"/global_root/", 0x10, 0⟩ ∧
      map_find action.tid (r.replay action).2.threads = some (History.ofAction action) ∧
      (History.ofAction action).chain = [] ∧
      (History.ofAction action).current.callee = [] ∧
      (History.ofAction action).current.sym =
        ⟨action.to_.name, usub action.to_.address action.to_.offset, 0⟩ ∧
      (History.ofAction action).current.start = action.ts ∧
      (History.ofAction action).current.first_start = action.ts ∧
      map_find action.tid (r.replay action).2.last_seen = some action.ts ∧
      ∀ t, t ≠ action.tid →
        map_find t (r.replay action).2.threads = map_find t r.threads ∧
          map_find t (r.replay action).2.last_seen = map_find t r.last_seen := by
  rw [Replay.replay_of_rejected r action hist hfind hrej]
  refine ⟨rfl, rfl, History.terminate_sym _, ?_, rfl, rfl, rfl, rfl, rfl, ?_, ?_⟩
  · exact map_find_emplace_self _ _ _ (map_find_erase_self _ _)
  · exact map_find_assign_self _ _ _
  · intro t ht
    exact ⟨by
      show map_find t (map_emplace _ _ _) = _
      rw [map_find_emplace_ne _ _ _ _ ht, map_find_erase_ne _ _ _ ht],
      map_find_assign_ne _ _ _ _ ht⟩

theorem Replay.replay_rejected_witness :
    map_find 42 (Replay.run Replay.empty [act Inst.CALL sym_x sym_main 50]).threads =
        some (History.new sym_main 50 0 42) ∧
      ((History.new sym_main 50 0 42).replay (act Inst.CALL sym_b sym_a 60)).1 = false ∧
      ((Replay.run Replay.empty [act Inst.CALL sym_x sym_main 50]).replay
        (act Inst.CALL sym_b sym_a 60)).1 = true :=
  ⟨rfl, by decide,
    (Replay.replay_rejected (Replay.run Replay.empty [act Inst.CALL sym_x sym_main 50])
      (act Inst.CALL sym_b sym_a 60) (History.new sym_main 50 0 42) rfl (by decide)).1⟩

/-- C13, as the code has it.  `Replay::replay` changes the history of no tid
but `action.tid`.  With no history for `action.tid`, an action whose `to` is
unknown leaves the whole state as it is, and any other action inserts the
history seeded by it.  A live history that accepts the action is kept; a live
history that rejects it is replaced by the history seeded by the action,
whatever its `to` is. -/
theorem Replay.replay_threads (r : Replay) (action : Action) :
    (map_find action.tid r.threads = none → action.to_.is_unknown = true →
        r.replay action = (true, r)) ∧
      (map_find action.tid r.threads = none → action.to_.is_unknown = false →
        map_find action.tid (r.replay action).2.threads = some (History.ofAction action) ∧
          (r.replay action).2.archive = r.archive) ∧
      (∀ hist, map_find action.tid r.threads = some hist → (hist.replay action).1 = true →
        map_find action.tid (r.replay action).2.threads = some (hist.replay action).2 ∧
          (r.replay action).2.archive = r.archive) ∧
      (∀ hist, map_find action.tid r.threads = some hist → (hist.replay action).1 = false →
        map_find action.tid (r.replay action).2.threads = some (History.ofAction action) ∧
          (r.replay action).2.archive = r.archive ++ [(hist.replay action).2.terminate]) ∧
      ∀ t, t ≠ action.tid →
        map_find t (r.replay action).2.threads = map_find t r.threads := by
  refine ⟨?_, ?_, ?_, ?_, ?_⟩
  · intro h hu
    simp [Replay.replay, h, hu]
  · intro h hu
    simp only [Replay.replay, h, hu]
    exact ⟨map_find_emplace_self _ _ _ h, rfl⟩
  · intro hist h hacc
    cases hh : hist.replay action with
    | mk b h1 =>
      rw [hh] at hacc
      simp only at hacc
      subst hacc
      simp only [Replay.replay, h, hh, and_true]
      exact map_find_assign_self _ _ _
  · intro hist h hrej
    rw [Replay.replay_of_rejected r action hist h hrej]
    exact ⟨map_find_emplace_self _ _ _ (map_find_erase_self _ _), rfl⟩
  · intro t ht
    unfold Replay.replay
    split
    · split
      · rfl
      · exact map_find_emplace_ne _ _ _ _ ht
    · split
      · show map_find t (map_emplace _ _ _) = _
        rw [map_find_emplace_ne _ _ _ _ ht, map_find_erase_ne _ _ _ ht]
      · exact map_find_assign_ne _ _ _ _ ht

/-- C13, as stated, fails.  The thread 42 has a history rooted at `main`; the
action `CALL b -> [unknown]` at 60 is rejected (no frame has the base or the
name of `b`), the history is archived, and the history inserted in its place
is seeded by that action: its root is `[unknown]`. -/
theorem Replay.history_seeded_by_unknown :
    (act Inst.CALL sym_b sym_unknown 60).to_.is_unknown = true ∧
      ∃ h,
        map_find 42
            (Replay.run Replay.empty
              [act Inst.CALL sym_x sym_main 50, act Inst.CALL sym_b sym_unknown 60]).threads =
          some h ∧
        h = History.ofAction (act Inst.CALL sym_b sym_unknown 60) ∧
        h.current.sym = sym_unknown ∧ h.chain.length = 0 ∧
        (Replay.run Replay.empty
          [act Inst.CALL sym_x sym_main 50, act Inst.CALL sym_b sym_unknown 60]).archive.length
          = 1 :=
  ⟨by decide, _, rfl, rfl, by decide, by decide, by decide⟩

/-- C14, as the code has it.  After `Replay::replay(action)` returns,
`last_seen[action.tid]` equals `action.ts`, except when `action.to` is unknown
and there is no history for `action.tid`: then the action is ignored and the
state, `last_seen` included, is what it was. -/
theorem Replay.replay_last_seen (r : Replay) (action : Action) :
    (¬ (map_find action.tid r.threads = none ∧ action.to_.is_unknown = true) →
        map_find action.tid (r.replay action).2.last_seen = some action.ts) ∧
      (map_find action.tid r.threads = none → action.to_.is_unknown = true →
        r.replay action = (true, r)) := by
  refine ⟨?_, ?_⟩
  · intro h
    unfold Replay.replay
    split
    · next hn =>
      split
      · next hu => exact absurd ⟨hn, hu⟩ h
      · exact map_find_assign_self _ _ _
    · split <;> exact map_find_assign_self _ _ _
  · intro h hu
    simp [Replay.replay, h, hu]

/-- C14, as stated, fails.  On a fresh `Replay` the action
`CALL main -> [unknown]` at 5 of thread 42 is ignored: afterwards `last_seen`
has no entry for 42 (reading it gives 0, not 5). -/
theorem Replay.last_seen_not_recorded :
    (Replay.empty.replay (act Inst.CALL sym_main sym_unknown 5)).1 = true ∧
      map_find 42 (Replay.empty.replay (act Inst.CALL sym_main sym_unknown 5)).2.last_seen =
        none ∧
      map_find 42 (Replay.empty.replay (act Inst.CALL sym_main sym_unknown 5)).2.last_seen ≠
        some (act Inst.CALL sym_main sym_unknown 5).ts :=
  ⟨by decide, by decide, by decide⟩

/-! ## Replay::cleanup -/

theorem map_erase_head {α : Type} (k : Nat) (v : α) (m : List (Nat × α))
    (h : k ∉ m.map Prod.fst) : map_erase k ((k, v) :: m) = m := by
  simp only [map_erase, List.filter_cons, ne_eq, decide_not, decide_True, Bool.not_true,
    Bool.false_eq_true, if_false]
  rw [List.filter_eq_self]
  intro e he
  have : e.1 ≠ k := fun hk => h (hk ▸ List.mem_map_of_mem Prod.fst he)
  simp [this]

theorem Replay.cleanup_loop_eq (n : Nat) (r : Replay)
    (hkeys : (r.threads.map Prod.fst).Nodup) (hn : r.threads.length ≤ n) :
    Replay.cleanup_loop n r =
      { r with
        archive := r.archive ++ r.threads.map (fun e => e.2.terminate)
        threads := [] } := by
  induction n generalizing r with
  | zero =>
    have : r.threads = [] := List.length_eq_zero.mp (Nat.le_zero.mp hn)
    obtain ⟨threads, last_seen, archive⟩ := r
    simp only at this
    subst this
    simp [Replay.cleanup_loop]
  | succ n ih =>
    cases ht : r.threads with
    | nil =>
      obtain ⟨threads, last_seen, archive⟩ := r
      simp only at ht
      subst ht
      simp [Replay.cleanup_loop]
    | cons e rest =>
      obtain ⟨tid, hist⟩ := e
      rw [ht] at hkeys hn
      simp only [List.map_cons, List.nodup_cons] at hkeys
      simp only [Replay.cleanup_loop, ht]
      rw [map_erase_head tid hist rest hkeys.1, ih _ hkeys.2 (by simpa using hn)]
      simp

/-- C15. For every `Replay` state (the keys of `threads` being distinct, as in
a `std::map`) with `k` live histories, `cleanup()` terminates: its loop ends
after `k` rounds, with `threads` empty and `archive` equal to the previous
archive followed by exactly `k` new roots, the `/global_root/` returned by
terminating each of the live histories, in the order of `threads`. -/
theorem Replay.cleanup_spec (r : Replay) (hkeys : (r.threads.map Prod.fst).Nodup) :
    r.cleanup.threads = [] ∧
      r.cleanup.archive = r.archive ++ r.threads.map (fun e => e.2.terminate) ∧
      r.cleanup.archive.length = r.archive.length + r.threads.length ∧
      (∀ g ∈ r.threads.map (fun e => e.2.terminate), g.sym = ⟨"/global_root/", 0x10, 0⟩) ∧
      r.cleanup.last_seen = r.last_seen ∧
      ∀ n, r.threads.length ≤ n → Replay.cleanup_loop n r = r.cleanup := by
  have h := Replay.cleanup_loop_eq r.threads.length r hkeys (Nat.le_refl _)
  unfold Replay.cleanup
  rw [h]
  refine ⟨rfl, rfl, by simp, ?_, rfl, fun n hn => Replay.cleanup_loop_eq n r hkeys hn⟩
  intro g hg
  obtain ⟨e, _, rfl⟩ := List.mem_map.mp hg
  exact History.terminate_sym _

theorem Replay.cleanup_spec_witness :
    ((Replay.run Replay.empty [act Inst.CALL sym_x sym_main 50]).threads.map Prod.fst).Nodup ∧
      (Replay.run Replay.empty [act Inst.CALL sym_x sym_main 50]).cleanup.threads = [] ∧
      (Replay.run Replay.empty [act Inst.CALL sym_x sym_main 50]).cleanup.archive.length =
        (Replay.run Replay.empty [act Inst.CALL sym_x sym_main 50]).archive.length +
          (Replay.run Replay.empty [act Inst.CALL sym_x sym_main 50]).threads.length :=
  ⟨by decide,
    (Replay.cleanup_spec (Replay.run Replay.empty [act Inst.CALL sym_x sym_main 50])
      (by decide)).1,
    (Replay.cleanup_spec (Replay.run Replay.empty [act Inst.CALL sym_x sym_main 50])
      (by decide)).2.2.1⟩

/-! ## Statistics -/

theorem Statistics.Built.counts {s : Statistics} {n : Nat} (h : s.Built n) :
    ∃ k, k ≤ n ∧ s.invoked = n % U64 ∧ s.inferred = k % U64 := by
  induction h with
  | zero => exact ⟨0, Nat.le_refl _, rfl, rfl⟩
  | @add s n t b _ ih =>
    obtain ⟨k, hk, h1, h2⟩ := ih
    cases b with
    | false =>
      refine ⟨k, by omega, ?_, h2⟩
      show uadd s.invoked 1 = _
      rw [h1]
      simp [uadd]
    | true =>
      refine ⟨k + 1, by omega, ?_, ?_⟩
      · show uadd s.invoked 1 = _
        rw [h1]
        simp [uadd]
      · show uadd s.inferred 1 = _
        rw [h2]
        simp [uadd]
  | @merge s o n m _ _ ih1 ih2 =>
    obtain ⟨k1, hk1, h1, h2⟩ := ih1
    obtain ⟨k2, hk2, h3, h4⟩ := ih2
    refine ⟨k1 + k2, by omega, ?_, ?_⟩
    · show uadd s.invoked o.invoked = _
      rw [h1, h3]
      simp [uadd, Nat.add_mod]
    · show uadd s.inferred o.inferred = _
      rw [h2, h4]
      simp [uadd, Nat.add_mod]

/-- C18. Every `Statistics` value built from the all-zero value by
`add_sample` (any duration and flag) and `merge_stat` (any value so built),
from fewer than `2^64` samples in all, so that the 64-bit counters count as
naturals do, has `invoked` equal to the number of its samples and
`invoked >= inferred`; `n() = invoked - inferred` does not wrap. -/
theorem Statistics.invoked_ge_inferred (s : Statistics) (n : Nat) (h : s.Built n)
    (hn : n < U64) :
    s.invoked = n ∧ s.inferred ≤ s.invoked ∧ s.n = s.invoked - s.inferred := by
  obtain ⟨k, hk, h1, h2⟩ := h.counts
  rw [Nat.mod_eq_of_lt hn] at h1
  rw [Nat.mod_eq_of_lt (by omega)] at h2
  refine ⟨h1, by omega, ?_⟩
  unfold Statistics.n usub
  rw [h1, h2]
  have : n + U64 - k = (n - k) + U64 := by omega
  rw [this, Nat.add_mod_right]
  exact Nat.mod_eq_of_lt (by omega)

theorem Statistics.invoked_ge_inferred_witness :
    (Statistics.zero.add_sample 7 true).Built 1 ∧ 1 < U64 ∧
      (Statistics.zero.add_sample 7 true).inferred ≤
        (Statistics.zero.add_sample 7 true).invoked :=
  ⟨Statistics.Built.add 7 true Statistics.Built.zero, by decide,
    (Statistics.invoked_ge_inferred _ 1 (Statistics.Built.add 7 true Statistics.Built.zero)
      (by decide)).2.1⟩

/-! ## Func::destructive_merge -/

theorem firstMatch_none {p : Func → Bool} {l : List Func} {n : Nat} :
    firstMatch p l n = none ↔ ∀ c ∈ l, p c = false := by
  induction l generalizing n with
  | nil => simp [firstMatch]
  | cons f fs ih =>
    by_cases hp : p f = true
    · simp [firstMatch, hp]
    · simp only [Bool.not_eq_true] at hp
      simp [firstMatch, hp, ih]

theorem Func.find_callee_none {f : Func} {s : Symbol} :
    f.find_callee s = none ↔
      ∀ c ∈ f.callee, c.sym.base ≠ s.base ∧ c.sym.name ≠ s.name := by
  unfold Func.find_callee
  constructor
  · intro h
    split at h
    · simp at h
    · next hb =>
      have h1 := firstMatch_none.mp hb
      have h2 := firstMatch_none.mp h
      intro c hc
      exact ⟨by simpa using h1 c hc, by simpa [Func.name_match] using h2 c hc⟩
  · intro h
    have hb : firstMatch (fun c => decide (c.sym.base = s.base)) f.callee 0 = none :=
      firstMatch_none.mpr (fun c hc => by simpa using (h c hc).1)
    rw [hb]
    exact firstMatch_none.mpr (fun c hc => by simpa [Func.name_match] using (h c hc).2)

theorem Func.find_callee_some {f : Func} {s : Symbol} {i : Nat} {c : Func}
    (h : f.find_callee s = some (i, c)) :
    f.callee[i]? = some c ∧
      (c.sym.base = s.base ∨
        ((∀ d ∈ f.callee, d.sym.base ≠ s.base) ∧ c.sym.name = s.name)) := by
  refine ⟨Func.find_callee_spec h, ?_⟩
  unfold Func.find_callee at h
  split at h
  · next r hr =>
    cases h
    obtain ⟨_, _, _, hp⟩ := firstMatch_spec hr
    exact Or.inl (by simpa using hp)
  · next hb =>
    obtain ⟨_, _, _, hp⟩ := firstMatch_spec h
    refine Or.inr ⟨fun d hd => ?_, by simpa [Func.name_match] using hp⟩
    simpa using firstMatch_none.mp hb d hd

theorem Func.destructive_merge_eq (self that : Func) :
    self.destructive_merge that =
      Func.merge_callee { self with stats := self.stats.merge_stat that.stats } that.callee := by
  cases that
  simp [Func.destructive_merge]

/-- C17, as the code has it.  `destructive_merge(other)` adds the statistics
of `other` and takes the children of `other` from the back; each child `f` is
looked up with `find_callee` among the children `this` has by then.  It is
merged into the child found, which is the first one with the base of `f` or,
when no child has that base, the first one with the name of `f`; only a child
matching no child of `this` by base or by name is re-parented under `this`, as
its last child.  Hence in scenario 5 the two nodes named `f` are merged by
name: the merged tree has under `r` a single node `f`, with the address of the
first thread and `invoked = 2`. -/
theorem Func.destructive_merge_by_find_callee :
    (∀ self that : Func,
        self.destructive_merge that =
          Func.merge_callee { self with stats := self.stats.merge_stat that.stats }
            that.callee) ∧
      (∀ (self f : Func) (fs : List Func) (i : Nat) (c : Func),
        (Func.merge_callee self fs).find_callee f.sym = some (i, c) →
          (Func.merge_callee self fs).callee[i]? = some c ∧
            (c.sym.base = f.sym.base ∨
              ((∀ d ∈ (Func.merge_callee self fs).callee, d.sym.base ≠ f.sym.base) ∧
                c.sym.name = f.sym.name)) ∧
            Func.merge_callee self (f :: fs) =
              { Func.merge_callee self fs with
                callee := (Func.merge_callee self fs).callee.set i (c.destructive_merge f) }) ∧
      (∀ (self f : Func) (fs : List Func),
        (∀ d ∈ (Func.merge_callee self fs).callee,
            d.sym.base ≠ f.sym.base ∧ d.sym.name ≠ f.sym.name) →
          Func.merge_callee self (f :: fs) =
            { Func.merge_callee self fs with
              callee := (Func.merge_callee self fs).callee ++ [f] }) ∧
      ∃ G,
        ((Replay.run Replay.empty scenario5).cleanup).destructive_merge_all.1 = some G ∧
          G.sym = global_root_function ∧
          G.callee.map (fun f => (f.sym, f.stats.invoked)) = [(sym_r, 2)] ∧
          G.callee.map (fun f => f.callee.map (fun g => (g.sym, g.stats.invoked))) =
            [[(sym_f1, 2)]] := by
  refine ⟨Func.destructive_merge_eq, ?_, ?_, ⟨_, rfl, by decide, by decide, by decide⟩⟩
  · intro self f fs i c h
    obtain ⟨h1, h2⟩ := Func.find_callee_some h
    refine ⟨h1, h2, ?_⟩
    simp only [Func.merge_callee, h]
  · intro self f fs h
    have := Func.find_callee_none.mpr h
    simp only [Func.merge_callee, this]

/-- C17, as stated, fails.  In scenario 5 the trees of the two threads are
`/global_root/ -> r -> f`, with `f` at `0x2000` in one and at `0x9000` in the
other, each with `invoked = 1`.  After `destructive_merge_all` the node `r` has
one child only: the `f` of the second thread was merged into the `f` of the
first, although their bases differ, and that node has `invoked = 2`. -/
theorem Func.merge_joins_same_name :
    sym_f1.base ≠ sym_f2.base ∧ sym_f1.name = sym_f2.name ∧
      (Replay.run Replay.empty scenario5).cleanup.archive.map
          (fun G => G.callee.map (fun f => f.callee.map (fun g => (g.sym, g.stats.invoked)))) =
        [[[(sym_f1, 1)]], [[(sym_f2, 1)]]] ∧
      ∃ G,
        ((Replay.run Replay.empty scenario5).cleanup).destructive_merge_all.1 = some G ∧
          G.callee.map (fun f => f.callee.length) = [1] ∧
          G.callee.map (fun f => f.callee.map (fun g => (g.sym, g.stats.invoked))) =
            [[(sym_f1, 2)]] :=
  ⟨by decide, by decide, by decide, ⟨_, rfl, by decide, by decide⟩⟩

/-! ## Siblings with distinct bases -/

theorem Func.distinct_iff (f : Func) :
    f.distinct = true ↔
      (f.callee.map (fun c => c.sym.base)).Nodup ∧ ∀ c ∈ f.callee, c.distinct = true := by
  unfold Func.distinct
  rw [Func.all_iff]
  simp

theorem Func.all_descend {p : Func → Bool} {f g : Func} {path : List Nat}
    (h : f.all p = true) (hg : f.descend path = some g) : p g = true := by
  induction path generalizing f with
  | nil =>
    simp only [Func.descend, Option.some.injEq] at hg
    subst hg
    exact ((Func.all_iff p f).mp h).1
  | cons i is ih =>
    simp only [Func.descend] at hg
    split at hg
    · next c hc =>
      exact ih (((Func.all_iff p f).mp h).2 c (mem_of_getElem?_eq hc).1) hg
    · simp at hg

theorem nodup_insert_base {l : List Func} {c : Func} {pos : Nat}
    (h : (l.map (fun c => c.sym.base)).Nodup) (hc : c.sym.base ∉ l.map (fun c => c.sym.base)) :
    ((l.take pos ++ c :: l.drop pos).map (fun c => c.sym.base)).Nodup := by
  have hp : (l.take pos ++ c :: l.drop pos).Perm (c :: l) := by
    refine List.perm_middle.trans ?_
    rw [List.take_append_drop]
  exact (hp.map _).nodup_iff.mpr (List.nodup_cons.mpr ⟨hc, h⟩)

theorem Frame.plug_distinct (fr : Frame) (c : Func)
    (h1 : (fr.node.callee.map (fun c => c.sym.base)).Nodup)
    (h2 : c.sym.base ∉ fr.node.callee.map (fun c => c.sym.base))
    (h3 : ∀ d ∈ fr.node.callee, d.distinct = true) (h4 : c.distinct = true) :
    (fr.plug c).distinct = true := by
  rw [Func.distinct_iff]
  refine ⟨nodup_insert_base h1 h2, fun d hd => ?_⟩
  simp only [Frame.plug, List.mem_append, List.mem_cons] at hd
  rcases hd with hd | rfl | hd
  · exact h3 d (List.mem_of_mem_take hd)
  · exact h4
  · exact h3 d (List.mem_of_mem_drop hd)

theorem Func.ret_distinct (f : Func) (ts : Nat) : (f.ret ts).distinct = f.distinct := by
  rw [Bool.eq_iff_iff, Func.distinct_iff, Func.distinct_iff]
  rfl

theorem nodup_remove_base {l : List Func} {i : Nat} {c : Func}
    (h : (l.map (fun c => c.sym.base)).Nodup) (hc : l[i]? = some c) :
    ((l.take i ++ l.drop (i + 1)).map (fun c => c.sym.base)).Nodup ∧
      c.sym.base ∉ (l.take i ++ l.drop (i + 1)).map (fun c => c.sym.base) := by
  obtain ⟨hi, rfl⟩ := List.getElem?_eq_some_iff.mp hc
  have hl : l = l.take i ++ l[i] :: l.drop (i + 1) := by
    rw [← List.drop_eq_getElem_cons hi, List.take_append_drop]
  have hp : l.Perm (l[i] :: (l.take i ++ l.drop (i + 1))) := by
    conv_lhs => rw [hl]
    exact List.perm_middle
  have := ((hp.map (fun c => c.sym.base)).nodup_iff.mp h)
  simp only [List.map_cons, List.nodup_cons] at this
  exact ⟨this.2, this.1⟩

theorem History.distinct_init (s : Symbol) (ts c t : Nat) : (History.new s ts c t).Distinct := by
  refine ⟨?_, trivial⟩
  rw [Func.distinct_iff]
  simp [History.new, Func.new]

theorem History.distinct_closed (ts : Nat) : Closed History.Distinct ts := by
  refine ⟨?_, ?_, ?_, ?_⟩
  · intro H H1 h1 h2 h
    unfold History.Distinct at h ⊢
    rw [h1, h2]
    exact h
  · intro H h
    unfold History.pop
    cases hc : H.chain with
    | nil => simpa using h
    | cons fr rest =>
      obtain ⟨hcur, hch⟩ := h
      rw [hc] at hch
      obtain ⟨h1, h2, h3, h4⟩ := hch
      refine ⟨?_, h4⟩
      exact Frame.plug_distinct { fr with node := { fr.node with call_address := 0 } } _ h1 h2 h3
        (by rw [Func.ret_distinct]; exact hcur)
  · intro H from_ to_ h
    obtain ⟨hcur, hch⟩ := h
    have hd := (Func.distinct_iff _).mp hcur
    unfold History.push History.Distinct
    simp only [Func.call]
    split
    · next i c hf =>
      have hic := Func.find_callee_spec hf
      simp only at hic
      obtain ⟨hn1, hn2⟩ := nodup_remove_base hd.1 hic
      have hcd := (Func.distinct_iff _).mp (hd.2 c (mem_of_getElem?_eq hic).1)
      refine ⟨?_, hn1, hn2, fun d hdm => hd.2 d (mem_take_drop hdm), hch⟩
      rw [Func.distinct_iff]
      exact hcd
    · next hf =>
      have hnone := Func.find_callee_none.mp hf
      simp only at hnone
      refine ⟨?_, hd.1, ?_, hd.2, hch⟩
      · rw [Func.distinct_iff]
        simp [Func.new]
      · intro hm
        obtain ⟨d, hdm, hdb⟩ := List.mem_map.mp hm
        exact (hnone d hdm).1 hdb
  · intro H to_ hc h
    obtain ⟨hcur, _⟩ := h
    have hcal : (H.promote to_ ts).current.callee = [H.current.ret ts] := by
      simp [History.promote, History.goto_root, History.make_new_root, History.root, hc, zip_up,
        Frame.plug, Func.new]
    refine ⟨?_, trivial⟩
    rw [Func.distinct_iff, hcal]
    refine ⟨by simp, fun c hcm => ?_⟩
    simp only [List.mem_singleton] at hcm
    subst hcm
    rw [Func.ret_distinct]
    exact hcur

theorem History.Reachable.distinct_tree {H : History} (h : H.Reachable) : H.Distinct := by
  induction h with
  | init s ts c t => exact History.distinct_init s ts c t
  | step a _ ih => exact (History.distinct_closed a.ts).replay a _ ih

theorem terminate_loop_distinct (ts : Nat) (chain : List Frame) (cur : Func)
    (hcur : cur.distinct = true) (hch : chain_distinct cur.sym chain) :
    (terminate_loop ts cur chain).distinct = true := by
  induction chain generalizing cur with
  | nil => exact hcur
  | cons fr rest ih =>
    obtain ⟨h1, h2, h3, h4⟩ := hch
    refine ih _ ?_ h4
    refine Frame.plug_distinct { fr with node := { fr.node with call_address := 0 } } _ h1 h2 h3 ?_
    rw [Func.ret_distinct, Func.distinct_iff]
    exact (Func.distinct_iff cur).mp hcur

theorem History.terminate_distinct (H : History) (h : H.Distinct) :
    H.terminate.distinct = true := by
  rw [H.terminate_eq, Func.ret_distinct, Func.distinct_iff]
  refine ⟨by simp, fun c hc => ?_⟩
  have hc1 : c = (terminate_loop H.close_time H.current H.chain).ret H.close_time := by
    simpa using hc
  rw [hc1, Func.ret_distinct]
  exact terminate_loop_distinct _ _ _ h.1 h.2

theorem Func.destructive_merge_distinct (self that : Func) :
    self.distinct = true → that.distinct = true →
      (self.destructive_merge that).distinct = true ∧
        (self.destructive_merge that).sym = self.sym := by
  refine Func.destructive_merge.induct
    (fun self that => self.distinct = true → that.distinct = true →
      (self.destructive_merge that).distinct = true ∧
        (self.destructive_merge that).sym = self.sym)
    (fun self fs => self.distinct = true → (∀ f ∈ fs, f.distinct = true) →
      (Func.merge_callee self fs).distinct = true ∧ (Func.merge_callee self fs).sym = self.sym)
    ?_ ?_ ?_ ?_ self that
  · intro self sym callee ca tid fs st en sii eii stats ih hs ht
    have := ih (by rw [Func.distinct_iff]; exact (Func.distinct_iff self).mp hs)
      ((Func.distinct_iff _).mp ht).2
    simpa [Func.destructive_merge] using this
  · intro self hs _
    exact ⟨hs, rfl⟩
  · intro self f fs self1 i c hf ih1 ih2 hs hfs
    obtain ⟨hd1, hsym1⟩ := ih1 hs (fun g hg => hfs g (List.mem_cons_of_mem _ hg))
    have hdd := (Func.distinct_iff _).mp hd1
    have hic := Func.find_callee_spec hf
    obtain ⟨hcm, hil⟩ := mem_of_getElem?_eq hic
    obtain ⟨hm, hmsym⟩ := ih2 (hdd.2 c hcm) (hfs f (List.mem_cons_self _ _))
    have hres : Func.merge_callee self (f :: fs) =
        { self1 with callee := self1.callee.set i (c.destructive_merge f) } := by
      simp only [Func.merge_callee, self1, hf]
    rw [hres]
    refine ⟨?_, hsym1⟩
    rw [Func.distinct_iff]
    constructor
    · simp only [List.map_set]
      have : (List.map (fun c => c.sym.base) self1.callee).set i (c.destructive_merge f).sym.base =
          List.map (fun c => c.sym.base) self1.callee := by
        apply List.ext_getElem?
        intro j
        by_cases hij : i = j
        · subst hij
          rw [List.getElem?_set_self (by simpa using hil)]
          simp [hic, hmsym]
        · rw [List.getElem?_set_ne hij]
      rw [this]
      exact hdd.1
    · intro d hdm
      rcases List.mem_or_eq_of_mem_set hdm with hdm | rfl
      · exact hdd.2 d hdm
      · exact hm
  · intro self f fs self1 hf ih1 hs hfs
    obtain ⟨hd1, hsym1⟩ := ih1 hs (fun g hg => hfs g (List.mem_cons_of_mem _ hg))
    have hdd := (Func.distinct_iff _).mp hd1
    have hnone := Func.find_callee_none.mp hf
    have hres : Func.merge_callee self (f :: fs) =
        { self1 with callee := self1.callee ++ [f] } := by
      simp only [Func.merge_callee, self1, hf]
    rw [hres]
    refine ⟨?_, hsym1⟩
    rw [Func.distinct_iff]
    constructor
    · simp only [List.map_append, List.map_cons, List.map_nil]
      refine List.Nodup.append hdd.1 (by simp) ?_
      intro b hb1 hb2
      simp only [List.mem_singleton] at hb2
      subst hb2
      obtain ⟨d, hdm, hdb⟩ := List.mem_map.mp hb1
      exact (hnone d hdm).1 hdb
    · intro d hdm
      simp only [List.mem_append, List.mem_singleton] at hdm
      rcases hdm with hdm | rfl
      · exact hdd.2 d hdm
      · exact hfs d (List.mem_cons_self _ _)

theorem mem_map_emplace {α : Type} {k : Nat} {v : α} {m : List (Nat × α)} {e : Nat × α}
    (h : e ∈ map_emplace k v m) : e = (k, v) ∨ e ∈ m := by
  induction m with
  | nil => simpa [map_emplace] using h
  | cons x m ih =>
    obtain ⟨k1, v1⟩ := x
    simp only [map_emplace] at h
    split at h
    · simpa using h
    · split at h
      · exact Or.inr h
      · rcases List.mem_cons.mp h with h | h
        · exact Or.inr (h ▸ List.mem_cons_self _ _)
        · exact (ih h).imp id (List.mem_cons_of_mem _)

theorem mem_map_assign {α : Type} {k : Nat} {v : α} {m : List (Nat × α)} {e : Nat × α}
    (h : e ∈ map_assign k v m) : e = (k, v) ∨ e ∈ m := by
  induction m with
  | nil => simpa [map_assign] using h
  | cons x m ih =>
    obtain ⟨k1, v1⟩ := x
    simp only [map_assign] at h
    split at h
    · simpa using h
    · split at h
      · rcases List.mem_cons.mp h with h | h
        · exact Or.inl h
        · exact Or.inr (List.mem_cons_of_mem _ h)
      · rcases List.mem_cons.mp h with h | h
        · exact Or.inr (h ▸ List.mem_cons_self _ _)
        · exact (ih h).imp id (List.mem_cons_of_mem _)

theorem mem_map_erase {α : Type} {k : Nat} {m : List (Nat × α)} {e : Nat × α}
    (h : e ∈ map_erase k m) : e ∈ m :=
  (List.mem_filter.mp h).1

theorem map_find_mem {α : Type} {k : Nat} {m : List (Nat × α)} {v : α}
    (h : map_find k m = some v) : (k, v) ∈ m := by
  induction m with
  | nil => simp [map_find] at h
  | cons x m ih =>
    obtain ⟨k1, v1⟩ := x
    simp only [map_find] at h
    split at h
    · next hk =>
      simp only [Option.some.injEq] at h
      subst hk h
      exact List.mem_cons_self _ _
    · exact List.mem_cons_of_mem _ (ih h)

theorem History.ofAction_distinct (a : Action) : (History.ofAction a).Distinct :=
  History.distinct_init _ _ _ _

theorem Replay.replay_distinct (r : Replay) (a : Action) (h : r.Distinct) :
    (r.replay a).2.Distinct := by
  obtain ⟨ht, ha⟩ := h
  unfold Replay.replay
  split
  · split
    · exact ⟨ht, ha⟩
    · refine ⟨fun e he => ?_, ha⟩
      rcases mem_map_emplace he with rfl | he
      · exact History.ofAction_distinct a
      · exact ht e he
  · next hist hfind =>
    have hd : (hist.replay a).2.Distinct :=
      (History.distinct_closed a.ts).replay a hist (ht _ (map_find_mem hfind))
    split
    · next hist1 heq =>
      rw [heq] at hd
      refine ⟨fun e he => ?_, fun g hg => ?_⟩
      · rcases mem_map_emplace he with rfl | he
        · exact History.ofAction_distinct a
        · exact ht e (mem_map_erase he)
      · rcases List.mem_append.mp hg with hg | hg
        · exact ha g hg
        · simp only [List.mem_singleton] at hg
          subst hg
          exact History.terminate_distinct _ hd
    · next hist1 heq =>
      rw [heq] at hd
      refine ⟨fun e he => ?_, ha⟩
      rcases mem_map_assign he with rfl | he
      · exact hd
      · exact ht e he

theorem Replay.run_distinct (as : List Action) (r : Replay) (h : r.Distinct) :
    (r.run as).Distinct := by
  induction as generalizing r with
  | nil => exact h
  | cons a as ih => exact ih _ (Replay.replay_distinct r a h)

theorem Replay.cleanup_loop_distinct (n : Nat) (r : Replay) (h : r.Distinct) :
    (Replay.cleanup_loop n r).Distinct := by
  induction n generalizing r with
  | zero => exact h
  | succ n ih =>
    unfold Replay.cleanup_loop
    split
    · exact h
    · next tid hist rest hth =>
      refine ih _ ⟨fun e he => h.1 e (mem_map_erase he), fun g hg => ?_⟩
      rcases List.mem_append.mp hg with hg | hg
      · exact h.2 g hg
      · simp only [List.mem_singleton] at hg
        subst hg
        exact History.terminate_distinct _ (h.1 (tid, hist) (hth ▸ List.mem_cons_self _ _))

theorem Func.foldl_merge_distinct (fs : List Func) (root : Func) (hr : root.distinct = true)
    (hfs : ∀ f ∈ fs, f.distinct = true) : (fs.foldl Func.destructive_merge root).distinct = true := by
  induction fs generalizing root with
  | nil => exact hr
  | cons f fs ih =>
    exact ih _ (Func.destructive_merge_distinct root f hr (hfs f (List.mem_cons_self _ _))).1
      (fun g hg => hfs g (List.mem_cons_of_mem _ hg))

/-- C16. For every sequence of actions fed to `Replay::replay` from a fresh
`Replay`, every node `g` of the tree `G` that `destructive_merge_all()` returns
after `cleanup()` has children with pairwise different `sym.base()`: two
children at different positions never have equal bases. -/
theorem Replay.merged_siblings_distinct (as : List Action) (G : Func)
    (hG : ((Replay.run Replay.empty as).cleanup.destructive_merge_all).1 = some G)
    (path : List Nat) (g : Func) (hg : G.descend path = some g) :
    (g.callee.map (fun c => c.sym.base)).Nodup := by
  have hinv : ((Replay.run Replay.empty as).cleanup).Distinct :=
    Replay.cleanup_loop_distinct _ _
      (Replay.run_distinct as Replay.empty (And.intro (fun _ he => nomatch he) (fun _ hg => nomatch hg)))
  have hGd : G.distinct = true := by
    simp only [Replay.destructive_merge_all] at hG
    cases hArch : (Replay.run Replay.empty as).cleanup.archive with
    | nil => rw [hArch] at hG; simp [Func.destructive_merge_funcs] at hG
    | cons root fs =>
      rw [hArch] at hG
      simp only [Func.destructive_merge_funcs, Option.some.injEq] at hG
      subst hG
      have ha := hinv.2
      rw [hArch] at ha
      exact Func.foldl_merge_distinct fs root (ha root (List.mem_cons_self _ _))
        (fun f hf => ha f (List.mem_cons_of_mem _ hf))
  have := Func.all_descend hGd hg
  simpa using this

theorem Replay.merged_siblings_distinct_witness :
    ∃ G g, ((Replay.run Replay.empty scenario5).cleanup.destructive_merge_all).1 = some G ∧
      G.descend [0] = some g ∧ g.callee.map (fun c => c.sym) = [sym_f1] ∧
      (g.callee.map (fun c => c.sym.base)).Nodup :=
  ⟨_, _, rfl, rfl, by decide,
    Replay.merged_siblings_distinct scenario5 _ rfl [0] _ rfl⟩

/-! ## Offsets of the nodes -/

theorem Func.aligned_iff (f : Func) :
    f.aligned = true ↔ f.sym.offset = 0 ∧ ∀ c ∈ f.callee, c.aligned = true := by
  unfold Func.aligned
  rw [Func.all_iff]
  simp

theorem Symbol.base_of_offset_zero (s : Symbol) (h : s.offset = 0) (ha : s.address < U64) :
    s.base = s.address := by
  unfold Symbol.base usub
  rw [h]
  split
  · simp only [Nat.sub_zero, Nat.add_mod_right]
    exact Nat.mod_eq_of_lt ha
  · next h0 => exact (not_not.mp h0).symm

theorem Func.ret_aligned (f : Func) (ts : Nat) : (f.ret ts).aligned = f.aligned := by
  rw [Bool.eq_iff_iff, Func.aligned_iff, Func.aligned_iff]
  rfl

theorem Frame.plug_aligned (fr : Frame) (c : Func) (h1 : fr.node.aligned = true)
    (h2 : c.aligned = true) : (fr.plug c).aligned = true := by
  have h := (Func.aligned_iff _).mp h1
  rw [Func.aligned_iff]
  refine ⟨h.1, fun d hd => ?_⟩
  simp only [Frame.plug, List.mem_append, List.mem_cons] at hd
  rcases hd with hd | rfl | hd
  · exact h.2 d (List.mem_of_mem_take hd)
  · exact h2
  · exact h.2 d (List.mem_of_mem_drop hd)

theorem zip_up_aligned (chain : List Frame) (c : Func) (hc : c.aligned = true)
    (hch : ∀ fr ∈ chain, fr.node.aligned = true) : (zip_up c chain).aligned = true := by
  induction chain generalizing c with
  | nil => exact hc
  | cons fr rest ih =>
    exact ih _ (Frame.plug_aligned fr c (hch fr (List.mem_cons_self _ _)) hc)
      (fun g hg => hch g (List.mem_cons_of_mem _ hg))

theorem History.aligned_init (s : Symbol) (ts c t : Nat) : (History.new s ts c t).Aligned := by
  refine ⟨?_, fun fr hfr => nomatch hfr⟩
  rw [Func.aligned_iff]
  simp [History.new, Func.new]

theorem History.aligned_congr (H H1 : History) (h1 : H1.current = H.current)
    (h2 : H1.chain = H.chain) (h : H.Aligned) : H1.Aligned := by
  unfold History.Aligned at h ⊢
  rw [h1, h2]
  exact h

theorem History.aligned_pop (H : History) (ts : Nat) (h : H.Aligned) : (H.pop ts).Aligned := by
  unfold History.pop
  cases hc : H.chain with
  | nil => simpa using h
  | cons fr rest =>
    obtain ⟨hcur, hch⟩ := h
    rw [hc] at hch
    refine ⟨?_, fun g hg => hch g (List.mem_cons_of_mem _ hg)⟩
    refine Frame.plug_aligned { fr with node := { fr.node with call_address := 0 } } _ ?_
      (by rw [Func.ret_aligned]; exact hcur)
    rw [Func.aligned_iff]
    exact (Func.aligned_iff fr.node).mp (hch fr (List.mem_cons_self _ _))

theorem History.aligned_unwind (H : History) (ts k : Nat) (h : H.Aligned) :
    (H.unwind ts k).Aligned := by
  induction k generalizing H with
  | zero => exact h
  | succ k ih => exact ih (H.pop ts) (History.aligned_pop H ts h)

theorem History.aligned_push (H : History) (from_ to_ : Symbol) (ts : Nat)
    (hto : to_.offset = 0) (h : H.Aligned) : (H.push from_ to_ ts).Aligned := by
  obtain ⟨hcur, hch⟩ := h
  have hd := (Func.aligned_iff _).mp hcur
  unfold History.push History.Aligned
  simp only [Func.call]
  split
  · next i c hf =>
    have hic := Func.find_callee_spec hf
    simp only at hic
    have hcd := (Func.aligned_iff _).mp (hd.2 c (mem_of_getElem?_eq hic).1)
    refine ⟨?_, fun fr hfr => ?_⟩
    · rw [Func.aligned_iff]
      exact hcd
    · rcases List.mem_cons.mp hfr with rfl | hfr
      · rw [Func.aligned_iff]
        exact ⟨hd.1, fun d hdm => hd.2 d (mem_take_drop hdm)⟩
      · exact hch fr hfr
  · refine ⟨?_, fun fr hfr => ?_⟩
    · rw [Func.aligned_iff]
      simp [Func.new, hto]
    · rcases List.mem_cons.mp hfr with rfl | hfr
      · rw [Func.aligned_iff]
        exact hd
      · exact hch fr hfr

theorem History.aligned_promote (H : History) (to_ : Symbol) (ts : Nat) (hc : H.chain = [])
    (h : H.Aligned) : (H.promote to_ ts).Aligned := by
  obtain ⟨hcur, _⟩ := h
  have hcal : (H.promote to_ ts).current.callee = [H.current.ret ts] := by
    simp [History.promote, History.goto_root, History.make_new_root, History.root, hc, zip_up,
      Frame.plug, Func.new]
  have hsym : (H.promote to_ ts).current.sym.offset = 0 := by
    simp [History.promote, History.goto_root, History.make_new_root, History.root, hc, zip_up,
      Frame.plug, Func.new]
  have hchain : (H.promote to_ ts).chain = [] := rfl
  refine ⟨?_, fun fr hfr => ?_⟩
  · rw [Func.aligned_iff, hcal]
    refine ⟨hsym, fun c hcm => ?_⟩
    simp only [List.mem_singleton] at hcm
    subst hcm
    rw [Func.ret_aligned]
    exact hcur
  · rw [hchain] at hfr
    exact nomatch hfr

theorem History.aligned_call (H : History) (from_ to_ : Symbol) (ts : Nat)
    (hto : to_.offset = 0) (h : H.Aligned) : (H.call from_ to_ ts).2.Aligned := by
  unfold History.call
  simp only
  split
  · exact h
  · exact History.aligned_push _ from_ to_ ts hto (History.aligned_unwind H ts _ h)

theorem History.aligned_ret (H : History) (from_ to_ : Symbol) (ts : Nat) (h : H.Aligned) :
    (H.ret from_ to_ ts).2.Aligned := by
  unfold History.ret
  split
  · next hc => exact History.aligned_promote H to_ ts hc h
  · simp only
    split
    · exact h
    · exact History.aligned_unwind H ts _ h

theorem History.aligned_dispatch (a : Action) (H : History)
    (hto : ∀ s ∈ (match a.inst with
      | Inst.RET => []
      | Inst.IRET => []
      | Inst.SYSRET => []
      | Inst.TR_END => []
      | Inst.END => []
      | Inst.TR_START => if a.to_.is_unknown = true then [a.to_] else []
      | _ => [a.to_]), s.offset = 0)
    (h : H.Aligned) : (H.dispatch a).2.Aligned := by
  unfold History.dispatch
  split
  · next hi =>
    rw [hi] at hto
    exact History.aligned_call _ _ _ _ (hto _ (List.mem_singleton_self _))
      (History.aligned_congr H _ rfl rfl h)
  · next hi =>
    rw [hi] at hto
    exact History.aligned_call _ _ _ _ (hto _ (List.mem_singleton_self _))
      (History.aligned_congr H _ rfl rfl h)
  · next hi =>
    rw [hi] at hto
    exact History.aligned_call _ _ _ _ (hto _ (List.mem_singleton_self _)) h
  · next hi =>
    rw [hi] at hto
    exact History.aligned_call _ _ _ _ (hto _ (List.mem_singleton_self _)) h
  · next hi =>
    rw [hi] at hto
    exact History.aligned_call _ _ _ _ (hto _ (List.mem_singleton_self _)) h
  · next hi =>
    rw [hi] at hto
    exact History.aligned_call _ _ _ _ (hto _ (List.mem_singleton_self _)) h
  · exact History.aligned_ret _ _ _ _ (History.aligned_congr H _ rfl rfl h)
  · exact History.aligned_ret _ _ _ _ h
  · exact History.aligned_ret _ _ _ _ h
  · exact History.aligned_call _ _ _ _ rfl (History.aligned_congr H _ rfl rfl h)
  · next hi =>
    rw [hi] at hto
    split
    · exact History.aligned_ret _ _ _ _ (History.aligned_congr H _ rfl rfl h)
    · split
      · exact History.aligned_ret _ _ _ _ (History.aligned_congr H _ rfl rfl h)
      · split
        · exact History.aligned_congr H _ rfl rfl h
        · split
          · exact History.aligned_congr H _ rfl rfl h
          · split
            · exact History.aligned_congr H _ rfl rfl h
            · split
              · next hu =>
                refine History.aligned_call _ _ _ _ (hto _ ?_) h
                simp [hu.2]
              · exact h
  · exact h

theorem History.aligned_replay (a : Action) (H : History)
    (hent : ∀ s ∈ H.entered a, s.offset = 0) (h : H.Aligned) : (H.replay a).2.Aligned := by
  have hto := fun s hs => hent s (List.mem_append_right _ hs)
  have hd : ∀ H1 : History, H1.Aligned → (H1.dispatch a).2.Aligned :=
    fun H1 h1 => History.aligned_dispatch a H1 hto h1
  unfold History.replay
  split
  · exact h
  · split
    · split
      · exact h
      · split
        · exact History.aligned_ret _ _ _ _ (History.aligned_congr H _ rfl rfl h)
        · split
          · exact History.aligned_congr H _ rfl rfl h
          · exact h
    · split
      · split
        · split
          · exact h
          · split
            · exact History.aligned_congr H _ rfl rfl h
            · split
              · exact h
              · exact History.aligned_congr H _ rfl rfl h
        · split
          · exact History.aligned_congr H _ rfl rfl h
          · split
            · exact History.aligned_congr H _ rfl rfl h
            · exact History.aligned_ret _ _ _ _ (History.aligned_congr H _ rfl rfl h)
          · exact History.aligned_congr H _ rfl rfl h
      · split
        · split
          · exact History.aligned_congr H _ rfl rfl h
          · exact History.aligned_ret _ _ _ _ (History.aligned_congr H _ rfl rfl h)
        · split
          · next hsys =>
            split
            · exact h
            · next hcall =>
              split
              · next hne =>
                have hfrom : a.from_.offset = 0 := by
                  apply hent
                  apply List.mem_append_left
                  rw [if_pos ⟨hsys, not_not.mp hcall, hne⟩]
                  exact List.mem_singleton_self _
                have hc := History.aligned_call H H.current.sym a.from_ a.ts hfrom h
                split
                · next H1 heq => rw [heq] at hc; exact hc
                · next H1 heq =>
                  rw [heq] at hc
                  exact hd _ (History.aligned_congr H1 _ rfl rfl hc)
              · exact hd _ (History.aligned_congr H _ rfl rfl h)
          · exact hd H h

theorem History.ReachableAligned.aligned {H : History} (h : H.ReachableAligned) :
    H.Aligned := by
  induction h with
  | init s ts c t => exact History.aligned_init s ts c t
  | step a _ hent ih => exact History.aligned_replay a _ hent ih

/-- C11, as the code has it.  The constructor of `History` and `make_new_root`
set the offset of the symbol they are given to 0, whatever it is; `Func::call`
gives a new node the symbol it is handed, offset included.  When every symbol
`History::replay` hands to `Func::call` has offset 0 (the `to` of the calls
and jumps, and the `from` of the call inserted after a SYSCALL), every node of
the tree has `sym.offset == 0`, and `sym.base() == sym.address` for 64-bit
addresses, whatever offsets the history was constructed from and the return
sites carry. -/
theorem History.nodes_offset_zero (H : History) (h : H.ReachableAligned)
    (path : List Nat) (g : Func) (hg : H.root.descend path = some g) :
    g.sym.offset = 0 ∧ (g.sym.address < U64 → g.sym.base = g.sym.address) := by
  have hr : H.root.aligned = true := zip_up_aligned _ _ h.aligned.1 h.aligned.2
  have h0 : g.sym.offset = 0 := by simpa using Func.all_descend hr hg
  exact ⟨h0, Symbol.base_of_offset_zero g.sym h0⟩

theorem History.nodes_offset_zero_witness :
    sym_main5.offset = 5 ∧ sym_z5.offset = 5 ∧
      ∃ g,
        (((History.new sym_main5 10 0 42).replay (act Inst.RET sym_main5 sym_z5 20)).2.replay
          (act Inst.CALL sym_z5 sym_foo 30)).2.root.descend [1] = some g ∧
        g.sym = sym_foo ∧ g.sym.offset = 0 ∧ (g.sym.address < U64 → g.sym.base = g.sym.address) :=
  ⟨rfl, rfl, _, rfl, rfl,
    History.nodes_offset_zero _
      (History.ReachableAligned.step (act Inst.CALL sym_z5 sym_foo 30)
        (History.ReachableAligned.step (act Inst.RET sym_main5 sym_z5 20)
          (History.ReachableAligned.init sym_main5 10 0 42) (by decide))
        (by decide))
      [1] _ rfl⟩

/-- C11, as stated, fails.  On a history constructed at `__libc_recv+0x79` the
trace around a syscall of the comment at replay.cpp:257 is accepted:
`SYSCALL __libc_recv+0x79 -> __entry_text_start+0x0`, then
`CALL entry_SYSCALL_64_after_hwframe+0x3f -> do_syscall_64+0x0`.  The call
inserted to connect the stack hands the `from` of the second action to
`Func::call`, and the node it creates keeps the offset `0x3f`: its `base()` is
not its address. -/
theorem History.call_keeps_offset :
    ((History.new sym_recv79 10 0 42).replay (act Inst.SYSCALL sym_recv79 sym_entry 20)).1 = true ∧
      (((History.new sym_recv79 10 0 42).replay (act Inst.SYSCALL sym_recv79 sym_entry 20)).2.replay
        (act Inst.CALL sym_hwframe3f sym_do_syscall 30)).1 = true ∧
      (hist_syscall.root.descend [0, 0]).map (fun g => g.sym) = some sym_hwframe3f ∧
      (hist_syscall.root.descend [0, 0]).map (fun g => g.sym.offset) = some 0x3f ∧
      (hist_syscall.root.descend [0, 0]).map (fun g => decide (g.sym.base = g.sym.address)) =
        some false ∧
      (hist_syscall.root.descend [0, 0, 0]).map (fun g => g.sym) = some sym_do_syscall ∧
      hist_syscall.root.sym = ⟨"__libc_recv", 0x1000, 0⟩ := by
  refine ⟨by decide, by decide, by decide, by decide, by decide, by decide, by decide⟩

/-! ## MergeWrapper -/

theorem choose_top_mem {tops : List Nat} {c k : Nat} (h : choose_top tops c = some k) :
    k ∈ tops := by
  induction tops generalizing c with
  | nil => simp [choose_top] at h
  | cons t ts ih =>
    cases ts with
    | nil =>
      simp only [choose_top, Option.some.injEq] at h
      simp [h]
    | cons t2 ts =>
      cases c with
      | zero =>
        simp only [choose_top, Option.some.injEq] at h
        simp [h]
      | succ c =>
        simp only [choose_top] at h
        exact List.mem_cons_of_mem _ (ih h)

theorem choose_top_eq_none {tops : List Nat} {c : Nat} (h : choose_top tops c = none) :
    tops = [] := by
  induction tops generalizing c with
  | nil => rfl
  | cons t ts ih =>
    cases ts with
    | nil => simp [choose_top] at h
    | cons t2 ts =>
      cases c with
      | zero => simp [choose_top] at h
      | succ c =>
        simp only [choose_top] at h
        exact absurd (ih h) (by simp)

theorem heap_pop_spec {c : Nat} {h rest : List ActionWrapper} {w : ActionWrapper}
    (hp : heap_pop c h = some (w, rest)) :
    ∃ k, h[k]? = some w ∧ rest = h.take k ++ h.drop (k + 1) ∧
      ∀ v ∈ h, w.act.ts ≤ v.act.ts := by
  unfold heap_pop at hp
  split at hp
  · simp at hp
  · next k hk =>
    have hmem : k ∈ heap_tops h := choose_top_mem hk
    split at hp
    · simp at hp
    · next w1 hw1 =>
      simp only [Option.some.injEq, Prod.mk.injEq] at hp
      obtain ⟨rfl, rfl⟩ := hp
      refine ⟨k, hw1, rfl, ?_⟩
      have := (List.mem_filter.mp hmem).2
      rw [hw1] at this
      simpa [ActionWrapper.is_top] using this

theorem exists_is_top (h : List ActionWrapper) (hne : h ≠ []) :
    ∃ (k : Nat) (w : ActionWrapper), h[k]? = some w ∧ w.is_top h = true := by
  induction h with
  | nil => exact absurd rfl hne
  | cons v vs ih =>
    by_cases hvs : vs = []
    · subst hvs
      exact ⟨0, v, by simp, by simp [ActionWrapper.is_top]⟩
    · obtain ⟨k, w, hk, hw⟩ := ih hvs
      simp only [ActionWrapper.is_top, List.all_eq_true, decide_eq_true_eq] at hw
      by_cases hle : v.act.ts ≤ w.act.ts
      · refine ⟨0, v, by simp, ?_⟩
        simp only [ActionWrapper.is_top, List.all_eq_true, decide_eq_true_eq, List.mem_cons]
        rintro u (rfl | hu)
        · exact le_refl _
        · exact le_trans hle (hw u hu)
      · refine ⟨k + 1, w, by simpa using hk, ?_⟩
        simp only [ActionWrapper.is_top, List.all_eq_true, decide_eq_true_eq, List.mem_cons]
        rintro u (rfl | hu)
        · omega
        · exact hw u hu

theorem heap_pop_eq_none_iff (c : Nat) (h : List ActionWrapper) :
    heap_pop c h = none ↔ h = [] := by
  constructor
  · intro hp
    by_contra hne
    obtain ⟨k, w, hk, hw⟩ := exists_is_top h hne
    have hklt : k < h.length := (List.getElem?_eq_some_iff.mp hk).1
    have hmem : k ∈ heap_tops h := by
      unfold heap_tops
      rw [List.mem_filter]
      exact ⟨List.mem_range.mpr hklt, by rw [hk]; exact hw⟩
    unfold heap_pop at hp
    split at hp
    · next hc =>
      rw [choose_top_eq_none hc] at hmem
      exact nomatch hmem
    · next j hj =>
      have hjlt : j < h.length := List.mem_range.mp (List.mem_filter.mp (choose_top_mem hj)).1
      rw [List.getElem?_eq_getElem hjlt] at hp
      simp at hp
  · rintro rfl
    rfl

theorem mem_take_drop_wrapper {h : List ActionWrapper} {k : Nat} {v : ActionWrapper}
    (hv : v ∈ h.take k ++ h.drop (k + 1)) : v ∈ h := by
  rcases List.mem_append.mp hv with hv | hv
  · exact List.mem_of_mem_take hv
  · exact List.mem_of_mem_drop hv

theorem Source.next_action_pending (s : Source) (a : Action)
    (ha : a ∈ s.next_action.2.pending) : a ∈ s.pending := by
  unfold Source.next_action at ha
  split at ha
  · exact ha
  · next b rest hb =>
    rw [hb]
    exact List.mem_cons_of_mem _ ha

theorem Source.next_action_le (s : Source)
    (hs : s.pending.Pairwise (fun a b => a.ts ≤ b.ts)) :
    s.next_action.2.pending.Pairwise (fun a b => a.ts ≤ b.ts) ∧
      (s.next_action.1.inst ≠ Inst.END →
        s.next_action.1 ∈ s.pending ∧
          ∀ a ∈ s.next_action.2.pending, s.next_action.1.ts ≤ a.ts) := by
  unfold Source.next_action
  split
  · next hb =>
    refine ⟨hs, fun h => absurd rfl h⟩
  · next b rest hb =>
    rw [hb] at hs
    rw [hb]
    exact ⟨(List.pairwise_cons.mp hs).2, fun _ =>
      ⟨List.mem_cons_self _ _, (List.pairwise_cons.mp hs).1⟩⟩

theorem MergeWrapper.next_action_loop_merging (pick : Nat → Nat) (n : Nat) (mw : MergeWrapper)
    (lo : Nat) (hm : mw.Merging lo) (hs : mw.single_source = false)
    (hne : (MergeWrapper.next_action_loop pick n mw).1.inst ≠ Inst.END) :
    lo ≤ (MergeWrapper.next_action_loop pick n mw).1.ts ∧
      (MergeWrapper.next_action_loop pick n mw).2.Merging
        (MergeWrapper.next_action_loop pick n mw).1.ts := by
  induction n generalizing mw with
  | zero => exact absurd rfl hne
  | succ n ih =>
    unfold MergeWrapper.next_action_loop at hne ⊢
    split at hne
    · exact absurd rfl hne
    · next act rest hp =>
      simp only [hp]
      obtain ⟨k, hk, hrest, hmin⟩ := heap_pop_spec hp
      have hsub : ∀ v ∈ rest, v ∈ mw.action_heap := fun v hv =>
        mem_take_drop_wrapper (hrest ▸ hv)
      have hact : act ∈ mw.action_heap := (mem_of_getElem?_eq hk).1
      split at hne
      · next hend =>
        rw [if_pos hend]
        exact ih _ ⟨hm.sorted, fun h => absurd h (by simp [hs]),
          fun _ w hw hwe => hm.heap hs w (hsub w hw) hwe⟩ hs hne
      · next hend =>
        rw [if_neg hend]
        obtain ⟨hlo, hpend⟩ := hm.heap hs act hact hend
        have hsrc := Source.next_action_le (mw.readers act.tr) (hm.sorted act.tr)
        refine ⟨hlo, ⟨fun i => ?_, fun h => absurd h (by simp [hs]), fun _ w hw hwe => ?_⟩⟩
        · by_cases hi : i = act.tr
          · subst hi
            simp only [Function.update_same]
            exact hsrc.1
          · simp only [Function.update_noteq hi]
            exact hm.sorted i
        · simp only [List.mem_append, List.mem_singleton] at hw
          rcases hw with hw | rfl
          · refine ⟨hmin w (hsub w hw), fun a ha => ?_⟩
            dsimp only at ha
            by_cases hi : w.tr = act.tr
            · rw [hi, Function.update_same] at ha
              have := (hm.heap hs w (hsub w hw) hwe).2 a
              rw [hi] at this
              exact this (Source.next_action_pending _ a ha)
            · rw [Function.update_noteq hi] at ha
              exact (hm.heap hs w (hsub w hw) hwe).2 a ha
          · simp only [Function.update_same]
            exact ⟨hpend _ (hsrc.2 hwe).1, (hsrc.2 hwe).2⟩

theorem MergeWrapper.next_action_merging (pick : Nat → Nat) (mw : MergeWrapper) (lo : Nat)
    (hm : mw.Merging lo) (hne : (mw.next_action pick).1.inst ≠ Inst.END) :
    lo ≤ (mw.next_action pick).1.ts ∧ (mw.next_action pick).2.Merging (mw.next_action pick).1.ts := by
  unfold MergeWrapper.next_action at hne ⊢
  split
  · next hs =>
    rw [if_pos hs] at hne
    simp only at hne ⊢
    have hsrc := Source.next_action_le (mw.readers mw.tr) (hm.sorted mw.tr)
    refine ⟨hm.single hs _ (hsrc.2 hne).1,
      ⟨fun i => ?_, fun _ a ha => ?_, fun h => absurd hs (by simp [show mw.single_source = false from h])⟩⟩
    · by_cases hi : i = mw.tr
      · subst hi
        simp only [Function.update_same]
        exact hsrc.1
      · simp only [Function.update_noteq hi]
        exact hm.sorted i
    · simp only [Function.update_same] at ha
      exact (hsrc.2 hne).2 a ha
  · next hs =>
    rw [if_neg hs] at hne
    exact MergeWrapper.next_action_loop_merging pick _ mw lo hm (by simpa using hs) hne

theorem getD_sorted (srcs : List Source) (junk : Action)
    (hs : ∀ s ∈ srcs, s.pending.Pairwise (fun a b => a.ts ≤ b.ts)) (i : Nat) :
    (srcs.getD i ⟨[], junk⟩).pending.Pairwise (fun a b => a.ts ≤ b.ts) := by
  rw [List.getD_eq_getElem?_getD]
  cases h : srcs[i]? with
  | none => simp
  | some s => exact hs s (mem_of_getElem?_eq h).1

theorem MergeWrapper.new_merging (srcs : List Source) (junk : Action)
    (hs : ∀ s ∈ srcs, s.pending.Pairwise (fun a b => a.ts ≤ b.ts)) :
    (MergeWrapper.new srcs junk).Merging 0 := by
  unfold MergeWrapper.new
  simp only
  split
  · exact ⟨fun i => getD_sorted srcs junk hs i, fun _ a _ => Nat.zero_le _,
      fun _ w hw => nomatch hw⟩
  · refine ⟨fun i => (Source.next_action_le _ (getD_sorted srcs junk hs i)).1,
      (fun h => nomatch h), fun _ w hw hwe => ?_⟩
    simp only [List.mem_map, List.mem_range] at hw
    obtain ⟨i, _, rfl⟩ := hw
    exact ⟨Nat.zero_le _, (Source.next_action_le _ (getD_sorted srcs junk hs i)).2 hwe |>.2⟩

theorem MergeWrapper.actions_merging (pick : Nat → Nat → Nat) (n : Nat) (mw : MergeWrapper)
    (lo : Nat) (hm : mw.Merging lo) :
    (MergeWrapper.actions pick n mw).Pairwise (fun a b => a.ts ≤ b.ts) ∧
      ∀ a ∈ MergeWrapper.actions pick n mw, lo ≤ a.ts := by
  induction n generalizing mw lo with
  | zero => exact ⟨List.Pairwise.nil, fun a ha => nomatch ha⟩
  | succ n ih =>
    unfold MergeWrapper.actions
    split
    · exact ⟨List.Pairwise.nil, fun a ha => nomatch ha⟩
    · next hne =>
      obtain ⟨hlo, hm1⟩ := MergeWrapper.next_action_merging (pick n) mw lo hm hne
      obtain ⟨h1, h2⟩ := ih _ _ hm1
      refine ⟨List.pairwise_cons.mpr ⟨h2, h1⟩, fun a ha => ?_⟩
      rcases List.mem_cons.mp ha with rfl | ha
      · exact hlo
      · exact le_trans hlo (h2 a ha)

theorem choose_top_untied {tops : List Nat} (h : tops.length ≤ 1) (c : Nat) :
    choose_top tops c = choose_top tops 0 := by
  match tops, h with
  | [], _ => rfl
  | [_], _ => rfl
  | _ :: _ :: _, h => simp at h

theorem heap_pop_untied {h : List ActionWrapper} (ht : (heap_tops h).length ≤ 1) (c : Nat) :
    heap_pop c h = heap_pop 0 h := by
  unfold heap_pop
  rw [choose_top_untied ht c]

theorem MergeWrapper.next_action_loop_untied (pick : Nat → Nat) (n : Nat) (mw : MergeWrapper)
    (hu : untied_heap n mw.action_heap = true) :
    MergeWrapper.next_action_loop pick n mw = MergeWrapper.next_action_loop (fun _ => 0) n mw := by
  induction n generalizing mw with
  | zero => rfl
  | succ n ih =>
    simp only [untied_heap, Bool.and_eq_true, decide_eq_true_eq] at hu
    obtain ⟨ht, hr⟩ := hu
    unfold MergeWrapper.next_action_loop
    rw [heap_pop_untied ht (pick n)]
    cases hp : heap_pop 0 mw.action_heap with
    | none => rfl
    | some p =>
      obtain ⟨act, rest⟩ := p
      rw [hp] at hr
      simp only
      by_cases hend : act.act.inst = Inst.END
      · simp only [hend, if_true] at hr ⊢
        exact ih { mw with action_heap := rest } hr
      · simp only [hend, if_false]

theorem MergeWrapper.next_action_untied (pick : Nat → Nat) (mw : MergeWrapper)
    (hu : untied_heap mw.action_heap.length mw.action_heap = true) :
    mw.next_action pick = mw.next_action (fun _ => 0) := by
  unfold MergeWrapper.next_action
  split
  · rfl
  · exact MergeWrapper.next_action_loop_untied pick _ mw hu

theorem MergeWrapper.actions_untied (pick : Nat → Nat → Nat) (n : Nat) (mw : MergeWrapper)
    (hu : MergeWrapper.untied MergeWrapper.next_action n mw = true) :
    MergeWrapper.actions pick n mw = MergeWrapper.actions (fun _ _ => 0) n mw := by
  induction n generalizing mw with
  | zero => rfl
  | succ n ih =>
    simp only [MergeWrapper.untied, Bool.and_eq_true] at hu
    obtain ⟨hh, hr⟩ := hu
    unfold MergeWrapper.actions
    rw [MergeWrapper.next_action_untied (pick n) mw hh]
    by_cases hend : (mw.next_action (fun _ => 0)).1.inst = Inst.END
    · simp only [hend, if_true]
    · simp only [hend, if_false] at hr ⊢
      rw [ih _ hr]

/-- C19. For any number of readers, each with a finite sequence of actions of
non-decreasing `ts` followed by END, the actions returned by successive calls
of `MergeWrapper::next_action`, up to the first END, have non-decreasing `ts`,
however many calls are made and whichever way the heap breaks ties.  For two
readers with the timestamps 1, 3, 5 and 2, 4, 6 the calls return the six
actions in the order 1, 2, 3, 4, 5, 6, and then END. -/
theorem MergeWrapper.next_action_sorted :
    (∀ (srcs : List Source) (junk : Action),
        (∀ s ∈ srcs, s.pending.Pairwise (fun a b => a.ts ≤ b.ts)) →
          ∀ (pick : Nat → Nat → Nat) (n : Nat),
            (MergeWrapper.actions pick n (MergeWrapper.new srcs junk)).Pairwise
              (fun a b => a.ts ≤ b.ts)) ∧
      ∀ pick : Nat → Nat → Nat,
        MergeWrapper.actions pick 6 (MergeWrapper.new [src_135 1, src_246 2] act_junk) =
            [act_at 1 1, act_at 2 2, act_at 3 1, act_at 4 2, act_at 5 1, act_at 6 2] ∧
          MergeWrapper.actions pick 7 (MergeWrapper.new [src_135 1, src_246 2] act_junk) =
            [act_at 1 1, act_at 2 2, act_at 3 1, act_at 4 2, act_at 5 1, act_at 6 2] := by
  refine ⟨fun srcs junk hs pick n =>
    (MergeWrapper.actions_merging pick n _ 0 (MergeWrapper.new_merging srcs junk hs)).1, ?_⟩
  intro pick
  rw [MergeWrapper.actions_untied pick 6 _ (by decide),
    MergeWrapper.actions_untied pick 7 _ (by decide)]
  exact ⟨by decide, by decide⟩

theorem MergeWrapper.next_action_sorted_witness :
    (∀ s ∈ [src_135 1, src_135 2], s.pending.Pairwise (fun a b => a.ts ≤ b.ts)) ∧
      (MergeWrapper.actions (fun _ _ => 1) 7
        (MergeWrapper.new [src_135 1, src_135 2] act_junk)).length = 6 ∧
      (MergeWrapper.actions (fun _ _ => 1) 7
        (MergeWrapper.new [src_135 1, src_135 2] act_junk)).Pairwise (fun a b => a.ts ≤ b.ts) :=
  ⟨by decide, by decide,
    MergeWrapper.next_action_sorted.1 [src_135 1, src_135 2] act_junk (by decide)
      (fun _ _ => 1) 7⟩

/-! ## Instances of the statements on `Replay` and on the merge -/

theorem Replay.replay_threads_witness :
    map_find 42 (Replay.empty.replay (act Inst.CALL sym_x sym_main 50)).2.threads =
        some (History.ofAction (act Inst.CALL sym_x sym_main 50)) ∧
      (Replay.empty.replay (act Inst.CALL sym_x sym_main 50)).2.archive = Replay.empty.archive :=
  (Replay.replay_threads Replay.empty (act Inst.CALL sym_x sym_main 50)).2.1 rfl rfl

theorem Replay.replay_last_seen_witness :
    map_find (act Inst.CALL sym_x sym_main 50).tid
        (Replay.empty.replay (act Inst.CALL sym_x sym_main 50)).2.last_seen =
      some (act Inst.CALL sym_x sym_main 50).ts :=
  (Replay.replay_last_seen Replay.empty (act Inst.CALL sym_x sym_main 50)).1
    (fun h => absurd h.2 (by decide))

theorem Func.destructive_merge_by_find_callee_witness :
    Func.merge_callee (Func.new sym_main 0 42) [Func.new sym_foo 0 42] =
      { Func.merge_callee (Func.new sym_main 0 42) [] with
        callee := (Func.merge_callee (Func.new sym_main 0 42) []).callee ++
          [Func.new sym_foo 0 42] } :=
  Func.destructive_merge_by_find_callee.2.2.1 (Func.new sym_main 0 42) (Func.new sym_foo 0 42) []
    (fun _ hd => nomatch hd)

/-! ## MergeWrapper: the merge by blocks -/

theorem read_block_of_not (tid : Nat) (junk next : Action) (pend : List Action)
    (h : ¬ (next.inst ≠ Inst.END ∧ next.tid = tid)) :
    read_block tid junk next pend = ([], next, pend) := by
  cases pend with
  | nil => simp only [read_block]; rw [if_neg h]
  | cons a rest => simp only [read_block]; rw [if_neg h]

theorem read_block_spec (tid : Nat) (junk next : Action) (pend : List Action) :
    ∃ tail, next :: pend = (read_block tid junk next pend).1 ++ tail ∧
      (read_block tid junk next pend).2.2.Sublist tail ∧
      ((read_block tid junk next pend).2.1.inst ≠ Inst.END →
        tail = (read_block tid junk next pend).2.1 :: (read_block tid junk next pend).2.2 ∧
          (read_block tid junk next pend).2.1.tid ≠ tid) ∧
      ∀ a ∈ (read_block tid junk next pend).1, a.tid = tid := by
  induction pend generalizing next with
  | nil =>
    by_cases hc : next.inst ≠ Inst.END ∧ next.tid = tid
    · have e : read_block tid junk next [] = ([next], Action.new junk, []) := by
        simp only [read_block]; rw [if_pos hc]
      rw [e]
      refine ⟨[], by simp, List.Sublist.refl _, fun h => absurd rfl h, fun b hb => ?_⟩
      rw [List.mem_singleton.mp hb]
      exact hc.2
    · rw [read_block_of_not tid junk next [] hc]
      exact ⟨[next], rfl, List.nil_sublist _, fun h => ⟨rfl, fun ht => hc ⟨h, ht⟩⟩,
        fun b hb => nomatch hb⟩
  | cons a rest ih =>
    by_cases hc : next.inst ≠ Inst.END ∧ next.tid = tid
    · obtain ⟨tail, h1, h2, h3, h4⟩ := ih a
      have e : read_block tid junk next (a :: rest) =
          (next :: (read_block tid junk a rest).1, (read_block tid junk a rest).2.1,
            (read_block tid junk a rest).2.2) := by
        simp only [read_block]; rw [if_pos hc]
      rw [e]
      refine ⟨tail, by rw [List.cons_append, ← h1], h2, h3, fun b hb => ?_⟩
      rcases List.mem_cons.mp hb with rfl | hb
      · exact hc.2
      · exact h4 b hb
    · rw [read_block_of_not tid junk next (a :: rest) hc]
      exact ⟨next :: a :: rest, rfl, List.sublist_cons_self _ _,
        fun h => ⟨rfl, fun ht => hc ⟨h, ht⟩⟩, fun b hb => nomatch hb⟩

theorem Source.read_block_pending (s : Source) (tid : Nat) :
    ∃ tail,
      s.pending =
          (read_block tid s.junk s.next_action.1 s.next_action.2.pending).1 ++ tail ∧
        (read_block tid s.junk s.next_action.1 s.next_action.2.pending).2.2.Sublist tail ∧
        ((read_block tid s.junk s.next_action.1 s.next_action.2.pending).2.1.inst ≠ Inst.END →
          tail = (read_block tid s.junk s.next_action.1 s.next_action.2.pending).2.1 ::
              (read_block tid s.junk s.next_action.1 s.next_action.2.pending).2.2 ∧
            (read_block tid s.junk s.next_action.1 s.next_action.2.pending).2.1.tid ≠ tid) ∧
        ∀ a ∈ (read_block tid s.junk s.next_action.1 s.next_action.2.pending).1, a.tid = tid := by
  cases hp : s.pending with
  | nil =>
    have hn : s.next_action = (Action.new s.junk, s) := by simp [Source.next_action, hp]
    rw [hn]
    rw [read_block_of_not tid s.junk (Action.new s.junk) s.pending (fun h => h.1 rfl)]
    exact ⟨[], by simp [hp], by simp [hp], fun h => absurd rfl h, fun b hb => nomatch hb⟩
  | cons a rest =>
    have hn : s.next_action = (a, { s with pending := rest }) := by
      simp [Source.next_action, hp]
    rw [hn]
    exact PtFlame.read_block_spec tid s.junk a rest

theorem take_drop_sublist {α : Type} (h : List α) (k : Nat) :
    (h.take k ++ h.drop (k + 1)).Sublist h := by
  conv_rhs => rw [← List.take_append_drop k h]
  refine List.Sublist.append (List.Sublist.refl _) ?_
  rw [← List.drop_drop 1 k h]
  exact List.drop_sublist 1 _

theorem heap_no_other {h : List ActionWrapper} {k i : Nat} {act : ActionWrapper}
    (hk : h[k]? = some act) (hi : act.tr = i)
    (hone : (h.filter (fun w => decide (w.tr = i))).length ≤ 1) :
    ∀ w ∈ h.take k ++ h.drop (k + 1), w.tr ≠ i := by
  obtain ⟨hlt, rfl⟩ := List.getElem?_eq_some_iff.mp hk
  have hl : h = h.take k ++ h[k] :: h.drop (k + 1) := by
    rw [← List.drop_eq_getElem_cons hlt, List.take_append_drop]
  rw [hl] at hone
  simp only [List.filter_append, List.filter_cons, hi, decide_True, if_true, List.length_append,
    List.length_cons] at hone
  intro w hw hwi
  rcases List.mem_append.mp hw with hw | hw
  · have : w ∈ (h.take k).filter (fun w => decide (w.tr = i)) :=
      List.mem_filter.mpr ⟨hw, by simpa using hwi⟩
    have := List.length_pos_of_mem this
    omega
  · have : w ∈ (h.drop (k + 1)).filter (fun w => decide (w.tr = i)) :=
      List.mem_filter.mpr ⟨hw, by simpa using hwi⟩
    have := List.length_pos_of_mem this
    omega

theorem filter_none_length {h : List ActionWrapper} {i : Nat} (hn : ∀ w ∈ h, w.tr ≠ i) :
    (h.filter (fun w => decide (w.tr = i))).length = 0 := by
  rw [List.length_eq_zero, List.filter_eq_nil_iff]
  intro w hw
  simpa using hn w hw

theorem pairwise_of_no_tid {l : List Action} {t : Nat} (h : ∀ a ∈ l, a.tid ≠ t) :
    l.Pairwise (fun a b => a.tid = t → b.tid = t → a.ts ≤ b.ts) :=
  (List.pairwise_of_forall (R := fun _ _ => True) (fun _ _ => trivial)).imp_of_mem
    (fun ha _ _ hat _ => absurd hat (h _ ha))

theorem mem_pushed {rest : List ActionWrapper} {nxt : Action} {tr : Nat} {w : ActionWrapper}
    (hw : w ∈ (if nxt.inst ≠ Inst.END then rest ++ [⟨nxt, tr⟩] else rest)) :
    w ∈ rest ∨ (nxt.inst ≠ Inst.END ∧ w = ⟨nxt, tr⟩) := by
  split at hw
  · next h =>
    rcases List.mem_append.mp hw with hw | hw
    · exact Or.inl hw
    · exact Or.inr ⟨h, List.mem_singleton.mp hw⟩
  · exact Or.inl hw

theorem filter_pushed_length (rest : List ActionWrapper) (nxt : Action) (tr i : Nat) :
    ((if nxt.inst ≠ Inst.END then rest ++ [⟨nxt, tr⟩] else rest).filter
        (fun w => decide (w.tr = i))).length ≤
      (rest.filter (fun w => decide (w.tr = i))).length + (if tr = i then 1 else 0) := by
  split
  · rw [List.filter_append, List.length_append]
    by_cases h : tr = i
    · simp [List.filter_cons, h]
    · simp [List.filter_cons, h]
  · omega

theorem MergeWrapper.Owned.read (mw : MergeWrapper) (t i lo : Nat) (hm : mw.Owned t i lo)
    (hs : mw.single_source = false) (hb : mw.block = [])
    (act : ActionWrapper) (rest : List ActionWrapper) (k : Nat)
    (hk : mw.action_heap[k]? = some act)
    (hrest : rest = mw.action_heap.take k ++ mw.action_heap.drop (k + 1))
    (hend : act.act.inst ≠ Inst.END)
    (blk : List Action) (nxt : Action) (rest_p tail : List Action)
    (hP : (mw.readers act.tr).pending = blk ++ tail) (hrp : rest_p.Sublist tail)
    (hnxt : nxt.inst ≠ Inst.END → tail = nxt :: rest_p ∧ nxt.tid ≠ act.act.tid)
    (hblk : ∀ a ∈ blk, a.tid = act.act.tid) :
    (act.act.tid = t → lo ≤ act.act.ts) ∧
      MergeWrapper.Owned
        { mw with
          block := mw.block ++ blk
          action_heap := if nxt.inst ≠ Inst.END then rest ++ [⟨nxt, act.tr⟩] else rest
          readers := Function.update mw.readers act.tr
            { mw.readers act.tr with pending := rest_p } }
        t i (if act.act.tid = t then act.act.ts else lo) := by
  have hsubl : rest.Sublist mw.action_heap := hrest ▸ take_drop_sublist _ _
  have hsub : ∀ v ∈ rest, v ∈ mw.action_heap := fun v hv => hsubl.subset hv
  have hact : act ∈ mw.action_heap := (mem_of_getElem?_eq hk).1
  have hBsub : ∀ a ∈ blk, a ∈ (mw.readers act.tr).pending := fun a ha => by
    rw [hP]; exact List.mem_append_left _ ha
  have hTsub : ∀ a ∈ tail, a ∈ (mw.readers act.tr).pending := fun a ha => by
    rw [hP]; exact List.mem_append_right _ ha
  have hPsub : ∀ a ∈ rest_p, a ∈ (mw.readers act.tr).pending := fun a ha =>
    hTsub a (hrp.subset ha)
  have hnxtmem : nxt.inst ≠ Inst.END → nxt ∈ tail := fun h => by
    rw [(hnxt h).1]; exact List.mem_cons_self _ _
  by_cases hi0 : act.tr = i
  · subst hi0
    have hno : ∀ w ∈ rest, w.tr ≠ act.tr := hrest ▸ heap_no_other hk rfl hm.one
    have hsorted := hm.sorted
    rw [hP, List.pairwise_append] at hsorted
    obtain ⟨hblkpw, htailpw, hcross⟩ := hsorted
    have hloP : ∀ b ∈ (mw.readers act.tr).pending, b.tid = t →
        (if act.act.tid = t then act.act.ts else lo) ≤ b.ts := by
      intro b hb hbt
      split
      · next hat => exact (hm.heap act hact hend hat).2.2 b hb
      · exact hm.pending b hb hbt
    refine ⟨fun hat => (hm.heap act hact hend hat).2.1, ⟨?_, ?_, ?_, ?_, ?_, ?_, ?_, ?_⟩⟩
    · simp only [Function.update_same]
      exact htailpw.sublist hrp
    · intro j hj a ha
      simp only [Function.update_noteq hj] at ha
      exact hm.others j hj a ha
    · intro b hb hbt
      simp only [Function.update_same] at hb
      exact hloP b (hPsub b hb) hbt
    · intro w hw hwe hwt
      dsimp only at hw
      rcases mem_pushed hw with hw | ⟨hn, rfl⟩
      · exact absurd (hm.heap w (hsub w hw) hwe hwt).1 (hno w hw)
      · refine ⟨rfl, hloP nxt (hTsub nxt (hnxtmem hn)) hwt, fun b hb => ?_⟩
        simp only [Function.update_same] at hb
        have := htailpw
        rw [(hnxt hn).1] at this
        exact (List.pairwise_cons.mp this).1 b hb
    · dsimp only
      refine le_trans (filter_pushed_length rest nxt act.tr act.tr) ?_
      rw [filter_none_length hno]
      simp
    · dsimp only
      rw [hb, List.nil_append]
      exact hblkpw.imp (fun h _ _ => h)
    · intro a ha hat
      dsimp only at ha
      rw [hb, List.nil_append] at ha
      have hact_t : act.act.tid = t := (hblk a ha) ▸ hat
      refine ⟨?_, fun w hw hwe hwt => ?_, fun b hb hbt => ?_⟩
      · rw [if_pos hact_t]
        exact (hm.heap act hact hend hact_t).2.2 a (hBsub a ha)
      · dsimp only at hw
        rcases mem_pushed hw with hw | ⟨hn, rfl⟩
        · exact absurd (hm.heap w (hsub w hw) hwe hwt).1 (hno w hw)
        · exact absurd (hwt.trans hact_t.symm) (hnxt hn).2
      · simp only [Function.update_same] at hb
        exact hcross a ha b (hrp.subset hb)
    · intro h
      exact absurd (hs ▸ h : false = true) (by simp)
  · have hat : act.act.tid ≠ t := fun hat => hi0 (hm.heap act hact hend hat).1
    have hi0' : i ≠ act.tr := fun h => hi0 h.symm
    have hPno : ∀ a ∈ (mw.readers act.tr).pending, a.tid ≠ t := hm.others act.tr hi0
    rw [if_neg hat]
    refine ⟨fun h => absurd h hat, ⟨?_, ?_, ?_, ?_, ?_, ?_, ?_, ?_⟩⟩
    · simp only [Function.update_noteq hi0']
      exact hm.sorted
    · intro j hj a ha
      by_cases hj0 : j = act.tr
      · subst hj0
        simp only [Function.update_same] at ha
        exact hPno a (hPsub a ha)
      · simp only [Function.update_noteq hj0] at ha
        exact hm.others j hj a ha
    · intro b hb hbt
      simp only [Function.update_noteq hi0'] at hb
      exact hm.pending b hb hbt
    · intro w hw hwe hwt
      dsimp only at hw
      simp only [Function.update_noteq hi0']
      rcases mem_pushed hw with hw | ⟨hn, rfl⟩
      · exact hm.heap w (hsub w hw) hwe hwt
      · exact absurd hwt (hPno nxt (hTsub nxt (hnxtmem hn)))
    · dsimp only
      refine le_trans (filter_pushed_length rest nxt act.tr i) ?_
      rw [if_neg hi0, Nat.add_zero]
      exact le_trans (hsubl.filter _).length_le hm.one
    · dsimp only
      rw [hb, List.nil_append]
      exact pairwise_of_no_tid (fun a ha => hPno a (hBsub a ha))
    · intro a ha hat
      dsimp only at ha
      rw [hb, List.nil_append] at ha
      exact absurd hat (hPno a (hBsub a ha))
    · intro h
      exact absurd (hs ▸ h : false = true) (by simp)

theorem MergeWrapper.next_action_by_block_loop_owned (pick : Nat → Nat) (n : Nat)
    (mw : MergeWrapper) (t i lo : Nat) (hm : mw.Owned t i lo)
    (hs : mw.single_source = false) (hb : mw.block = [])
    (hne : (MergeWrapper.next_action_by_block_loop pick n mw).1.inst ≠ Inst.END) :
    ((MergeWrapper.next_action_by_block_loop pick n mw).1.tid = t →
        lo ≤ (MergeWrapper.next_action_by_block_loop pick n mw).1.ts) ∧
      (MergeWrapper.next_action_by_block_loop pick n mw).2.Owned t i
        (if (MergeWrapper.next_action_by_block_loop pick n mw).1.tid = t then
          (MergeWrapper.next_action_by_block_loop pick n mw).1.ts else lo) := by
  induction n generalizing mw with
  | zero => exact absurd rfl hne
  | succ n ih =>
    unfold MergeWrapper.next_action_by_block_loop at hne ⊢
    split at hne
    · exact absurd rfl hne
    · next act rest hp =>
      simp only [hp]
      obtain ⟨k, hk, hrest, hmin⟩ := heap_pop_spec hp
      have hsubl : rest.Sublist mw.action_heap := hrest ▸ take_drop_sublist _ _
      have hsub : ∀ v ∈ rest, v ∈ mw.action_heap := fun v hv => hsubl.subset hv
      split at hne
      · next hend =>
        rw [if_pos hend]
        exact ih { mw with action_heap := rest }
          ⟨hm.sorted, hm.others, hm.pending, fun w hw => hm.heap w (hsub w hw),
            le_trans (hsubl.filter _).length_le hm.one, hm.block_sorted,
            fun a ha hat => ⟨(hm.block a ha hat).1,
              fun w hw => (hm.block a ha hat).2.1 w (hsub w hw), (hm.block a ha hat).2.2⟩,
            fun h => absurd (hs ▸ h : false = true) (by simp)⟩ hs hb hne
      · next hend =>
        rw [if_neg hend]
        obtain ⟨tail, hP, hrp, hnxt, hblk⟩ :=
          Source.read_block_pending (mw.readers act.tr) act.act.tid
        exact MergeWrapper.Owned.read mw t i lo hm hs hb act rest k hk hrest hend _ _ _ tail
          hP hrp hnxt hblk

theorem MergeWrapper.next_action_by_block_owned (pick : Nat → Nat) (mw : MergeWrapper)
    (t i lo : Nat) (hm : mw.Owned t i lo)
    (hne : (mw.next_action_by_block pick).1.inst ≠ Inst.END) :
    ((mw.next_action_by_block pick).1.tid = t → lo ≤ (mw.next_action_by_block pick).1.ts) ∧
      (mw.next_action_by_block pick).2.Owned t i
        (if (mw.next_action_by_block pick).1.tid = t then (mw.next_action_by_block pick).1.ts
          else lo) := by
  unfold MergeWrapper.next_action_by_block at hne ⊢
  split
  · next hs =>
    rw [if_pos hs] at hne
    dsimp only at hne ⊢
    obtain ⟨hheap, hblock⟩ := hm.single hs
    by_cases htr : mw.tr = i
    · have hsrc := Source.next_action_le (mw.readers mw.tr) (htr ▸ hm.sorted)
      obtain ⟨hmem, hle⟩ := hsrc.2 hne
      refine ⟨fun hat => hm.pending _ (htr ▸ hmem) hat, ⟨?_, ?_, ?_, ?_, ?_, ?_, ?_, ?_⟩⟩
      · subst htr
        simp only [Function.update_same]
        exact hsrc.1
      · intro j hj a ha
        have hj' : j ≠ mw.tr := htr ▸ hj
        simp only [Function.update_noteq hj'] at ha
        exact hm.others j hj a ha
      · intro b hb hbt
        subst htr
        simp only [Function.update_same] at hb
        split
        · exact hle b hb
        · exact hm.pending b (Source.next_action_pending _ b hb) hbt
      · intro w hw
        rw [hheap] at hw
        exact nomatch hw
      · rw [hheap]
        simp
      · rw [hblock]
        exact List.Pairwise.nil
      · intro a ha
        rw [hblock] at ha
        exact nomatch ha
      · exact fun _ => ⟨hheap, hblock⟩
    · have hno : ∀ a ∈ (mw.readers mw.tr).pending, a.tid ≠ t := hm.others mw.tr htr
      have hi : i ≠ mw.tr := fun h => htr h.symm
      have hat : (mw.readers mw.tr).next_action.1.tid ≠ t := by
        have : (mw.readers mw.tr).next_action.1 ∈ (mw.readers mw.tr).pending := by
          unfold Source.next_action at hne ⊢
          split
          · next hp => rw [hp] at hne; exact absurd rfl hne
          · next a rest hp => rw [hp]; exact List.mem_cons_self _ _
        exact hno _ this
      rw [if_neg hat]
      refine ⟨fun h => absurd h hat, ⟨?_, ?_, ?_, ?_, ?_, ?_, ?_, ?_⟩⟩
      · simp only [Function.update_noteq hi]
        exact hm.sorted
      · intro j hj a ha
        by_cases hj0 : j = mw.tr
        · subst hj0
          simp only [Function.update_same] at ha
          exact hno a (Source.next_action_pending _ a ha)
        · simp only [Function.update_noteq hj0] at ha
          exact hm.others j hj a ha
      · intro b hb hbt
        simp only [Function.update_noteq hi] at hb
        exact hm.pending b hb hbt
      · intro w hw
        rw [hheap] at hw
        exact nomatch hw
      · rw [hheap]
        simp
      · rw [hblock]
        exact List.Pairwise.nil
      · intro a ha
        rw [hblock] at ha
        exact nomatch ha
      · exact fun _ => ⟨hheap, hblock⟩
  · next hs =>
    have hs' : mw.single_source = false := by simpa using hs
    rw [if_neg hs] at hne
    split
    · next ret block hb =>
      rw [hb] at hne
      dsimp only at hne ⊢
      have hbs := hm.block_sorted
      rw [hb] at hbs
      have hret := hm.block ret (hb ▸ List.mem_cons_self _ _)
      refine ⟨fun hat => (hret hat).1, ⟨hm.sorted, hm.others, ?_, ?_, hm.one,
        (List.pairwise_cons.mp hbs).2, ?_, fun h => absurd (hs' ▸ h : false = true) (by simp)⟩⟩
      · intro b hb' hbt
        split
        · next hat => exact (hret hat).2.2 b hb' hbt
        · exact hm.pending b hb' hbt
      · intro w hw hwe hwt
        refine ⟨(hm.heap w hw hwe hwt).1, ?_, (hm.heap w hw hwe hwt).2.2⟩
        split
        · next hat => exact (hret hat).2.1 w hw hwe hwt
        · exact (hm.heap w hw hwe hwt).2.1
      · intro a ha hat
        have hold := hm.block a (hb ▸ List.mem_cons_of_mem _ ha) hat
        refine ⟨?_, hold.2.1, hold.2.2⟩
        split
        · next hrt => exact (List.pairwise_cons.mp hbs).1 a ha hrt hat
        · exact hold.1
    · next hb =>
      rw [hb] at hne
      exact MergeWrapper.next_action_by_block_loop_owned pick _ mw t i lo hm hs' hb hne

theorem MergeWrapper.actions_by_block_owned (pick : Nat → Nat → Nat) (n : Nat)
    (mw : MergeWrapper) (t i lo : Nat) (hm : mw.Owned t i lo) :
    (MergeWrapper.actions_by_block pick n mw).Pairwise
        (fun a b => a.tid = t → b.tid = t → a.ts ≤ b.ts) ∧
      ∀ a ∈ MergeWrapper.actions_by_block pick n mw, a.tid = t → lo ≤ a.ts := by
  induction n generalizing mw lo with
  | zero => exact ⟨List.Pairwise.nil, fun a ha => nomatch ha⟩
  | succ n ih =>
    unfold MergeWrapper.actions_by_block
    split
    · exact ⟨List.Pairwise.nil, fun a ha => nomatch ha⟩
    · next hne =>
      obtain ⟨hlo, hm1⟩ := MergeWrapper.next_action_by_block_owned (pick n) mw t i lo hm hne
      obtain ⟨h1, h2⟩ := ih _ _ hm1
      refine ⟨List.pairwise_cons.mpr ⟨fun b hb hat hbt => ?_, h1⟩, fun a ha hat => ?_⟩
      · have := h2 b hb hbt
        rwa [if_pos hat] at this
      · rcases List.mem_cons.mp ha with rfl | ha
        · exact hlo hat
        · have := h2 a ha hat
          split at this
          · next h => exact le_trans (hlo h) this
          · exact this

theorem range_filter_eq_length (n i : Nat) :
    ((List.range n).filter (fun j => decide (j = i))).length ≤ 1 := by
  induction n with
  | zero => simp
  | succ n ih =>
    rw [List.range_succ, List.filter_append, List.length_append]
    by_cases h : n = i
    · subst h
      have : (List.range n).filter (fun j => decide (j = n)) = [] := by
        rw [List.filter_eq_nil_iff]
        intro j hj
        have := List.mem_range.mp hj
        simp only [decide_eq_true_eq]
        omega
      rw [this]
      simp
    · simp only [List.filter_cons, h, decide_False, List.filter_nil, List.length_nil]
      simpa using ih

theorem MergeWrapper.new_owned (srcs : List Source) (junk : Action) (t i : Nat)
    (hs : ∀ s ∈ srcs, s.pending.Pairwise (fun a b => a.ts ≤ b.ts))
    (ho : ∀ p ∈ srcs.enum, p.1 ≠ i → ∀ a ∈ p.2.pending, a.tid ≠ t) :
    (MergeWrapper.new srcs junk).Owned t i 0 := by
  have hoth : ∀ j, j ≠ i → ∀ a ∈ (srcs.getD j ⟨[], junk⟩).pending, a.tid ≠ t := by
    intro j hj a ha
    rw [List.getD_eq_getElem?_getD] at ha
    cases h : srcs[j]? with
    | none => rw [h] at ha; exact nomatch ha
    | some s =>
      rw [h] at ha
      exact ho (j, s) (List.mk_mem_enum_iff_getElem?.mpr h) hj a ha
  unfold MergeWrapper.new
  simp only
  split
  · exact ⟨getD_sorted srcs junk hs i, hoth, fun _ _ _ => Nat.zero_le _,
      (fun w hw => nomatch hw), by simp, List.Pairwise.nil, (fun a ha => nomatch ha),
      fun _ => ⟨rfl, rfl⟩⟩
  · refine ⟨(Source.next_action_le _ (getD_sorted srcs junk hs i)).1,
      fun j hj a ha => hoth j hj a (Source.next_action_pending _ a ha),
      fun _ _ _ => Nat.zero_le _, fun w hw hwe hwt => ?_, ?_, List.Pairwise.nil,
      (fun a ha => nomatch ha), (fun h => nomatch h)⟩
    · simp only [List.mem_map, List.mem_range] at hw
      obtain ⟨j, _, rfl⟩ := hw
      have hsrc := Source.next_action_le _ (getD_sorted srcs junk hs j)
      have hji : j = i := by
        by_contra hji
        exact hoth j hji _ (hsrc.2 hwe).1 hwt
      subst hji
      exact ⟨rfl, Nat.zero_le _, (hsrc.2 hwe).2⟩
    · dsimp only
      rw [List.filter_map, List.length_map]
      exact range_filter_eq_length _ i

theorem MergeWrapper.next_action_by_block_loop_untied (pick : Nat → Nat) (n : Nat)
    (mw : MergeWrapper) (hu : untied_heap n mw.action_heap = true) :
    MergeWrapper.next_action_by_block_loop pick n mw =
      MergeWrapper.next_action_by_block_loop (fun _ => 0) n mw := by
  induction n generalizing mw with
  | zero => rfl
  | succ n ih =>
    simp only [untied_heap, Bool.and_eq_true, decide_eq_true_eq] at hu
    obtain ⟨ht, hr⟩ := hu
    unfold MergeWrapper.next_action_by_block_loop
    rw [heap_pop_untied ht (pick n)]
    cases hp : heap_pop 0 mw.action_heap with
    | none => rfl
    | some p =>
      obtain ⟨act, rest⟩ := p
      rw [hp] at hr
      simp only
      by_cases hend : act.act.inst = Inst.END
      · simp only [hend, if_true] at hr ⊢
        exact ih { mw with action_heap := rest } hr
      · simp only [hend, if_false]

theorem MergeWrapper.next_action_by_block_untied (pick : Nat → Nat) (mw : MergeWrapper)
    (hu : untied_heap mw.action_heap.length mw.action_heap = true) :
    mw.next_action_by_block pick = mw.next_action_by_block (fun _ => 0) := by
  unfold MergeWrapper.next_action_by_block
  split
  · rfl
  · split
    · rfl
    · exact MergeWrapper.next_action_by_block_loop_untied pick _ mw hu

theorem MergeWrapper.actions_by_block_untied (pick : Nat → Nat → Nat) (n : Nat)
    (mw : MergeWrapper)
    (hu : MergeWrapper.untied MergeWrapper.next_action_by_block n mw = true) :
    MergeWrapper.actions_by_block pick n mw =
      MergeWrapper.actions_by_block (fun _ _ => 0) n mw := by
  induction n generalizing mw with
  | zero => rfl
  | succ n ih =>
    simp only [MergeWrapper.untied, Bool.and_eq_true] at hu
    obtain ⟨hh, hr⟩ := hu
    unfold MergeWrapper.actions_by_block
    rw [MergeWrapper.next_action_by_block_untied (pick n) mw hh]
    by_cases hend : (mw.next_action_by_block (fun _ => 0)).1.inst = Inst.END
    · simp only [hend, if_true]
    · simp only [hend, if_false] at hr ⊢
      rw [ih _ hr]

/-- C20, as the code has it.  With every reader individually sorted by `ts`,
the actions returned by successive calls of
`MergeWrapper::next_action_by_block` are in non-decreasing `ts` order for
every thread `t` whose actions are all with one reader `i`: of any two actions
of `t` returned, the one returned first has the smaller or equal `ts`, however
many calls are made and whichever way the heap breaks ties. -/
theorem MergeWrapper.next_action_by_block_sorted (srcs : List Source) (junk : Action)
    (t i : Nat) (hs : ∀ s ∈ srcs, s.pending.Pairwise (fun a b => a.ts ≤ b.ts))
    (ho : ∀ p ∈ srcs.enum, p.1 ≠ i → ∀ a ∈ p.2.pending, a.tid ≠ t)
    (pick : Nat → Nat → Nat) (n : Nat) :
    (MergeWrapper.actions_by_block pick n (MergeWrapper.new srcs junk)).Pairwise
      (fun a b => a.tid = t → b.tid = t → a.ts ≤ b.ts) :=
  (MergeWrapper.actions_by_block_owned pick n _ t i 0
    (MergeWrapper.new_owned srcs junk t i hs ho)).1

theorem MergeWrapper.next_action_by_block_sorted_witness :
    (MergeWrapper.actions_by_block (fun _ _ => 0) 7
        (MergeWrapper.new [src_135 1, ⟨[act_at 2 2, act_at 2 3, act_at 4 2], act_junk⟩]
          act_junk)).map (fun a => (a.ts, a.tid)) =
        [(1, 1), (3, 1), (5, 1), (2, 2), (2, 3), (4, 2)] ∧
      (MergeWrapper.actions_by_block (fun _ _ => 0) 7
        (MergeWrapper.new [src_135 1, ⟨[act_at 2 2, act_at 2 3, act_at 4 2], act_junk⟩]
          act_junk)).Pairwise (fun a b => a.tid = 1 → b.tid = 1 → a.ts ≤ b.ts) :=
  ⟨by decide,
    MergeWrapper.next_action_by_block_sorted
      [src_135 1, ⟨[act_at 2 2, act_at 2 3, act_at 4 2], act_junk⟩] act_junk 1 0
      (by decide) (by decide) (fun _ _ => 0) 7⟩

/-- C20, as stated, fails.  Two readers, each sorted by `ts`, hold the actions
of one thread, 42: the first has the timestamps 1, 3, 5 and the second 2, 4,
6.  Whichever way the heap breaks ties, `next_action_by_block` returns the
whole block of the first reader before the second reader is looked at: the
order is 1, 3, 5, 2, 4, 6, so the action of time 5 comes before the action of
time 2 of the same thread. -/
theorem MergeWrapper.block_merge_out_of_order :
    (∀ s ∈ [src_135 42, src_246 42], s.pending.Pairwise (fun a b => a.ts ≤ b.ts)) ∧
      (∀ pick : Nat → Nat → Nat,
        MergeWrapper.actions_by_block pick 6
            (MergeWrapper.new [src_135 42, src_246 42] act_junk) =
          [act_at 1 42, act_at 3 42, act_at 5 42, act_at 2 42, act_at 4 42, act_at 6 42]) ∧
      ¬ [act_at 1 42, act_at 3 42, act_at 5 42, act_at 2 42, act_at 4 42,
          act_at 6 42].Pairwise (fun a b => a.tid = b.tid → a.ts ≤ b.ts) := by
  refine ⟨by decide, fun pick => ?_, by decide⟩
  rw [MergeWrapper.actions_by_block_untied pick 6 _ (by decide)]
  decide

/-! ## Symbol -/

/-- C25. Symbol equality is address-only: for all symbols `a` and `b`,
`a == b` iff `a.address == b.address` and `a != b` iff
`a.address != b.address`, whatever the names and the offsets; two symbols with
equal address and different names (and offsets) compare equal. -/
theorem Symbol.eq_address_only :
    (∀ a b : Symbol,
        (a.eq b = true ↔ a.address = b.address) ∧ (a.ne b = true ↔ a.address ≠ b.address)) ∧
      (∀ (n1 n2 : String) (adr o1 o2 : Nat),
        Symbol.eq ⟨n1, adr, o1⟩ ⟨n2, adr, o2⟩ = true ∧
          Symbol.ne ⟨n1, adr, o1⟩ ⟨n2, adr, o2⟩ = false) ∧
      Symbol.eq ⟨"f", 0x1000, 0⟩ ⟨"g", 0x1000, 8⟩ = true := by
  refine ⟨fun a b => ⟨by simp [Symbol.eq], by simp [Symbol.ne, Symbol.eq]⟩,
    fun n1 n2 adr o1 o2 => ⟨by simp [Symbol.eq], by simp [Symbol.ne, Symbol.eq]⟩, by decide⟩

/-! ## Func::ret, its sample -/

/-- C27. For every node `f` and time `ts`, `f.ret(ts)` increases
`stats.invoked` by 1 (a 64-bit increment, like every addition to the
statistics).  If `ts >= f.start` it adds `ts - f.start` to
`stats.sum_inferred` and either adds the same amount to `stats.sum`, when
neither `start_is_inferred` nor `end_is_inferred` is set, or increases
`stats.inferred` by 1, otherwise; if `ts < f.start` it increases
`stats.inferred` by 1 and leaves both sums as they are.  Afterwards
`f.end = ts` and `f.start = UINT64_MAX`, the rest of `f` is unchanged; when
`f` has a caller, the caller has `call_address = 0`, is otherwise unchanged,
and is the node returned, the new `current`. -/
theorem Func.ret_spec (f : Func) (ts : Nat) (hsi : f.stats.sum_inferred < U64) :
    (f.ret ts).stats.invoked = uadd f.stats.invoked 1 ∧
      (f.stats.invoked + 1 < U64 → (f.ret ts).stats.invoked = f.stats.invoked + 1) ∧
      (f.start ≤ ts →
        (f.ret ts).stats.sum_inferred = uadd f.stats.sum_inferred (ts - f.start) ∧
          (f.start_is_inferred = false ∧ f.end_is_inferred = false →
            (f.ret ts).stats.sum = uadd f.stats.sum (ts - f.start) ∧
              (f.ret ts).stats.inferred = f.stats.inferred) ∧
          (f.start_is_inferred = true ∨ f.end_is_inferred = true →
            (f.ret ts).stats.inferred = uadd f.stats.inferred 1 ∧
              (f.ret ts).stats.sum = f.stats.sum)) ∧
      (ts < f.start →
        (f.ret ts).stats.inferred = uadd f.stats.inferred 1 ∧
          (f.ret ts).stats.sum_inferred = f.stats.sum_inferred ∧
          (f.ret ts).stats.sum = f.stats.sum) ∧
      (f.ret ts).end_ = ts ∧ (f.ret ts).start = UINT64_MAX ∧
      (f.ret ts).sym = f.sym ∧ (f.ret ts).callee = f.callee ∧
      (f.ret ts).call_address = f.call_address ∧ (f.ret ts).first_start = f.first_start ∧
      (f.ret ts).start_is_inferred = f.start_is_inferred ∧
      (f.ret ts).end_is_inferred = f.end_is_inferred ∧
      ∀ (H : History) (fr : Frame) (rest : List Frame), H.current = f → H.chain = fr :: rest →
        (H.pop ts).chain = rest ∧
          (H.pop ts).current =
            Frame.plug { fr with node := { fr.node with call_address := 0 } } (f.ret ts) ∧
          (H.pop ts).current.call_address = 0 ∧
          SameFrame (H.pop ts).current fr.node ∧
          (H.pop ts).current.callee =
            fr.node.callee.take fr.pos ++ f.ret ts :: fr.node.callee.drop fr.pos := by
  have hmod0 : ∀ x, x < U64 → uadd x 0 = x := fun x hx => by
    unfold uadd
    simpa using Nat.mod_eq_of_lt hx
  refine ⟨Func.ret_invoked f ts, fun h => ?_, fun hle => ?_, fun hlt => ?_, rfl, rfl, rfl, rfl,
    rfl, rfl, rfl, rfl, fun H fr rest hcur hch => ?_⟩
  · rw [Func.ret_invoked]
    exact Nat.mod_eq_of_lt h
  · have hnot : ¬ f.start > ts := by omega
    refine ⟨?_, ?_, ?_⟩
    · simp only [Func.ret, hnot, if_false, Statistics.add_sample]
      split <;> rfl
    · rintro ⟨h1, h2⟩
      simp [Func.ret, hnot, Statistics.add_sample, h1, h2]
    · intro h
      have hb : (f.start_is_inferred || f.end_is_inferred) = true := by
        rcases h with h | h <;> simp [h]
      simp [Func.ret, hnot, Statistics.add_sample, hb]
  · have hgt : f.start > ts := hlt
    simp only [Func.ret, hgt, if_true, Statistics.add_sample, Bool.not_true, Bool.false_eq_true,
      if_false]
    exact ⟨trivial, hmod0 _ hsi, trivial⟩
  · subst hcur
    have hp := History.pop_current H ts hch
    refine ⟨by simp [History.pop, hch], hp, ?_, ?_, ?_⟩
    · rw [hp]; rfl
    · rw [hp]; exact ⟨rfl, rfl, rfl, rfl, rfl, rfl, rfl, rfl⟩
    · rw [hp]; rfl

theorem Func.ret_spec_witness :
    ((hist_main_foo.current.ret 30).stats.invoked = 1 ∧
        (hist_main_foo.current.ret 30).stats.sum_inferred = 10 ∧
        (hist_main_foo.current.ret 30).stats.sum = 10 ∧
        (hist_main_foo.current.ret 30).stats.inferred = 0) ∧
      (hist_main_foo.current.ret 30).end_ = 30 ∧
      (hist_main_foo.current.ret 30).start = UINT64_MAX ∧
      (hist_main_foo.pop 30).current.call_address = 0 ∧
      (hist_main_foo.pop 30).current.sym = sym_main :=
  have h := Func.ret_spec hist_main_foo.current 30 (by decide)
  ⟨⟨by decide, by decide, by decide, by decide⟩, h.2.2.2.2.1, h.2.2.2.2.2.1, by decide, by decide⟩

/-! ## History::ret, the frame it looks for -/

theorem History.ret_eq (H : History) (from_ to_ : Symbol) (ts : Nat) (hc : H.chain ≠ [])
    (hlen : H.nodes.length ≤ UINT64_MAX) :
    H.ret from_ to_ ts =
      match nearestIdx (fun f => f.ret_addr_match to_) (H.chain.map Frame.node) with
      | some j => (true, H.unwind ts (j + 1))
      | none =>
        if H.current.ret_addr_match to_ = true then (true, H)
        else
          match nearestIdx (fun f => f.name_match to_) (H.chain.map Frame.node) with
          | some j => (true, H.unwind ts (j + 1))
          | none => if H.current.name_match to_ = true then (true, H) else (false, H) := by
  have hl : (H.chain.map Frame.node).length ≤ UINT64_MAX := by
    rw [History.nodes_length] at hlen
    simp only [List.length_map]
    omega
  unfold History.ret
  cases hch : H.chain with
  | nil => exact absurd hch hc
  | cons fr rest =>
    simp only
    rw [← hch, find_caller_eq _ _ _ hl, find_caller_eq _ _ _ hl]
    cases h1 : nearestIdx (fun f => f.ret_addr_match to_) (H.chain.map Frame.node) with
    | some j => rfl
    | none =>
      cases h2 : H.current.ret_addr_match to_ with
      | true => rfl
      | false =>
        cases h3 : nearestIdx (fun f => f.name_match to_) (H.chain.map Frame.node) with
        | some j => rfl
        | none =>
          cases h4 : H.current.name_match to_ with
          | true => rfl
          | false => rfl

/-- C26. For every history whose `current` has a caller, `History::ret(from,
to, ts)` looks for the frame to return to in this order: the nearest frame
from `current.caller` upward that satisfies `ret_addr_match(to)`; else
`current` itself if it satisfies `ret_addr_match(to)`; else the nearest frame
from `current.caller` upward that satisfies `name_match(to)`; else `current`
itself if it satisfies `name_match(to)`.  It unwinds to the frame found, `j + 1`
levels above `current` for the caller number `j`, and returns true; it returns
false iff none of the four exists, and then the history is as it was. -/
theorem History.ret_priority (H : History) (from_ to_ : Symbol) (ts : Nat) (hc : H.chain ≠ [])
    (hlen : H.nodes.length ≤ UINT64_MAX) :
    (∀ j, NearestAt (fun f => f.ret_addr_match to_) (H.chain.map Frame.node) j →
        H.ret from_ to_ ts = (true, H.unwind ts (j + 1))) ∧
      ((∀ f ∈ H.chain.map Frame.node, f.ret_addr_match to_ = false) →
        H.current.ret_addr_match to_ = true → H.ret from_ to_ ts = (true, H)) ∧
      ((∀ f ∈ H.chain.map Frame.node, f.ret_addr_match to_ = false) →
        H.current.ret_addr_match to_ = false →
        ∀ j, NearestAt (fun f => f.name_match to_) (H.chain.map Frame.node) j →
          H.ret from_ to_ ts = (true, H.unwind ts (j + 1))) ∧
      ((∀ f ∈ H.chain.map Frame.node, f.ret_addr_match to_ = false) →
        H.current.ret_addr_match to_ = false →
        (∀ f ∈ H.chain.map Frame.node, f.name_match to_ = false) →
        H.current.name_match to_ = true → H.ret from_ to_ ts = (true, H)) ∧
      ((H.ret from_ to_ ts).1 = false ↔
        ∀ f ∈ H.nodes, f.ret_addr_match to_ = false ∧ f.name_match to_ = false) ∧
      ((H.ret from_ to_ ts).1 = false → (H.ret from_ to_ ts).2 = H) := by
  rw [H.ret_eq from_ to_ ts hc hlen]
  refine ⟨fun j hj => ?_, fun h1 h2 => ?_, fun h1 h2 j hj => ?_, fun h1 h2 h3 h4 => ?_, ?_, ?_⟩
  · rw [nearestIdx_eq_some.mpr hj]
  · rw [nearestIdx_eq_none.mpr h1]
    simp [h2]
  · rw [nearestIdx_eq_none.mpr h1, nearestIdx_eq_some.mpr hj]
    simp [h2]
  · rw [nearestIdx_eq_none.mpr h1, nearestIdx_eq_none.mpr h3]
    simp [h2, h4]
  · have hmem : ∀ {f : Func} {j : Nat}, (H.chain.map Frame.node)[j]? = some f → f ∈ H.nodes :=
      fun hf => List.mem_cons_of_mem _ (mem_of_getElem?_eq hf).1
    cases h1 : nearestIdx (fun f => f.ret_addr_match to_) (H.chain.map Frame.node) with
    | some j =>
      obtain ⟨⟨f, hf, hp⟩, _⟩ := nearestIdx_eq_some.mp h1
      constructor
      · intro h; simp at h
      · intro h
        have := (h f (hmem hf)).1
        simp [hp] at this
    | none =>
      have hn1 := nearestIdx_eq_none.mp h1
      cases h2 : H.current.ret_addr_match to_ with
      | true =>
        constructor
        · intro h; simp at h
        · intro h
          have := (h H.current (List.mem_cons_self _ _)).1
          simp [h2] at this
      | false =>
        cases h3 : nearestIdx (fun f => f.name_match to_) (H.chain.map Frame.node) with
        | some j =>
          obtain ⟨⟨f, hf, hp⟩, _⟩ := nearestIdx_eq_some.mp h3
          constructor
          · intro h; simp at h
          · intro h
            have := (h f (hmem hf)).2
            simp [hp] at this
        | none =>
          have hn3 := nearestIdx_eq_none.mp h3
          cases h4 : H.current.name_match to_ with
          | true =>
            constructor
            · intro h; simp at h
            · intro h
              have := (h H.current (List.mem_cons_self _ _)).2
              simp [h4] at this
          | false =>
            constructor
            · intro _ f hf
              rcases List.mem_cons.mp hf with rfl | hf
              · exact ⟨h2, h4⟩
              · exact ⟨hn1 f hf, hn3 f hf⟩
            · intro _; simp
  · cases h1 : nearestIdx (fun f => f.ret_addr_match to_) (H.chain.map Frame.node) with
    | some j => simp
    | none =>
      cases h2 : H.current.ret_addr_match to_ with
      | true => simp
      | false =>
        cases h3 : nearestIdx (fun f => f.name_match to_) (H.chain.map Frame.node) with
        | some j => simp
        | none =>
          cases h4 : H.current.name_match to_ with
          | true => simp
          | false => simp

theorem History.ret_priority_witness :
    hist_main_foo.ret sym_foo sym_main5 30 = (true, hist_main_foo.unwind 30 1) ∧
      (hist_main_foo.ret sym_foo sym_main5 30).2.current.sym = sym_main ∧
      (hist_main_foo.ret sym_foo sym_z5 30).1 = false :=
  have h := History.ret_priority hist_main_foo sym_foo sym_main5 30
    (List.ne_nil_of_length_pos (by decide)) (by decide)
  ⟨h.1 0 ⟨⟨_, rfl, by decide⟩, fun j hj => absurd hj (Nat.not_lt_zero j)⟩, by decide, by decide⟩

/-! ## Rejected actions -/

theorem History.SameTree.same (H : History) : H.SameTree H := ⟨rfl, rfl, rfl, rfl, rfl, rfl, rfl⟩

theorem History.call_rejected {H : History} {from_ to_ : Symbol} {ts : Nat}
    (h : (H.call from_ to_ ts).1 = false) : (H.call from_ to_ ts).2 = H := by
  revert h
  unfold History.call
  simp only
  split
  · intro _; rfl
  · intro h; simp at h

theorem History.ret_rejected {H : History} {from_ to_ : Symbol} {ts : Nat}
    (h : (H.ret from_ to_ ts).1 = false) : (H.ret from_ to_ ts).2 = H := by
  revert h
  unfold History.ret
  split
  · intro h; simp at h
  · simp only
    split
    · intro _; rfl
    · intro h; simp at h

theorem find_caller_head {s : Symbol} {pred : Func → Symbol → Bool} {f : Func} {fs : List Func}
    (h : pred f s = true) : find_caller no_limit s pred (f :: fs) = some 0 := by
  simp [find_caller, find_caller_loop, h, no_limit, uadd, U64, UINT64_MAX]

theorem History.call_of_current {H : History} {from_ to_ : Symbol} {ts : Nat}
    (h : H.current.base_match from_ = true ∨ H.current.name_match from_ = true) :
    (H.call from_ to_ ts).1 = true := by
  unfold History.call
  simp only [History.nodes]
  cases hb : H.current.base_match from_ with
  | true => rw [find_caller_head hb]
  | false =>
    have hn : H.current.name_match from_ = true := by
      rcases h with h | h
      · rw [hb] at h; exact absurd h (by simp)
      · exact h
    rw [find_caller_head hn]
    cases find_caller no_limit from_ Func.base_match (H.current :: List.map Frame.node H.chain)
      <;> rfl

theorem Func.call_sym (f : Func) (from_ s : Symbol) (ts : Nat) :
    (f.call from_ s ts).2.sym.base = s.base ∨ (f.call from_ s ts).2.sym.name = s.name := by
  simp only [Func.call]
  split
  · next i c hf =>
    have h := (Func.find_callee_some hf).2
    rcases h with h | h
    · exact Or.inl h
    · exact Or.inr h.2
  · exact Or.inl rfl

theorem History.call_current_sym {H : History} {from_ to_ : Symbol} {ts : Nat}
    (h : (H.call from_ to_ ts).1 = true) :
    (H.call from_ to_ ts).2.current.base_match to_ = true ∨
      (H.call from_ to_ ts).2.current.name_match to_ = true := by
  obtain ⟨k, hk⟩ := History.call_true h
  rw [hk]
  rcases Func.call_sym (H.unwind ts k).current from_ to_ ts with h1 | h1
  · exact Or.inl (by simpa [Func.base_match, History.push] using h1)
  · exact Or.inr (by simpa [Func.name_match, History.push] using h1)

theorem History.SameTree.trans {H H1 H2 : History} (h1 : H.SameTree H1) (h2 : H1.SameTree H2) :
    H.SameTree H2 :=
  ⟨h2.current.trans h1.current, h2.chain.trans h1.chain, h2.cpu.trans h1.cpu,
    h2.tid.trans h1.tid, h2.time.trans h1.time,
    h2.spinlock_mitigate.trans h1.spinlock_mitigate,
    h2.try_match_stack.trans h1.try_match_stack⟩

theorem History.dispatch_rejected (H : History) (a : Action) (h : (H.dispatch a).1 = false) :
    H.SameTree (H.dispatch a).2 := by
  revert h
  unfold History.dispatch
  repeat' split
  all_goals intro h
  all_goals first
    | exact Bool.noConfusion (show true = false from h)
    | (rw [History.call_rejected h]; exact ⟨rfl, rfl, rfl, rfl, rfl, rfl, rfl⟩)
    | (rw [History.ret_rejected h]; exact ⟨rfl, rfl, rfl, rfl, rfl, rfl, rfl⟩)
    | exact ⟨rfl, rfl, rfl, rfl, rfl, rfl, rfl⟩

theorem History.dispatch_call (H : History) (a : Action) (h : a.inst = Inst.CALL) :
    H.dispatch a = H.call a.from_ a.to_ a.ts := by
  unfold History.dispatch
  rw [h]

/-- C30. Rejection leaves the call tree untouched: for every history and
every action, if `History::replay(action)` returns false then `current` with
its whole subtree and every caller of the chain up to `root` (children,
`call_address`, start and end, flags and statistics of every node) are exactly
as before the call, and so are `cpu`, `tid` and `time`; only the recovery flags
of the history may have changed. -/
theorem History.replay_rejected_tree (H : History) (a : Action)
    (h : (H.replay a).1 = false) :
    H.SameTree (H.replay a).2 ∧ (H.replay a).2.root = H.root ∧
      (H.replay a).2.nodes = H.nodes := by
  have key : H.SameTree (H.replay a).2 := by
    have hd : ∀ H1 : History, H.SameTree H1 → (H1.dispatch a).1 = false →
        H.SameTree (H1.dispatch a).2 :=
      fun H1 hs h1 => hs.trans (History.dispatch_rejected H1 a h1)
    have hr : ∀ (H1 : History) (f t : Symbol) (ts : Nat), H.SameTree H1 →
        (H1.ret f t ts).1 = false → H.SameTree (H1.ret f t ts).2 :=
      fun H1 f t ts hs h1 => by rw [History.ret_rejected h1]; exact hs
    revert h
    unfold History.replay
    split
    · intro _; exact History.SameTree.same H
    · split
      · split
        · intro h; exact Bool.noConfusion (show true = false from h)
        · split
          · exact hr _ _ _ _ ⟨rfl, rfl, rfl, rfl, rfl, rfl, rfl⟩
          · split
            · intro h; exact Bool.noConfusion (show true = false from h)
            · intro h; exact Bool.noConfusion (show true = false from h)
      · split
        · split
          · split
            · intro h; exact Bool.noConfusion (show true = false from h)
            · split
              · intro _; exact ⟨rfl, rfl, rfl, rfl, rfl, rfl, rfl⟩
              · split
                · intro h; exact Bool.noConfusion (show true = false from h)
                · intro h; exact Bool.noConfusion (show true = false from h)
          · split
            · intro h; exact Bool.noConfusion (show true = false from h)
            · split
              · intro _; exact ⟨rfl, rfl, rfl, rfl, rfl, rfl, rfl⟩
              · exact hr _ _ _ _ ⟨rfl, rfl, rfl, rfl, rfl, rfl, rfl⟩
            · intro _; exact ⟨rfl, rfl, rfl, rfl, rfl, rfl, rfl⟩
        · split
          · split
            · intro _; exact ⟨rfl, rfl, rfl, rfl, rfl, rfl, rfl⟩
            · exact hr _ _ _ _ ⟨rfl, rfl, rfl, rfl, rfl, rfl, rfl⟩
          · split
            · split
              · intro _; exact History.SameTree.same H
              · next hcall =>
                have hinst : a.inst = Inst.CALL := not_not.mp hcall
                split
                · split
                  · next H1 heq =>
                    intro _
                    have h1 : (H.call H.current.sym a.from_ a.ts).1 = false := by rw [heq]
                    have h2 := History.call_rejected h1
                    rw [heq] at h2
                    simp only at h2
                    rw [h2]
                    exact History.SameTree.same H
                  · next H1 heq =>
                    intro h
                    have h1 : (H.call H.current.sym a.from_ a.ts).1 = true := by rw [heq]
                    have h2 := History.call_current_sym h1
                    rw [heq] at h2
                    simp only at h2
                    rw [History.dispatch_call _ a hinst] at h
                    have h3 : (History.call { H1 with after_syscall := false } a.from_ a.to_
                        a.ts).1 = true := History.call_of_current h2
                    rw [h3] at h
                    exact Bool.noConfusion h
                · exact hd _ ⟨rfl, rfl, rfl, rfl, rfl, rfl, rfl⟩
            · exact hd H (History.SameTree.same H)
  refine ⟨key, ?_, ?_⟩
  · unfold History.root
    rw [key.current, key.chain]
  · unfold History.nodes
    rw [key.current, key.chain]

theorem History.replay_rejected_tree_witness :
    (hist_main_foo.replay (act Inst.TR_END sym_b9 sym_unknown 30)).1 = false ∧
      (hist_main_foo.replay (act Inst.TR_END sym_b9 sym_unknown 30)).2.pause_address = 0x4009 ∧
      hist_main_foo.pause_address = 0 ∧
      hist_main_foo.SameTree (hist_main_foo.replay (act Inst.TR_END sym_b9 sym_unknown 30)).2 :=
  ⟨by decide, by decide, by decide,
    (History.replay_rejected_tree hist_main_foo (act Inst.TR_END sym_b9 sym_unknown 30)
      (by decide)).1⟩

/-! ## Active nodes -/

theorem ClosedIf.unwind_if {P Q : History → Prop} {ts : Nat} (hQ : ClosedIf P Q ts) (H : History)
    (k : Nat) (h : Q H) : Q (H.unwind ts k) := by
  induction k generalizing H with
  | zero => exact h
  | succ k ih => exact ih (H.pop ts) (hQ.pop H h)

theorem ClosedIf.call_if {P Q : History → Prop} {ts : Nat} (hQ : ClosedIf P Q ts) (H : History)
    (from_ to_ : Symbol) (h : Q H) : Q (H.call from_ to_ ts).2 := by
  unfold History.call
  simp only
  split
  · exact h
  · exact hQ.push _ from_ to_ (hQ.unwind_if H _ h)

theorem ClosedIf.ret_if {P Q : History → Prop} {ts : Nat} (hQ : ClosedIf P Q ts) (H : History)
    (from_ to_ : Symbol) (hP : P H) (h : Q H) : Q (H.ret from_ to_ ts).2 := by
  unfold History.ret
  split
  · next hc => exact hQ.promote H to_ hc hP h
  · simp only
    split
    · exact h
    · exact hQ.unwind_if H _ h

theorem ClosedIf.dispatch_if {P Q : History → Prop} (a : Action) (hQ : ClosedIf P Q a.ts)
    (H : History) (hP : P H) (h : Q H) : Q (H.dispatch a).2 := by
  have hc : ∀ (H1 : History) (f t : Symbol), H1.current = H.current → H1.chain = H.chain →
      Q (H1.call f t a.ts).2 :=
    fun H1 f t h1 h2 => hQ.call_if H1 f t (hQ.congr H H1 h1 h2 h)
  have hr : ∀ (H1 : History) (f t : Symbol), H1.current = H.current → H1.chain = H.chain →
      Q (H1.ret f t a.ts).2 :=
    fun H1 f t h1 h2 => hQ.ret_if H1 f t (hQ.guard H H1 h1 h2 hP) (hQ.congr H H1 h1 h2 h)
  unfold History.dispatch
  repeat' split
  all_goals first
    | exact hc _ _ _ rfl rfl
    | exact hr _ _ _ rfl rfl
    | exact hQ.congr H _ rfl rfl h

theorem ClosedIf.replay_if {P Q : History → Prop} (a : Action) (hQ : ClosedIf P Q a.ts)
    (H : History) (hP : P H) (h : Q H) : Q (H.replay a).2 := by
  have hr : ∀ (H1 : History) (f t : Symbol), H1.current = H.current → H1.chain = H.chain →
      Q (H1.ret f t a.ts).2 :=
    fun H1 f t h1 h2 => hQ.ret_if H1 f t (hQ.guard H H1 h1 h2 hP) (hQ.congr H H1 h1 h2 h)
  have hd : ∀ H1 : History, H1.current = H.current → H1.chain = H.chain →
      Q (H1.dispatch a).2 :=
    fun H1 h1 h2 => hQ.dispatch_if a H1 (hQ.guard H H1 h1 h2 hP) (hQ.congr H H1 h1 h2 h)
  unfold History.replay
  split
  · exact h
  · split
    · split
      · exact h
      · split
        · exact hr _ _ _ rfl rfl
        · split
          · exact hQ.congr H _ rfl rfl h
          · exact h
    · split
      · split
        · split
          · exact h
          · split
            · exact hQ.congr H _ rfl rfl h
            · split
              · exact h
              · exact hQ.congr H _ rfl rfl h
        · split
          · exact hQ.congr H _ rfl rfl h
          · split
            · exact hQ.congr H _ rfl rfl h
            · exact hr _ _ _ rfl rfl
          · exact hQ.congr H _ rfl rfl h
      · split
        · split
          · exact hQ.congr H _ rfl rfl h
          · exact hr _ _ _ rfl rfl
        · split
          · split
            · exact h
            · next hcall =>
              have hinst : a.inst = Inst.CALL := not_not.mp hcall
              split
              · have hcq := hQ.call_if H H.current.sym a.from_ h
                split
                · next H1 heq => rw [heq] at hcq; exact hcq
                · next H1 heq =>
                  rw [heq] at hcq
                  rw [History.dispatch_call _ a hinst]
                  exact hQ.call_if _ _ _ (hQ.congr H1 _ rfl rfl hcq)
              · exact hd _ rfl rfl
          · exact hd H rfl rfl

theorem zip_up_first_start (chain : List Frame) (c c1 : Func)
    (h : c.first_start = c1.first_start) :
    (zip_up c chain).first_start = (zip_up c1 chain).first_start := by
  induction chain generalizing c c1 with
  | nil => exact h
  | cons fr rest ih => exact ih _ _ rfl

theorem History.active_closed (ts : Nat) (hts : ts < UINT64_MAX) :
    ClosedIf (fun H => H.root.first_start ≠ 0) History.Active ts := by
  refine ⟨?_, ?_, ?_, ?_, ?_⟩
  · intro H H1 h1 h2 h
    simp only [History.root] at h ⊢
    rw [h1, h2]
    exact h
  · intro H H1 h1 h2 h
    unfold History.Active History.nodes History.root at h ⊢
    rw [h1, h2]
    exact h
  · intro H h
    unfold History.pop
    cases hc : H.chain with
    | nil => simpa using h
    | cons fr rest =>
      obtain ⟨hn, hr⟩ := h
      simp only [History.nodes, hc, List.map_cons, List.mem_cons] at hn
      refine ⟨?_, ?_⟩
      · intro f hf
        simp only [History.nodes, List.mem_cons] at hf
        rcases hf with rfl | hf
        · exact hn fr.node (Or.inr (Or.inl rfl))
        · exact hn f (Or.inr (Or.inr hf))
      · simp only [History.root, hc, zip_up] at hr ⊢
        refine lt_of_eq_of_lt ?_ hr
        exact zip_up_first_start rest _ _ rfl
  · intro H from_ to_ h
    obtain ⟨hn, hr⟩ := h
    refine ⟨?_, ?_⟩
    · intro f hf
      simp only [History.nodes, History.push, List.map_cons, List.mem_cons] at hf
      rcases hf with rfl | rfl | hf
      · simp only [Func.call]
        split
        · exact Nat.ne_of_lt hts
        · exact Nat.ne_of_lt hts
      · have := hn H.current (List.mem_cons_self _ _)
        simp only [Func.call]
        split <;> exact this
      · exact hn f (List.mem_cons_of_mem _ hf)
    · simp only [History.root, History.push, zip_up] at hr ⊢
      refine lt_of_eq_of_lt ?_ hr
      refine zip_up_first_start H.chain _ _ ?_
      simp only [Func.call, Frame.plug]
      split <;> rfl
  · intro H to_ hc hP h
    obtain ⟨hn, hr⟩ := h
    simp only [History.root, hc, zip_up] at hP hr
    have hcur : (H.promote to_ ts).current.start = usub H.current.first_start 1 := by
      simp [History.promote, History.goto_root, History.make_new_root, History.root, hc, zip_up,
        Frame.plug, Func.new, Func.ret]
    have hfs : (H.promote to_ ts).current.first_start = usub H.current.first_start 1 := by
      simp [History.promote, History.goto_root, History.make_new_root, History.root, hc, zip_up,
        Frame.plug, Func.new, Func.ret]
    have hchain : (H.promote to_ ts).chain = [] := rfl
    have hval : usub H.current.first_start 1 = H.current.first_start - 1 := by
      unfold usub
      have : H.current.first_start + U64 - 1 = (H.current.first_start - 1) + U64 := by omega
      rw [this, Nat.add_mod_right]
      exact Nat.mod_eq_of_lt (by omega)
    refine ⟨?_, ?_⟩
    · intro f hf
      simp only [History.nodes, hchain, List.map_nil, List.mem_singleton] at hf
      subst hf
      rw [hcur, hval]
      simp only [U64, UINT64_MAX] at hr ⊢
      omega
    · simp only [History.root, hchain, zip_up]
      rw [hfs, hval]
      omega

theorem Func.idle_descend {f g : Func} {p : List Nat} (h : f.idle = true)
    (hg : f.descend p = some g) : g.start = UINT64_MAX := by
  have := Func.all_descend (p := fun g => decide (g.start = UINT64_MAX)) h hg
  simpa using this

theorem Func.Spine.start_active {f : Func} {q : List Nat} (h : f.Spine q) :
    f.start ≠ UINT64_MAX := by
  cases q with
  | nil => exact h.1
  | cons i is => exact h.1

theorem Func.Spine.iff_prefix {f : Func} {q : List Nat} (h : f.Spine q) (p : List Nat)
    (g : Func) (hg : f.descend p = some g) : g.start ≠ UINT64_MAX ↔ p <+: q := by
  induction q generalizing f p with
  | nil =>
    cases p with
    | nil =>
      simp only [Func.descend, Option.some.injEq] at hg
      subst hg
      exact ⟨fun _ => List.prefix_refl _, fun _ => h.1⟩
    | cons j ps =>
      simp only [Func.descend] at hg
      split at hg
      · next c hc =>
        have hidle := h.2 c (mem_of_getElem?_eq hc).1
        exact ⟨fun ha => absurd (Func.idle_descend hidle hg) ha, fun hp => by simp at hp⟩
      · simp at hg
  | cons i qs ih =>
    obtain ⟨hact, c, hc, hsp, hoth⟩ := h
    cases p with
    | nil =>
      simp only [Func.descend, Option.some.injEq] at hg
      subst hg
      exact ⟨fun _ => List.nil_prefix, fun _ => hact⟩
    | cons j ps =>
      simp only [Func.descend] at hg
      split at hg
      · next d hd =>
        by_cases hji : j = i
        · subst hji
          rw [hc] at hd
          cases hd
          rw [ih hsp ps hg]
          simp [List.cons_prefix_cons]
        · have hidle := hoth j d hji hd
          refine ⟨fun ha => absurd (Func.idle_descend hidle hg) ha, fun hp => ?_⟩
          rw [List.cons_prefix_cons] at hp
          exact absurd hp.1 hji
      · simp at hg

theorem Frame.plug_other (fr : Frame) (c d : Func) (j : Nat)
    (h : fr.pos ≤ fr.node.callee.length) (hj : j ≠ fr.pos) (hd : (fr.plug c).callee[j]? = some d) :
    d ∈ fr.node.callee := by
  simp only [Frame.plug] at hd
  by_cases hlt : j < fr.pos
  · rw [List.getElem?_append_left (by simp [List.length_take]; omega)] at hd
    exact List.mem_of_mem_take (mem_of_getElem?_eq hd).1
  · have hgt : fr.pos < j := by omega
    rw [List.getElem?_append_right (by simp [List.length_take]; omega)] at hd
    simp only [List.length_take, Nat.min_eq_left h] at hd
    obtain ⟨m, hm⟩ : ∃ m, j - fr.pos = m + 1 := ⟨j - fr.pos - 1, by omega⟩
    rw [hm, List.getElem?_cons_succ] at hd
    exact List.mem_of_mem_drop (mem_of_getElem?_eq hd).1

theorem Frame.plug_spine (fr : Frame) (c : Func) (q : List Nat) (hc : c.Spine q)
    (hact : fr.node.start ≠ UINT64_MAX) (hidle : ∀ d ∈ fr.node.callee, d.idle = true)
    (hpos : fr.pos ≤ fr.node.callee.length) : (fr.plug c).Spine (fr.pos :: q) :=
  ⟨hact, c, Frame.plug_getElem? fr c hpos, hc,
    fun j d hj hd => hidle d (Frame.plug_other fr c d j hpos hj hd)⟩

theorem zip_up_spine (chain : List Frame) (c : Func) (q : List Nat) (hc : c.Spine q)
    (hch : ∀ fr ∈ chain, fr.node.start ≠ UINT64_MAX ∧ (∀ d ∈ fr.node.callee, d.idle = true) ∧
      fr.pos ≤ fr.node.callee.length) :
    (zip_up c chain).Spine ((chain.map Frame.pos).reverse ++ q) := by
  induction chain generalizing c q with
  | nil => simpa [zip_up] using hc
  | cons fr rest ih =>
    obtain ⟨h1, h2, h3⟩ := hch fr (List.mem_cons_self _ _)
    have := ih (fr.plug c) (fr.pos :: q) (Frame.plug_spine fr c q hc h1 h2 h3)
      (fun g hg => hch g (List.mem_cons_of_mem _ hg))
    simpa [zip_up] using this

theorem zip_up_descend (chain : List Frame) (c : Func)
    (hpos : ∀ fr ∈ chain, fr.pos ≤ fr.node.callee.length) :
    (zip_up c chain).descend (chain.map Frame.pos).reverse = some c := by
  induction chain generalizing c with
  | nil => rfl
  | cons fr rest ih =>
    simp only [zip_up, List.map_cons, List.reverse_cons, Func.descend_append,
      ih (fr.plug c) (fun g hg => hpos g (List.mem_cons_of_mem _ hg)), Option.some_bind,
      Func.descend]
    rw [Frame.plug_getElem? fr c (hpos fr (List.mem_cons_self _ _))]

theorem History.ReachableActive.reachable {H : History} (h : H.ReachableActive) :
    H.Reachable := by
  induction h with
  | init s ts c t _ _ => exact History.Reachable.init s ts c t
  | step a _ _ _ _ ih => exact History.Reachable.step a ih

theorem History.ReachableActive.chain_active {H : History} (h : H.ReachableActive) : H.Active := by
  induction h with
  | init s ts c t h0 hts =>
    refine ⟨fun f hf => ?_, ?_⟩
    · simp only [History.nodes, History.new, List.map_nil, List.mem_singleton] at hf
      subst hf
      exact Nat.ne_of_lt hts
    · simp only [History.root, History.new, zip_up, Func.new, U64, UINT64_MAX] at hts ⊢
      omega
  | step a _ _ hts hroot ih => exact (History.active_closed a.ts hts).replay_if a _ hroot ih

/-- C28, as the code has it.  In every history reachable from a construction
at a time strictly between 0 and `UINT64_MAX` by `History::replay` calls whose
timestamps lie strictly between 0 and `UINT64_MAX`, none of them made when
`first_start` of `root` is 0 (a return at the root makes a new root that
starts one nanosecond before `first_start` of the old one), the active nodes
(`start != UINT64_MAX`) of the tree are exactly the nodes on the caller chain
from `current` up to `root`: a node of the tree is active iff its path from
`root` is an initial part of the path of `current`.  Consequently `current` is
active, `current` is the node at the end of that path, and no node has more
than one active child. -/
theorem History.active_nodes (H : History) (h : H.ReachableActive) :
    (∀ (p : List Nat) (g : Func), H.root.descend p = some g →
        (g.start ≠ UINT64_MAX ↔ p <+: H.path 0)) ∧
      H.current.start ≠ UINT64_MAX ∧
      H.root.descend (H.path 0) = some H.current ∧
      (∀ f ∈ H.nodes, f.start ≠ UINT64_MAX) ∧
      ∀ (p : List Nat) (g c d : Func) (i j : Nat), H.root.descend p = some g →
        g.callee[i]? = some c → g.callee[j]? = some d →
        c.start ≠ UINT64_MAX → d.start ≠ UINT64_MAX → i = j := by
  have hact := h.chain_active
  have hwf := h.reachable.wf
  have hcur : H.current.Spine [] :=
    ⟨hact.1 H.current (List.mem_cons_self _ _), hwf.idle_current⟩
  have hspine : H.root.Spine (H.path 0) := by
    have := zip_up_spine H.chain H.current [] hcur (fun fr hfr =>
      ⟨hact.1 fr.node (List.mem_cons_of_mem _ (List.mem_map_of_mem _ hfr)),
        hwf.idle_chain fr hfr, hwf.pos_le fr hfr⟩)
    simpa [History.root, History.path] using this
  have hexact : ∀ (p : List Nat) (g : Func), H.root.descend p = some g →
      (g.start ≠ UINT64_MAX ↔ p <+: H.path 0) := fun p g hg => hspine.iff_prefix p g hg
  refine ⟨hexact, hcur.1, ?_, hact.1, ?_⟩
  · have := zip_up_descend H.chain H.current hwf.pos_le
    simpa [History.root, History.path] using this
  · intro p g c d i j hg hc hd hca hda
    have h1 : H.root.descend (p ++ [i]) = some c := by
      simp [Func.descend_append, hg, Func.descend, hc]
    have h2 : H.root.descend (p ++ [j]) = some d := by
      simp [Func.descend_append, hg, Func.descend, hd]
    have p1 := (hexact _ _ h1).mp hca
    have p2 := (hexact _ _ h2).mp hda
    have := List.prefix_of_prefix_length_le p1 p2 (by simp)
    have heq := this.eq_of_length (by simp)
    simpa using heq

theorem History.active_nodes_witness :
    hist_main_foo.current.start = 20 ∧ hist_main_foo.path 0 = [0] ∧
      hist_main_foo.root.descend (hist_main_foo.path 0) = some hist_main_foo.current ∧
      ∀ f ∈ hist_main_foo.nodes, f.start ≠ UINT64_MAX :=
  have h := History.active_nodes hist_main_foo
    (History.ReachableActive.step (act Inst.CALL sym_main sym_foo 20)
      (History.ReachableActive.init sym_main 10 0 42 (by decide) (by decide))
      (by decide) (by decide) (by decide))
  ⟨by decide, by decide, h.2.2.1, h.2.2.2.1⟩

/-- C28, as stated, fails.  A history of thread 42 is constructed at `main` at
time 1, and two returns are replayed at the root, at the times 2 and 3; all
three timestamps lie strictly between 0 and `UINT64_MAX`, and both actions are
accepted.  The first return makes a root that starts at `1 - 1 = 0`; the second
makes a root that starts at `0 - 1`, which is `UINT64_MAX` in 64 bits: the new
root is `current`, on the caller chain, and it is not active. -/
theorem History.current_not_active :
    ((History.new sym_main 1 0 42).replay (act Inst.RET sym_main sym_z5 2)).1 = true ∧
      (((History.new sym_main 1 0 42).replay (act Inst.RET sym_main sym_z5 2)).2.replay
        (act Inst.RET sym_z5 sym_y 3)).1 = true ∧
      ((History.new sym_main 1 0 42).replay
        (act Inst.RET sym_main sym_z5 2)).2.current.start = 0 ∧
      hist_promoted_twice.current.start = UINT64_MAX ∧
      hist_promoted_twice.chain.length = 0 ∧
      hist_promoted_twice.current.sym = sym_y ∧
      hist_promoted_twice.root.descend (hist_promoted_twice.path 0) =
        some hist_promoted_twice.current := by
  refine ⟨by decide, by decide, by decide, by decide, by decide, by decide, rfl⟩

/-! ## MergeWrapper: the two modes on sources of one thread -/

theorem read_block_all (tid : Nat) (junk next : Action) (pend : List Action)
    (hn : next.inst ≠ Inst.END ∧ next.tid = tid)
    (hp : ∀ a ∈ pend, a.inst ≠ Inst.END ∧ a.tid = tid) :
    read_block tid junk next pend = (next :: pend, Action.new junk, []) := by
  induction pend generalizing next with
  | nil => simp only [read_block]; rw [if_pos hn]
  | cons a rest ih =>
    simp only [read_block]
    rw [if_pos hn, ih a (hp a (List.mem_cons_self _ _))
      (fun b hb => hp b (List.mem_cons_of_mem _ hb))]

theorem Source.read_block_whole (s : Source) (tid : Nat)
    (hp : ∀ a ∈ s.pending, a.inst ≠ Inst.END ∧ a.tid = tid) :
    read_block tid s.junk s.next_action.1 s.next_action.2.pending =
      (s.pending, Action.new s.junk, []) := by
  cases hc : s.pending with
  | nil =>
    have hn : s.next_action = (Action.new s.junk, s) := by simp [Source.next_action, hc]
    rw [hn, read_block_of_not tid s.junk (Action.new s.junk) s.pending (fun h => h.1 rfl), hc]
  | cons a rest =>
    have hn : s.next_action = (a, { s with pending := rest }) := by
      simp [Source.next_action, hc]
    rw [hn]
    rw [hc] at hp
    exact PtFlame.read_block_all tid s.junk a rest (hp a (List.mem_cons_self _ _))
      (fun b hb => hp b (List.mem_cons_of_mem _ hb))

theorem MergeWrapper.next_action_by_block_pop (pk : Nat → Nat) (mw : MergeWrapper)
    (act : ActionWrapper) (rest : List ActionWrapper)
    (hs : mw.single_source = false) (hb : mw.block = [])
    (hp : heap_pop (pk (mw.action_heap.length - 1)) mw.action_heap = some (act, rest))
    (hend : act.act.inst ≠ Inst.END)
    (hP : ∀ a ∈ (mw.readers act.tr).pending, a.inst ≠ Inst.END ∧ a.tid = act.act.tid) :
    mw.next_action_by_block pk =
      (act.act,
        { mw with
          block := (mw.readers act.tr).pending
          action_heap := rest
          readers := Function.update mw.readers act.tr
            { mw.readers act.tr with pending := [] } }) := by
  obtain ⟨k, hk, _, _⟩ := heap_pop_spec hp
  have hlen : 0 < mw.action_heap.length :=
    Nat.lt_of_le_of_lt (Nat.zero_le _) (List.getElem?_eq_some_iff.mp hk).1
  obtain ⟨n, hn⟩ : ∃ n, mw.action_heap.length = n + 1 := ⟨mw.action_heap.length - 1, by omega⟩
  rw [hn, Nat.add_sub_cancel] at hp
  unfold MergeWrapper.next_action_by_block
  rw [hs, hb, hn]
  simp only [Bool.false_eq_true, if_false]
  unfold MergeWrapper.next_action_by_block_loop
  rw [hp]
  simp only [if_neg hend]
  rw [Source.read_block_whole (mw.readers act.tr) act.act.tid hP]
  simp [Action.new, hb, hs]

theorem MergeWrapper.actions_by_block_succ (pick : Nat → Nat → Nat) (n : Nat)
    (mw : MergeWrapper) :
    MergeWrapper.actions_by_block pick (n + 1) mw =
      if (mw.next_action_by_block (pick n)).1.inst = Inst.END then []
      else
        (mw.next_action_by_block (pick n)).1 ::
          MergeWrapper.actions_by_block pick n (mw.next_action_by_block (pick n)).2 := rfl

theorem MergeWrapper.actions_by_block_of_block (pick : Nat → Nat → Nat) (B : List Action)
    (m : Nat) (mw : MergeWrapper) (hs : mw.single_source = false) (hb : mw.block = B)
    (hB : ∀ a ∈ B, a.inst ≠ Inst.END) :
    MergeWrapper.actions_by_block pick (B.length + m) mw =
      B ++ MergeWrapper.actions_by_block pick m { mw with block := [] } := by
  induction B generalizing mw with
  | nil =>
    have : { mw with block := [] } = mw := by
      cases mw
      simp only at hb
      subst hb
      rfl
    rw [this]
    simp
  | cons b B ih =>
    have hstep : mw.next_action_by_block (pick (B.length + m)) = (b, { mw with block := B }) := by
      unfold MergeWrapper.next_action_by_block
      rw [hs, hb]
      simp
    have hlen : (b :: B).length + m = (B.length + m) + 1 := by
      simp only [List.length_cons]; omega
    rw [hlen, MergeWrapper.actions_by_block_succ, hstep]
    simp only [if_neg (hB b (List.mem_cons_self _ _))]
    rw [ih { mw with block := B } hs rfl (fun a ha => hB a (List.mem_cons_of_mem _ ha))]
    rfl

theorem MergeWrapper.single_source_modes (pick : Nat → Nat → Nat) (n : Nat) (mw : MergeWrapper)
    (hs : mw.single_source = true) :
    MergeWrapper.actions_by_block pick n mw = MergeWrapper.actions pick n mw := by
  induction n generalizing mw with
  | zero => rfl
  | succ n ih =>
    have hstep : mw.next_action_by_block (pick n) = mw.next_action (pick n) := by
      unfold MergeWrapper.next_action_by_block MergeWrapper.next_action
      rw [hs]
      simp
    have hs1 : (mw.next_action (pick n)).2.single_source = true := by
      unfold MergeWrapper.next_action
      rw [hs]
      simp
    unfold MergeWrapper.actions_by_block MergeWrapper.actions
    rw [hstep, ih _ hs1]

/-- C21, as the code has it.  With a single source `next_action_by_block`
returns exactly the sequence `next_action` returns.  With several sources,
when it pops the wrapper of a source whose remaining actions all carry the tid
of the wrapper, as they do when all actions carry the same tid, the calls
return the action of the wrapper and then all the remaining actions of that
source, in their order, before another source is looked at.  Two sources with
the timestamps 1, 3, 5 and 2, 4, 6 of one tid yield 1, 3, 5, 2, 4, 6 under
block-merge, whichever way the heap breaks ties. -/
theorem MergeWrapper.next_action_by_block_drains :
    (∀ (s : Source) (junk : Action) (pick : Nat → Nat → Nat) (n : Nat),
        MergeWrapper.actions_by_block pick n (MergeWrapper.new [s] junk) =
          MergeWrapper.actions pick n (MergeWrapper.new [s] junk)) ∧
      (∀ (pick : Nat → Nat → Nat) (m : Nat) (mw : MergeWrapper) (act : ActionWrapper)
          (rest : List ActionWrapper),
        mw.single_source = false → mw.block = [] →
        heap_pop (pick ((mw.readers act.tr).pending.length + m) (mw.action_heap.length - 1))
            mw.action_heap = some (act, rest) →
        act.act.inst ≠ Inst.END →
        (∀ a ∈ (mw.readers act.tr).pending, a.inst ≠ Inst.END ∧ a.tid = act.act.tid) →
        MergeWrapper.actions_by_block pick ((mw.readers act.tr).pending.length + m + 1) mw =
          act.act :: (mw.readers act.tr).pending ++
            MergeWrapper.actions_by_block pick m
              { mw with
                action_heap := rest
                readers := Function.update mw.readers act.tr
                  { mw.readers act.tr with pending := [] } }) ∧
      ∀ pick : Nat → Nat → Nat,
        MergeWrapper.actions_by_block pick 6 (MergeWrapper.new [src_135 7, src_246 7] act_junk) =
          [act_at 1 7, act_at 3 7, act_at 5 7, act_at 2 7, act_at 4 7, act_at 6 7] := by
  refine ⟨fun s junk pick n => ?_, fun pick m mw act rest hs hb hp hend hP => ?_, fun pick => ?_⟩
  · exact MergeWrapper.single_source_modes pick n _ (by simp [MergeWrapper.new])
  · have hstep := MergeWrapper.next_action_by_block_pop
      (pick ((mw.readers act.tr).pending.length + m)) mw act rest hs hb hp hend hP
    rw [MergeWrapper.actions_by_block_succ, hstep]
    simp only [if_neg hend]
    have h2 := MergeWrapper.actions_by_block_of_block pick (mw.readers act.tr).pending m
      { mw with
        block := (mw.readers act.tr).pending
        action_heap := rest
        readers := Function.update mw.readers act.tr
          { mw.readers act.tr with pending := [] } }
      hs rfl (fun a ha => (hP a ha).1)
    rw [List.cons_append]
    refine congrArg (List.cons act.act) (h2.trans ?_)
    simp only [hb]
  · rw [MergeWrapper.actions_by_block_untied pick 6 _ (by decide)]
    decide

theorem MergeWrapper.next_action_by_block_drains_witness :
    MergeWrapper.actions_by_block (fun _ _ => 0) 5
        (MergeWrapper.new [⟨[act_at 1 7, act_at 2 7, act_at 3 7], act_junk⟩] act_junk) =
      MergeWrapper.actions (fun _ _ => 0) 5
        (MergeWrapper.new [⟨[act_at 1 7, act_at 2 7, act_at 3 7], act_junk⟩] act_junk) :=
  MergeWrapper.next_action_by_block_drains.1 _ _ _ _

/-- C21, as stated, fails.  Two sources hold the actions of one thread, 7, with
the timestamps 1, 3, 5 and 2, 4, 6.  Whichever way the heap breaks ties,
`next_action` returns them in the order 1, 2, 3, 4, 5, 6 and
`next_action_by_block` in the order 1, 3, 5, 2, 4, 6: the second action
returned is already another one. -/
theorem MergeWrapper.block_merge_differs :
    (∀ s ∈ [src_135 7, src_246 7], ∀ a ∈ s.pending, a.tid = 7) ∧
      ∀ pick : Nat → Nat → Nat,
        MergeWrapper.actions pick 6 (MergeWrapper.new [src_135 7, src_246 7] act_junk) =
            [act_at 1 7, act_at 2 7, act_at 3 7, act_at 4 7, act_at 5 7, act_at 6 7] ∧
          (MergeWrapper.actions_by_block pick 6
              (MergeWrapper.new [src_135 7, src_246 7] act_junk)).map (fun a => a.ts) =
            [1, 3, 5, 2, 4, 6] ∧
          MergeWrapper.actions_by_block pick 6
              (MergeWrapper.new [src_135 7, src_246 7] act_junk) ≠
            MergeWrapper.actions pick 6 (MergeWrapper.new [src_135 7, src_246 7] act_junk) := by
  refine ⟨by decide, fun pick => ?_⟩
  rw [MergeWrapper.actions_by_block_untied pick 6 _ (by decide),
    MergeWrapper.actions_untied pick 6 _ (by decide)]
  exact ⟨by decide, by decide, by decide⟩

/-! ## The flame graph -/

theorem Func.stacks_ne_nil (f : Func) : ∀ ch ∈ f.stacks, ch ≠ [] := by
  refine Func.stacks.induct (fun f => ∀ ch ∈ f.stacks, ch ≠ [])
    (fun cs => ∀ ch ∈ Func.stacks_callee cs, ch ≠ []) ?_ ?_ ?_ f
  · intro sym callee ca tid fs st en sii eii stats _ ch hch
    simp only [Func.stacks, List.mem_cons, List.mem_map] at hch
    rcases hch with rfl | ⟨c, _, rfl⟩ <;> simp
  · intro ch hch
    simp [Func.stacks_callee] at hch
  · intro f fs h1 h2 ch hch
    simp only [Func.stacks_callee, List.mem_append] at hch
    rcases hch with hch | hch
    · exact h1 ch hch
    · exact h2 ch hch

theorem Func.stacks_callee_ne_nil (cs : List Func) : ∀ ch ∈ Func.stacks_callee cs, ch ≠ [] := by
  induction cs with
  | nil => intro ch hch; simp [Func.stacks_callee] at hch
  | cons c cs ih =>
    intro ch hch
    simp only [Func.stacks_callee, List.mem_append] at hch
    rcases hch with hch | hch
    · exact Func.stacks_ne_nil c ch hch
    · exact ih ch hch

theorem stack_line_cons (avg : Statistics → String) (pre : String) (f : Func) (ch : List Func)
    (h : ch ≠ []) :
    stack_line avg pre (f :: ch) = stack_line avg (pre ++ Func.entry avg f ++ ";") ch := by
  cases ch with
  | nil => exact absurd rfl h
  | cons c cs =>
    simp only [stack_line, List.map_cons, joined, List.getLast?_cons_cons, String.append_assoc]

theorem shown_cons (f : Func) (ch : List Func) :
    shown (f :: ch) = (decide (f.stats.sum_inferred ≠ 0) && shown ch) := by
  simp [shown]

theorem Func._flame_graph_eq (avg : Statistics → String) (pre : String) (f : Func) :
    Func._flame_graph avg pre f = (f.stacks.filter shown).map (stack_line avg pre) := by
  refine Func.stacks.induct
    (fun f => ∀ pre, Func._flame_graph avg pre f = (f.stacks.filter shown).map (stack_line avg pre))
    (fun cs => ∀ pre, Func._flame_graph_callee avg pre cs =
      ((Func.stacks_callee cs).filter shown).map (stack_line avg pre)) ?_ ?_ ?_ f pre
  · intro sym callee ca tid fs st en sii eii stats ih pre
    simp only [Func._flame_graph, Func.stacks]
    by_cases h0 : stats.sum_inferred = 0
    · rw [if_pos h0]
      symm
      rw [List.map_eq_nil_iff, List.filter_eq_nil_iff]
      intro ch hch
      simp only [List.mem_cons, List.mem_map] at hch
      rcases hch with rfl | ⟨c, _, rfl⟩ <;> simp [shown, h0]
    · rw [if_neg h0, ih]
      have hs : shown [⟨sym, callee, ca, tid, fs, st, en, sii, eii, stats⟩] = true := by
        simp [shown, h0]
      rw [List.filter_cons, if_pos hs, List.map_cons, List.filter_map, List.map_map]
      congr 1
      have hf : (shown ∘ fun x => (⟨sym, callee, ca, tid, fs, st, en, sii, eii, stats⟩ : Func) :: x)
          = shown := by
        funext ch
        simp [Function.comp, shown_cons, h0]
      rw [hf]
      apply List.map_congr_left
      intro ch hch
      have hne := Func.stacks_callee_ne_nil callee ch (List.mem_filter.mp hch).1
      simp only [Function.comp]
      rw [stack_line_cons avg pre _ ch hne]
      rfl
  · intro pre
    rfl
  · intro f fs h1 h2 pre
    simp only [Func._flame_graph_callee, Func.stacks_callee, List.filter_append, List.map_append,
      h1, h2]

theorem Func.flame_graph_eq (avg : Statistics → String) (root : Func) :
    root.flame_graph avg = (root.stacks_below.filter shown).map (stack_line avg "") := by
  unfold Func.flame_graph Func.stacks_below
  induction root.callee with
  | nil => rfl
  | cons c cs ih =>
    simp only [Func._flame_graph_callee, Func.stacks_callee, List.filter_append, List.map_append,
      ih, Func._flame_graph_eq]

theorem foldl_uadd_sum (cs : List Func) (acc : Nat) (h : acc + sum_inferred_of cs < U64) :
    cs.foldl (fun o i => uadd o i.stats.sum_inferred) acc = acc + sum_inferred_of cs := by
  induction cs generalizing acc with
  | nil => simp [sum_inferred_of]
  | cons c cs ih =>
    simp only [sum_inferred_of, List.map_cons, List.sum_cons] at h ⊢
    have hu : uadd acc c.stats.sum_inferred = acc + c.stats.sum_inferred := by
      unfold uadd
      exact Nat.mod_eq_of_lt (by omega)
    rw [List.foldl_cons, hu, ih _ (by simp only [sum_inferred_of]; omega)]
    simp only [sum_inferred_of]
    omega

theorem Func.self_time_eq (f : Func) (hb : sum_inferred_of f.callee ≤ f.stats.sum_inferred)
    (hty : f.stats.sum_inferred < U64) :
    f.self_time = f.stats.sum_inferred - sum_inferred_of f.callee := by
  unfold Func.self_time
  simp only
  rw [foldl_uadd_sum f.callee 0 (by omega), Nat.zero_add, if_neg (by omega)]

theorem Func.balanced_iff (f : Func) :
    f.balanced = true ↔
      sum_inferred_of f.callee ≤ f.stats.sum_inferred ∧ ∀ c ∈ f.callee, c.balanced = true := by
  unfold Func.balanced
  rw [Func.all_iff]
  simp

theorem Func._flame_graph_sum (avg : Statistics → String) (f : Func) (hb : f.balanced = true)
    (hty : f.stats.sum_inferred < U64) (pre : String) :
    ((Func._flame_graph avg pre f).map FlameLine.self_time).sum = f.stats.sum_inferred := by
  refine Func.stacks.induct
    (fun f => f.balanced = true → f.stats.sum_inferred < U64 → ∀ pre,
      ((Func._flame_graph avg pre f).map FlameLine.self_time).sum = f.stats.sum_inferred)
    (fun cs => (∀ c ∈ cs, c.balanced = true) → sum_inferred_of cs < U64 → ∀ pre,
      ((Func._flame_graph_callee avg pre cs).map FlameLine.self_time).sum = sum_inferred_of cs)
    ?_ ?_ ?_ f hb hty pre
  · intro sym callee ca tid fs st en sii eii stats ih hb hty pre
    obtain ⟨hle, hcs⟩ := (Func.balanced_iff _).mp hb
    simp only at hle hcs hty
    simp only [Func._flame_graph]
    by_cases h0 : stats.sum_inferred = 0
    · rw [if_pos h0, h0]
      rfl
    · rw [if_neg h0]
      simp only [List.map_cons, List.sum_cons]
      rw [ih hcs (by omega), Func.self_time_eq _ hle hty]
      simp only
      omega
  · intro _ _ pre
    rfl
  · intro c cs h1 h2 hb hty pre
    simp only [sum_inferred_of, List.map_cons, List.sum_cons] at hty
    simp only [Func._flame_graph_callee, List.map_append, List.sum_append]
    rw [h1 (hb c (List.mem_cons_self _ _)) (by omega),
      h2 (fun d hd => hb d (List.mem_cons_of_mem _ hd)) (by simp only [sum_inferred_of]; omega)]
    simp [sum_inferred_of]

theorem Func._flame_graph_callee_sum (avg : Statistics → String) (cs : List Func)
    (hb : ∀ c ∈ cs, c.balanced = true) (hty : sum_inferred_of cs < U64) (pre : String) :
    ((Func._flame_graph_callee avg pre cs).map FlameLine.self_time).sum = sum_inferred_of cs := by
  induction cs with
  | nil => rfl
  | cons c cs ih =>
    simp only [sum_inferred_of, List.map_cons, List.sum_cons] at hty
    simp only [Func._flame_graph_callee, List.map_append, List.sum_append]
    rw [Func._flame_graph_sum avg c (hb c (List.mem_cons_self _ _)) (by omega),
      ih (fun d hd => hb d (List.mem_cons_of_mem _ hd)) (by simp only [sum_inferred_of]; omega)]
    simp [sum_inferred_of]

/-- C22. For every tree in which `stats.sum_inferred` of each node is at least
the sum of `stats.sum_inferred` of its children (so `self_time` never clamps),
`stats.sum_inferred` of the root being a 64-bit value, the sum of the numbers
at the end of the lines written by `root.flame_graph` equals
`root.stats.sum_inferred - root.self_time()`, which is the sum of
`stats.sum_inferred` over the children of the root, in exact integer
arithmetic. -/
theorem Func.flame_graph_total (avg : Statistics → String) (root : Func)
    (hb : root.balanced = true) (hty : root.stats.sum_inferred < U64) :
    ((root.flame_graph avg).map FlameLine.self_time).sum =
        root.stats.sum_inferred - root.self_time ∧
      ((root.flame_graph avg).map FlameLine.self_time).sum = sum_inferred_of root.callee ∧
      root.self_time = root.stats.sum_inferred - sum_inferred_of root.callee := by
  obtain ⟨hle, hcs⟩ := (Func.balanced_iff root).mp hb
  have hst := Func.self_time_eq root hle hty
  have hsum := Func._flame_graph_callee_sum avg root.callee hcs (by omega) ""
  unfold Func.flame_graph
  refine ⟨?_, hsum, hst⟩
  rw [hsum, hst]
  omega

theorem Func.flame_graph_total_witness :
    tree5.stats.sum_inferred = 204 ∧ tree5.self_time = 2 ∧
      (tree5.flame_graph (fun _ => "100")).map FlameLine.self_time = [2, 200] ∧
      ((tree5.flame_graph (fun _ => "100")).map FlameLine.self_time).sum =
        tree5.stats.sum_inferred - tree5.self_time :=
  ⟨by decide, by decide, by decide,
    (Func.flame_graph_total (fun _ => "100") tree5 (by decide) (by decide)).1⟩

/-- C23, as the code has it.  `Func::flame_graph` writes exactly one line per
node below the root that is not elided, whether the node has children or not;
a node is elided when its `stats.sum_inferred` is 0 or when a node above it,
below the root, is elided.  The number of lines is the number of such nodes,
which is at least the number of those among them that are leaves. -/
theorem Func.flame_graph_length (avg : Statistics → String) (root : Func) :
    (root.flame_graph avg).length = (root.stacks_below.filter shown).length ∧
      ((root.stacks_below.filter shown).filter ends_in_leaf).length ≤
        (root.flame_graph avg).length := by
  rw [Func.flame_graph_eq, List.length_map]
  exact ⟨rfl, List.length_filter_le _ _⟩

/-- C23, as stated, fails.  The tree of scenario 5 is `/global_root/` with the
child `r`, which has the child `f`; none of the two is elided and `f` is the
only leaf.  `flame_graph` writes two lines, one for `r` and one for `f`. -/
theorem Func.flame_graph_line_per_node :
    tree5.stacks_below.map (fun ch => ch.map (fun g => (g.sym.name, g.stats.sum_inferred))) =
        [[("r", 202)], [("r", 202), ("f", 200)]] ∧
      ((tree5.stacks_below.filter shown).filter ends_in_leaf).length = 1 ∧
      (tree5.flame_graph (fun _ => "100")).length = 2 ∧
      (tree5.flame_graph (fun _ => "100")).map FlameLine.text =
        ["r:2(2) 2", "r:2(2);f:2,avg:100 200"] := by
  refine ⟨by decide, by decide, by decide, by decide⟩

theorem Func.stacks_leads_down (f : Func) :
    ∀ ch ∈ f.stacks, ∃ rest, ch = f :: rest ∧ Func.LeadsDown f rest := by
  refine Func.stacks.induct
    (fun f => ∀ ch ∈ f.stacks, ∃ rest, ch = f :: rest ∧ Func.LeadsDown f rest)
    (fun cs => ∀ ch ∈ Func.stacks_callee cs,
      ∃ c rest, c ∈ cs ∧ ch = c :: rest ∧ Func.LeadsDown c rest) ?_ ?_ ?_ f
  · intro sym callee ca tid fs st en sii eii stats ih ch hch
    simp only [Func.stacks, List.mem_cons, List.mem_map] at hch
    rcases hch with rfl | ⟨ch1, h1, rfl⟩
    · exact ⟨[], rfl, trivial⟩
    · obtain ⟨c, rest, hc, rfl, hl⟩ := ih ch1 h1
      exact ⟨c :: rest, rfl, hc, hl⟩
  · intro ch hch
    simp [Func.stacks_callee] at hch
  · intro c cs h1 h2 ch hch
    simp only [Func.stacks_callee, List.mem_append] at hch
    rcases hch with hch | hch
    · obtain ⟨rest, rfl, hl⟩ := h1 ch hch
      exact ⟨c, rest, List.mem_cons_self _ _, rfl, hl⟩
    · obtain ⟨d, rest, hd, rfl, hl⟩ := h2 ch hch
      exact ⟨d, rest, List.mem_cons_of_mem _ hd, rfl, hl⟩

theorem Func.stacks_callee_leads_down (cs : List Func) :
    ∀ ch ∈ Func.stacks_callee cs, ∃ c rest, c ∈ cs ∧ ch = c :: rest ∧ Func.LeadsDown c rest := by
  induction cs with
  | nil => intro ch hch; simp [Func.stacks_callee] at hch
  | cons c cs ih =>
    intro ch hch
    simp only [Func.stacks_callee, List.mem_append] at hch
    rcases hch with hch | hch
    · obtain ⟨rest, rfl, hl⟩ := Func.stacks_leads_down c ch hch
      exact ⟨c, rest, List.mem_cons_self _ _, rfl, hl⟩
    · obtain ⟨d, rest, hd, rfl, hl⟩ := ih ch hch
      exact ⟨d, rest, List.mem_cons_of_mem _ hd, rfl, hl⟩

/-- C24. Every line written by `root.flame_graph` is the line of a node `v`
strictly below `root`: its text is the entries `name + ':' + stat_string` of
the nodes on the way from a child of `root` down to `v`, joined by `;`,
followed by one space and the decimal `v.self_time()`.  No node on that way,
`v` included, has `stats.sum_inferred == 0`, and the way does not contain
`root` itself.  The string `stat_string` is the decimal `invoked`, followed by
the decimal `inferred` in parentheses iff `inferred > 0`, followed by an
`,avg:` part iff `n() = invoked - inferred > 1`. -/
theorem Func.flame_graph_lines (avg : Statistics → String) (root : Func) :
    (∀ l ∈ root.flame_graph avg,
        ∃ (chain : List Func) (v : Func),
          chain ∈ root.stacks_below ∧ root.LeadsDown chain ∧ chain.getLast? = some v ∧
            (∀ g ∈ chain, g.stats.sum_inferred ≠ 0) ∧
            l.stack = joined (chain.map (fun g => g.sym.name ++ ":" ++ g.stats.stat_string avg)) ∧
            l.self_time = v.self_time ∧
            l.text =
              joined (chain.map (fun g => g.sym.name ++ ":" ++ g.stats.stat_string avg)) ++ " " ++
                toString v.self_time) ∧
      ∀ s : Statistics,
        s.stat_string avg =
          toString s.invoked ++ (if s.inferred > 0 then "(" ++ toString s.inferred ++ ")" else "") ++
            (if s.n > 1 then ",avg:" ++ avg s else "") := by
  refine ⟨fun l hl => ?_, fun s => ?_⟩
  · rw [Func.flame_graph_eq] at hl
    obtain ⟨chain, hch, rfl⟩ := List.mem_map.mp hl
    obtain ⟨hmem, hshown⟩ := List.mem_filter.mp hch
    obtain ⟨c, rest, hc, rfl, hld⟩ := Func.stacks_callee_leads_down root.callee chain hmem
    have hlast : ∃ v, (c :: rest).getLast? = some v := by
      cases h : (c :: rest).getLast? with
      | none => simp at h
      | some v => exact ⟨v, rfl⟩
    obtain ⟨v, hv⟩ := hlast
    refine ⟨c :: rest, v, hmem, ⟨hc, hld⟩, hv, ?_, ?_, ?_, ?_⟩
    · intro g hg
      have := List.all_eq_true.mp hshown g hg
      simpa using this
    · simp only [stack_line, String.empty_append]
      rfl
    · simp only [stack_line, hv]
    · simp only [FlameLine.text, stack_line, hv, String.empty_append]
      rfl
  · unfold Statistics.stat_string
    by_cases h : s.inferred = 0
    · simp [h]
    · have : s.inferred > 0 := Nat.pos_of_ne_zero h
      simp [h, this]

theorem Func.flame_graph_lines_witness :
    ∃ (chain : List Func) (v : Func),
      chain ∈ tree5.stacks_below ∧ tree5.LeadsDown chain ∧ chain.getLast? = some v ∧
        (∀ g ∈ chain, g.stats.sum_inferred ≠ 0) ∧
        (⟨"r:2(2);f:2,avg:100", 200⟩ : FlameLine).stack =
          joined (chain.map (fun g => g.sym.name ++ ":" ++
            g.stats.stat_string (fun _ => "100"))) ∧
        (⟨"r:2(2);f:2,avg:100", 200⟩ : FlameLine).self_time = v.self_time ∧
        (⟨"r:2(2);f:2,avg:100", 200⟩ : FlameLine).text =
          joined (chain.map (fun g => g.sym.name ++ ":" ++
            g.stats.stat_string (fun _ => "100"))) ++ " " ++ toString v.self_time :=
  (Func.flame_graph_lines (fun _ => "100") tree5).1 ⟨"r:2(2);f:2,avg:100", 200⟩ (by decide)

/-! ## Perfetto: the size of the records -/

theorem le_bytes_length (n v : Nat) : (le_bytes n v).length = n := by
  induction n generalizing v with
  | zero => rfl
  | succ n ih => simp [le_bytes, ih]

theorem size_field_le_bytes (v : Nat) (rest : List Nat) (hv : v < 65536) :
    size_field (le_bytes 2 v ++ rest) = v / 16 % 4096 := by
  simp only [size_field, le_bytes, List.cons_append, List.getD_cons_zero, List.getD_cons_succ]
  have : v % 256 + 256 * (v / 256 % 256) = v := by omega
  rw [this]

theorem type_size_eq (code size : Nat) (hc : code < 16) :
    ((code &&& 0xf) ||| (((size % 65536) &&& 0x0fff) <<< 4)) % 65536 =
      16 * (size % 4096) + code := by
  have h1 : code &&& 0xf = code := by
    have := Nat.and_pow_two_sub_one_eq_mod code 4
    norm_num at this
    rw [this]
    exact Nat.mod_eq_of_lt hc
  have h2 : (size % 65536) &&& 0x0fff = size % 4096 := by
    have := Nat.and_pow_two_sub_one_eq_mod (size % 65536) 12
    norm_num at this
    exact this
  rw [h1, h2, Nat.shiftLeft_eq, Nat.lor_comm]
  have h3 := Nat.mul_add_lt_is_or (i := 4) (b := code) (by norm_num; exact hc)
    (size % 4096)
  rw [Nat.mul_comm, ← h3]
  norm_num
  omega

theorem Perfetto.emit_header_os (p : Perfetto) (t : RecordType) (size payload : Nat) :
    ∃ h, (p.emit_header t size payload).os = p.os ++ h ∧ h.length = 8 ∧
      (∀ rest, size_field (h ++ rest) = size % 4096) ∧
      (p.emit_header t size payload).strings = p.strings ∧
      (p.emit_header t size payload).string_index = p.string_index := by
  have hc : t.code < 16 := by cases t <;> decide
  refine ⟨le_bytes 2 (((t.code &&& 0xf) ||| (((size % 65536) &&& 0x0fff) <<< 4)) % 65536) ++
    le_bytes 6 (payload &&& 0xffffffffffff), ?_, ?_, ?_, rfl, rfl⟩
  · simp [Perfetto.emit_header, List.append_assoc]
  · simp [le_bytes_length]
  · intro rest
    rw [List.append_assoc, size_field_le_bytes _ _ (Nat.mod_lt _ (by norm_num)),
      type_size_eq t.code size hc]
    omega

theorem str_bytes_length (str : String) : (str_bytes str).length = str.utf8ByteSize := by
  unfold str_bytes
  rw [List.length_map, ← String.size_toUTF8]
  rfl

theorem Perfetto.register_string_new (p : Perfetto) (str : String)
    (hnew : umap_find str p.strings = none) :
    ∃ h : List Nat,
      (p.register_string str).2.os =
          p.os ++ (h ++ str_bytes str ++
            List.replicate ((str.utf8ByteSize + 7) / 8 * 8 - str.utf8ByteSize) 0) ∧
        h.length = 8 ∧
        (∀ rest, size_field (h ++ rest) = ((str.utf8ByteSize + 7) / 8 + 1) % 4096) := by
  obtain ⟨h, hos, hlen, hsf, _, _⟩ := Perfetto.emit_header_os
    { p with
      rstrings := umap_assign p.string_index str p.rstrings
      strings := umap_assign str p.string_index
        (match umap_find p.string_index p.rstrings with
          | some old => umap_erase old p.strings
          | none => p.strings) }
    RecordType.STRING ((str.utf8ByteSize + 7) / 8 + 1)
    ((p.string_index &&& 0xffff) ||| ((str.utf8ByteSize &&& 0xffff) <<< 16))
  refine ⟨h, ?_, hlen, hsf⟩
  simp only [Perfetto.register_string, hnew]
  simp only at hos
  rw [hos]
  simp [List.append_assoc]

theorem Perfetto.register_string_os (p : Perfetto) (str : String) :
    ∃ rec, (p.register_string str).2.os = p.os ++ rec ∧ 8 ∣ rec.length := by
  cases hf : umap_find str p.strings with
  | some idx =>
    refine ⟨[], ?_, by simp⟩
    simp [Perfetto.register_string, hf]
  | none =>
    obtain ⟨h, hos, hlen, _⟩ := Perfetto.register_string_new p str hf
    refine ⟨_, hos, ?_⟩
    simp only [List.length_append, hlen, str_bytes_length, List.length_replicate]
    omega

theorem Perfetto.register_thread_new (p : Perfetto) (tid pid : Nat)
    (hnew : umap_find tid p.threads = none) :
    ∃ rec, (p.register_thread tid pid).2.os = p.os ++ rec ∧ rec.length = 24 ∧
      size_field rec = 3 := by
  obtain ⟨h, hos, hlen, hsf, _, _⟩ := Perfetto.emit_header_os
    { p with
      rthreads := umap_assign p.thread_index tid p.rthreads
      threads := umap_assign tid p.thread_index
        (match umap_find p.thread_index p.rthreads with
          | some old => umap_erase old p.threads
          | none => p.threads) }
    RecordType.THREAD 3 (p.thread_index &&& 0xff)
  refine ⟨h ++ (le_bytes 8 pid ++ le_bytes 8 tid), ?_, ?_, ?_⟩
  · simp only [Perfetto.register_thread, hnew]
    simp only at hos
    rw [hos]
    simp [List.append_assoc]
  · simp [hlen, le_bytes_length]
  · rw [hsf]

theorem Perfetto.register_thread_os (p : Perfetto) (tid pid : Nat) :
    ∃ rec, (p.register_thread tid pid).2.os = p.os ++ rec ∧ 8 ∣ rec.length := by
  cases hf : umap_find tid p.threads with
  | some idx =>
    refine ⟨[], ?_, by simp⟩
    simp [Perfetto.register_thread, hf]
  | none =>
    obtain ⟨rec, hos, hlen, _⟩ := Perfetto.register_thread_new p tid pid hf
    exact ⟨rec, hos, by rw [hlen]; decide⟩

theorem Perfetto.emit_function_os (p : Perfetto) (tid pid : Nat) (name : String) (time : Nat)
    (t : EventType) (end_ : Nat) :
    ∃ pre ev, (p.emit_function tid pid name time t end_).os = p.os ++ pre ++ ev ∧
      8 ∣ pre.length ∧ size_field ev = (if t = EventType.COMPLETE then 3 else 2) ∧
      ev.length = 8 * size_field ev := by
  obtain ⟨r1, h1, d1⟩ := Perfetto.register_thread_os p tid pid
  obtain ⟨r2, h2, d2⟩ := Perfetto.register_string_os (p.register_thread tid pid).2 "Function Call"
  obtain ⟨r3, h3, d3⟩ := Perfetto.register_string_os
    ((p.register_thread tid pid).2.register_string "Function Call").2 name
  by_cases ht : t = EventType.COMPLETE
  · subst ht
    obtain ⟨h, hos, hlen, hsf, _, _⟩ := Perfetto.emit_header_os
      (((p.register_thread tid pid).2.register_string "Function Call").2.register_string name).2
      RecordType.EVENT 3
      (((EventType.COMPLETE.code &&& 0xf) ||| ((0 &&& 0xf) <<< 4) |||
        (((p.register_thread tid pid).1 &&& 0xff) <<< 8) |||
        (((p.register_thread tid pid).2.register_string "Function Call").1 <<< 16) |||
        ((((p.register_thread tid pid).2.register_string "Function Call").2.register_string
          name).1 <<< 32)) % U64)
    refine ⟨r1 ++ r2 ++ r3, h ++ (le_bytes 8 time ++ le_bytes 8 end_), ?_, ?_, ?_, ?_⟩
    · simp only [Perfetto.emit_function, Perfetto.emit_event_header, if_true]
      rw [hos, h3, h2, h1]
      simp [List.append_assoc]
    · simp only [List.length_append]
      omega
    · rw [hsf, if_pos rfl]
    · rw [hsf]
      simp [hlen, le_bytes_length]
  · obtain ⟨h, hos, hlen, hsf, _, _⟩ := Perfetto.emit_header_os
      (((p.register_thread tid pid).2.register_string "Function Call").2.register_string name).2
      RecordType.EVENT 2
      (((t.code &&& 0xf) ||| ((0 &&& 0xf) <<< 4) |||
        (((p.register_thread tid pid).1 &&& 0xff) <<< 8) |||
        (((p.register_thread tid pid).2.register_string "Function Call").1 <<< 16) |||
        ((((p.register_thread tid pid).2.register_string "Function Call").2.register_string
          name).1 <<< 32)) % U64)
    refine ⟨r1 ++ r2 ++ r3, h ++ le_bytes 8 time, ?_, ?_, ?_, ?_⟩
    · simp only [Perfetto.emit_function, Perfetto.emit_event_header, ht, if_false]
      rw [hos, h3, h2, h1]
      simp [List.append_assoc]
    · simp only [List.length_append]
      omega
    · rw [hsf, if_neg ht]
    · rw [hsf]
      simp [hlen, le_bytes_length]

theorem Perfetto.emit_all_os (cs : List EmitCall) (p : Perfetto) (h : 8 ∣ p.os.length) :
    8 ∣ (p.emit_all cs).os.length := by
  induction cs generalizing p with
  | nil => exact h
  | cons c cs ih =>
    refine ih _ ?_
    obtain ⟨pre, ev, hos, hpre, hsf, hlen⟩ :=
      Perfetto.emit_function_os p c.tid c.pid c.name c.time c.t c.end_
    rw [hos]
    simp only [List.length_append, hlen]
    omega

theorem utf8ByteSize_replicate (n : Nat) :
    (String.mk (List.replicate n (Char.ofNat 97))).utf8ByteSize = n := by
  have hgo : ∀ m, String.utf8ByteSize.go (List.replicate m (Char.ofNat 97)) = m := by
    intro m
    induction m with
    | zero => rfl
    | succ m ih =>
      simp only [List.replicate_succ, String.utf8ByteSize.go, ih]
      have : (Char.ofNat 97).utf8Size = 1 := by decide
      omega
  exact hgo n

/-- C29, as the code has it.  Every record `Perfetto` writes is a whole number
of 8-byte words.  A string record for a string of `L` bytes occupies
`8 * (1 + ceil(L/8))` bytes: the header, the `L` raw bytes, then zero padding;
for `L <= 32752` the size field (bits 4..15) of its header is
`1 + ceil(L/8)`, the number of its words.  A thread record has size 3 and 24
bytes; an event record has size 2 and 16 bytes for BEGIN, END and INSTANT, and
size 3 and 24 bytes for COMPLETE; before an event record `emit_function`
writes whole records only.  Hence the length of the output after `emit_magic`
and any sequence of `emit_function` calls is a multiple of 8. -/
theorem Perfetto.record_sizes :
    (∀ (p : Perfetto) (str : String), umap_find str p.strings = none →
        ∃ h record : List Nat,
          (p.register_string str).2.os = p.os ++ record ∧
            record = h ++ str_bytes str ++
              List.replicate ((str.utf8ByteSize + 7) / 8 * 8 - str.utf8ByteSize) 0 ∧
            h.length = 8 ∧ (str_bytes str).length = str.utf8ByteSize ∧
            record.length = 8 * (1 + (str.utf8ByteSize + 7) / 8) ∧
            (str.utf8ByteSize ≤ 32752 →
              size_field record = 1 + (str.utf8ByteSize + 7) / 8 ∧
                record.length = 8 * size_field record)) ∧
      (∀ (p : Perfetto) (str : String) (idx : Nat), umap_find str p.strings = some idx →
        (p.register_string str).2 = p) ∧
      (∀ (p : Perfetto) (tid pid : Nat), umap_find tid p.threads = none →
        ∃ record, (p.register_thread tid pid).2.os = p.os ++ record ∧ record.length = 24 ∧
          size_field record = 3) ∧
      (∀ (p : Perfetto) (tid pid : Nat) (name : String) (time : Nat) (t : EventType) (end_ : Nat),
        ∃ pre record, (p.emit_function tid pid name time t end_).os = p.os ++ pre ++ record ∧
          8 ∣ pre.length ∧ size_field record = (if t = EventType.COMPLETE then 3 else 2) ∧
          record.length = 8 * size_field record) ∧
      ∀ cs : List EmitCall, 8 ∣ (Perfetto.new.emit_magic.emit_all cs).os.length := by
  refine ⟨fun p str hnew => ?_, fun p str idx hf => ?_, Perfetto.register_thread_new,
    Perfetto.emit_function_os, fun cs => Perfetto.emit_all_os cs _ (by decide)⟩
  · obtain ⟨h, hos, hlen, hsf⟩ := Perfetto.register_string_new p str hnew
    have hrl : (h ++ str_bytes str ++
        List.replicate ((str.utf8ByteSize + 7) / 8 * 8 - str.utf8ByteSize) 0).length =
        8 * (1 + (str.utf8ByteSize + 7) / 8) := by
      simp only [List.length_append, hlen, str_bytes_length, List.length_replicate]
      omega
    refine ⟨h, _, hos, rfl, hlen, str_bytes_length str, hrl, fun hL => ?_⟩
    have hs : size_field (h ++ str_bytes str ++
        List.replicate ((str.utf8ByteSize + 7) / 8 * 8 - str.utf8ByteSize) 0) =
        1 + (str.utf8ByteSize + 7) / 8 := by
      rw [List.append_assoc, hsf]
      omega
    exact ⟨hs, by rw [hs, hrl]⟩
  · simp [Perfetto.register_string, hf]

theorem Perfetto.record_sizes_witness :
    "main".utf8ByteSize = 4 ∧
      ∃ h record : List Nat,
        (Perfetto.new.register_string "main").2.os = Perfetto.new.os ++ record ∧
          record = h ++ str_bytes "main" ++
            List.replicate (("main".utf8ByteSize + 7) / 8 * 8 - "main".utf8ByteSize) 0 ∧
          h.length = 8 ∧ (str_bytes "main").length = "main".utf8ByteSize ∧
          record.length = 8 * (1 + ("main".utf8ByteSize + 7) / 8) ∧
          ("main".utf8ByteSize ≤ 32752 →
            size_field record = 1 + ("main".utf8ByteSize + 7) / 8 ∧
              record.length = 8 * size_field record) :=
  ⟨by decide, Perfetto.record_sizes.1 Perfetto.new "main" rfl⟩

/-- C29, as stated, fails.  A string of 32753 bytes is shorter than 32760.  Its
record occupies `8 * 4096` bytes, one word of header and 4095 words of
characters and padding, and the size field of its header, which has 12 bits,
is `4096 mod 4096 = 0`. -/
theorem Perfetto.string_size_field_wraps :
    long_name.utf8ByteSize = 32753 ∧ long_name.utf8ByteSize < 32760 ∧
      1 + (long_name.utf8ByteSize + 7) / 8 = 4096 ∧
      ∃ record : List Nat,
        (Perfetto.new.register_string long_name).2.os = Perfetto.new.os ++ record ∧
          record.length = 8 * 4096 ∧ size_field record = 0 := by
  have hL : long_name.utf8ByteSize = 32753 := utf8ByteSize_replicate 32753
  obtain ⟨h, hos, hlen, hsf⟩ := Perfetto.register_string_new Perfetto.new long_name rfl
  refine ⟨hL, by rw [hL]; decide, by rw [hL], _, hos, ?_, ?_⟩
  · simp only [List.length_append, hlen, str_bytes_length, List.length_replicate, hL]
  · rw [List.append_assoc, hsf, hL]

/-! ## Func::destructive_merge, the statistics -/

theorem Func.total_list_eq (k : StatField) (cs : List Func) :
    Func.total_list k cs = (cs.map (Func.total k)).sum := by
  induction cs with
  | nil => simp [Func.total_list]
  | cons c cs ih => simp [Func.total_list, ih]

theorem Func.total_eq (k : StatField) (f : Func) :
    f.total k = f.stats.get k + (f.callee.map (Func.total k)).sum := by
  cases f
  simp [Func.total, Func.total_list_eq]

theorem Statistics.merge_stat_get (s o : Statistics) (k : StatField) :
    (s.merge_stat o).get k = uadd (s.get k) (o.get k) := by
  cases k <;> rfl

theorem sum_map_set {l : List Func} {i : Nat} {c : Func} (g : Func → Nat) (x : Func)
    (h : l[i]? = some c) :
    ((l.set i x).map g).sum + g c = (l.map g).sum + g x := by
  induction l generalizing i with
  | nil => simp at h
  | cons a l ih =>
    cases i with
    | zero =>
      simp only [List.getElem?_cons_zero, Option.some.injEq] at h
      subst h
      simp only [List.set_cons_zero, List.map_cons, List.sum_cons]
      omega
    | succ i =>
      simp only [List.getElem?_cons_succ] at h
      have := ih h
      simp only [List.set_cons_succ, List.map_cons, List.sum_cons]
      omega

theorem Func.destructive_merge_total (k : StatField) (self that : Func) :
    (self.destructive_merge that).total k % U64 = (self.total k + that.total k) % U64 ∧
      (self.destructive_merge that).stats = self.stats.merge_stat that.stats := by
  refine Func.destructive_merge.induct
    (fun self that =>
      (self.destructive_merge that).total k % U64 = (self.total k + that.total k) % U64 ∧
        (self.destructive_merge that).stats = self.stats.merge_stat that.stats)
    (fun self fs =>
      (Func.merge_callee self fs).total k % U64 =
          (self.total k + (fs.map (Func.total k)).sum) % U64 ∧
        (Func.merge_callee self fs).stats = self.stats)
    ?_ ?_ ?_ ?_ self that
  · intro self sym callee ca tid fs st en sii eii stats ih
    obtain ⟨h1, h2⟩ := ih
    refine ⟨?_, by simpa [Func.destructive_merge] using h2⟩
    simp only [Func.destructive_merge]
    rw [h1, Func.total_eq k ⟨sym, callee, ca, tid, fs, st, en, sii, eii, stats⟩,
      Func.total_eq k self, Func.total_eq k { self with stats := self.stats.merge_stat stats }]
    simp only [Statistics.merge_stat_get, uadd, U64]
    omega
  · intro self
    exact ⟨by simp [Func.merge_callee], rfl⟩
  · intro self f fs self1 i c hf ih1 ih2
    obtain ⟨h1, hs1⟩ := ih1
    obtain ⟨h2, _⟩ := ih2
    have hic := Func.find_callee_spec hf
    have hres : Func.merge_callee self (f :: fs) =
        { self1 with callee := self1.callee.set i (c.destructive_merge f) } := by
      simp only [Func.merge_callee, self1, hf]
    rw [hres]
    refine ⟨?_, hs1⟩
    have h1 : self1.total k % U64 = (self.total k + (fs.map (Func.total k)).sum) % U64 := h1
    clear_value self1
    have hset := sum_map_set (Func.total k) (c.destructive_merge f) hic
    have e1 : Func.total k { self1 with callee := self1.callee.set i (c.destructive_merge f) } =
        self1.stats.get k + ((self1.callee.set i (c.destructive_merge f)).map (Func.total k)).sum :=
      Func.total_eq k _
    have e2 := Func.total_eq k self1
    rw [e1]
    simp only [List.map_cons, List.sum_cons, U64] at h1 h2 ⊢
    omega
  · intro self f fs self1 hf ih1
    obtain ⟨h1, hs1⟩ := ih1
    have hres : Func.merge_callee self (f :: fs) =
        { self1 with callee := self1.callee ++ [f] } := by
      simp only [Func.merge_callee, self1, hf]
    rw [hres]
    refine ⟨?_, hs1⟩
    have h1 : self1.total k % U64 = (self.total k + (fs.map (Func.total k)).sum) % U64 := h1
    clear_value self1
    have e1 : Func.total k { self1 with callee := self1.callee ++ [f] } =
        self1.stats.get k + ((self1.callee ++ [f]).map (Func.total k)).sum :=
      Func.total_eq k _
    have e2 := Func.total_eq k self1
    rw [e1]
    simp only [List.map_append, List.map_cons, List.map_nil, List.sum_append, List.sum_cons,
      List.sum_nil, U64] at h1 ⊢
    omega

theorem Func.foldl_merge_total (k : StatField) (fs : List Func) (root : Func) :
    (fs.foldl Func.destructive_merge root).total k % U64 =
        (root.total k + (fs.map (Func.total k)).sum) % U64 ∧
      (fs.foldl Func.destructive_merge root).stats.get k % U64 =
        (root.stats.get k + (fs.map (fun f => f.stats.get k)).sum) % U64 ∧
      (root.stats.get k < U64 → (fs.foldl Func.destructive_merge root).stats.get k < U64) := by
  induction fs generalizing root with
  | nil => simp
  | cons f fs ih =>
    obtain ⟨h1, h2, h3⟩ := ih (root.destructive_merge f)
    obtain ⟨e1, e2⟩ := Func.destructive_merge_total k root f
    have e3 : (root.destructive_merge f).stats.get k = (root.stats.get k + f.stats.get k) % U64 := by
      rw [e2, Statistics.merge_stat_get]; rfl
    have hU : 0 < U64 := by decide
    simp only [List.foldl_cons, List.map_cons, List.sum_cons]
    refine ⟨?_, ?_, fun _ => h3 (by rw [e3]; exact Nat.mod_lt _ hU)⟩
    · simp only [U64] at h1 e1 ⊢
      omega
    · rw [e3] at h2
      simp only [U64] at h2 ⊢
      omega

/-- C32.  For a non-empty list of trees whose roots have 64-bit statistics,
`Func::destructive_merge_funcs` returns a tree; for each of the four fields of
`Statistics`, the total of the field over all the nodes of that tree equals,
modulo 2^64, the total of the field over all the nodes of all the trees of the
list, and the field of the root of that tree is the sum, modulo 2^64, of the
field over the roots of the list. -/
theorem Func.destructive_merge_funcs_conserves (fs : List Func) (hne : fs ≠ [])
    (hty : ∀ f ∈ fs, ∀ k : StatField, f.stats.get k < U64) :
    ∃ G, Func.destructive_merge_funcs fs = some G ∧
      ∀ k : StatField,
        G.total k % U64 = (fs.map (Func.total k)).sum % U64 ∧
          G.stats.get k = (fs.map (fun f => f.stats.get k)).sum % U64 := by
  cases fs with
  | nil => exact absurd rfl hne
  | cons root fs =>
    refine ⟨_, rfl, fun k => ?_⟩
    obtain ⟨h1, h2, h3⟩ := Func.foldl_merge_total k fs root
    have hlt := h3 (hty root (List.mem_cons_self _ _) k)
    simp only [List.map_cons, List.sum_cons]
    exact ⟨h1, by rw [← h2, Nat.mod_eq_of_lt hlt]⟩

theorem Func.destructive_merge_funcs_conserves_witness :
    (Replay.run Replay.empty scenario5).cleanup.archive.map
        (fun G => (G.total StatField.sum_inferred, G.total StatField.invoked,
          G.stats.sum_inferred, G.stats.invoked)) =
        [(303, 3, 102, 1), (303, 3, 102, 1)] ∧
      (tree5.total StatField.sum_inferred, tree5.total StatField.invoked,
        tree5.stats.sum_inferred, tree5.stats.invoked) = (606, 6, 204, 2) ∧
      ∃ G, Func.destructive_merge_funcs (Replay.run Replay.empty scenario5).cleanup.archive =
          some G ∧
        ∀ k : StatField,
          G.total k % U64 =
              ((Replay.run Replay.empty scenario5).cleanup.archive.map (Func.total k)).sum %
                U64 ∧
            G.stats.get k =
              ((Replay.run Replay.empty scenario5).cleanup.archive.map
                (fun f => f.stats.get k)).sum % U64 :=
  ⟨by decide, by decide,
    Func.destructive_merge_funcs_conserves _ (List.ne_nil_of_length_pos (by decide)) (by decide)⟩

/-! ## Func::ret and the FTF sink -/

theorem Func.ret_emit_of_inferred (f : Func) (ts : Nat) (p : Perfetto)
    (h : f.start_is_inferred = true) :
    f.ret_emit ts p =
      p.emit_function f.tid f.tid f.sym.name UINT64_MAX EventType.COMPLETE ts := by
  simp [Func.ret_emit, Func.ret, h]

/-- C33, on the code.  `Func::ret` assigns `start = UINT64_MAX` (replay.cpp:72)
before it passes `start` to `emit_function` (replay.cpp:77).  The root `z`
made by `make_new_root` has `start = 9` and `start_is_inferred` set; its
return at time 30 makes the sink write, after the string record of `z`, a
COMPLETE event whose timestamp is `UINT64_MAX` (eight bytes 255), not 9, and
whose end timestamp is 30. -/
theorem Func.ret_emit_complete_timestamp :
    hist_new_root.current.start = 9 ∧ hist_new_root.current.start_is_inferred = true ∧
      hist_new_root.current.ret_emit 30 sink_main_returned =
        sink_main_returned.emit_function 42 42 "z" UINT64_MAX EventType.COMPLETE 30 ∧
      (hist_new_root.current.ret_emit 30 sink_main_returned).os.drop
          sink_main_returned.os.length =
        [34, 0, 3, 0, 1, 0, 0, 0, 122, 0, 0, 0, 0, 0, 0, 0] ++
          [52, 0, 4, 1, 1, 0, 3, 0] ++ le_bytes 8 UINT64_MAX ++ le_bytes 8 30 ∧
      le_bytes 8 UINT64_MAX = [255, 255, 255, 255, 255, 255, 255, 255] ∧
      le_bytes 8 9 = [9, 0, 0, 0, 0, 0, 0, 0] :=
  ⟨by decide, by decide, Func.ret_emit_of_inferred _ 30 _ (by decide), by decide, by decide,
    by decide⟩

/-! ## The driver: the number of streams -/

theorem cpu_map_size_push (cpu : Int) (x : String) (m : List (Int × List String)) :
    1 ≤ cpu_map_size cpu (cpu_map_push cpu x m) := by
  induction m with
  | nil => simp [cpu_map_push, cpu_map_size]
  | cons e m ih =>
    obtain ⟨k, v⟩ := e
    unfold cpu_map_push
    by_cases h1 : cpu < k
    · simp [h1, cpu_map_size]
    · by_cases h2 : k = cpu
      · simp [h1, h2, cpu_map_size]
      · simp [h1, h2, cpu_map_size, ih]

theorem cpu_map_size_foldl (args : List String) (m : List (Int × List String))
    (h : args ≠ []) :
    1 ≤ cpu_map_size (-1) (args.foldl (fun m x => cpu_map_push (-1) x m) m) := by
  obtain ⟨init, last, rfl⟩ : ∃ init last, args = init ++ [last] :=
    ⟨args.dropLast, args.getLast h, (List.dropLast_append_getLast h).symm⟩
  rw [List.foldl_append]
  exact cpu_map_size_push _ _ _

theorem Driver.streams_pos (d : Driver) (args : List String)
    (h : 1 < d.cpu_map.length ∨ args ≠ []) : 1 ≤ d.streams args := by
  unfold Driver.streams
  by_cases hm : d.cpu_map.length > 1
  · simp only [hm, if_true]
    omega
  · simp only [hm, if_false]
    rcases h with h | h
    · exact absurd h hm
    · exact cpu_map_size_foldl args _ h

/-- C35, on the code.  With no option and no trace file on the command line
(the traces come from standard input) `cpu_map` is `{{-1, {}}}`, the `else`
branch sets `streams = cpu_map[-1].size()`, which is 0, and the division
`parallel / streams` is evaluated with `streams == 0`; the same with `-j 4`
alone.  With one trace file after `-j 4`, `streams` is 1 and the division
gives 4. -/
theorem Driver.main_divides_by_zero :
    Driver.main [] [] = some (0, none) ∧
      Driver.main [DriverOpt.j 4] [] = some (0, none) ∧
      Driver.main [DriverOpt.j 4] ["a.trace"] = some (1, some 4) ∧
      Driver.main [DriverOpt.j 4, DriverOpt.c 0, DriverOpt.t "a,b", DriverOpt.c 1, DriverOpt.t "c"]
        [] = some (2, some 2) :=
  ⟨by decide, by decide, by decide, by decide⟩

/-! ## Perfetto: the string registry -/

theorem umap_find_erase_ne {κ α : Type} [DecidableEq κ] (k t : κ) (m : List (κ × α))
    (h : t ≠ k) : umap_find t (umap_erase k m) = umap_find t m := by
  induction m with
  | nil => rfl
  | cons e m ih =>
    obtain ⟨k1, v⟩ := e
    simp only [umap_erase, List.filter_cons, ne_eq, decide_not] at ih ⊢
    by_cases h1 : k1 = k
    · have : ¬ k1 = t := fun e => h (e.symm.trans h1)
      simp [h1, umap_find, ih, this, Ne.symm h]
    · by_cases h2 : k1 = t
      · subst h2
        simp [h, umap_find]
      · simp [h1, umap_find, h2, ih]

theorem umap_find_assign_self {κ α : Type} [DecidableEq κ] (k : κ) (v : α) (m : List (κ × α)) :
    umap_find k (umap_assign k v m) = some v := by
  simp [umap_assign, umap_find]

theorem umap_find_assign_ne {κ α : Type} [DecidableEq κ] (k t : κ) (v : α) (m : List (κ × α))
    (h : t ≠ k) : umap_find t (umap_assign k v m) = umap_find t m := by
  have : ¬ k = t := fun e => h e.symm
  simp [umap_assign, umap_find, this, umap_find_erase_ne k t m h]

theorem umap_find_erase_self {κ α : Type} [DecidableEq κ] (k : κ) (m : List (κ × α)) :
    umap_find k (umap_erase k m) = none := by
  induction m with
  | nil => rfl
  | cons e m ih =>
    obtain ⟨k1, v⟩ := e
    simp only [umap_erase, List.filter_cons, ne_eq, decide_not] at ih ⊢
    by_cases h1 : k1 = k
    · simp [h1, ih]
    · simp [h1, umap_find, ih]

theorem Perfetto.register_thread_strings (p : Perfetto) (tid pid : Nat) :
    (p.register_thread tid pid).2.strings = p.strings ∧
      (p.register_thread tid pid).2.rstrings = p.rstrings ∧
      (p.register_thread tid pid).2.string_index = p.string_index := by
  unfold Perfetto.register_thread
  cases umap_find tid p.threads <;> simp [Perfetto.emit_header]

theorem Perfetto.register_string_found (p : Perfetto) (str : String) (idx : Nat)
    (h : umap_find str p.strings = some idx) :
    p.register_string str = (idx % 65536, p) := by
  simp [Perfetto.register_string, h]

theorem Perfetto.register_string_fresh (p : Perfetto) (str : String)
    (h : umap_find str p.strings = none) :
    (p.register_string str).1 = p.string_index ∧
      (p.register_string str).2.strings =
        umap_assign str p.string_index
          (match umap_find p.string_index p.rstrings with
            | some old => umap_erase old p.strings
            | none => p.strings) ∧
      (p.register_string str).2.rstrings = umap_assign p.string_index str p.rstrings ∧
      (p.register_string str).2.string_index =
        (if (p.string_index + 1) % 65536 = 32768 then 1 else (p.string_index + 1) % 65536) := by
  simp only [Perfetto.register_string, h, Perfetto.emit_header]
  refine ⟨?_, ?_, ?_, ?_⟩ <;> trivial

theorem Perfetto.Holds.congr {p q : Perfetto} {L : List String} (h : p.Holds L)
    (h1 : q.strings = p.strings) (h2 : q.rstrings = p.rstrings)
    (h3 : q.string_index = p.string_index) : q.Holds L :=
  ⟨h.nodup, h.len, by rw [h1]; exact h.found, by rw [h1]; exact h.missing,
    by rw [h2]; exact h.rfound, by rw [h2]; exact h.rmissing, by rw [h3]; exact h.index⟩

theorem Perfetto.Holds.new : Perfetto.new.Holds [] :=
  ⟨List.nodup_nil, by simp, by simp, fun _ _ => rfl, by simp, fun _ _ => rfl, rfl⟩

theorem Perfetto.Holds.register {p : Perfetto} {L : List String} (h : p.Holds L) (s : String)
    (hlen : (registered L s).length ≤ 32767) :
    (p.register_string s).2.Holds (registered L s) ∧
      ∃ i, (registered L s)[i]? = some s ∧ (p.register_string s).1 = i + 1 := by
  by_cases hs : s ∈ L
  · obtain ⟨i, hi⟩ := List.getElem?_of_mem hs
    have hf := h.found i s hi
    have hil : i < L.length := (List.getElem?_eq_some_iff.mp hi).1
    have hmod : (i + 1) % 65536 = i + 1 := Nat.mod_eq_of_lt (by have := h.len; omega)
    rw [Perfetto.register_string_found p s _ hf, hmod]
    simp only [registered, hs, if_true]
    exact ⟨h, i, hi, rfl⟩
  · have hnone := h.missing s hs
    obtain ⟨e1, e2, e3, e4⟩ := Perfetto.register_string_fresh p s hnone
    simp only [registered, hs, if_false, List.length_append, List.length_singleton] at hlen ⊢
    have hidx : p.string_index = L.length + 1 := by
      rw [h.index, if_neg (by omega)]
    have hrn : umap_find p.string_index p.rstrings = none := h.rmissing _ (by omega)
    rw [hrn] at e2
    simp only at e2
    refine ⟨⟨?_, ?_, ?_, ?_, ?_, ?_, ?_⟩, L.length, ?_, ?_⟩
    · exact List.Nodup.append h.nodup (List.nodup_singleton s)
        (by simpa [List.disjoint_singleton] using hs)
    · simpa using hlen
    · intro i t hit
      rw [e2]
      by_cases hil : i < L.length
      · rw [List.getElem?_append_left hil] at hit
        have hts : t ≠ s := fun e => hs (e ▸ (mem_of_getElem?_eq hit).1)
        rw [umap_find_assign_ne _ _ _ _ hts]
        exact h.found i t hit
      · rw [List.getElem?_append_right (by omega)] at hit
        have hi0 : i - L.length = 0 := by
          by_contra hne
          rw [List.getElem?_eq_none (by simp; omega)] at hit
          exact Option.noConfusion hit
        rw [hi0] at hit
        simp only [List.getElem?_cons_zero, Option.some.injEq] at hit
        subst hit
        rw [umap_find_assign_self, hidx]
        congr 1
        omega
    · intro t ht
      rw [e2]
      simp only [List.mem_append, List.mem_singleton, not_or] at ht
      rw [umap_find_assign_ne _ _ _ _ ht.2]
      exact h.missing t ht.1
    · intro i t hit
      rw [e3]
      by_cases hil : i < L.length
      · rw [List.getElem?_append_left hil] at hit
        rw [umap_find_assign_ne _ _ _ _ (by omega)]
        exact h.rfound i t hit
      · rw [List.getElem?_append_right (by omega)] at hit
        have hi0 : i - L.length = 0 := by
          by_contra hne
          rw [List.getElem?_eq_none (by simp; omega)] at hit
          exact Option.noConfusion hit
        rw [hi0] at hit
        simp only [List.getElem?_cons_zero, Option.some.injEq] at hit
        subst hit
        have : i + 1 = p.string_index := by omega
        rw [this, umap_find_assign_self]
    · intro idx hidx1
      rw [e3]
      simp only [List.length_append, List.length_singleton] at hidx1
      rw [umap_find_assign_ne _ _ _ _ (by omega)]
      exact h.rmissing idx (by omega)
    · rw [e4, hidx]
      simp only [List.length_append, List.length_singleton]
      have hm : (L.length + 1 + 1) % 65536 = L.length + 2 := Nat.mod_eq_of_lt (by omega)
      rw [hm]
      by_cases h7 : L.length + 1 = 32767
      · rw [if_pos (by omega), if_pos h7]
      · rw [if_neg (by omega), if_neg h7]
    · simp
    · rw [e1, hidx]


theorem registered_length_le (L : List String) (s : String) :
    L.length ≤ (registered L s).length := by
  unfold registered
  split <;> simp

theorem registered_getElem? {L : List String} {i : Nat} {t : String} (s : String)
    (h : L[i]? = some t) : (registered L s)[i]? = some t := by
  unfold registered
  split
  · exact h
  · rw [List.getElem?_append_left (mem_of_getElem?_eq h).2]
    exact h

theorem Perfetto.Holds.event {p : Perfetto} {L : List String} (h : p.Holds L)
    (tid pid : Nat) (cat s : String)
    (hlen : (registered (registered L cat) s).length ≤ 32767) :
    (p.event_indices tid pid cat s).2.2.Holds (registered (registered L cat) s) ∧
      (p.event_indices tid pid cat s).2.2.registry (p.event_indices tid pid cat s).1 =
        some cat ∧
      (p.event_indices tid pid cat s).2.2.registry (p.event_indices tid pid cat s).2.1 =
        some s := by
  obtain ⟨t1, t2, t3⟩ := Perfetto.register_thread_strings p tid pid
  have h1 : (p.register_thread tid pid).2.Holds L := h.congr t1 t2 t3
  obtain ⟨h2, i, hi, hci⟩ := h1.register cat
    (le_trans (registered_length_le _ s) hlen)
  obtain ⟨h3, j, hj, hsj⟩ := h2.register s hlen
  refine ⟨h3, ?_, ?_⟩
  · simp only [Perfetto.event_indices, Perfetto.registry]
    rw [hci]
    exact h3.rfound i cat (registered_getElem? s hi)
  · simp only [Perfetto.event_indices, Perfetto.registry]
    rw [hsj]
    exact h3.rfound j s hj

theorem Perfetto.emit_function_registry (p : Perfetto) (tid pid : Nat) (name : String)
    (time : Nat) (t : EventType) (end_ : Nat) :
    (p.emit_function tid pid name time t end_).strings =
        (p.event_indices tid pid "Function Call" name).2.2.strings ∧
      (p.emit_function tid pid name time t end_).rstrings =
        (p.event_indices tid pid "Function Call" name).2.2.rstrings ∧
      (p.emit_function tid pid name time t end_).string_index =
        (p.event_indices tid pid "Function Call" name).2.2.string_index := by
  unfold Perfetto.emit_function
  by_cases ht : t = EventType.COMPLETE
  · simp only [ht, if_true]
    exact ⟨rfl, rfl, rfl⟩
  · simp only [ht, if_false]
    exact ⟨rfl, rfl, rfl⟩

theorem registered_foldl_length_le (cat : String) (cs : List EmitCall) (L : List String) :
    L.length ≤
      (cs.foldl (fun L c => registered (registered L cat) c.name) L).length := by
  induction cs generalizing L with
  | nil => exact le_refl _
  | cons c cs ih =>
    exact le_trans (le_trans (registered_length_le L cat) (registered_length_le _ c.name))
      (ih _)

theorem Perfetto.Holds.emit_all (cs : List EmitCall) {p : Perfetto} {L : List String}
    (h : p.Holds L)
    (hlen : (cs.foldl (fun L c => registered (registered L "Function Call") c.name) L).length ≤
      32767) :
    (p.emit_all cs).Holds
      (cs.foldl (fun L c => registered (registered L "Function Call") c.name) L) := by
  induction cs generalizing p L with
  | nil => exact h
  | cons c cs ih =>
    have hl1 := le_trans (registered_foldl_length_le "Function Call" cs _) hlen
    obtain ⟨h3, _, _⟩ := h.event c.tid c.pid "Function Call" c.name hl1
    obtain ⟨e1, e2, e3⟩ := Perfetto.emit_function_registry p c.tid c.pid c.name c.time c.t c.end_
    exact ih (h3.congr e1 e2 e3) hlen

theorem Perfetto.events_valid (cs : List EmitCall) (c : EmitCall)
    (hlen : ((cs ++ [c]).foldl (fun L c => registered (registered L "Function Call") c.name)
      []).length ≤ 32767) :
    ((Perfetto.new.emit_magic.emit_all cs).event_indices c.tid c.pid "Function Call"
        c.name).2.2.registry
          ((Perfetto.new.emit_magic.emit_all cs).event_indices c.tid c.pid "Function Call"
            c.name).1 = some "Function Call" ∧
      ((Perfetto.new.emit_magic.emit_all cs).event_indices c.tid c.pid "Function Call"
        c.name).2.2.registry
          ((Perfetto.new.emit_magic.emit_all cs).event_indices c.tid c.pid "Function Call"
            c.name).2.1 = some c.name := by
  rw [List.foldl_append] at hlen
  simp only [List.foldl_cons, List.foldl_nil] at hlen
  have h0 : Perfetto.new.emit_magic.Holds [] := Perfetto.Holds.new.congr rfl rfl rfl
  have h1 := Perfetto.Holds.emit_all cs h0
    (le_trans (le_trans (registered_length_le _ _) (registered_length_le _ c.name)) hlen)
  exact (h1.event c.tid c.pid "Function Call" c.name hlen).2

theorem registered_run (cat : String) (N : List String) (L : List String) (hc : cat ∈ L)
    (hnd : (L ++ N).Nodup) :
    N.foldl (fun L s => registered (registered L cat) s) L = L ++ N := by
  induction N generalizing L with
  | nil => simp
  | cons n N ih =>
    have hn : n ∉ L := by
      intro hm
      have := List.nodup_append.mp hnd
      exact this.2.2 hm (List.mem_cons_self _ _)
    have e1 : registered (registered L cat) n = L ++ [n] := by
      simp [registered, hc, hn]
    rw [List.foldl_cons, e1, ih (L ++ [n]) (List.mem_append_left _ hc) (by simpa using hnd)]
    simp

theorem registered_run_new (cat : String) (N : List String) (hne : N ≠ [])
    (hnd : (cat :: N).Nodup) :
    N.foldl (fun L s => registered (registered L cat) s) [] = cat :: N := by
  cases N with
  | nil => exact absurd rfl hne
  | cons n N =>
    have hn : n ≠ cat := by
      intro e
      subst e
      exact (List.nodup_cons.mp hnd).1 (List.mem_cons_self _ _)
    have e1 : registered (registered [] cat) n = [cat, n] := by
      simp [registered, hn]
    rw [List.foldl_cons, e1, registered_run cat N [cat, n] (List.mem_cons_self _ _)
      (by simpa using hnd)]
    simp

theorem wrap_names_length : wrap_names.length = 32766 := by
  simp [wrap_names]

theorem wrap_names_mem {s : String} (h : s ∈ wrap_names) :
    ∃ i, s = String.mk (List.replicate (i + 1) (Char.ofNat 97)) := by
  simp only [wrap_names, List.mem_map] at h
  obtain ⟨i, _, hi⟩ := h
  exact ⟨i, hi.symm⟩

theorem wrap_names_nodup : wrap_names.Nodup := by
  unfold wrap_names
  refine List.Nodup.map ?_ (List.nodup_range _)
  intro i j hij
  have h1 := congrArg String.data hij
  have h2 := congrArg List.length h1
  simpa using h2

theorem not_mem_wrap_names (s : String) (c : Char) (rest : List Char)
    (hs : s.data = c :: rest) (hc : c ≠ Char.ofNat 97) : s ∉ wrap_names := by
  intro h
  obtain ⟨i, hi⟩ := wrap_names_mem h
  rw [hi] at hs
  simp only [List.replicate_succ, List.cons.injEq] at hs
  exact hc hs.1.symm

theorem sink_wrapped_holds : sink_wrapped.Holds ("Function Call" :: wrap_names) := by
  have hcat : "Function Call" ∉ wrap_names :=
    not_mem_wrap_names _ (Char.ofNat 70) "unction Call".data rfl (by decide)
  have hne : wrap_names ≠ [] := by
    intro e
    have := wrap_names_length
    rw [e] at this
    exact absurd this (by decide)
  have hrun := registered_run_new "Function Call" wrap_names hne
    (List.nodup_cons.mpr ⟨hcat, wrap_names_nodup⟩)
  have h0 : Perfetto.new.emit_magic.Holds [] := Perfetto.Holds.new.congr rfl rfl rfl
  have hfold : (wrap_names.map (fun s => (⟨42, 42, s, 0, EventType.BEGIN, 0⟩ : EmitCall))).foldl
      (fun L c => registered (registered L "Function Call") c.name) [] =
      "Function Call" :: wrap_names := by
    rw [List.foldl_map]
    exact hrun
  have := Perfetto.Holds.emit_all
    (wrap_names.map (fun s => (⟨42, 42, s, 0, EventType.BEGIN, 0⟩ : EmitCall))) h0
    (by rw [hfold, List.length_cons, wrap_names_length])
  rw [hfold] at this
  exact this

theorem Perfetto.Holds.evicts {p : Perfetto} {L : List String} (h : p.Holds L)
    (tid pid : Nat) (cat s : String) (hfull : L.length = 32767)
    (hcat : L[0]? = some cat) (hs : s ∉ L) :
    p.string_index = 1 ∧ p.registry 1 = some cat ∧
      (p.event_indices tid pid cat s).1 = 1 ∧ (p.event_indices tid pid cat s).2.1 = 1 ∧
      (p.event_indices tid pid cat s).2.2.registry 1 = some s := by
  obtain ⟨t1, t2, t3⟩ := Perfetto.register_thread_strings p tid pid
  have h1 : (p.register_thread tid pid).2.Holds L := h.congr t1 t2 t3
  have hidx : (p.register_thread tid pid).2.string_index = 1 := by
    rw [h1.index, if_pos hfull]
  have hf := h1.found 0 cat hcat
  have e2 := Perfetto.register_string_found _ cat _ hf
  have hnone := h1.missing s hs
  obtain ⟨e3, _, e5, _⟩ := Perfetto.register_string_fresh _ s hnone
  refine ⟨by rw [h.index, if_pos hfull], h.rfound 0 cat hcat, ?_, ?_, ?_⟩
  · simp only [Perfetto.event_indices, e2]
  · simp only [Perfetto.event_indices, e2, e3, hidx]
  · simp only [Perfetto.event_indices, Perfetto.registry, e2, e5, hidx]
    exact umap_find_assign_self 1 s _

/-- C34, on the code.  A sink made new writes `emit_magic` and then a BEGIN
event for each of 32766 different function names: `Function Call` gets the
string index 1, the names get the indices 2 to 32767, and `string_index` wraps
to 1.  The next event, for the new name `g`, finds `Function Call` at index 1
and then registers `g` at `string_index`, which is 1: the string record of `g`
replaces the one of `Function Call`.  When the header of that event is written
its category index and its name index are both 1, and the registry maps 1 to
`g`, not to `Function Call`. -/
theorem Perfetto.category_evicted_at_wrap :
    wrap_names.length = 32766 ∧ sink_wrapped.string_index = 1 ∧
      sink_wrapped.registry 1 = some "Function Call" ∧
      (sink_wrapped.event_indices 42 42 "Function Call" "g").1 = 1 ∧
      (sink_wrapped.event_indices 42 42 "Function Call" "g").2.1 = 1 ∧
      (sink_wrapped.event_indices 42 42 "Function Call" "g").2.2.registry 1 = some "g" ∧
      (sink_wrapped.event_indices 42 42 "Function Call" "g").2.2.registry 1 ≠
        some "Function Call" := by
  have hg : "g" ∉ "Function Call" :: wrap_names := by
    rw [List.mem_cons, not_or]
    exact ⟨by decide, not_mem_wrap_names _ (Char.ofNat 103) [] rfl (by decide)⟩
  obtain ⟨a, b, c, d, e⟩ := sink_wrapped_holds.evicts 42 42 "Function Call" "g"
    (by rw [List.length_cons, wrap_names_length]) List.getElem?_cons_zero hg
  refine ⟨wrap_names_length, a, b, c, d, e, ?_⟩
  rw [e]
  decide

/-! ## MergeWrapper: nothing is lost -/

theorem Interleaved.sublist {N : Nat} {r : Nat → List Action} {out : List Action}
    (h : Interleaved N r out) : ∀ i, i < N → (r i).Sublist out := by
  induction h with
  | nil h0 =>
    intro i hi
    rw [h0 i hi]
  | cons j a t hj hr _ ih =>
    intro i hi
    by_cases hij : i = j
    · subst hij
      rw [hr]
      have := ih i hi
      rw [Function.update_same] at this
      exact List.Sublist.cons₂ a this
    · have := ih i hi
      rw [Function.update_noteq hij] at this
      exact List.Sublist.cons a this

theorem flatten_range_update (N : Nat) (r : Nat → List Action) (i : Nat) (a : Action)
    (t : List Action) (hi : i < N) (hr : r i = a :: t) :
    (((List.range N).map r).flatten).Perm
      (a :: ((List.range N).map (Function.update r i t)).flatten) := by
  induction N with
  | zero => exact absurd hi (Nat.not_lt_zero _)
  | succ N ih =>
    rw [List.range_succ, List.map_append, List.map_append, List.flatten_append,
      List.flatten_append]
    simp only [List.map_cons, List.map_nil, List.flatten_cons, List.flatten_nil,
      List.append_nil]
    by_cases hiN : i = N
    · subst hiN
      have hsame : (List.range i).map (Function.update r i t) = (List.range i).map r := by
        apply List.map_congr_left
        intro j hj
        exact Function.update_noteq (Nat.ne_of_lt (List.mem_range.mp hj)) _ _
      rw [hsame, Function.update_same, hr]
      exact List.perm_middle
    · have hlt : i < N := by omega
      have hN : Function.update r i t N = r N := Function.update_noteq (Ne.symm hiN) _ _
      rw [hN]
      have := (ih hlt).append_right (r N)
      simpa using this

theorem Interleaved.perm {N : Nat} {r : Nat → List Action} {out : List Action}
    (h : Interleaved N r out) : out.Perm ((List.range N).map r).flatten := by
  induction h with
  | nil h0 =>
    rename_i r0
    have : ((List.range N).map r0).flatten = [] := by
      rw [List.flatten_eq_nil_iff]
      intro l hl
      obtain ⟨i, hi, rfl⟩ := List.mem_map.mp hl
      exact h0 i (List.mem_range.mp hi)
    rw [this]
  | cons j a t hj hr _ ih =>
    exact (List.Perm.cons a ih).trans (flatten_range_update N _ j a t hj hr).symm

theorem Interleaved.chunk {N : Nat} (c : List Action) {r : Nat → List Action} {i : Nat}
    {t out : List Action} (hi : i < N) (hr : r i = c ++ t)
    (h : Interleaved N (Function.update r i t) out) : Interleaved N r (c ++ out) := by
  induction c generalizing r with
  | nil =>
    have : Function.update r i t = r := by
      rw [List.nil_append] at hr
      rw [← hr]
      exact Function.update_eq_self i r
    rw [this] at h
    exact h
  | cons a c ih =>
    refine Interleaved.cons i a (c ++ t) hi hr ?_
    refine ih (Function.update_same _ _ _) ?_
    rw [Function.update_idem]
    exact h

theorem sum_length_update (N : Nat) (r : Nat → List Action) (i : Nat) (c t : List Action)
    (hi : i < N) (hr : r i = c ++ t) :
    ((List.range N).map (fun j => (Function.update r i t j).length)).sum + c.length =
      ((List.range N).map (fun j => (r j).length)).sum := by
  induction N with
  | zero => exact absurd hi (Nat.not_lt_zero _)
  | succ N ih =>
    rw [List.range_succ, List.map_append, List.map_append, List.sum_append, List.sum_append]
    simp only [List.map_cons, List.map_nil, List.sum_cons, List.sum_nil]
    by_cases hiN : i = N
    · subst hiN
      have hsame : (List.range i).map (fun j => (Function.update r i t j).length) =
          (List.range i).map (fun j => (r j).length) := by
        apply List.map_congr_left
        intro j hj
        rw [Function.update_noteq (Nat.ne_of_lt (List.mem_range.mp hj))]
      rw [hsame, Function.update_same, hr, List.length_append]
      omega
    · have hlt : i < N := by omega
      rw [Function.update_noteq (Ne.symm hiN)]
      have := ih hlt
      omega

theorem heap_split {h : List ActionWrapper} {k : Nat} {w : ActionWrapper}
    (hk : h[k]? = some w) : h = h.take k ++ w :: h.drop (k + 1) := by
  obtain ⟨hlt, rfl⟩ := List.getElem?_eq_some_iff.mp hk
  rw [← List.drop_eq_getElem_cons hlt, List.take_append_drop]

theorem filter_removed (p : ActionWrapper → Bool) {h : List ActionWrapper} {k : Nat}
    {w : ActionWrapper} (hk : h[k]? = some w) (hp : p w = false) :
    (h.take k ++ h.drop (k + 1)).filter p = h.filter p := by
  conv_rhs => rw [heap_split hk]
  simp [List.filter_append, List.filter_cons, hp]

theorem filter_single (p : ActionWrapper → Bool) {h : List ActionWrapper} {k : Nat}
    {w : ActionWrapper} (hk : h[k]? = some w) (hp : p w = true)
    (hn : ∀ v ∈ h.take k ++ h.drop (k + 1), p v = false) :
    h.filter p = [w] ∧ (h.take k ++ h.drop (k + 1)).filter p = [] := by
  have h2 : (h.take k ++ h.drop (k + 1)).filter p = [] := by
    rw [List.filter_eq_nil_iff]
    intro v hv
    rw [hn v hv]
    exact Bool.false_ne_true
  refine ⟨?_, h2⟩
  rw [List.filter_append, List.append_eq_nil] at h2
  conv_lhs => rw [heap_split hk]
  rw [List.filter_append, List.filter_cons, if_pos hp, h2.1, h2.2]
  rfl

theorem mem_removed {h : List ActionWrapper} {k : Nat} {w v : ActionWrapper}
    (hk : h[k]? = some w) (hv : v ∈ h) (hne : v ≠ w) : v ∈ h.take k ++ h.drop (k + 1) := by
  rw [heap_split hk] at hv
  rcases List.mem_append.mp hv with hv | hv
  · exact List.mem_append_left _ hv
  · rcases List.mem_cons.mp hv with hv | hv
    · exact absurd hv hne
    · exact List.mem_append_right _ hv

theorem Source.next_action_rest (s : Source) (hne : ∀ a ∈ s.pending, a.inst ≠ Inst.END) :
    (if s.next_action.1.inst ≠ Inst.END then [s.next_action.1] else []) ++
      s.next_action.2.pending = s.pending := by
  unfold Source.next_action
  cases hp : s.pending with
  | nil => simp [Action.new, hp]
  | cons b ps =>
    have hb : b.inst ≠ Inst.END := hne b (by rw [hp]; exact List.mem_cons_self _ _)
    simp [hb]

theorem MergeWrapper.Fed.empty {mw : MergeWrapper} {N : Nat} (hf : mw.Fed N)
    (he : mw.action_heap = []) : ∀ i, mw.rest i = [] := by
  intro i
  have := hf.drained i (fun w hw => by rw [he] at hw; exact nomatch hw)
  simp [MergeWrapper.rest, he, this]

theorem MergeWrapper.Fed.drop_end {mw : MergeWrapper} {N : Nat} (hf : mw.Fed N) {k : Nat}
    {act : ActionWrapper} (hk : mw.action_heap[k]? = some act) (hend : act.act.inst = Inst.END) :
    MergeWrapper.Fed
        { mw with action_heap := mw.action_heap.take k ++ mw.action_heap.drop (k + 1) } N ∧
      MergeWrapper.rest
        { mw with action_heap := mw.action_heap.take k ++ mw.action_heap.drop (k + 1) } =
        mw.rest := by
  refine ⟨⟨hf.multi, hf.block, fun w hw => hf.range w (mem_take_drop_wrapper hw), fun i => ?_,
    fun i hi => hf.drained i (fun w hw hwi => ?_), hf.pending⟩, ?_⟩
  · exact le_trans ((take_drop_sublist mw.action_heap k).filter _).length_le (hf.one i)
  · by_cases hwa : w = act
    · rw [hwa]; exact hend
    · exact hi w (mem_removed hk hw hwa) hwi
  · funext i
    unfold MergeWrapper.rest
    simp only
    rw [filter_removed _ hk (by simp [hend])]

theorem MergeWrapper.Fed.pop {mw : MergeWrapper} {N : Nat} (hf : mw.Fed N) {k : Nat}
    {act : ActionWrapper} (hk : mw.action_heap[k]? = some act)
    (hne : act.act.inst ≠ Inst.END) (extra : List ActionWrapper) (s1 : Source)
    (hex : ∀ w ∈ extra, w.tr = act.tr) (hlen : extra.length ≤ 1)
    (hdr : (∀ w ∈ extra, w.act.inst = Inst.END) → s1.pending = [])
    (hpe : ∀ a ∈ s1.pending, a.inst ≠ Inst.END) :
    act.tr < N ∧
      MergeWrapper.Fed
        { mw with
          block := []
          action_heap := (mw.action_heap.take k ++ mw.action_heap.drop (k + 1)) ++ extra
          readers := Function.update mw.readers act.tr s1 } N ∧
      mw.rest act.tr = act.act :: (mw.readers act.tr).pending ∧
      MergeWrapper.rest
        { mw with
          block := []
          action_heap := (mw.action_heap.take k ++ mw.action_heap.drop (k + 1)) ++ extra
          readers := Function.update mw.readers act.tr s1 } =
        Function.update mw.rest act.tr
          (((extra.filter (fun w => decide (w.act.inst ≠ Inst.END))).map ActionWrapper.act) ++
            s1.pending) := by
  have hmem : act ∈ mw.action_heap := (mem_of_getElem?_eq hk).1
  have hno := heap_no_other hk rfl (hf.one act.tr)
  have hiN : act.tr < N := hf.range act hmem
  refine ⟨hiN, ⟨hf.multi, rfl, ?_, ?_, ?_, ?_⟩, ?_, ?_⟩
  · intro w hw
    rcases List.mem_append.mp hw with hw | hw
    · exact hf.range w (mem_take_drop_wrapper hw)
    · rw [hex w hw]; exact hiN
  · intro j
    rw [List.filter_append (mw.action_heap.take k ++ mw.action_heap.drop (k + 1)) extra,
      List.length_append]
    by_cases hj : act.tr = j
    · subst hj
      rw [filter_none_length hno]
      have := (List.filter_sublist (p := fun w => decide (w.tr = act.tr)) extra).length_le
      omega
    · have : extra.filter (fun w => decide (w.tr = j)) = [] := by
        rw [List.filter_eq_nil_iff]
        intro w hw
        simp only [decide_eq_true_eq]
        rw [hex w hw]
        exact hj
      rw [this]
      exact le_trans ((take_drop_sublist mw.action_heap k).filter _).length_le (hf.one j)
  · intro j hj
    by_cases hij : j = act.tr
    · subst hij
      simp only [Function.update_same]
      exact hdr (fun w hw => hj w (List.mem_append_right _ hw) (hex w hw))
    · simp only [Function.update_noteq hij]
      refine hf.drained j (fun w hw hwj => ?_)
      have hwa : w ≠ act := fun e => hij (by rw [← hwj, e])
      exact hj w (List.mem_append_left _ (mem_removed hk hw hwa)) hwj
  · intro j a ha
    by_cases hij : j = act.tr
    · subst hij
      simp only [Function.update_same] at ha
      exact hpe a ha
    · simp only [Function.update_noteq hij] at ha
      exact hf.pending j a ha
  · unfold MergeWrapper.rest
    have hone := filter_single
      (fun w => decide (w.tr = act.tr) && decide (w.act.inst ≠ Inst.END)) hk (by simp [hne])
      (fun v hv => by simp [hno v hv])
    rw [hone.1]
    rfl
  · funext j
    unfold MergeWrapper.rest
    simp only
    rw [List.filter_append (mw.action_heap.take k ++ mw.action_heap.drop (k + 1)) extra,
      List.map_append]
    by_cases hij : j = act.tr
    · subst hij
      have hone := filter_single
        (fun w => decide (w.tr = act.tr) && decide (w.act.inst ≠ Inst.END)) hk (by simp [hne])
        (fun v hv => by simp [hno v hv])
      rw [hone.2, Function.update_same, Function.update_same]
      have : extra.filter (fun w => decide (w.tr = act.tr) && decide (w.act.inst ≠ Inst.END)) =
          extra.filter (fun w => decide (w.act.inst ≠ Inst.END)) := by
        apply List.filter_congr
        intro w hw
        simp [hex w hw]
      rw [this]
      rfl
    · rw [Function.update_noteq hij, Function.update_noteq hij]
      have hex0 : extra.filter (fun w => decide (w.tr = j) && decide (w.act.inst ≠ Inst.END)) =
          [] := by
        rw [List.filter_eq_nil_iff]
        intro w hw
        have : ¬ w.tr = j := by rw [hex w hw]; exact fun e => hij e.symm
        simp [this]
      have hnj : ¬ act.tr = j := fun e => hij e.symm
      rw [hex0, filter_removed _ hk (by simp [hnj])]
      simp

theorem length_removed {h : List ActionWrapper} {k : Nat} {w : ActionWrapper}
    (hk : h[k]? = some w) : (h.take k ++ h.drop (k + 1)).length + 1 = h.length := by
  have hlt := (mem_of_getElem?_eq hk).2
  simp only [List.length_append, List.length_take, List.length_drop]
  omega

theorem MergeWrapper.block_nil_eq (mw : MergeWrapper) (hb : mw.block = [])
    (X : List ActionWrapper) (Y : Nat → Source) :
    ({ mw with action_heap := X, readers := Y } : MergeWrapper) =
      { mw with block := [], action_heap := X, readers := Y } := by
  cases mw
  simp only at hb
  subst hb
  rfl

theorem MergeWrapper.next_action_loop_fed (pick : Nat → Nat) (n : Nat) (mw : MergeWrapper)
    (N : Nat) (hf : mw.Fed N) (hn : mw.action_heap.length ≤ n) :
    ((MergeWrapper.next_action_loop pick n mw).1.inst = Inst.END ∧ ∀ i, mw.rest i = []) ∨
      ((MergeWrapper.next_action_loop pick n mw).1.inst ≠ Inst.END ∧
        (MergeWrapper.next_action_loop pick n mw).2.Fed N ∧
        ∃ i t, i < N ∧ mw.rest i = (MergeWrapper.next_action_loop pick n mw).1 :: t ∧
          (MergeWrapper.next_action_loop pick n mw).2.rest = Function.update mw.rest i t) := by
  induction n generalizing mw with
  | zero =>
    have he : mw.action_heap = [] := List.length_eq_zero.mp (Nat.le_zero.mp hn)
    exact Or.inl ⟨rfl, hf.empty he⟩
  | succ n ih =>
    unfold MergeWrapper.next_action_loop
    cases hp : heap_pop (pick n) mw.action_heap with
    | none =>
      exact Or.inl ⟨rfl, hf.empty ((heap_pop_eq_none_iff _ _).mp hp)⟩
    | some pr =>
      obtain ⟨act, rest⟩ := pr
      obtain ⟨k, hk, hrest, _⟩ := heap_pop_spec hp
      subst hrest
      have hlen := length_removed hk
      by_cases hend : act.act.inst = Inst.END
      · simp only [hend, if_true]
        obtain ⟨hf1, hr1⟩ := hf.drop_end hk hend
        have := ih _ hf1 (by simp only; omega)
        rw [hr1] at this
        exact this
      · simp only [hend, if_false]
        have hpend := hf.pending act.tr
        obtain ⟨hiN, hfed, hri, hrest⟩ := hf.pop hk hend
          [⟨(mw.readers act.tr).next_action.1, act.tr⟩] (mw.readers act.tr).next_action.2
          (fun w hw => by rw [List.mem_singleton.mp hw])
          (by simp)
          (fun hall => by
            have h1 := hall _ (List.mem_singleton.mpr rfl)
            have h2 := Source.next_action_rest _ hpend
            simp only at h1
            rw [h1] at h2
            simp only [ne_eq, not_true_eq_false, if_false, List.nil_append] at h2
            cases hpp : (mw.readers act.tr).pending with
            | nil => rw [hpp] at h2; exact h2
            | cons b ps =>
              exfalso
              have hb := hpend b (by rw [hpp]; exact List.mem_cons_self _ _)
              have : (mw.readers act.tr).next_action.1 = b := by
                simp [Source.next_action, hpp]
              rw [this] at h1
              exact hb h1)
          (fun a ha => hpend a (Source.next_action_pending _ a ha))
        rw [MergeWrapper.block_nil_eq mw hf.block]
        refine Or.inr ⟨hend, hfed, act.tr, (mw.readers act.tr).pending, hiN, hri, ?_⟩
        rw [hrest]
        have h2 := Source.next_action_rest _ hpend
        rw [← h2]
        by_cases h1 : (mw.readers act.tr).next_action.1.inst = Inst.END
        · simp [List.filter_cons, h1]
        · simp [List.filter_cons, h1]

theorem MergeWrapper.actions_succ (pick : Nat → Nat → Nat) (n : Nat) (mw : MergeWrapper) :
    MergeWrapper.actions pick (n + 1) mw =
      if (mw.next_action (pick n)).1.inst = Inst.END then []
      else
        (mw.next_action (pick n)).1 ::
          MergeWrapper.actions pick n (mw.next_action (pick n)).2 := rfl

theorem MergeWrapper.actions_interleaved (pick : Nat → Nat → Nat) (N n : Nat)
    (mw : MergeWrapper) (hf : mw.Fed N)
    (hn : ((List.range N).map (fun j => (mw.rest j).length)).sum < n) :
    Interleaved N mw.rest (MergeWrapper.actions pick n mw) := by
  induction n generalizing mw with
  | zero => exact absurd hn (Nat.not_lt_zero _)
  | succ n ih =>
    have hstep : mw.next_action (pick n) =
        MergeWrapper.next_action_loop (pick n) mw.action_heap.length mw := by
      unfold MergeWrapper.next_action
      rw [hf.multi]
      rfl
    rw [MergeWrapper.actions_succ, hstep]
    rcases MergeWrapper.next_action_loop_fed (pick n) _ mw N hf (le_refl _) with
      ⟨hend, hall⟩ | ⟨hne, hfed, i, t, hi, hri, hrest⟩
    · rw [if_pos hend]
      exact Interleaved.nil (fun i _ => hall i)
    · rw [if_neg hne]
      refine Interleaved.cons i _ t hi hri ?_
      rw [← hrest]
      refine ih _ hfed ?_
      rw [hrest]
      have := sum_length_update N mw.rest i [_] t hi hri
      simp only [List.length_singleton] at this
      omega


theorem read_block_rest (tid : Nat) (junk next : Action) (pend : List Action)
    (hp : ∀ a ∈ pend, a.inst ≠ Inst.END) (hnext : next.inst = Inst.END → pend = []) :
    (if next.inst ≠ Inst.END then [next] else []) ++ pend =
        (read_block tid junk next pend).1 ++
          ((if (read_block tid junk next pend).2.1.inst ≠ Inst.END then
              [(read_block tid junk next pend).2.1] else []) ++
            (read_block tid junk next pend).2.2) ∧
      ((read_block tid junk next pend).2.1.inst = Inst.END →
        (read_block tid junk next pend).2.2 = []) := by
  induction pend generalizing next with
  | nil =>
    by_cases hc : next.inst ≠ Inst.END ∧ next.tid = tid
    · have e : read_block tid junk next [] = ([next], Action.new junk, []) := by
        simp only [read_block]; rw [if_pos hc]
      rw [e]
      simp [hc.1, Action.new]
    · rw [read_block_of_not tid junk next [] hc]
      simp
  | cons a rest ih =>
    have ha : a.inst ≠ Inst.END := hp a (List.mem_cons_self _ _)
    have hn : next.inst ≠ Inst.END := fun e => nomatch hnext e
    by_cases hc : next.inst ≠ Inst.END ∧ next.tid = tid
    · obtain ⟨h1, h2⟩ := ih a (fun b hb => hp b (List.mem_cons_of_mem _ hb))
        (fun e => absurd e ha)
      have e : read_block tid junk next (a :: rest) =
          (next :: (read_block tid junk a rest).1, (read_block tid junk a rest).2.1,
            (read_block tid junk a rest).2.2) := by
        simp only [read_block]; rw [if_pos hc]
      rw [e]
      refine ⟨?_, h2⟩
      rw [if_pos ha] at h1
      rw [if_pos hn]
      simp only [List.singleton_append, List.cons_append, List.nil_append] at h1 ⊢
      rw [h1]
    · rw [read_block_of_not tid junk next (a :: rest) hc]
      simp [hn]

theorem Source.read_block_split (s : Source) (tid : Nat)
    (hp : ∀ a ∈ s.pending, a.inst ≠ Inst.END) :
    s.pending =
        (read_block tid s.junk s.next_action.1 s.next_action.2.pending).1 ++
          ((if (read_block tid s.junk s.next_action.1 s.next_action.2.pending).2.1.inst ≠
              Inst.END then
              [(read_block tid s.junk s.next_action.1 s.next_action.2.pending).2.1] else []) ++
            (read_block tid s.junk s.next_action.1 s.next_action.2.pending).2.2) ∧
      ((read_block tid s.junk s.next_action.1 s.next_action.2.pending).2.1.inst = Inst.END →
        (read_block tid s.junk s.next_action.1 s.next_action.2.pending).2.2 = []) := by
  have h0 := Source.next_action_rest s hp
  have hnx : s.next_action.1.inst = Inst.END → s.next_action.2.pending = [] := by
    intro e
    cases hpp : s.pending with
    | nil => simp [Source.next_action, hpp]
    | cons b ps =>
      exfalso
      have hb := hp b (by rw [hpp]; exact List.mem_cons_self _ _)
      have : s.next_action.1 = b := by simp [Source.next_action, hpp]
      rw [this] at e
      exact hb e
  obtain ⟨h1, h2⟩ := PtFlame.read_block_rest tid s.junk s.next_action.1 s.next_action.2.pending
    (fun a ha => hp a (Source.next_action_pending s a ha)) hnx
  rw [h0] at h1
  exact ⟨h1, h2⟩

theorem MergeWrapper.next_action_by_block_loop_fed (pick : Nat → Nat) (n : Nat)
    (mw : MergeWrapper) (N : Nat) (hf : mw.Fed N) (hn : mw.action_heap.length ≤ n) :
    ((MergeWrapper.next_action_by_block_loop pick n mw).1.inst = Inst.END ∧
        ∀ i, mw.rest i = []) ∨
      ((MergeWrapper.next_action_by_block_loop pick n mw).1.inst ≠ Inst.END ∧
        (∀ a ∈ (MergeWrapper.next_action_by_block_loop pick n mw).2.block,
          a.inst ≠ Inst.END) ∧
        (MergeWrapper.next_action_by_block_loop pick n mw).2.single_source = false ∧
        MergeWrapper.Fed
          { (MergeWrapper.next_action_by_block_loop pick n mw).2 with block := [] } N ∧
        ∃ i t, i < N ∧
          mw.rest i = (MergeWrapper.next_action_by_block_loop pick n mw).1 ::
            ((MergeWrapper.next_action_by_block_loop pick n mw).2.block ++ t) ∧
          MergeWrapper.rest
              { (MergeWrapper.next_action_by_block_loop pick n mw).2 with block := [] } =
            Function.update mw.rest i t) := by
  induction n generalizing mw with
  | zero =>
    have he : mw.action_heap = [] := List.length_eq_zero.mp (Nat.le_zero.mp hn)
    exact Or.inl ⟨rfl, hf.empty he⟩
  | succ n ih =>
    unfold MergeWrapper.next_action_by_block_loop
    cases hp : heap_pop (pick n) mw.action_heap with
    | none =>
      exact Or.inl ⟨rfl, hf.empty ((heap_pop_eq_none_iff _ _).mp hp)⟩
    | some pr =>
      obtain ⟨act, rest⟩ := pr
      obtain ⟨k, hk, hrest, _⟩ := heap_pop_spec hp
      subst hrest
      have hlen := length_removed hk
      by_cases hend : act.act.inst = Inst.END
      · simp only [hend, if_true]
        obtain ⟨hf1, hr1⟩ := hf.drop_end hk hend
        have := ih _ hf1 (by simp only; omega)
        rw [hr1] at this
        exact this
      · simp only [hend, if_false]
        have hpend := hf.pending act.tr
        obtain ⟨hsplit, hdone⟩ := Source.read_block_split (mw.readers act.tr) act.act.tid hpend
        generalize hr : read_block act.act.tid (mw.readers act.tr).junk
          (mw.readers act.tr).next_action.1 (mw.readers act.tr).next_action.2.pending = r
          at hsplit hdone ⊢
        have hsub : ∀ a ∈ r.1 ++ ((if r.2.1.inst ≠ Inst.END then [r.2.1] else []) ++ r.2.2),
            a.inst ≠ Inst.END := by
          intro a ha
          rw [← hsplit] at ha
          exact hpend a ha
        obtain ⟨hiN, hfed, hri, hrest⟩ := hf.pop hk hend
          (if r.2.1.inst ≠ Inst.END then [⟨r.2.1, act.tr⟩] else [])
          { mw.readers act.tr with pending := r.2.2 }
          (fun w hw => by
            split at hw
            · rw [List.mem_singleton.mp hw]
            · exact nomatch hw)
          (by split <;> simp)
          (fun hall => by
            by_cases h1 : r.2.1.inst = Inst.END
            · exact hdone h1
            · exfalso
              have := hall ⟨r.2.1, act.tr⟩ (by rw [if_pos h1]; exact List.mem_singleton.mpr rfl)
              exact h1 this)
          (fun a ha => hsub a
            (List.mem_append_right _ (List.mem_append_right _ ha)))
        have hstate : ({ ({ mw with
              block := mw.block ++ r.1
              action_heap :=
                if r.2.1.inst ≠ Inst.END then
                  (mw.action_heap.take k ++ mw.action_heap.drop (k + 1)) ++ [⟨r.2.1, act.tr⟩]
                else mw.action_heap.take k ++ mw.action_heap.drop (k + 1)
              readers := Function.update mw.readers act.tr
                { mw.readers act.tr with pending := r.2.2 } } : MergeWrapper) with
              block := [] } : MergeWrapper) =
            { mw with
              block := []
              action_heap := (mw.action_heap.take k ++ mw.action_heap.drop (k + 1)) ++
                (if r.2.1.inst ≠ Inst.END then [⟨r.2.1, act.tr⟩] else [])
              readers := Function.update mw.readers act.tr
                { mw.readers act.tr with pending := r.2.2 } } := by
          by_cases h1 : r.2.1.inst = Inst.END
          · simp [h1]
          · simp [h1]
        refine Or.inr ⟨hend, ?_, hf.multi, ?_, act.tr,
          (if r.2.1.inst ≠ Inst.END then [r.2.1] else []) ++ r.2.2, hiN, ?_, ?_⟩
        · intro a ha
          simp only [hf.block, List.nil_append] at ha
          exact hsub a (List.mem_append_left _ ha)
        · rw [hstate]
          exact hfed
        · rw [hri, hsplit]
          simp only [hf.block, List.nil_append]
        · rw [hstate, hrest]
          by_cases h1 : r.2.1.inst = Inst.END
          · simp [h1]
          · simp [h1, List.filter_cons]

theorem MergeWrapper.actions_by_block_interleaved (pick : Nat → Nat → Nat) (N n : Nat)
    (mw : MergeWrapper) (hf : mw.Fed N)
    (hn : ((List.range N).map (fun j => (mw.rest j).length)).sum < n) :
    Interleaved N mw.rest (MergeWrapper.actions_by_block pick n mw) := by
  induction n using Nat.strong_induction_on generalizing mw with
  | _ n ih =>
    cases n with
    | zero => exact absurd hn (Nat.not_lt_zero _)
    | succ m =>
      have hstep : mw.next_action_by_block (pick m) =
          MergeWrapper.next_action_by_block_loop (pick m) mw.action_heap.length mw := by
        unfold MergeWrapper.next_action_by_block
        rw [hf.multi, hf.block]
        rfl
      rw [MergeWrapper.actions_by_block_succ, hstep]
      rcases MergeWrapper.next_action_by_block_loop_fed (pick m) _ mw N hf (le_refl _) with
        ⟨hend, hall⟩ | ⟨hne, hB, hmulti, hfed, i, t, hi, hri, hrest⟩
      · rw [if_pos hend]
        exact Interleaved.nil (fun i _ => hall i)
      · rw [if_neg hne]
        generalize MergeWrapper.next_action_by_block_loop (pick m) mw.action_heap.length mw = res
          at hne hB hmulti hfed hri hrest ⊢
        have hsum := sum_length_update N mw.rest i (res.1 :: res.2.block) t hi hri
        simp only [List.length_cons] at hsum
        obtain ⟨m1, hm1⟩ : ∃ m1, m = res.2.block.length + m1 :=
          ⟨m - res.2.block.length, by omega⟩
        rw [hm1, MergeWrapper.actions_by_block_of_block pick res.2.block m1 res.2 hmulti rfl hB]
        refine Interleaved.chunk (res.1 :: res.2.block) hi hri ?_
        rw [← hrest]
        refine ih m1 (by omega) _ hfed ?_
        rw [hrest]
        omega

theorem Source.next_action_end (s : Source) (hp : ∀ a ∈ s.pending, a.inst ≠ Inst.END)
    (he : s.next_action.1.inst = Inst.END) : s.next_action.2.pending = [] := by
  cases hpp : s.pending with
  | nil => simp [Source.next_action, hpp]
  | cons b ps =>
    exfalso
    have hb := hp b (by rw [hpp]; exact List.mem_cons_self _ _)
    have : s.next_action.1 = b := by simp [Source.next_action, hpp]
    rw [this] at he
    exact hb he

theorem range_filter_eq (N i : Nat) (p : Nat → Bool) :
    (List.range N).filter (fun j => decide (j = i) && p j) =
      if i < N ∧ p i = true then [i] else [] := by
  induction N with
  | zero => simp
  | succ N ih =>
    rw [List.range_succ, List.filter_append, ih]
    by_cases hiN : i = N
    · subst hiN
      by_cases hp : p i = true
      · simp [List.filter_cons, hp]
      · simp [List.filter_cons, hp]
    · have hNi : ¬ N = i := fun e => hiN e.symm
      by_cases hlt : i < N
      · have : i < N + 1 := by omega
        simp [List.filter_cons, hNi, hlt, this]
      · have : ¬ i < N + 1 := by omega
        simp [List.filter_cons, hNi, hlt, this]

theorem MergeWrapper.new_fed (srcs : List Source) (junk : Action) (h1 : srcs.length ≠ 1)
    (hne : ∀ s ∈ srcs, ∀ a ∈ s.pending, a.inst ≠ Inst.END) :
    (MergeWrapper.new srcs junk).Fed srcs.length ∧
      (MergeWrapper.new srcs junk).rest = fun i => (srcs.getD i ⟨[], junk⟩).pending := by
  have hall : ∀ i, ∀ a ∈ (srcs.getD i ⟨[], junk⟩).pending, a.inst ≠ Inst.END := by
    intro i a ha
    rw [List.getD_eq_getElem?_getD] at ha
    cases h : srcs[i]? with
    | none => rw [h] at ha; exact nomatch ha
    | some s =>
      rw [h] at ha
      exact hne s (mem_of_getElem?_eq h).1 a ha
  unfold MergeWrapper.new
  simp only [if_neg h1]
  refine ⟨⟨rfl, rfl, ?_, ?_, ?_, ?_⟩, ?_⟩
  · intro w hw
    simp only [List.mem_map, List.mem_range] at hw
    obtain ⟨j, hj, rfl⟩ := hw
    exact hj
  · intro i
    dsimp only
    rw [List.filter_map, List.length_map]
    exact range_filter_eq_length _ i
  · intro i hi
    dsimp only at hi ⊢
    by_cases hlt : i < srcs.length
    · refine Source.next_action_end _ (hall i) ?_
      exact hi ⟨_, i⟩ (List.mem_map.mpr ⟨i, List.mem_range.mpr hlt, rfl⟩) rfl
    · have : srcs.getD i ⟨[], junk⟩ = ⟨[], junk⟩ := by
        rw [List.getD_eq_getElem?_getD, List.getElem?_eq_none (by omega)]
        rfl
      rw [this]
      rfl
  · intro i a ha
    exact hall i a (Source.next_action_pending _ a ha)
  · funext i
    unfold MergeWrapper.rest
    dsimp only
    rw [List.filter_map]
    have hf : ((fun w : ActionWrapper => decide (w.tr = i) && decide (w.act.inst ≠ Inst.END)) ∘
        fun j => (⟨(srcs.getD j ⟨[], junk⟩).next_action.1, j⟩ : ActionWrapper)) =
        fun j => decide (j = i) &&
          decide ((srcs.getD j ⟨[], junk⟩).next_action.1.inst ≠ Inst.END) := rfl
    rw [hf, range_filter_eq]
    have hrest := Source.next_action_rest _ (hall i)
    by_cases hlt : i < srcs.length
    · by_cases hend : (srcs.getD i ⟨[], junk⟩).next_action.1.inst = Inst.END
      · rw [if_neg (fun h => (of_decide_eq_true h.2) hend)]
        rw [if_neg (not_not.mpr hend)] at hrest
        exact hrest
      · rw [if_pos ⟨hlt, decide_eq_true hend⟩]
        rw [if_pos hend] at hrest
        exact hrest
    · have : srcs.getD i ⟨[], junk⟩ = ⟨[], junk⟩ := by
        rw [List.getD_eq_getElem?_getD, List.getElem?_eq_none (by omega)]
        rfl
      rw [this]
      simp [hlt, Source.next_action]

theorem range_map_getD (srcs : List Source) (d : Source) :
    (List.range srcs.length).map (fun i => (srcs.getD i d).pending) =
      srcs.map Source.pending := by
  apply List.ext_getElem
  · simp
  · intro i h1 h2
    simp only [List.length_map, List.length_range] at h1
    simp [List.getD_eq_getElem?_getD, List.getElem?_eq_getElem h1]

theorem Interleaved.of_sources {srcs : List Source} {d : Source} {out : List Action}
    (h : Interleaved srcs.length (fun i => (srcs.getD i d).pending) out) :
    out.Perm (srcs.map Source.pending).flatten ∧ (∀ s ∈ srcs, s.pending.Sublist out) ∧
      out.length = (srcs.map (fun s => s.pending.length)).sum := by
  have hperm : out.Perm (srcs.map Source.pending).flatten := by
    have := h.perm
    rw [range_map_getD] at this
    exact this
  refine ⟨hperm, fun s hs => ?_, ?_⟩
  · obtain ⟨i, hi⟩ := List.getElem?_of_mem hs
    have hlt := (mem_of_getElem?_eq hi).2
    have := h.sublist i hlt
    simp only [List.getD_eq_getElem?_getD, hi, Option.getD_some] at this
    exact this
  · rw [hperm.length_eq, List.length_flatten, List.map_map]
    rfl

/-- C31.  Over two readers or more, each of which yields a finite sequence of
actions none of which is an END and then END, take the actions returned by
successive calls of `MergeWrapper::next_action`, up to the first END, among
`n` calls, `n` being more than the number of actions of all the readers,
however the heap breaks its ties.  They are an interleaving of the sequences
of the readers: a permutation of the concatenation of these sequences that
has the sequence of every reader as a subsequence.  Their number is the
number of actions of all the readers, which is less than `n`: the END is
returned by the call that follows them.  The same holds for
`MergeWrapper::next_action_by_block`. -/
theorem MergeWrapper.merge_lossless (srcs : List Source) (junk : Action)
    (pick : Nat → Nat → Nat) (n : Nat) (h2 : 2 ≤ srcs.length)
    (hne : ∀ s ∈ srcs, ∀ a ∈ s.pending, a.inst ≠ Inst.END)
    (hn : (srcs.map (fun s => s.pending.length)).sum < n) :
    (Interleaved srcs.length (fun i => (srcs.getD i ⟨[], junk⟩).pending)
        (MergeWrapper.actions pick n (MergeWrapper.new srcs junk)) ∧
      (MergeWrapper.actions pick n (MergeWrapper.new srcs junk)).Perm
        (srcs.map Source.pending).flatten ∧
      (∀ s ∈ srcs,
        s.pending.Sublist (MergeWrapper.actions pick n (MergeWrapper.new srcs junk))) ∧
      (MergeWrapper.actions pick n (MergeWrapper.new srcs junk)).length < n) ∧
    (Interleaved srcs.length (fun i => (srcs.getD i ⟨[], junk⟩).pending)
        (MergeWrapper.actions_by_block pick n (MergeWrapper.new srcs junk)) ∧
      (MergeWrapper.actions_by_block pick n (MergeWrapper.new srcs junk)).Perm
        (srcs.map Source.pending).flatten ∧
      (∀ s ∈ srcs,
        s.pending.Sublist (MergeWrapper.actions_by_block pick n (MergeWrapper.new srcs junk))) ∧
      (MergeWrapper.actions_by_block pick n (MergeWrapper.new srcs junk)).length < n) := by
  obtain ⟨hfed, hrest⟩ := MergeWrapper.new_fed srcs junk (by omega) hne
  have hsum : ((List.range srcs.length).map
      (fun j => ((MergeWrapper.new srcs junk).rest j).length)).sum < n := by
    rw [hrest]
    have := congrArg (List.map List.length) (range_map_getD srcs ⟨[], junk⟩)
    simp only [List.map_map] at this
    have e : (List.length ∘ fun i => (srcs.getD i ⟨[], junk⟩).pending) =
        fun j => (srcs.getD j ⟨[], junk⟩).pending.length := rfl
    rw [e] at this
    rw [this]
    exact hn
  have ha := MergeWrapper.actions_interleaved pick srcs.length n _ hfed hsum
  have hb := MergeWrapper.actions_by_block_interleaved pick srcs.length n _ hfed hsum
  rw [hrest] at ha hb
  obtain ⟨a1, a2, a3⟩ := ha.of_sources
  obtain ⟨b1, b2, b3⟩ := hb.of_sources
  exact ⟨⟨ha, a1, a2, by omega⟩, ⟨hb, b1, b2, by omega⟩⟩

theorem MergeWrapper.merge_lossless_witness :
    (MergeWrapper.actions (fun _ _ => 0) 7
        (MergeWrapper.new [src_135 7, src_246 7] act_junk)).map (fun a => a.ts) =
        [1, 2, 3, 4, 5, 6] ∧
      (MergeWrapper.actions_by_block (fun _ _ => 0) 7
        (MergeWrapper.new [src_135 7, src_246 7] act_junk)).map (fun a => a.ts) =
        [1, 3, 5, 2, 4, 6] ∧
      (MergeWrapper.actions (fun _ _ => 0) 7
        (MergeWrapper.new [src_135 7, src_246 7] act_junk)).Perm
        (([src_135 7, src_246 7].map Source.pending).flatten) ∧
      (MergeWrapper.actions_by_block (fun _ _ => 0) 7
        (MergeWrapper.new [src_135 7, src_246 7] act_junk)).Perm
        (([src_135 7, src_246 7].map Source.pending).flatten) ∧
      (∀ s ∈ [src_135 7, src_246 7],
        s.pending.Sublist (MergeWrapper.actions_by_block (fun _ _ => 0) 7
          (MergeWrapper.new [src_135 7, src_246 7] act_junk))) :=
  ⟨by decide, by decide,
    (MergeWrapper.merge_lossless [src_135 7, src_246 7] act_junk (fun _ _ => 0) 7 (by decide)
      (by decide) (by decide)).1.2.1,
    (MergeWrapper.merge_lossless [src_135 7, src_246 7] act_junk (fun _ _ => 0) 7 (by decide)
      (by decide) (by decide)).2.2.1,
    (MergeWrapper.merge_lossless [src_135 7, src_246 7] act_junk (fun _ _ => 0) 7 (by decide)
      (by decide) (by decide)).2.2.2.1⟩

end PtFlame
